import Mathlib

/-!
# BansheeEngine CPU profiler (`BansheeCore/Source/BsProfilerCPU.cpp`)

A shallow embedding of the sampling API, of `ThreadInfo`, and of the report
algorithm of `ProfilerCPU::generateReport`, followed by theorems about them.

Conventions of the embedding

* `UINT64` and `UINT32` values are natural numbers reduced `% 2 ^ 64` and
  `% 2 ^ 32` where the source computes in those types.
* The `double` fields (the times, their sums, differences and averages) are
  the rationals they stand for: the arithmetic on them is exact here.
* The `float` field `pctOfParent` is a `FloatVal`.  The division and the
  conversions that produce it are those of IEEE-754: they round to the
  nearest value of their type, ties to even, overflow to an infinity, and a
  division by zero gives an infinity or NaN.
* `String(name.c_str())` is `c_str name`: the characters of the name before
  its first NUL character.
* The platform services (timer, cycle counter, allocation counters) are
  inputs: every call takes the `Reading` it observes.
* A `ProfiledBlock*` is the position of the block inside the tree owned by
  the `ThreadInfo`: the list of child indexes leading from the root block to
  it.  Children are only ever appended, so a position stays valid for as long
  as the tree lives.  `nullptr` is `none`.
* A call whose behaviour the language leaves undefined (dereferencing
  `nullptr`, `pop` on an empty stack, indexing a vector out of range) returns
  `Except.error` with the `Fault` that names it.
-/

namespace BansheeEngine

/-! ## Machine arithmetic -/

/-- Difference of two `UINT64` values, as computed by the unsigned `-`. -/
def sub64 (a b : Nat) : Nat := (a % 2 ^ 64 + (2 ^ 64 - b % 2 ^ 64)) % 2 ^ 64

/-- Sum of two `UINT64` values, as computed by the unsigned `+`. -/
def add64 (a b : Nat) : Nat := (a + b) % 2 ^ 64

/-- Product of two `UINT64` values, as computed by the unsigned `*`. -/
def mul64 (a b : Nat) : Nat := (a * b) % 2 ^ 64

/-- What a call can run into where the language defines no behaviour, and the
one artefact of the embedding, `outOfFuel`, which the loops of the report
return when their iteration bound is used up. -/
inductive Fault where
  | nullDereference
  | emptyStack
  | outOfBounds
  | danglingPointer
  | outOfFuel
deriving DecidableEq, Repr

/-- A value of a binary floating-point type (`float`, `double`): a number,
given as the rational it stands for, or one of the special values.  The two
zeros are one value here. -/
inductive FloatVal where
  | finite (q : ℚ)
  | posInf
  | negInf
  | nan
deriving DecidableEq

/-- Whether the value is an ordinary number. -/
def FloatVal.isFinite : FloatVal → Bool
  | FloatVal.finite _ => true
  | _ => false

/-- The number of times `n` can be halved before it is below 2, counted with
at most `fuel` halvings. -/
def log2Fuel : Nat → Nat → Nat
  | 0, _ => 0
  | fuel + 1, n => if 2 ≤ n then log2Fuel fuel (n / 2) + 1 else 0

/-- The binary logarithm of `n`, rounded down (0 for `n = 0`). -/
def natLog2 (n : Nat) : Nat := log2Fuel n n

/-- The number of times `n` can be halved, rounding up, before it is below 2,
counted with at most `fuel` halvings. -/
def clog2Fuel : Nat → Nat → Nat
  | 0, _ => 0
  | fuel + 1, n => if 2 ≤ n then clog2Fuel fuel ((n + 1) / 2) + 1 else 0

/-- The binary logarithm of `n`, rounded up (0 for `n ≤ 1`). -/
def natClog2 (n : Nat) : Nat := clog2Fuel n n

/-- The binary exponent of a positive rational: the integer `e` with
`2 ^ e ≤ x < 2 ^ (e + 1)`. -/
def binExponent (x : ℚ) : Int :=
  if 1 ≤ x then (natLog2 ⌊x⌋₊ : Int) else -(natClog2 ⌈x⁻¹⌉₊ : Int)

/-- The integer nearest to `m ≥ 0`; when two integers are equally near, the
even one. -/
def roundHalfEven (m : ℚ) : Nat :=
  let n := ⌊m⌋₊
  let r := m - n
  if r < 1 / 2 then n else if 1 / 2 < r then n + 1 else if n % 2 = 0 then n else n + 1

/-- A binary format of IEEE-754: `prec` is the number of bits of the
significand, the implicit bit included, and `emax` the largest exponent; the
exponent of the smallest normal number is `1 - emax`. -/
structure FloatFormat where
  prec : Nat
  emax : Nat

/-- The format of `float`. -/
def binary32 : FloatFormat := ⟨24, 127⟩

/-- The format of `double`. -/
def binary64 : FloatFormat := ⟨53, 1023⟩

/-- The power `2 ^ k` for an integer `k`. -/
def pow2 (k : Int) : ℚ :=
  if 0 ≤ k then ((2 ^ k.toNat : Nat) : ℚ) else 1 / ((2 ^ (-k).toNat : Nat) : ℚ)

/-- The distance between the values of the format next to `x > 0`: `2 ^ (e + 1 -
prec)` for the exponent `e` of `x`, and for `x` below the normal numbers the
same with the exponent `1 - emax`. -/
def FloatFormat.ulp (f : FloatFormat) (x : ℚ) : ℚ :=
  pow2 (max (binExponent x) (1 - (f.emax : Int)) - ((f.prec : Int) - 1))

/-- The multiple of the unit in the last place nearest to `x`, the one with the
even significand when two are equally near: the rounding of IEEE-754 to
nearest, ties to even, before the test for overflow. -/
def FloatFormat.nearest (f : FloatFormat) (x : ℚ) : ℚ :=
  if 0 < x then roundHalfEven (x / f.ulp x) * f.ulp x
  else if x < 0 then -(roundHalfEven (-x / f.ulp (-x)) * f.ulp (-x))
  else 0

/-- The value of the format that stands for the exact result `x` of an
operation: `x` rounded to nearest, ties to even, and an infinity when the
rounded value is beyond the largest number of the format. -/
def FloatFormat.round (f : FloatFormat) (x : ℚ) : FloatVal :=
  if pow2 ((f.emax : Int) + 1) ≤ f.nearest x then FloatVal.posInf
  else if f.nearest x ≤ -pow2 ((f.emax : Int) + 1) then FloatVal.negInf
  else FloatVal.finite (f.nearest x)

/-- The division `a / b` of two numbers of the format `f`. -/
def FloatFormat.div (f : FloatFormat) (a b : ℚ) : FloatVal :=
  if b = 0 then
    (if a = 0 then FloatVal.nan else if 0 < a then FloatVal.posInf else FloatVal.negInf)
  else f.round (a / b)

/-- The division `a / b` of two `double` numbers. -/
def FloatVal.div (a b : ℚ) : FloatVal := binary64.div a b

/-- The conversion `(float)x` of a `double`. -/
def FloatVal.toFloat : FloatVal → FloatVal
  | FloatVal.finite q => binary32.round q
  | v => v

/-- The conversion of a `UINT64` to `float`: the nearest `float`, ties to even.
Every `UINT64` is within the range of `float`, so the result is a number. -/
def uint64ToFloat (n : Nat) : ℚ := binary32.nearest n

/-- The expression `(float)(child / parent)` over two `double` totals, which
line 507 stores in `pctOfParent`. -/
def basicPctOfParent (child parent : ℚ) : FloatVal := (FloatVal.div child parent).toFloat

/-- The expression `child / (float)parent` over two `UINT64` totals, which line
547 stores in `pctOfParent`: both operands are converted to `float` and the
division is that of `float`. -/
def precisePctOfParent (child parent : Nat) : FloatVal :=
  binary32.div (uint64ToFloat child) (uint64ToFloat parent)

/-! ## Platform readings -/

/-- What one call of `beginSample` or `endSample` of a sample accumulator
observes: `Platform::queryPerformanceTimerMs()`, the cycle counter,
`MemoryCounter::getNumAllocs()` and `MemoryCounter::getNumFrees()`. -/
structure Reading where
  timeMs : ℚ
  cycles : Nat
  numAllocs : Nat
  numFrees : Nat

/-! ## Timers and sample accumulators -/

abbrev ProfilerString := String

/-- The conversion `String(name.c_str())` of a `ProfilerString`: `c_str()` is
read up to the first NUL character, so the result holds the characters before
it. -/
def c_str (name : ProfilerString) : String :=
  String.mk (name.data.takeWhile (fun c => c != Char.ofNat 0))

/-- The class `ProfilerCPU::Timer`. -/
structure Timer where
  time : ℚ
  startTime : ℚ

/-- The constructor `Timer::Timer()`. -/
def Timer.new : Timer := ⟨0, 0⟩

def Timer.start (t : Timer) (now : ℚ) : Timer := { t with startTime := now }

def Timer.stop (t : Timer) (now : ℚ) : Timer := { t with time := t.time + (now - t.startTime) }

def Timer.reset (t : Timer) : Timer := { t with time := 0 }

/-- The class `ProfilerCPU::TimerPrecise`. -/
structure TimerPrecise where
  cycles : Nat
  startCycles : Nat

/-- The constructor `TimerPrecise::TimerPrecise()`. -/
def TimerPrecise.new : TimerPrecise := ⟨0, 0⟩

def TimerPrecise.start (t : TimerPrecise) (now : Nat) : TimerPrecise :=
  { t with startCycles := now % 2 ^ 64 }

def TimerPrecise.stop (t : TimerPrecise) (now : Nat) : TimerPrecise :=
  { t with cycles := add64 t.cycles (sub64 now t.startCycles) }

def TimerPrecise.reset (t : TimerPrecise) : TimerPrecise := { t with cycles := 0 }

/-- The struct `ProfileSample`. -/
structure ProfileSample where
  time : ℚ
  numAllocs : Nat
  numFrees : Nat

/-- The struct `PreciseProfileSample`. -/
structure PreciseProfileSample where
  cycles : Nat
  numAllocs : Nat
  numFrees : Nat

/-- The struct `ProfileData`: the Basic accumulator of a block. -/
structure ProfileData where
  samples : List ProfileSample
  timer : Timer
  memAllocs : Nat
  memFrees : Nat

def ProfileData.new : ProfileData := ⟨[], Timer.new, 0, 0⟩

def ProfileData.beginSample (d : ProfileData) (r : Reading) : ProfileData :=
  { d with
    memAllocs := r.numAllocs % 2 ^ 64
    memFrees := r.numFrees % 2 ^ 64
    timer := d.timer.reset.start r.timeMs }

def ProfileData.endSample (d : ProfileData) (r : Reading) : ProfileData :=
  let timer := d.timer.stop r.timeMs
  let numAllocs := sub64 r.numAllocs d.memAllocs
  let numFrees := sub64 r.numFrees d.memFrees
  { d with timer := timer, samples := d.samples ++ [⟨timer.time, numAllocs, numFrees⟩] }

/-- `samples.erase(samples.end() - 1)` has no defined behaviour on an empty
vector. -/
def ProfileData.resumeLastSample (d : ProfileData) (r : Reading) : Except Fault ProfileData :=
  match d.samples with
  | [] => Except.error Fault.outOfBounds
  | _ :: _ => Except.ok { d with timer := d.timer.start r.timeMs, samples := d.samples.dropLast }

/-- The struct `PreciseProfileData`: the Precise accumulator of a block. -/
structure PreciseProfileData where
  samples : List PreciseProfileSample
  timer : TimerPrecise
  memAllocs : Nat
  memFrees : Nat

def PreciseProfileData.new : PreciseProfileData := ⟨[], TimerPrecise.new, 0, 0⟩

def PreciseProfileData.beginSample (d : PreciseProfileData) (r : Reading) : PreciseProfileData :=
  { d with
    memAllocs := r.numAllocs % 2 ^ 64
    memFrees := r.numFrees % 2 ^ 64
    timer := d.timer.reset.start r.cycles }

def PreciseProfileData.endSample (d : PreciseProfileData) (r : Reading) : PreciseProfileData :=
  let timer := d.timer.stop r.cycles
  let numAllocs := sub64 r.numAllocs d.memAllocs
  let numFrees := sub64 r.numFrees d.memFrees
  { d with timer := timer, samples := d.samples ++ [⟨timer.cycles, numAllocs, numFrees⟩] }

def PreciseProfileData.resumeLastSample (d : PreciseProfileData) (r : Reading) :
    Except Fault PreciseProfileData :=
  match d.samples with
  | [] => Except.error Fault.outOfBounds
  | _ :: _ => Except.ok { d with timer := d.timer.start r.cycles, samples := d.samples.dropLast }

/-! ## The block tree -/

/-- The struct `ProfiledBlock`; `children` owns the child blocks. -/
inductive ProfiledBlock where
  | mk (name : ProfilerString) (basic : ProfileData) (precise : PreciseProfileData)
      (children : List ProfiledBlock)

namespace ProfiledBlock

def name : ProfiledBlock → ProfilerString
  | mk n _ _ _ => n

def basic : ProfiledBlock → ProfileData
  | mk _ b _ _ => b

def precise : ProfiledBlock → PreciseProfileData
  | mk _ _ p _ => p

def children : ProfiledBlock → List ProfiledBlock
  | mk _ _ _ c => c

/-- The constructor `ProfiledBlock::ProfiledBlock()`, as `ThreadInfo::getBlock`
returns it. -/
def new : ProfiledBlock := mk "" ProfileData.new PreciseProfileData.new []

def setName (b : ProfiledBlock) (n : ProfilerString) : ProfiledBlock :=
  mk n b.basic b.precise b.children

def setBasic (b : ProfiledBlock) (d : ProfileData) : ProfiledBlock :=
  mk b.name d b.precise b.children

def setPrecise (b : ProfiledBlock) (d : PreciseProfileData) : ProfiledBlock :=
  mk b.name b.basic d b.children

def setChildren (b : ProfiledBlock) (cs : List ProfiledBlock) : ProfiledBlock :=
  mk b.name b.basic b.precise cs

/-- The scan of `ProfiledBlock::findChild` over the child vector, counting
from position `i`: the position of the first child called `name`. -/
def findChildFrom (name : ProfilerString) : List ProfiledBlock → Nat → Option Nat
  | [], _ => none
  | c :: cs, i => if c.name = name then some i else findChildFrom name cs (i + 1)

/-- `ProfiledBlock::findChild`: the first child called `name`, given by its
index in `children`, or `none` for `nullptr`. -/
def findChild (b : ProfiledBlock) (name : ProfilerString) : Option Nat :=
  findChildFrom name b.children 0

/-- The block a pointer designates: follow the child indexes from `b`. -/
def getAt : ProfiledBlock → List Nat → Option ProfiledBlock
  | b, [] => some b
  | b, i :: rest =>
    match b.children[i]? with
    | some c => getAt c rest
    | none => none

/-- A write through a pointer: replace the designated block by `f` of it. -/
def modifyAt (f : ProfiledBlock → ProfiledBlock) : ProfiledBlock → List Nat → Option ProfiledBlock
  | b, [] => some (f b)
  | b, i :: rest =>
    match b.children[i]? with
    | some c =>
      match modifyAt f c rest with
      | some c' => some (b.setChildren (b.children.set i c'))
      | none => none
    | none => none

end ProfiledBlock

/-! ## Thread state -/

inductive ActiveSamplingType where
  | Basic
  | Precise
deriving DecidableEq, Repr

/-- The struct `ActiveBlock`: a sampling type and a `ProfiledBlock*`. -/
structure ActiveBlock where
  type : ActiveSamplingType
  block : Option (List Nat)
deriving DecidableEq, Repr

/-- Modelled from the spec: the header that declares `ActiveBlock` is not
among the sources; the default constructor `ActiveBlock()` gives the "empty/null
marker" of the spec, a null block, here with sampling type Basic. -/
def ActiveBlock.null : ActiveBlock := ⟨ActiveSamplingType.Basic, none⟩

/-- The struct `ProfilerCPU::ThreadInfo`; `activeBlocks` has its top first. -/
structure ThreadInfo where
  isActive : Bool
  rootBlock : Option ProfiledBlock
  activeBlock : ActiveBlock
  activeBlocks : List ActiveBlock

namespace ThreadInfo

/-- The constructor `ThreadInfo::ThreadInfo()`. -/
def new : ThreadInfo := ⟨false, none, ActiveBlock.null, []⟩

/-- A write to the block behind a `ProfiledBlock*` held by the thread. -/
def modifyBlock (t : ThreadInfo) (ptr : Option (List Nat)) (f : ProfiledBlock → ProfiledBlock) :
    Except Fault ThreadInfo :=
  match ptr, t.rootBlock with
  | none, _ => Except.error Fault.nullDereference
  | some _, none => Except.error Fault.danglingPointer
  | some path, some root =>
    match root.modifyAt f path with
    | some root' => Except.ok { t with rootBlock := some root' }
    | none => Except.error Fault.danglingPointer

/-- A read of the block behind a `ProfiledBlock*` held by the thread. -/
def readBlock (t : ThreadInfo) (ptr : Option (List Nat)) : Except Fault ProfiledBlock :=
  match ptr, t.rootBlock with
  | none, _ => Except.error Fault.nullDereference
  | some _, none => Except.error Fault.danglingPointer
  | some path, some root =>
    match root.getAt path with
    | some b => Except.ok b
    | none => Except.error Fault.danglingPointer

/-- `ThreadInfo::begin`. -/
def begin (t : ThreadInfo) (name : ProfilerString) (r : Reading) : ThreadInfo :=
  if t.isActive then t
  else
    let rootBlock := match t.rootBlock with
      | none => ProfiledBlock.new
      | some b => b
    let activeBlock : ActiveBlock := ⟨ActiveSamplingType.Basic, some []⟩
    let rootBlock := rootBlock.setName name
    let rootBlock := rootBlock.setBasic (rootBlock.basic.beginSample r)
    { isActive := true
      rootBlock := some rootBlock
      activeBlock := activeBlock
      activeBlocks := activeBlock :: t.activeBlocks }

/-- The `endSample` that `ThreadInfo::end` issues on the block of a stack
entry, on the accumulator that the entry's sampling type names. -/
def closeBlock (t : ThreadInfo) (a : ActiveBlock) (r : Reading) : Except Fault ThreadInfo :=
  match a.type with
  | ActiveSamplingType.Basic => t.modifyBlock a.block (fun b => b.setBasic (b.basic.endSample r))
  | ActiveSamplingType.Precise =>
    t.modifyBlock a.block (fun b => b.setPrecise (b.precise.endSample r))

/-- The loop `while(activeBlocks.size() > 0)` of `ThreadInfo::end`, over the
entries that remain on the stack; the `k`-th closing observes `rs k`. -/
def closeRemaining (rs : Nat → Reading) : List ActiveBlock → Nat → ThreadInfo → Except Fault ThreadInfo
  | [], _, t => Except.ok t
  | a :: rest, k, t =>
    match t.closeBlock a (rs k) with
    | Except.ok t' => closeRemaining rs rest (k + 1) t'
    | Except.error e => Except.error e

/-- `ThreadInfo::end`.  The closing of the active block observes `rs 0`, the
forced closings of the entries still on the stack observe `rs 1`, `rs 2`, ... -/
def endSampling (t : ThreadInfo) (rs : Nat → Reading) : Except Fault ThreadInfo :=
  match t.closeBlock t.activeBlock (rs 0) with
  | Except.error e => Except.error e
  | Except.ok t1 =>
    match t1.activeBlocks with
    | [] => Except.error Fault.emptyStack
    | _ :: rest =>
      match closeRemaining rs rest 1 t1 with
      | Except.error e => Except.error e
      | Except.ok t2 =>
        Except.ok { t2 with isActive := false, activeBlocks := [], activeBlock := ActiveBlock.null }

/-- `ThreadInfo::reset`. -/
def reset (t : ThreadInfo) (rs : Nat → Reading) : Except Fault ThreadInfo :=
  match (if t.isActive then t.endSampling rs else Except.ok t) with
  | Except.error e => Except.error e
  | Except.ok t1 => Except.ok { t1 with rootBlock := none }

end ThreadInfo

/-! ## The sampling interface of `ProfilerCPU`

The thread-local pointer `ThreadInfo::activeThread` of the calling thread is
an `Option ThreadInfo`; every operation maps its value before the call to its
value after the call. -/

/-- The members of `ProfilerCPU` that `estimateTimerOverhead` sets at
construction and that the report reads. -/
structure ProfilerCPU where
  mBasicTimerOverhead : ℚ
  mPreciseTimerOverhead : Nat
  mBasicSamplingOverheadMs : ℚ
  mPreciseSamplingOverheadMs : ℚ
  mBasicSamplingOverheadCycles : Nat
  mPreciseSamplingOverheadCycles : Nat

namespace ProfilerCPU

/-- `ProfilerCPU::beginThread`. -/
def beginThread (thread : Option ThreadInfo) (name : ProfilerString) (r : Reading) :
    Option ThreadInfo :=
  match thread with
  | none => some (ThreadInfo.new.begin name r)
  | some t => some (t.begin name r)

/-- `ProfilerCPU::endThread`: no null check, on purpose. -/
def endThread (thread : Option ThreadInfo) (rs : Nat → Reading) : Except Fault (Option ThreadInfo) :=
  match thread with
  | none => Except.error Fault.nullDereference
  | some t =>
    match t.endSampling rs with
    | Except.ok t' => Except.ok (some t')
    | Except.error e => Except.error e

/-- The part that `beginSample` and `beginSamplePrecise` share, from
`ProfiledBlock* parent = thread->activeBlock.block;` on: look the block up
below the active block or create it, make it the active block, push it, and
begin a sample on the accumulator of the given type. -/
def openBlock (t : ThreadInfo) (type : ActiveSamplingType) (name : ProfilerString) (r : Reading) :
    Except Fault ThreadInfo :=
  let parent := t.activeBlock.block
  -- if(parent != nullptr) block = parent->findChild(name);
  let found : Except Fault (Option Nat) :=
    match parent with
    | none => Except.ok none
    | some _ =>
      match t.readBlock parent with
      | Except.ok p => Except.ok (p.findChild name)
      | Except.error e => Except.error e
  match found with
  | Except.error e => Except.error e
  | Except.ok found =>
    -- the block lives under `parent`, or under the root when `parent` is null
    let owner : List Nat := match parent with
      | none => []
      | some path => path
    let located : Except Fault (ThreadInfo × List Nat) :=
      match found with
      | some i => Except.ok (t, owner ++ [i])
      | none =>
        match t.readBlock (some owner) with
        | Except.error _ => Except.error Fault.nullDereference
        | Except.ok o =>
          match t.modifyBlock (some owner)
              (fun b => b.setChildren (b.children ++ [ProfiledBlock.new.setName name])) with
          | Except.ok t' => Except.ok (t', owner ++ [o.children.length])
          | Except.error e => Except.error e
    match located with
    | Except.error e => Except.error e
    | Except.ok (t1, block) =>
      let activeBlock : ActiveBlock := ⟨type, some block⟩
      let t2 := { t1 with activeBlock := activeBlock, activeBlocks := activeBlock :: t1.activeBlocks }
      match type with
      | ActiveSamplingType.Basic =>
        t2.modifyBlock (some block) (fun b => b.setBasic (b.basic.beginSample r))
      | ActiveSamplingType.Precise =>
        t2.modifyBlock (some block) (fun b => b.setPrecise (b.precise.beginSample r))

/-- `ProfilerCPU::beginSample`.  `r0` is what the implied `beginThread("Unknown")`
observes when it runs, `r` what the sample of the block observes. -/
def beginSample (thread : Option ThreadInfo) (name : ProfilerString) (r0 r : Reading) :
    Except Fault (Option ThreadInfo) :=
  let thread :=
    match thread with
    | none => beginThread thread "Unknown" r0
    | some t => if !t.isActive then beginThread thread "Unknown" r0 else thread
  match thread with
  | none => Except.error Fault.nullDereference
  | some t =>
    match openBlock t ActiveSamplingType.Basic name r with
    | Except.ok t' => Except.ok (some t')
    | Except.error e => Except.error e

/-- `ProfilerCPU::beginSamplePrecise`.  The local `thread` is read before the
implied `beginThread("Unknown")` and not again after it. -/
def beginSamplePrecise (thread : Option ThreadInfo) (name : ProfilerString) (r0 r : Reading) :
    Except Fault (Option ThreadInfo) :=
  match thread with
  | none => Except.error Fault.nullDereference
  | some t =>
    let t := if !t.isActive then t.begin "Unknown" r0 else t
    match openBlock t ActiveSamplingType.Precise name r with
    | Except.ok t' => Except.ok (some t')
    | Except.error e => Except.error e

/-- The part that `endSample` and `endSamplePrecise` share after the checks of
the debug build: pop the stack and restore the active block. -/
def popActive (t : ThreadInfo) : Except Fault ThreadInfo :=
  match t.activeBlocks with
  | [] => Except.error Fault.emptyStack
  | _ :: rest =>
    match rest with
    | top :: _ => Except.ok { t with activeBlocks := rest, activeBlock := top }
    | [] => Except.ok { t with activeBlocks := rest, activeBlock := ActiveBlock.null }

/-- `ProfilerCPU::endSample`; `debug` is `BS_DEBUG_MODE`. -/
def endSample (debug : Bool) (thread : Option ThreadInfo) (name : ProfilerString) (r : Reading) :
    Except Fault (Option ThreadInfo) :=
  match thread with
  | none => Except.error Fault.nullDereference
  | some t =>
    let block := t.activeBlock.block
    if debug && block.isNone then Except.ok thread
    else if debug && t.activeBlock.type = ActiveSamplingType.Precise then Except.ok thread
    else
      match t.readBlock block with
      | Except.error e => Except.error e
      | Except.ok b =>
        if debug && b.name ≠ name then Except.ok thread
        else
          match t.modifyBlock block (fun b => b.setBasic (b.basic.endSample r)) with
          | Except.error e => Except.error e
          | Except.ok t1 =>
            match popActive t1 with
            | Except.ok t2 => Except.ok (some t2)
            | Except.error e => Except.error e

/-- `ProfilerCPU::endSamplePrecise`; `debug` is `BS_DEBUG_MODE`. -/
def endSamplePrecise (debug : Bool) (thread : Option ThreadInfo) (name : ProfilerString)
    (r : Reading) : Except Fault (Option ThreadInfo) :=
  match thread with
  | none => Except.error Fault.nullDereference
  | some t =>
    let block := t.activeBlock.block
    if debug && block.isNone then Except.ok thread
    else if debug && t.activeBlock.type = ActiveSamplingType.Basic then Except.ok thread
    else
      match t.readBlock block with
      | Except.error e => Except.error e
      | Except.ok b =>
        if debug && b.name ≠ name then Except.ok thread
        else
          match t.modifyBlock block (fun b => b.setPrecise (b.precise.endSample r)) with
          | Except.error e => Except.error e
          | Except.ok t1 =>
            match popActive t1 with
            | Except.ok t2 => Except.ok (some t2)
            | Except.error e => Except.error e

/-- `ProfilerCPU::reset`. -/
def reset (thread : Option ThreadInfo) (rs : Nat → Reading) : Except Fault (Option ThreadInfo) :=
  match thread with
  | none => Except.ok none
  | some t =>
    match t.reset rs with
    | Except.ok t' => Except.ok (some t')
    | Except.error e => Except.error e

end ProfilerCPU

/-! ## Report entries -/

/-- The struct `CPUProfilerBasicSamplingEntry::Data` with the fields that
`generateReport` and the constructor `Data()` write. -/
structure BasicData where
  name : String
  numCalls : Nat
  memAllocs : Nat
  memFrees : Nat
  avgTimeMs : ℚ
  maxTimeMs : ℚ
  totalTimeMs : ℚ
  avgSelfTimeMs : ℚ
  totalSelfTimeMs : ℚ
  estimatedSelfOverheadMs : ℚ
  estimatedOverheadMs : ℚ
  pctOfParent : FloatVal

/-- The constructor `CPUProfilerBasicSamplingEntry::Data::Data()`. -/
def BasicData.new : BasicData := ⟨"", 0, 0, 0, 0, 0, 0, 0, 0, 0, 0, FloatVal.finite 1⟩

instance : Inhabited BasicData := ⟨BasicData.new⟩

/-- The struct `CPUProfilerPreciseSamplingEntry::Data`. -/
structure PreciseData where
  name : String
  numCalls : Nat
  memAllocs : Nat
  memFrees : Nat
  avgCycles : Nat
  maxCycles : Nat
  totalCycles : Nat
  avgSelfCycles : Nat
  totalSelfCycles : Nat
  estimatedSelfOverhead : Nat
  estimatedOverhead : Nat
  pctOfParent : FloatVal

/-- The constructor `CPUProfilerPreciseSamplingEntry::Data::Data()`. -/
def PreciseData.new : PreciseData := ⟨"", 0, 0, 0, 0, 0, 0, 0, 0, 0, 0, FloatVal.finite 1⟩

instance : Inhabited PreciseData := ⟨PreciseData.new⟩

/-- A report entry: `data` and the vector `childEntries`.  With `BasicData` it
is `CPUProfilerBasicSamplingEntry`, with `PreciseData` it is
`CPUProfilerPreciseSamplingEntry`. -/
inductive ReportEntry (δ : Type) where
  | mk (data : δ) (childEntries : List (ReportEntry δ))

namespace ReportEntry

variable {δ : Type}

def data : ReportEntry δ → δ
  | mk d _ => d

def childEntries : ReportEntry δ → List (ReportEntry δ)
  | mk _ c => c

def setChildEntries (e : ReportEntry δ) (cs : List (ReportEntry δ)) : ReportEntry δ :=
  mk e.data cs

/-- The entry a pointer into the report designates. -/
def getAt : ReportEntry δ → List Nat → Option (ReportEntry δ)
  | e, [] => some e
  | e, i :: rest =>
    match e.childEntries[i]? with
    | some c => getAt c rest
    | none => none

/-- A write through a pointer into the report. -/
def modifyAt (f : ReportEntry δ → ReportEntry δ) : ReportEntry δ → List Nat → Option (ReportEntry δ)
  | e, [] => some (f e)
  | e, i :: rest =>
    match e.childEntries[i]? with
    | some c =>
      match modifyAt f c rest with
      | some c' => some (e.setChildEntries (e.childEntries.set i c'))
      | none => none
    | none => none

end ReportEntry

abbrev CPUProfilerBasicSamplingEntry := ReportEntry BasicData

abbrev CPUProfilerPreciseSamplingEntry := ReportEntry PreciseData

/-- The class `CPUProfilerReport`. -/
structure CPUProfilerReport where
  mBasicSamplingRootEntry : CPUProfilerBasicSamplingEntry
  mPreciseSamplingRootEntry : CPUProfilerPreciseSamplingEntry

/-- The constructor `CPUProfilerReport::CPUProfilerReport()`. -/
def CPUProfilerReport.new : CPUProfilerReport :=
  ⟨ReportEntry.mk BasicData.new [], ReportEntry.mk PreciseData.new []⟩

/-! ## `generateReport`: flattening -/

/-- A write `v[i] = f(v[i])` to a vector element that exists. -/
def modifyNth {α : Type} (l : List α) (i : Nat) (f : α → α) : List α :=
  match l[i]? with
  | some a => l.set i (f a)
  | none => l

/-- The local struct `TempEntry` of `generateReport`. -/
structure TempEntry where
  parentBlock : Option ProfiledBlock
  entryIdx : Nat
  childIndexes : List Nat

/-- `childIndexes.push_back(i)`. -/
def TempEntry.pushChild (i : Nat) (e : TempEntry) : TempEntry :=
  { e with childIndexes := e.childIndexes ++ [i] }

/-- The variables of the loop that fills `flatHierarchy`; `todo` has its top
first.  `entryIdx` is a `UINT32` in the source and a natural number here: the
vector holds one entry per block, fewer than `2 ^ 32`. -/
structure FlattenState where
  todo : List Nat
  flatHierarchy : List TempEntry
  entryIdx : Nat

/-- The body of `for(auto& child : curBlock->children)` in the flattening. -/
def flattenChild (curDataIdx : Nat) (st : FlattenState) (child : ProfiledBlock) : FlattenState :=
  { todo := st.entryIdx :: st.todo
    flatHierarchy :=
      modifyNth st.flatHierarchy curDataIdx (TempEntry.pushChild st.entryIdx)
        ++ [⟨some child, st.entryIdx, []⟩]
    entryIdx := st.entryIdx + 1 }

/-- The loop `while(!todo.empty())` of the flattening, run for at most `fuel`
iterations. -/
def flattenLoop : Nat → FlattenState → Except Fault FlattenState
  | 0, st =>
    match st.todo with
    | [] => Except.ok st
    | _ :: _ => Except.error Fault.outOfFuel
  | fuel + 1, st =>
    match st.todo with
    | [] => Except.ok st
    | curDataIdx :: todo =>
      match st.flatHierarchy[curDataIdx]? with
      | none => Except.error Fault.outOfBounds
      | some curData =>
        match curData.parentBlock with
        | none => Except.error Fault.nullDereference
        | some curBlock =>
          flattenLoop fuel (curBlock.children.foldl (flattenChild curDataIdx) { st with todo := todo })

mutual
/-- Number of blocks of the tree below and including `b`. -/
def ProfiledBlock.numBlocks : ProfiledBlock → Nat
  | ProfiledBlock.mk _ _ _ cs => 1 + ProfiledBlock.numBlocksList cs
/-- Number of blocks of the trees below and including the blocks of a list. -/
def ProfiledBlock.numBlocksList : List ProfiledBlock → Nat
  | [] => 0
  | c :: cs => ProfiledBlock.numBlocks c + ProfiledBlock.numBlocksList cs
end

/-- The flattening of `generateReport`: `flatHierarchy` for the tree below
`rootBlock`.  The loop runs once per block. -/
def flatten (rootBlock : ProfiledBlock) : Except Fault (List TempEntry) :=
  match flattenLoop rootBlock.numBlocks ⟨[0], [⟨some rootBlock, 0, []⟩], 1⟩ with
  | Except.ok st => Except.ok st.flatHierarchy
  | Except.error e => Except.error e

/-! ## `generateReport`: aggregation -/

section Aggregation

variable (self : ProfilerCPU)

/-- The statements of the loop body from `entryBasic->data.name = ...` to the
first `avgTimeMs`, on the entry of the block. -/
def basicOwnStats (curBlock : ProfiledBlock) (e : BasicData) : BasicData :=
  let e := { e with name := c_str curBlock.name
                    memAllocs := 0
                    memFrees := 0
                    totalTimeMs := 0
                    maxTimeMs := 0 }
  let e : BasicData := curBlock.basic.samples.foldl
    (fun (e : BasicData) sample =>
      { e with totalTimeMs := e.totalTimeMs + sample.time
               maxTimeMs := max e.maxTimeMs sample.time
               memAllocs := add64 e.memAllocs sample.numAllocs
               memFrees := add64 e.memFrees sample.numFrees }) e
  let e : BasicData := { e with numCalls := curBlock.basic.samples.length % 2 ^ 32 }
  if e.numCalls > 0 then { e with avgTimeMs := e.totalTimeMs / e.numCalls } else e

/-- The body of `for(auto& childIdx : curData.childIndexes)` in the Basic half:
the state is `totalChildTime` and the vector `basicEntries`. -/
def basicChildStep (entryIdx : Nat) (st : ℚ × List BasicData) (childIdx : Nat) :
    ℚ × List BasicData :=
  let childEntry := st.2.getD childIdx default
  let entryBasic := st.2.getD entryIdx default
  let totalChildTime := st.1 + childEntry.totalTimeMs
  let entries := modifyNth st.2 childIdx
    (fun c => { c with pctOfParent := basicPctOfParent c.totalTimeMs entryBasic.totalTimeMs })
  let entries := modifyNth entries entryIdx
    (fun e => { e with estimatedOverheadMs := e.estimatedOverheadMs + childEntry.estimatedOverheadMs })
  (totalChildTime, entries)

/-- The statements of the Basic half after the loop over the children. -/
def basicFinish (curBlock : ProfiledBlock) (totalChildTime : ℚ) (e : BasicData) : BasicData :=
  let e := { e with estimatedOverheadMs :=
    e.estimatedOverheadMs + curBlock.basic.samples.length * self.mBasicSamplingOverheadMs }
  let e := { e with estimatedOverheadMs :=
    e.estimatedOverheadMs + curBlock.precise.samples.length * self.mPreciseSamplingOverheadMs }
  let e : BasicData := { e with totalSelfTimeMs := e.totalTimeMs - totalChildTime }
  let e := if e.numCalls > 0 then { e with avgSelfTimeMs := e.totalSelfTimeMs / e.numCalls } else e
  { e with estimatedSelfOverheadMs := self.mBasicTimerOverhead }

/-- The Basic half of the body of the loop over `flatHierarchy`. -/
def aggregateBasicStep (curData : TempEntry) (basicEntries : List BasicData) : List BasicData :=
  match curData.parentBlock with
  | none => basicEntries
  | some curBlock =>
    let entries := modifyNth basicEntries curData.entryIdx (basicOwnStats curBlock)
    let (totalChildTime, entries) :=
      curData.childIndexes.foldl (basicChildStep curData.entryIdx) (0, entries)
    modifyNth entries curData.entryIdx (basicFinish self curBlock totalChildTime)

/-- The statements from `entryPrecise->data.name = ...` to the first
`avgCycles`, on the entry of the block. -/
def preciseOwnStats (curBlock : ProfiledBlock) (e : PreciseData) : PreciseData :=
  let e := { e with name := c_str curBlock.name
                    memAllocs := 0
                    memFrees := 0
                    totalCycles := 0
                    maxCycles := 0 }
  let e : PreciseData := curBlock.precise.samples.foldl
    (fun (e : PreciseData) sample =>
      { e with totalCycles := add64 e.totalCycles sample.cycles
               maxCycles := max e.maxCycles sample.cycles
               memAllocs := add64 e.memAllocs sample.numAllocs
               memFrees := add64 e.memFrees sample.numFrees }) e
  let e : PreciseData := { e with numCalls := curBlock.precise.samples.length % 2 ^ 32 }
  if e.numCalls > 0 then { e with avgCycles := e.totalCycles / e.numCalls } else e

/-- The body of `for(auto& childIdx : curData.childIndexes)` in the Precise
half: the state is `totalChildCycles` and the vector `preciseEntries`. -/
def preciseChildStep (entryIdx : Nat) (st : Nat × List PreciseData) (childIdx : Nat) :
    Nat × List PreciseData :=
  let childEntry := st.2.getD childIdx default
  let entryPrecise := st.2.getD entryIdx default
  let totalChildCycles := add64 st.1 childEntry.totalCycles
  let entries := modifyNth st.2 childIdx
    (fun c => { c with pctOfParent := precisePctOfParent c.totalCycles entryPrecise.totalCycles })
  let entries := modifyNth entries entryIdx
    (fun e => { e with estimatedOverhead := add64 e.estimatedOverhead childEntry.estimatedOverhead })
  (totalChildCycles, entries)

/-- The statements of the Precise half after the loop over the children. -/
def preciseFinish (curBlock : ProfiledBlock) (totalChildCycles : Nat) (e : PreciseData) :
    PreciseData :=
  let ownPrecise := mul64 curBlock.precise.samples.length self.mPreciseSamplingOverheadCycles
  let ownBasic := mul64 curBlock.basic.samples.length self.mBasicSamplingOverheadCycles
  let e := { e with estimatedOverhead := add64 e.estimatedOverhead ownPrecise }
  let e := { e with estimatedOverhead := add64 e.estimatedOverhead ownBasic }
  let e : PreciseData := { e with totalSelfCycles := sub64 e.totalCycles totalChildCycles }
  let e := if e.numCalls > 0 then { e with avgSelfCycles := e.totalSelfCycles / e.numCalls } else e
  { e with estimatedSelfOverhead := self.mPreciseTimerOverhead % 2 ^ 64 }

/-- The Precise half of the body of the loop over `flatHierarchy`. -/
def aggregatePreciseStep (curData : TempEntry) (preciseEntries : List PreciseData) :
    List PreciseData :=
  match curData.parentBlock with
  | none => preciseEntries
  | some curBlock =>
    let entries := modifyNth preciseEntries curData.entryIdx (preciseOwnStats curBlock)
    let (totalChildCycles, entries) :=
      curData.childIndexes.foldl (preciseChildStep curData.entryIdx) (0, entries)
    modifyNth entries curData.entryIdx (preciseFinish self curBlock totalChildCycles)

/-- The vector `basicEntries` after the loop
`for(iter = flatHierarchy.rbegin(); iter != flatHierarchy.rend(); ++iter)`: the
last entry of `flatHierarchy` is processed first.  The two halves of the loop
body write to different vectors, so each half is a loop of its own here. -/
def aggregateBasic (flatHierarchy : List TempEntry) : List BasicData :=
  flatHierarchy.foldr (aggregateBasicStep self) (List.replicate flatHierarchy.length default)

/-- The vector `preciseEntries` after the same loop. -/
def aggregatePrecise (flatHierarchy : List TempEntry) : List PreciseData :=
  flatHierarchy.foldr (aggregatePreciseStep self) (List.replicate flatHierarchy.length default)

end Aggregation

/-! ## `generateReport`: pruning

The Basic and the Precise pruning are the same statements over different
vectors; `numCalls childIdx` stands for `basicEntries[childIdx].data.numCalls`
in the one and for `preciseEntries[childIdx].data.numCalls` in the other. -/

/-- The variables of the pruning loop; both stacks have their top first. -/
structure PruneState where
  todo : List Nat
  parentEntryIndexes : List Nat
  newEntries : List TempEntry
  entryIdx : Nat

/-- The body of `for(auto& childIdx : curEntry.childIndexes)` in the pruning. -/
def pruneChild (numCalls : Nat → Nat) (parentEntryIdx : Nat) (st : PruneState) (childIdx : Nat) :
    PruneState :=
  if numCalls childIdx > 0 then
    { todo := childIdx :: st.todo
      newEntries :=
        modifyNth (st.newEntries ++ [⟨none, childIdx, []⟩]) parentEntryIdx
          (TempEntry.pushChild st.entryIdx)
      parentEntryIndexes := st.entryIdx :: st.parentEntryIndexes
      entryIdx := st.entryIdx + 1 }
  else
    { st with
      todo := childIdx :: st.todo
      parentEntryIndexes := parentEntryIdx :: st.parentEntryIndexes }

/-- The loop `while(!finalBasicHierarchyTodo.empty())` of the pruning, run for
at most `fuel` iterations. -/
def pruneLoop (numCalls : Nat → Nat) (flatHierarchy : List TempEntry) :
    Nat → PruneState → Except Fault PruneState
  | 0, st =>
    match st.todo with
    | [] => Except.ok st
    | _ :: _ => Except.error Fault.outOfFuel
  | fuel + 1, st =>
    match st.todo with
    | [] => Except.ok st
    | curEntryIdx :: todo =>
      match st.parentEntryIndexes with
      | [] => Except.error Fault.emptyStack
      | parentEntryIdx :: parents =>
        match flatHierarchy[curEntryIdx]? with
        | none => Except.error Fault.outOfBounds
        | some curEntry =>
          pruneLoop numCalls flatHierarchy fuel
            (curEntry.childIndexes.foldl (pruneChild numCalls parentEntryIdx)
              { st with todo := todo, parentEntryIndexes := parents })

/-- The pruning of `generateReport`: the vector `newBasicEntries` (or
`newPreciseEntries`).  The loop runs once per entry of `flatHierarchy`. -/
def prune (numCalls : Nat → Nat) (flatHierarchy : List TempEntry) : Except Fault (List TempEntry) :=
  match pruneLoop numCalls flatHierarchy flatHierarchy.length ⟨[0], [0], [⟨none, 0, []⟩], 1⟩ with
  | Except.ok st => Except.ok st.newEntries
  | Except.error e => Except.error e

/-! ## `generateReport`: rebuilding the report tree

A pointer into the report (an element of `finalBasicEntries`) is the list of
child indexes that leads from the root entry to the entry.  `resize` and the
assignments to the elements end the lifetime of what was below the entry
before; pointers to that are marked `none`, and reading through one of them is
the fault `danglingPointer`. -/

section Rebuild

variable {δ : Type} [Inhabited δ]

/-- `childEntries.resize(n)`. -/
def resizeChildEntries (n : Nat) (e : ReportEntry δ) : ReportEntry δ :=
  e.setChildEntries
    (e.childEntries.take n ++ List.replicate (n - e.childEntries.length) (ReportEntry.mk default []))

/-- What the `resize` of the entry at `path` from `oldSize` to `newSize`
elements and the assignments that follow do to a pointer held in
`finalEntries`: a pointer to an element stays good when the size does not
change, every pointer further below the entry is lost. -/
def invalidate (path : List Nat) (oldSize newSize : Nat) (ptr : Option (List Nat)) :
    Option (List Nat) :=
  match ptr with
  | none => none
  | some q =>
    if path.isPrefixOf q && decide (path.length < q.length) then
      (if oldSize = newSize ∧ q.length = path.length + 1 then some q else none)
    else some q

/-- The variables of the rebuilding loop. -/
structure RebuildState (δ : Type) where
  todo : List Nat
  finalEntries : List (Option (List Nat))
  rootEntry : ReportEntry δ

/-- The loop `for(auto& childIdx : curEntry.childIndexes)` of the rebuilding,
for the entry at `path` with `size` child entries, from position `idx` on.
`useBack` tells which address is pushed to `finalEntries`: that of
`childEntries[idx]` (Basic) or that of `childEntries.back()` (Precise). -/
def rebuildChildren (useBack : Bool) (entries : List δ) (newEntries : List TempEntry)
    (path : List Nat) (size : Nat) :
    List Nat → Nat → RebuildState δ → Except Fault (RebuildState δ)
  | [], _, st => Except.ok st
  | childIdx :: rest, idx, st =>
    match newEntries[childIdx]? with
    | none => Except.error Fault.outOfBounds
    | some childEntry =>
      match entries[childEntry.entryIdx]? with
      | none => Except.error Fault.outOfBounds
      | some d =>
        match st.rootEntry.modifyAt
            (fun e => e.setChildEntries (e.childEntries.set idx (ReportEntry.mk d []))) path with
        | none => Except.error Fault.danglingPointer
        | some rootEntry =>
          rebuildChildren useBack entries newEntries path size rest (idx + 1)
            { todo := childIdx :: st.todo
              finalEntries := st.finalEntries ++ [some (path ++ [if useBack then size - 1 else idx])]
              rootEntry := rootEntry }

/-- The loop `while(!finalBasicHierarchyTodo.empty())` of the rebuilding, run
for at most `fuel` iterations. -/
def rebuildLoop (useBack : Bool) (entries : List δ) (newEntries : List TempEntry) :
    Nat → RebuildState δ → Except Fault (RebuildState δ)
  | 0, st =>
    match st.todo with
    | [] => Except.ok st
    | _ :: _ => Except.error Fault.outOfFuel
  | fuel + 1, st =>
    match st.todo with
    | [] => Except.ok st
    | curEntryIdx :: todo =>
      match newEntries[curEntryIdx]? with
      | none => Except.error Fault.outOfBounds
      | some curEntry =>
        match st.finalEntries[curEntryIdx]? with
        | none => Except.error Fault.outOfBounds
        | some none => Except.error Fault.danglingPointer
        | some (some path) =>
          match st.rootEntry.getAt path with
          | none => Except.error Fault.danglingPointer
          | some entry =>
            let size := curEntry.childIndexes.length
            match st.rootEntry.modifyAt (resizeChildEntries size) path with
            | none => Except.error Fault.danglingPointer
            | some rootEntry =>
              match rebuildChildren useBack entries newEntries path size curEntry.childIndexes 0
                  { todo := todo
                    finalEntries := st.finalEntries.map (invalidate path entry.childEntries.length size)
                    rootEntry := rootEntry } with
              | Except.error e => Except.error e
              | Except.ok st' => rebuildLoop useBack entries newEntries fuel st'

/-- The block `if(newBasicEntries.size() > 0) { ... }` of `generateReport`: the
root entry of the report with the tree below it.  The loop runs once per entry
of `newEntries`. -/
def rebuild (useBack : Bool) (entries : List δ) (newEntries : List TempEntry) :
    Except Fault (ReportEntry δ) :=
  match newEntries with
  | [] => Except.ok (ReportEntry.mk default [])
  | first :: _ =>
    match entries[first.entryIdx]? with
    | none => Except.error Fault.outOfBounds
    | some d =>
      match rebuildLoop useBack entries newEntries newEntries.length
          ⟨[0], [some []], ReportEntry.mk d []⟩ with
      | Except.ok st => Except.ok st.rootEntry
      | Except.error e => Except.error e

end Rebuild

/-! ## `generateReport` -/

/-- The part of `generateReport` after the two early returns: the report for
the tree below `rootBlock`. -/
def ProfilerCPU.reportOf (self : ProfilerCPU) (rootBlock : ProfiledBlock) :
    Except Fault CPUProfilerReport :=
  match flatten rootBlock with
  | Except.error e => Except.error e
  | Except.ok flatHierarchy =>
    let basicEntries := aggregateBasic self flatHierarchy
    let preciseEntries := aggregatePrecise self flatHierarchy
    match prune (fun i => (basicEntries.getD i default).numCalls) flatHierarchy with
    | Except.error e => Except.error e
    | Except.ok newBasicEntries =>
      match rebuild false basicEntries newBasicEntries with
      | Except.error e => Except.error e
      | Except.ok basicRoot =>
        match prune (fun i => (preciseEntries.getD i default).numCalls) flatHierarchy with
        | Except.error e => Except.error e
        | Except.ok newPreciseEntries =>
          match rebuild true preciseEntries newPreciseEntries with
          | Except.error e => Except.error e
          | Except.ok preciseRoot => Except.ok ⟨basicRoot, preciseRoot⟩

/-- `ProfilerCPU::generateReport`: the report and the value of the thread-local
pointer after the call.  `rs` is what the `ThreadInfo::end` of a thread that is
still active observes. -/
def ProfilerCPU.generateReport (self : ProfilerCPU) (thread : Option ThreadInfo)
    (rs : Nat → Reading) : Except Fault (CPUProfilerReport × Option ThreadInfo) :=
  match thread with
  | none => Except.ok (CPUProfilerReport.new, none)
  | some t =>
    match (if t.isActive then t.endSampling rs else Except.ok t) with
    | Except.error e => Except.error e
    | Except.ok t1 =>
      match t1.rootBlock with
      | none => Except.ok (CPUProfilerReport.new, some t1)
      | some rootBlock =>
        match self.reportOf rootBlock with
        | Except.error e => Except.error e
        | Except.ok report => Except.ok (report, some t1)

/-! ## Sequences of calls -/

/-- A call of the sampling interface together with the readings it observes. -/
inductive Call where
  | beginThread (name : ProfilerString) (r : Reading)
  | endThread (rs : Nat → Reading)
  | beginSample (name : ProfilerString) (r0 r : Reading)
  | endSample (name : ProfilerString) (r : Reading)
  | beginSamplePrecise (name : ProfilerString) (r0 r : Reading)
  | endSamplePrecise (name : ProfilerString) (r : Reading)
  | reset (rs : Nat → Reading)

/-- The effect of one call on the thread-local state. -/
def ProfilerCPU.call (debug : Bool) (thread : Option ThreadInfo) : Call → Except Fault (Option ThreadInfo)
  | Call.beginThread name r => Except.ok (ProfilerCPU.beginThread thread name r)
  | Call.endThread rs => ProfilerCPU.endThread thread rs
  | Call.beginSample name r0 r => ProfilerCPU.beginSample thread name r0 r
  | Call.endSample name r => ProfilerCPU.endSample debug thread name r
  | Call.beginSamplePrecise name r0 r => ProfilerCPU.beginSamplePrecise thread name r0 r
  | Call.endSamplePrecise name r => ProfilerCPU.endSamplePrecise debug thread name r
  | Call.reset rs => ProfilerCPU.reset thread rs

/-- The effect of a sequence of calls, issued one after the other. -/
def ProfilerCPU.run (debug : Bool) : Option ThreadInfo → List Call → Except Fault (Option ThreadInfo)
  | thread, [] => Except.ok thread
  | thread, c :: rest =>
    match ProfilerCPU.call debug thread c with
    | Except.ok thread' => ProfilerCPU.run debug thread' rest
    | Except.error e => Except.error e

/-! ## Definitions used in the statements and proofs -/

/-- The entries that the flattening appends for the children of a block. -/
def newTempEntries : Nat → List ProfiledBlock → List TempEntry
  | _, [] => []
  | n, c :: cs => ⟨some c, n, []⟩ :: newTempEntries (n + 1) cs

/-- The block that the entry at position `i` of a flattened hierarchy stands
for. -/
def blockAt (flat : List TempEntry) (i : Nat) : Option ProfiledBlock :=
  flat[i]?.bind TempEntry.parentBlock

/-- What holds of the variables of the flattening loop before every
iteration. -/
structure FlattenInv (st : FlattenState) : Prop where
  idx : st.entryIdx = st.flatHierarchy.length
  entryIdx_eq : ∀ (i : Nat) (e : TempEntry), st.flatHierarchy[i]? = some e → e.entryIdx = i
  block : ∀ (i : Nat) (e : TempEntry), st.flatHierarchy[i]? = some e → ∃ b, e.parentBlock = some b
  child_range : ∀ (i : Nat) (e : TempEntry) (c : Nat), st.flatHierarchy[i]? = some e → c ∈ e.childIndexes →
    i < c ∧ c < st.flatHierarchy.length
  todo_lt : ∀ i ∈ st.todo, i < st.flatHierarchy.length
  todo_nodup : st.todo.Nodup
  pending : ∀ i ∈ st.todo, ∀ (e : TempEntry), st.flatHierarchy[i]? = some e → e.childIndexes = []
  expanded : ∀ (i : Nat) (e : TempEntry) (b : ProfiledBlock), i ∉ st.todo → st.flatHierarchy[i]? = some e → e.parentBlock = some b →
    e.childIndexes.map (blockAt st.flatHierarchy) = b.children.map some
  unique : ∀ (i j : Nat) (ei ej : TempEntry) (c : Nat), st.flatHierarchy[i]? = some ei → st.flatHierarchy[j]? = some ej →
    c ∈ ei.childIndexes → c ∈ ej.childIndexes → i = j
  nodup : ∀ (i : Nat) (e : TempEntry), st.flatHierarchy[i]? = some e → e.childIndexes.Nodup
  has_parent : ∀ c, 0 < c → c < st.flatHierarchy.length →
    ∃ (p : Nat) (e : TempEntry), st.flatHierarchy[p]? = some e ∧ c ∈ e.childIndexes

/-- Number of blocks of the tree below the block of the entry at position `i`. -/
def blocksBelow (flat : List TempEntry) (i : Nat) : Nat :=
  match blockAt flat i with
  | some b => b.numBlocks
  | none => 0

/-- The blocks still to be visited by the flattening loop. -/
def todoBlocks (st : FlattenState) : Nat :=
  (st.todo.map (blocksBelow st.flatHierarchy)).sum

/-- The vector `flatHierarchy` after the iteration that pops `cur`. -/
def flatStep (F : List TempEntry) (cur : Nat) (cs : List ProfiledBlock) : List TempEntry :=
  modifyNth F cur (fun e => { e with childIndexes := e.childIndexes ++ List.range' F.length cs.length })
    ++ newTempEntries F.length cs

/-- What holds of `flatHierarchy` after the flattening of the tree below
`rootBlock`. -/
structure FlatOK (rootBlock : ProfiledBlock) (flat : List TempEntry) : Prop where
  root : blockAt flat 0 = some rootBlock
  entryIdx_eq : ∀ (i : Nat) (e : TempEntry), flat[i]? = some e → e.entryIdx = i
  block : ∀ (i : Nat) (e : TempEntry), flat[i]? = some e → ∃ b, e.parentBlock = some b
  child_range : ∀ (i : Nat) (e : TempEntry) (c : Nat), flat[i]? = some e → c ∈ e.childIndexes →
    i < c ∧ c < flat.length
  expanded : ∀ (i : Nat) (e : TempEntry) (b : ProfiledBlock), flat[i]? = some e →
    e.parentBlock = some b → e.childIndexes.map (blockAt flat) = b.children.map some
  unique : ∀ (i j : Nat) (ei ej : TempEntry) (c : Nat), flat[i]? = some ei → flat[j]? = some ej →
    c ∈ ei.childIndexes → c ∈ ej.childIndexes → i = j
  nodup : ∀ (i : Nat) (e : TempEntry), flat[i]? = some e → e.childIndexes.Nodup
  has_parent : ∀ c, 0 < c → c < flat.length →
    ∃ (p : Nat) (e : TempEntry), flat[p]? = some e ∧ c ∈ e.childIndexes

/-- Whether the value is a number that is not negative, or plus infinity. -/
def FloatVal.isNonneg : FloatVal → Bool
  | FloatVal.finite q => decide (0 ≤ q)
  | FloatVal.posInf => true
  | _ => false

/-- The value of `totalChildTime` after the loop over the children. -/
def basicChildTotal (entries : List BasicData) (ch : List Nat) (acc : ℚ) : ℚ :=
  ch.foldl (fun a c => a + (entries.getD c default).totalTimeMs) acc

/-- The value of `estimatedOverheadMs` after the loop over the children. -/
def basicChildOverhead (entries : List BasicData) (ch : List Nat) (acc : ℚ) : ℚ :=
  ch.foldl (fun a c => a + (entries.getD c default).estimatedOverheadMs) acc

/-- The assignment `data.pctOfParent = p`. -/
def BasicData.setPct (p : FloatVal) (d : BasicData) : BasicData := { d with pctOfParent := p }

/-- The assignment `data.estimatedOverheadMs = o`. -/
def BasicData.setOverhead (o : ℚ) (d : BasicData) : BasicData := { d with estimatedOverheadMs := o }

/-- What the loop over the children `ch` of the entry at `j` does to the
element at `x` of `basicEntries`. -/
def basicChildEffect (entries : List BasicData) (j : Nat) (ch : List Nat) (x : Nat)
    (e : BasicData) : BasicData :=
  if x = j then e.setOverhead (basicChildOverhead entries ch e.estimatedOverheadMs)
  else if x ∈ ch then
    e.setPct (basicPctOfParent e.totalTimeMs (entries.getD j default).totalTimeMs)
  else e

/-- The sum of the Basic sample times of a block, as the loop over the samples
accumulates it. -/
def basicTotalTime (b : ProfiledBlock) : ℚ :=
  b.basic.samples.foldl (fun a s => a + s.time) 0

/-- The entry that the Basic half of the loop body computes for a block with
the child entries `ch`, from the entry `e0` that is there before. -/
def basicAggregated (self : ProfilerCPU) (b : ProfiledBlock) (ch : List Nat)
    (entries : List BasicData) (e0 : BasicData) : BasicData :=
  basicFinish self b (basicChildTotal entries ch 0)
    ((basicOwnStats b e0).setOverhead
      (basicChildOverhead entries ch (basicOwnStats b e0).estimatedOverheadMs))

/-- What holds of `basicEntries` when the entries of `flatHierarchy` from
position `k` on have been processed. -/
structure BasicAggInv (pc : ProfilerCPU) (flat : List TempEntry) (k : Nat)
    (arr : List BasicData) : Prop where
  length : arr.length = flat.length
  untouched : ∀ x, x < k → x < flat.length → arr[x]? = some default
  core : ∀ (x : Nat) (e : TempEntry) (b : ProfiledBlock), k ≤ x → flat[x]? = some e →
    e.parentBlock = some b →
    ∃ d, arr[x]? = some d ∧
      d.setPct FloatVal.nan
        = (basicAggregated pc b e.childIndexes arr default).setPct FloatVal.nan
  pct_child : ∀ (x p : Nat) (ep : TempEntry), k ≤ p → flat[p]? = some ep → x ∈ ep.childIndexes →
    ∃ d, arr[x]? = some d ∧
      d.pctOfParent = basicPctOfParent d.totalTimeMs (arr.getD p default).totalTimeMs
  pct_root : ∀ x, x < flat.length →
    (∀ (p : Nat) (ep : TempEntry), k ≤ p → flat[p]? = some ep → x ∉ ep.childIndexes) →
    ∃ d, arr[x]? = some d ∧ d.pctOfParent = FloatVal.finite 1

/-- The value of `totalChildCycles` after the loop over the children. -/
def preciseChildTotal (entries : List PreciseData) (ch : List Nat) (acc : Nat) : Nat :=
  ch.foldl (fun a c => add64 a (entries.getD c default).totalCycles) acc

/-- The value of `estimatedOverhead` after the loop over the children. -/
def preciseChildOverhead (entries : List PreciseData) (ch : List Nat) (acc : Nat) : Nat :=
  ch.foldl (fun a c => add64 a (entries.getD c default).estimatedOverhead) acc

/-- The assignment `data.pctOfParent = p`. -/
def PreciseData.setPct (p : FloatVal) (d : PreciseData) : PreciseData := { d with pctOfParent := p }

/-- The assignment `data.estimatedOverhead = o`. -/
def PreciseData.setOverhead (o : Nat) (d : PreciseData) : PreciseData := { d with estimatedOverhead := o }

/-- What the loop over the children `ch` of the entry at `j` does to the
element at `x` of `preciseEntries`. -/
def preciseChildEffect (entries : List PreciseData) (j : Nat) (ch : List Nat) (x : Nat)
    (e : PreciseData) : PreciseData :=
  if x = j then e.setOverhead (preciseChildOverhead entries ch e.estimatedOverhead)
  else if x ∈ ch then
    e.setPct (precisePctOfParent e.totalCycles (entries.getD j default).totalCycles)
  else e

/-- The sum of the Precise sample cycles of a block, as the loop over the samples
accumulates it. -/
def preciseTotalCycles (b : ProfiledBlock) : Nat :=
  b.precise.samples.foldl (fun a s => add64 a s.cycles) 0

/-- The entry that the Precise half of the loop body computes for a block with
the child entries `ch`, from the entry `e0` that is there before. -/
def preciseAggregated (self : ProfilerCPU) (b : ProfiledBlock) (ch : List Nat)
    (entries : List PreciseData) (e0 : PreciseData) : PreciseData :=
  preciseFinish self b (preciseChildTotal entries ch 0)
    ((preciseOwnStats b e0).setOverhead
      (preciseChildOverhead entries ch (preciseOwnStats b e0).estimatedOverhead))

/-- What holds of `preciseEntries` when the entries of `flatHierarchy` from
position `k` on have been processed. -/
structure PreciseAggInv (pc : ProfilerCPU) (flat : List TempEntry) (k : Nat)
    (arr : List PreciseData) : Prop where
  length : arr.length = flat.length
  untouched : ∀ x, x < k → x < flat.length → arr[x]? = some default
  core : ∀ (x : Nat) (e : TempEntry) (b : ProfiledBlock), k ≤ x → flat[x]? = some e →
    e.parentBlock = some b →
    ∃ d, arr[x]? = some d ∧
      d.setPct FloatVal.nan
        = (preciseAggregated pc b e.childIndexes arr default).setPct FloatVal.nan
  pct_child : ∀ (x p : Nat) (ep : TempEntry), k ≤ p → flat[p]? = some ep → x ∈ ep.childIndexes →
    ∃ d, arr[x]? = some d ∧
      d.pctOfParent = precisePctOfParent d.totalCycles (arr.getD p default).totalCycles
  pct_root : ∀ x, x < flat.length →
    (∀ (p : Nat) (ep : TempEntry), k ≤ p → flat[p]? = some ep → x ∉ ep.childIndexes) →
    ∃ d, arr[x]? = some d ∧ d.pctOfParent = FloatVal.finite 1

/-- What holds of the variables of the pruning loop before every iteration. -/
structure PruneInv (numCalls : Nat → Nat) (st : PruneState) : Prop where
  idx : st.entryIdx = st.newEntries.length
  first : (∃ e0 : TempEntry, st.newEntries[0]? = some e0 ∧ e0.entryIdx = 0)
  same_len : st.todo.length = st.parentEntryIndexes.length
  parents_lt : ∀ p ∈ st.parentEntryIndexes, p < st.newEntries.length
  child_ge : ∀ (k : Nat) (e : TempEntry) (c : Nat), st.newEntries[k]? = some e →
    c ∈ e.childIndexes → 1 ≤ c ∧ c < st.newEntries.length
  entry_ok : ∀ (k : Nat) (e : TempEntry), 1 ≤ k → st.newEntries[k]? = some e →
    0 < numCalls e.entryIdx

mutual
/-- Every entry below `e` in the report tree (not `e` itself) has data with
the property `P`. -/
def ReportEntry.AllBelow {δ : Type} (P : δ → Prop) : ReportEntry δ → Prop
  | ReportEntry.mk _ cs => ReportEntry.AllBelowList P cs
/-- Every entry of the list and every entry below one of them has data with
the property `P`. -/
def ReportEntry.AllBelowList {δ : Type} (P : δ → Prop) : List (ReportEntry δ) → Prop
  | [] => True
  | c :: cs => P c.data ∧ ReportEntry.AllBelow P c ∧ ReportEntry.AllBelowList P cs
end

/-- The vector `l` after the assignments `l[idx] = x0; l[idx + 1] = x1; ...`. -/
def overwriteFrom {α : Type} (l : List α) : Nat → List α → List α
  | _, [] => l
  | idx, x :: xs => overwriteFrom (l.set idx x) (idx + 1) xs

/-- The data that the rebuilding copies into the child entry for the entry
`childIdx` of `newEntries`: `entries[newEntries[childIdx].entryIdx]`. -/
def childData {δ : Type} (entries : List δ) (newEntries : List TempEntry) (childIdx : Nat) :
    Option δ :=
  match newEntries[childIdx]? with
  | some childEntry => entries[childEntry.entryIdx]?
  | none => none

/-- A report entry without child entries. -/
def ReportEntry.leaf {δ : Type} (d : δ) : ReportEntry δ := ReportEntry.mk d []

/-- The data `d` is the Precise entry of some position of the aggregated
hierarchy, and its `totalSelfCycles` is its `totalCycles` minus the sum of the
`totalCycles` of the direct children of that position in the unpruned
hierarchy, in 64-bit unsigned arithmetic. -/
def SelfCyclesFromRaw (pc : ProfilerCPU) (flat : List TempEntry) (d : PreciseData) : Prop :=
  ∃ (i : Nat) (e : TempEntry), flat[i]? = some e ∧ (aggregatePrecise pc flat)[i]? = some d ∧
    (d.totalSelfCycles : Int) = ((d.totalCycles : Int) -
      ((e.childIndexes.map
        (fun c => ((aggregatePrecise pc flat).getD c default).totalCycles)).sum : Nat)) % 2 ^ 64

/-- The order in which the loops of `generateReport` visit a flattened
hierarchy: `Trav flat todo n` says that, with the stack `todo` and `n` entries
numbered so far, every entry popped from now on has as child indexes the next
free numbers, and that all of `flat` is numbered at the end. -/
inductive Trav (flat : List TempEntry) : List Nat → Nat → Prop where
  | done : Trav flat [] flat.length
  | step (cur : Nat) (rest : List Nat) (n m : Nat) (e : TempEntry) :
      flat[cur]? = some e →
      e.childIndexes = List.range' n m →
      Trav flat ((List.range' n m).reverse ++ rest) (n + m) →
      Trav flat (cur :: rest) n

/-- The pruned entries of a flattened hierarchy in which nothing is pruned. -/
def unpruned (flat : List TempEntry) : List TempEntry :=
  flat.map (fun e => ⟨none, e.entryIdx, e.childIndexes⟩)

/-- What the rebuilding loop keeps true when nothing was pruned: `finalEntries`
holds, for each of the `n` entries numbered so far, a pointer to an entry of the
report with the data of that index; the entries still on the stack have no
child entries, the others have one child entry per child index, at the
position of the child index. -/
structure RebuildInv {δ : Type} (flat : List TempEntry) (arr : List δ) (todo : List Nat)
    (n : Nat) (final : List (Option (List Nat))) (root : ReportEntry δ) : Prop where
  length : final.length = n
  first : final[0]? = some (some [])
  node : ∀ k : Nat, k < n → ∃ (p : List Nat) (x : ReportEntry δ),
    final[k]? = some (some p) ∧ root.getAt p = some x ∧ arr[k]? = some x.data
  pending : ∀ k ∈ todo, ∀ (p : List Nat) (x : ReportEntry δ),
    final[k]? = some (some p) → root.getAt p = some x → x.childEntries = []
  expanded : ∀ (k : Nat) (e : TempEntry) (p : List Nat) (x : ReportEntry δ), k ∉ todo →
    flat[k]? = some e → final[k]? = some (some p) → root.getAt p = some x →
    x.childEntries.length = e.childIndexes.length ∧
      ∀ (j c : Nat), e.childIndexes[j]? = some c → final[c]? = some (some (p ++ [j]))
  inj : ∀ (k k' : Nat) (p : List Nat), final[k]? = some (some p) → final[k']? = some (some p) →
    k = k'

mutual
/-- Every block below `b` in the tree (not `b` itself) has the property
`P`. -/
def ProfiledBlock.AllBelow (P : ProfiledBlock → Prop) : ProfiledBlock → Prop
  | ProfiledBlock.mk _ _ _ cs => ProfiledBlock.AllBelowList P cs
/-- Every block of the list and every block below one of them has the
property `P`. -/
def ProfiledBlock.AllBelowList (P : ProfiledBlock → Prop) : List ProfiledBlock → Prop
  | [] => True
  | c :: cs => P c ∧ ProfiledBlock.AllBelow P c ∧ ProfiledBlock.AllBelowList P cs
end

/-- The block at a tree position: follow, from `b`, the first child with each
name of the path of region names, as `findChild` does. -/
def ProfiledBlock.findPath : ProfiledBlock → List ProfilerString → Option ProfiledBlock
  | b, [] => some b
  | b, name :: rest =>
    match b.findChild name with
    | some i =>
      match b.children[i]? with
      | some c => ProfiledBlock.findPath c rest
      | none => none
    | none => none

/-- The report entry at a tree position: follow, from `e`, the first child
entry with each name of the path of region names. -/
def ReportEntry.entryAt {δ : Type} (nameOf : δ → ProfilerString) :
    ReportEntry δ → List ProfilerString → Option (ReportEntry δ)
  | e, [] => some e
  | e, name :: rest =>
    match e.childEntries.find? (fun c => decide (nameOf c.data = name)) with
    | some c => ReportEntry.entryAt nameOf c rest
    | none => none

/-- A properly nested sequence of `beginSample`/`endSample` calls is a forest:
a node is one pair `beginSample(name)` ... `endSample(name)` with the pairs
issued between the two calls as its children.  `r0` and `rBegin` are the
readings of the `beginSample`, `rEnd` that of the `endSample`. -/
inductive NestedSample where
  | node (name : ProfilerString) (r0 rBegin rEnd : Reading) (inner : List NestedSample)

mutual
/-- The calls of a pair and of the pairs nested in it, in the order of
issue. -/
def NestedSample.calls : NestedSample → List Call
  | NestedSample.node name r0 rBegin rEnd inner =>
    Call.beginSample name r0 rBegin
      :: (NestedSample.callsList inner ++ [Call.endSample name rEnd])
/-- The calls of a sequence of pairs, in the order of issue. -/
def NestedSample.callsList : List NestedSample → List Call
  | [] => []
  | s :: rest => s.calls ++ NestedSample.callsList rest
end

mutual
/-- The number of pairs of `s` that were executed at the tree position
`name :: path` below the block that is active when `s` begins. -/
def NestedSample.pairsAt : NestedSample → ProfilerString → List ProfilerString → Nat
  | NestedSample.node n _ _ _ inner, name, path =>
    if n = name then
      match path with
      | [] => 1
      | name' :: path' => NestedSample.pairsAtList inner name' path'
    else 0
/-- The number of pairs of a sequence that were executed at the tree position
`name :: path` below the block that is active when the sequence begins. -/
def NestedSample.pairsAtList : List NestedSample → ProfilerString → List ProfilerString → Nat
  | [], _, _ => 0
  | s :: rest, name, path => s.pairsAt name path + NestedSample.pairsAtList rest name path
end

mutual
/-- The names of a pair and of the pairs nested in it. -/
def NestedSample.names : NestedSample → List ProfilerString
  | NestedSample.node name _ _ _ inner => name :: NestedSample.namesList inner
/-- The names of the pairs of a sequence and of the pairs nested in them. -/
def NestedSample.namesList : List NestedSample → List ProfilerString
  | [] => []
  | s :: rest => s.names ++ NestedSample.namesList rest
end

/-- The index at which `beginSample(name)` finds or creates the block below
`b`. -/
def ProfiledBlock.slot (b : ProfiledBlock) (name : ProfilerString) : Nat :=
  match b.findChild name with
  | some i => i
  | none => b.children.length

/-- The block that `beginSample(name)` finds or creates below `b`, before it
begins the sample. -/
def ProfiledBlock.childOrNew (b : ProfiledBlock) (name : ProfilerString) : ProfiledBlock :=
  match b.findChild name with
  | some i => (b.children[i]?).getD (ProfiledBlock.new.setName name)
  | none => ProfiledBlock.new.setName name

/-- The block `b` with `c` as child `i`: in place of the child that is there,
or as a new last child. -/
def ProfiledBlock.putChild (b : ProfiledBlock) (i : Nat) (c : ProfiledBlock) : ProfiledBlock :=
  b.setChildren (if i < b.children.length then b.children.set i c else b.children ++ [c])

/-- `basic.beginSample()` on a block. -/
def ProfiledBlock.openSample (r : Reading) (b : ProfiledBlock) : ProfiledBlock :=
  b.setBasic (b.basic.beginSample r)

/-- `basic.endSample()` on a block. -/
def ProfiledBlock.closeSample (r : Reading) (b : ProfiledBlock) : ProfiledBlock :=
  b.setBasic (b.basic.endSample r)

mutual
/-- What a pair and the pairs nested in it do to the block that is active when
the pair begins. -/
def NestedSample.record : NestedSample → ProfiledBlock → ProfiledBlock
  | NestedSample.node name _ rBegin rEnd inner, b =>
    b.putChild (b.slot name)
      (ProfiledBlock.closeSample rEnd
        (NestedSample.recordList inner (ProfiledBlock.openSample rBegin (b.childOrNew name))))
/-- What a sequence of pairs does to the block that is active when the
sequence begins. -/
def NestedSample.recordList : List NestedSample → ProfiledBlock → ProfiledBlock
  | [], b => b
  | s :: rest, b => NestedSample.recordList rest (s.record b)
end

/-- The number of Basic samples of the block at a tree position below `b`;
zero when there is no block at that position. -/
def ProfiledBlock.samplesAt (b : ProfiledBlock) (p : List ProfilerString) : Nat :=
  match b.findPath p with
  | some x => x.basic.samples.length
  | none => 0

mutual
/-- No two children of a block, at any depth of the tree, have the same
name. -/
def ProfiledBlock.UniqueNames : ProfiledBlock → Prop
  | ProfiledBlock.mk _ _ _ cs =>
    (cs.map ProfiledBlock.name).Nodup ∧ ProfiledBlock.UniqueNamesList cs
/-- Every block of the list has `UniqueNames`. -/
def ProfiledBlock.UniqueNamesList : List ProfiledBlock → Prop
  | [] => True
  | c :: cs => ProfiledBlock.UniqueNames c ∧ ProfiledBlock.UniqueNamesList cs
end

/-- The root block after `beginThread(name)` on a thread without state. -/
def freshRoot (name : ProfilerString) (r : Reading) : ProfiledBlock :=
  ProfiledBlock.openSample r (ProfiledBlock.new.setName name)

/-- The tree that a thread without state has after `beginThread`, a properly
nested sequence of pairs, and `endThread`. -/
def recordedTree (name : ProfilerString) (r : Reading) (forest : List NestedSample)
    (rs : Nat → Reading) : ProfiledBlock :=
  ProfiledBlock.closeSample (rs 0) (NestedSample.recordList forest (freshRoot name r))

/-- A nested sequence with two pairs "A" at the top, the first with a pair "B"
inside. -/
def nestedExample : List NestedSample :=
  [NestedSample.node "A" ⟨0, 0, 0, 0⟩ ⟨1, 10, 0, 0⟩ ⟨4, 40, 2, 1⟩
      [NestedSample.node "B" ⟨0, 0, 0, 0⟩ ⟨2, 20, 1, 0⟩ ⟨3, 30, 2, 1⟩ []],
   NestedSample.node "A" ⟨0, 0, 0, 0⟩ ⟨5, 50, 2, 1⟩ ⟨6, 60, 3, 1⟩ []]

/-- The total of the Basic samples of the children of a block. -/
def ProfiledBlock.childCalls (b : ProfiledBlock) : Nat :=
  (b.children.map (fun c => c.basic.samples.length)).sum

/-- The block has no child, or one child called `a` without children and
without Precise samples. -/
def ProfiledBlock.AtMostLeaf (a : ProfilerString) (b : ProfiledBlock) : Prop :=
  b.children = [] ∨ ∃ c, b.children = [c] ∧ c.name = a ∧ c.children = [] ∧ c.precise.samples = []

mutual
/-- The number of pairs of a pair and the pairs nested in it. -/
def NestedSample.size : NestedSample → Nat
  | NestedSample.node _ _ _ _ inner => 1 + NestedSample.sizeList inner
/-- The number of pairs of a sequence. -/
def NestedSample.sizeList : List NestedSample → Nat
  | [] => 0
  | s :: rest => s.size + NestedSample.sizeList rest
end

/-- The statement `block->basic.beginSample()` or `block->precise.beginSample()`,
by the sampling type of the call. -/
def ProfiledBlock.beginOn (type : ActiveSamplingType) (r : Reading) (b : ProfiledBlock) :
    ProfiledBlock :=
  match type with
  | ActiveSamplingType.Basic => b.setBasic (b.basic.beginSample r)
  | ActiveSamplingType.Precise => b.setPrecise (b.precise.beginSample r)

/-- The statement `block->basic.endSample()` or `block->precise.endSample()`,
by the sampling type of the stack entry. -/
def ProfiledBlock.endOn (type : ActiveSamplingType) (r : Reading) (b : ProfiledBlock) :
    ProfiledBlock :=
  match type with
  | ActiveSamplingType.Basic => b.setBasic (b.basic.endSample r)
  | ActiveSamplingType.Precise => b.setPrecise (b.precise.endSample r)

/-- What `beginSample(name)` (type Basic) or `beginSamplePrecise(name)` (type
Precise), with the result `result`, has done on the thread `t` whose active
block `P` is at `q` in the tree `root`: the tree differs only in the block at
`q`, which keeps its name and its accumulators; if `P` had a child called
`name`, the first such child is the new active block and the child vector is the
same but for the sample begun on that child; if not, one new block called
`name` is the last child and the new active block. -/
def OpensChild (t : ThreadInfo) (type : ActiveSamplingType) (name : ProfilerString)
    (r : Reading) (root P : ProfiledBlock) (q : List Nat)
    (result : Except Fault (Option ThreadInfo)) : Prop :=
  ∃ (root' P' : ProfiledBlock) (i : Nat),
    result = Except.ok (some
      { t with rootBlock := some root'
               activeBlock := ⟨type, some (q ++ [i])⟩
               activeBlocks := ⟨type, some (q ++ [i])⟩ :: t.activeBlocks }) ∧
    root.modifyAt (fun _ => P') q = some root' ∧
    P'.name = P.name ∧ P'.basic = P.basic ∧ P'.precise = P.precise ∧
    ((∃ c, P.children[i]? = some c ∧ c.name = name ∧
        (∀ (j : Nat) (c' : ProfiledBlock), j < i → P.children[j]? = some c' → c'.name ≠ name) ∧
        P'.children = P.children.set i (ProfiledBlock.beginOn type r c)) ∨
      ((∀ c ∈ P.children, c.name ≠ name) ∧ i = P.children.length ∧
        P'.children
          = P.children ++ [ProfiledBlock.beginOn type r (ProfiledBlock.new.setName name)]))

/-- What the four calls `beginSample(X); endSample(X); beginSamplePrecise(X);
endSamplePrecise(X)` do to the block they find or create. -/
def ProfiledBlock.sampleBoth (r1 r2 r3 r4 : Reading) (c : ProfiledBlock) : ProfiledBlock :=
  ProfiledBlock.endOn ActiveSamplingType.Precise r4
    (ProfiledBlock.beginOn ActiveSamplingType.Precise r3
      (ProfiledBlock.endOn ActiveSamplingType.Basic r2
        (ProfiledBlock.beginOn ActiveSamplingType.Basic r1 c)))

/-- An active thread with the root "R" and the open block "X" below it, opened
with the given sampling type. -/
def openBlockExample (type : ActiveSamplingType) : ThreadInfo :=
  ⟨true,
    some (ProfiledBlock.mk "R" ProfileData.new PreciseProfileData.new
      [ProfiledBlock.mk "X" ProfileData.new PreciseProfileData.new []]),
    ⟨type, some [0]⟩, [⟨type, some [0]⟩, ⟨ActiveSamplingType.Basic, some []⟩]⟩

/-- An active thread with the root "R" and no open block. -/
def noOpenBlockExample : ThreadInfo :=
  ⟨true, some (ProfiledBlock.mk "R" ProfileData.new PreciseProfileData.new []),
    ActiveBlock.null, []⟩

/-- Every entry of the stack holds a pointer to a block of the tree. -/
def StackValid (root : ProfiledBlock) (stack : List ActiveBlock) : Prop :=
  ∀ a ∈ stack, ∃ (q : List Nat) (b : ProfiledBlock), a.block = some q ∧ root.getAt q = some b

/-- How the accumulators of a block have grown: `m` samples more in the Basic
accumulator and `n` more in the Precise accumulator, after those it had. -/
def ProfiledBlock.Grown (b b' : ProfiledBlock) (m n : Nat) : Prop :=
  b'.basic.samples.length = b.basic.samples.length + m ∧
  b.basic.samples <+: b'.basic.samples ∧
  b'.precise.samples.length = b.precise.samples.length + n ∧
  b.precise.samples <+: b'.precise.samples

/-- A tree with the root "R", its child "A" and the child "B" of "A". -/
def openTreeExample : ProfiledBlock :=
  ProfiledBlock.mk "R" ProfileData.new PreciseProfileData.new
    [ProfiledBlock.mk "A" ProfileData.new PreciseProfileData.new
      [ProfiledBlock.mk "B" ProfileData.new PreciseProfileData.new []]]

/-- An active thread on `openTreeExample` with three open blocks: "B" sampled
Precise on top, "A" sampled Basic below it, the root at the bottom. -/
def openStackExample : ThreadInfo :=
  ⟨true, some openTreeExample, ⟨ActiveSamplingType.Precise, some [0, 0]⟩,
    [⟨ActiveSamplingType.Precise, some [0, 0]⟩, ⟨ActiveSamplingType.Basic, some [0]⟩,
      ⟨ActiveSamplingType.Basic, some []⟩]⟩

/-- What `ThreadInfo::end` and the constructor leave on an inactive thread:
an empty stack and a null active block. -/
def ThreadInfo.InactiveClean (t : ThreadInfo) : Prop :=
  t.isActive = false → t.activeBlocks = [] ∧ t.activeBlock = ActiveBlock.null

/-- An active thread on `openTreeExample` whose only open block is the root. -/
def rootOpenExample : ThreadInfo :=
  ⟨true, some openTreeExample, ⟨ActiveSamplingType.Basic, some []⟩,
    [⟨ActiveSamplingType.Basic, some []⟩]⟩

mutual
/-- The estimated overhead, in cycles, of the samples recorded in the tree
below and including `b`: for every block the number of its Precise samples times
`mPreciseSamplingOverheadCycles` plus the number of its Basic samples times
`mBasicSamplingOverheadCycles`, as a natural number. -/
def ProfiledBlock.overheadCycles (pc : ProfilerCPU) : ProfiledBlock → Nat
  | ProfiledBlock.mk _ basic precise cs =>
    precise.samples.length * pc.mPreciseSamplingOverheadCycles
      + basic.samples.length * pc.mBasicSamplingOverheadCycles
      + ProfiledBlock.overheadCyclesList pc cs
/-- The sum of `overheadCycles` over the blocks of a list. -/
def ProfiledBlock.overheadCyclesList (pc : ProfilerCPU) : List ProfiledBlock → Nat
  | [] => 0
  | c :: cs => ProfiledBlock.overheadCycles pc c + ProfiledBlock.overheadCyclesList pc cs
end

/-- The position in a flattened hierarchy of the block that the pointer `p`
designates below the block of the entry at position `i`: the child indexes of
the entries are followed as the pointer follows the child vectors. -/
def flatIndexFrom (flat : List TempEntry) : Nat → List Nat → Option Nat
  | i, [] => some i
  | i, j :: rest =>
    match flat[i]? with
    | some e =>
      match e.childIndexes[j]? with
      | some c => flatIndexFrom flat c rest
      | none => none
    | none => none

/-- A tree in which the block "A1" at depth 2 is numbered after the block
"B11" at depth 3: the root "R" has the children "A", with the child "A1", and
"B", whose child "B1" has the child "B11". -/
def depthFirstExample : ProfiledBlock :=
  ProfiledBlock.mk "R" ProfileData.new PreciseProfileData.new
    [ProfiledBlock.mk "A" ProfileData.new PreciseProfileData.new
      [ProfiledBlock.mk "A1" ProfileData.new PreciseProfileData.new []],
     ProfiledBlock.mk "B" ProfileData.new PreciseProfileData.new
      [ProfiledBlock.mk "B1" ProfileData.new PreciseProfileData.new
        [ProfiledBlock.mk "B11" ProfileData.new PreciseProfileData.new []]]]

/-- The clock and cycle-counter values that the timers of
`ProfilerCPU::estimateTimerOverhead` read, each as the pair of the value at
`start()` and the value at `stop()`: for `timer` and `timerPrecise` by the try
and the repetition of the first loop, for `timerA`, `timerPreciseA`, `timerB`
and `timerPreciseB` by the try of the second loop. -/
structure CalibrationReadings where
  timer : Nat → Nat → ℚ × ℚ
  timerPrecise : Nat → Nat → Nat × Nat
  timerA : Nat → ℚ × ℚ
  timerPreciseA : Nat → Nat × Nat
  timerB : Nat → ℚ × ℚ
  timerPreciseB : Nat → Nat × Nat

/-- The body of the first loop `for (UINT32 tries = 0; tries < 20; tries++)` of
`estimateTimerOverhead`, with `reps = 1000`. -/
def timerOverheadTry (rd : CalibrationReadings) (pc : ProfilerCPU) (tries : Nat) : ProfilerCPU :=
  let timer := (List.range 1000).foldl
    (fun (t : Timer) i => (t.start (rd.timer tries i).1).stop (rd.timer tries i).2) Timer.new
  let avgTime := timer.time / 1000
  let pc := if avgTime < pc.mBasicTimerOverhead then { pc with mBasicTimerOverhead := avgTime }
    else pc
  let timerPrecise := (List.range 1000).foldl
    (fun (t : TimerPrecise) i =>
      (t.start (rd.timerPrecise tries i).1).stop (rd.timerPrecise tries i).2) TimerPrecise.new
  let avgCycles := timerPrecise.cycles / 1000
  if avgCycles < pc.mPreciseTimerOverhead then { pc with mPreciseTimerOverhead := avgCycles }
  else pc

/-- The body of the second loop `for (UINT32 tries = 0; tries < 20; tries++)` of
`estimateTimerOverhead`, with `sampleReps * 10 + sampleReps * 5 = 1500`.  The
calls of the sampling interface between the `start()` and the `stop()` of each
timer act on the thread-local state and on none of the members set here; the
time they take is in the readings. -/
def samplingOverheadTry (rd : CalibrationReadings) (pc : ProfilerCPU) (tries : Nat) :
    ProfilerCPU :=
  let timerA := (Timer.new.start (rd.timerA tries).1).stop (rd.timerA tries).2
  let avgTimeBasic := timerA.time / (100 * 10 + 100 * 5 : Nat) - pc.mBasicTimerOverhead
  let pc := if avgTimeBasic < pc.mBasicSamplingOverheadMs
    then { pc with mBasicSamplingOverheadMs := avgTimeBasic } else pc
  let timerPreciseA :=
    (TimerPrecise.new.start (rd.timerPreciseA tries).1).stop (rd.timerPreciseA tries).2
  let avgCyclesBasic := sub64 (timerPreciseA.cycles / (100 * 10 + 100 * 5)) pc.mPreciseTimerOverhead
  let pc := if avgCyclesBasic < pc.mBasicSamplingOverheadCycles
    then { pc with mBasicSamplingOverheadCycles := avgCyclesBasic } else pc
  let timerB := (Timer.new.start (rd.timerB tries).1).stop (rd.timerB tries).2
  let avgTimesPrecise := timerB.time / (100 * 10 + 100 * 5 : Nat)
  let pc := if avgTimesPrecise < pc.mPreciseSamplingOverheadMs
    then { pc with mPreciseSamplingOverheadMs := avgTimesPrecise } else pc
  let timerPreciseB :=
    (TimerPrecise.new.start (rd.timerPreciseB tries).1).stop (rd.timerPreciseB tries).2
  let avgCyclesPrecise := timerPreciseB.cycles / (100 * 10 + 100 * 5)
  if avgCyclesPrecise < pc.mPreciseSamplingOverheadCycles
  then { pc with mPreciseSamplingOverheadCycles := avgCyclesPrecise } else pc

/-- `ProfilerCPU::estimateTimerOverhead`: the six members after the call. -/
def estimateTimerOverhead (rd : CalibrationReadings) (pc : ProfilerCPU) : ProfilerCPU :=
  let pc := { pc with mBasicTimerOverhead := 1000000, mPreciseTimerOverhead := 1000000 }
  let pc := (List.range 20).foldl (timerOverheadTry rd) pc
  let pc := { pc with mBasicSamplingOverheadMs := 1000000
                      mPreciseSamplingOverheadMs := 1000000
                      mBasicSamplingOverheadCycles := 1000000
                      mPreciseSamplingOverheadCycles := 1000000 }
  (List.range 20).foldl (samplingOverheadTry rd) pc

/-- A calibration in which every bare `start()`/`stop()` pair takes 1/1000 ms
on `Timer` and 40 cycles on `TimerPrecise`, and every round of 1500 sample pairs
takes 3 ms and 1500000 cycles, Basic and Precise alike. -/
def calibrationExample : CalibrationReadings where
  timer := fun _ _ => (0, 1 / 1000)
  timerPrecise := fun _ _ => (0, 40)
  timerA := fun _ => (0, 3)
  timerPreciseA := fun _ => (0, 1500000)
  timerB := fun _ => (0, 3)
  timerPreciseB := fun _ => (0, 1500000)

/-- No two children of a block below the root, at any depth, have the same
name; the children of the root itself are not constrained. -/
def ProfiledBlock.ChildrenUnique (root : ProfiledBlock) : Prop :=
  ∀ c ∈ root.children, ProfiledBlock.UniqueNames c

/-- The stack is a chain: the block of every entry is a child of the block of
the entry below it, and the block of the bottom entry is the root or a child of
the root.  The top of the stack is first. -/
def StackChain : List ActiveBlock → Prop
  | [] => True
  | [a] => ∃ q : List Nat, a.block = some q ∧ q.length ≤ 1
  | a :: a' :: rest =>
    (∃ (q : List Nat) (i : Nat), a'.block = some q ∧ a.block = some (q ++ [i])) ∧
      StackChain (a' :: rest)

/-- What the sampling interface keeps true of a thread state: an inactive
thread has an empty stack; the active block is the top of the stack, or the
null marker when the stack is empty; an active thread has a root block; no
block below the root has two children of the same name; every stack entry
points to a block of the tree; and the stack is a chain. -/
structure ThreadInfo.WellFormed (t : ThreadInfo) : Prop where
  inactive : t.isActive = false → t.activeBlocks = []
  top : t.activeBlock = t.activeBlocks.head?.getD ActiveBlock.null
  root : t.isActive = true → ∃ root, t.rootBlock = some root
  tree : ∀ root, t.rootBlock = some root →
    root.ChildrenUnique ∧ StackValid root t.activeBlocks
  chain : StackChain t.activeBlocks

/-- The thread state after `beginThread("R")` and `beginSample("A")` on a
thread without `ThreadInfo`, with the clock at 0 and at 1. -/
def reachedExample : ThreadInfo :=
  ⟨true,
    some (ProfiledBlock.mk "R" ⟨[], ⟨0, 0⟩, 0, 0⟩ PreciseProfileData.new
      [ProfiledBlock.mk "A" ⟨[], ⟨0, 1⟩, 0, 0⟩ PreciseProfileData.new []]),
    ⟨ActiveSamplingType.Basic, some [0]⟩,
    [⟨ActiveSamplingType.Basic, some [0]⟩, ⟨ActiveSamplingType.Basic, some []⟩]⟩

/-- A tree with the root "R" and its child "A", which has one Basic sample
of 1 ms. -/
def sampledExample : ProfiledBlock :=
  ProfiledBlock.mk "R" ProfileData.new PreciseProfileData.new
    [ProfiledBlock.mk "A" ⟨[⟨1, 0, 0⟩], Timer.new, 0, 0⟩ PreciseProfileData.new []]

/-- A sequence of `beginThread(n)`/`endThread()` cycles, each with the name
and the readings it observes. -/
def beginEndCycles : List (ProfilerString × Reading × (Nat → Reading)) → List Call
  | [] => []
  | (n, r, rs) :: rest => Call.beginThread n r :: Call.endThread rs :: beginEndCycles rest

/-- The root block after `begin(n)` and the matching `end()` on the root
block `root`. -/
def ProfiledBlock.afterCycle (root : ProfiledBlock) (n : ProfilerString) (r r' : Reading) :
    ProfiledBlock :=
  ((root.setName n).setBasic ((root.setName n).basic.beginSample r)).setBasic
    ((((root.setName n).setBasic ((root.setName n).basic.beginSample r)).basic).endSample r')

/-- The calls `beginSamplePrecise(name); endSamplePrecise(name)` issued `n`
times, all with the readings zero. -/
def precisePairs (name : ProfilerString) : Nat → List Call
  | 0 => []
  | n + 1 =>
    Call.beginSamplePrecise name ⟨0, 0, 0, 0⟩ ⟨0, 0, 0, 0⟩
      :: Call.endSamplePrecise name ⟨0, 0, 0, 0⟩ :: precisePairs name n

/-- The root "Main" with its Basic accumulator `basic` and the one child "A"
that holds the Precise samples `l`. -/
def preciseLoopTree (basic : ProfileData) (l : List PreciseProfileSample) : ProfiledBlock :=
  ProfiledBlock.mk "Main" basic PreciseProfileData.new
    [ProfiledBlock.mk "A" ProfileData.new ⟨l, ⟨0, 0⟩, 0, 0⟩ []]

/-- The thread between two pairs "A" issued below the root "Main". -/
def preciseLoopState (l : List PreciseProfileSample) : ThreadInfo :=
  ⟨true, some (preciseLoopTree (ProfileData.new.beginSample ⟨0, 0, 0, 0⟩) l),
    ⟨ActiveSamplingType.Basic, some []⟩, [⟨ActiveSamplingType.Basic, some []⟩]⟩

/-! # Theorems -/

/-- A name without a NUL character is the string that `c_str()` gives. -/
theorem c_str_of_not_mem (s : ProfilerString) (h : Char.ofNat 0 ∉ s.data) : c_str s = s := by
  unfold c_str
  have : s.data.takeWhile (fun c => c != Char.ofNat 0) = s.data := by
    rw [List.takeWhile_eq_self_iff]
    intro c hc
    simp only [bne_iff_ne, ne_eq]
    intro h0
    exact h (h0 ▸ hc)
  rw [this]

theorem length_modifyNth {α : Type} (l : List α) (i : Nat) (f : α → α) :
    (modifyNth l i f).length = l.length := by
  unfold modifyNth
  split <;> simp

theorem getElem?_modifyNth {α : Type} (l : List α) (i j : Nat) (f : α → α) :
    (modifyNth l i f)[j]? = if i = j then l[j]?.map f else l[j]? := by
  unfold modifyNth
  split
  · rename_i a h
    rw [List.getElem?_set]
    by_cases hij : i = j
    · subst hij
      have hlt : i < l.length := by
        by_contra hn
        rw [List.getElem?_eq_none (by omega)] at h
        cases h
      simp [h, hlt]
    · simp [hij]
  · rename_i h
    by_cases hij : i = j
    · subst hij
      simp [h]
    · simp [hij]

theorem getElem?_modifyNth_ne {α : Type} (l : List α) {i j : Nat} (f : α → α) (h : i ≠ j) :
    (modifyNth l i f)[j]? = l[j]? := by
  rw [getElem?_modifyNth, if_neg h]

theorem getElem?_modifyNth_self {α : Type} (l : List α) (i : Nat) (f : α → α) :
    (modifyNth l i f)[i]? = l[i]?.map f := by
  rw [getElem?_modifyNth, if_pos rfl]

theorem modifyNth_append_left {α : Type} (l r : List α) (i : Nat) (f : α → α)
    (h : i < l.length) : modifyNth (l ++ r) i f = modifyNth l i f ++ r := by
  apply List.ext_getElem?
  intro j
  rw [getElem?_modifyNth]
  by_cases hj : j < l.length
  · rw [List.getElem?_append_left hj,
      List.getElem?_append_left (by rw [length_modifyNth]; exact hj), getElem?_modifyNth]
  · have hij : i ≠ j := by omega
    rw [if_neg hij, List.getElem?_append_right (by omega),
      List.getElem?_append_right (by rw [length_modifyNth]; omega), length_modifyNth]

theorem modifyNth_modifyNth {α : Type} (l : List α) (i : Nat) (f g : α → α) :
    modifyNth (modifyNth l i f) i g = modifyNth l i (fun a => g (f a)) := by
  apply List.ext_getElem?
  intro j
  simp only [getElem?_modifyNth]
  by_cases hij : i = j
  · simp [hij, Function.comp_def]
  · simp [hij]

theorem length_newTempEntries (n : Nat) (cs : List ProfiledBlock) :
    (newTempEntries n cs).length = cs.length := by
  induction cs generalizing n with
  | nil => rfl
  | cons c cs ih => simp [newTempEntries, ih]

theorem getElem?_newTempEntries (n k : Nat) (cs : List ProfiledBlock) :
    (newTempEntries n cs)[k]? = cs[k]?.map (fun c => ⟨some c, n + k, []⟩) := by
  induction cs generalizing n k with
  | nil => simp [newTempEntries]
  | cons c cs ih =>
    cases k with
    | zero => simp [newTempEntries]
    | succ k =>
      simp only [newTempEntries, List.getElem?_cons_succ, ih]
      have : n + 1 + k = n + (k + 1) := by omega
      rw [this]

/-- Closed form of the loop over the children of the block that the flattening
pops. -/
theorem foldl_flattenChild (children : List ProfiledBlock) (st : FlattenState) (cur : Nat)
    (h : cur < st.flatHierarchy.length) :
    children.foldl (flattenChild cur) st =
      { todo := (List.range' st.entryIdx children.length).reverse ++ st.todo
        flatHierarchy :=
          modifyNth st.flatHierarchy cur
              (fun e => { e with childIndexes :=
                e.childIndexes ++ List.range' st.entryIdx children.length })
            ++ newTempEntries st.entryIdx children
        entryIdx := st.entryIdx + children.length } := by
  induction children generalizing st with
  | nil =>
    cases st with
    | mk todo flat n =>
      simp only [List.foldl_nil, List.length_nil, List.range'_zero, List.reverse_nil,
        List.nil_append, List.append_nil, newTempEntries, Nat.add_zero, FlattenState.mk.injEq,
        true_and, and_true]
      apply List.ext_getElem?
      intro j
      rw [getElem?_modifyNth]
      split
      · cases flat[j]? <;> simp
      · rfl
  | cons c cs ih =>
    rw [List.foldl_cons, ih]
    · simp only [flattenChild, List.length_cons, FlattenState.mk.injEq]
      refine ⟨?_, ?_, by omega⟩
      · rw [List.range'_succ]
        simp
      · rw [modifyNth_append_left _ _ _ _ (by rw [length_modifyNth]; exact h),
          modifyNth_modifyNth, List.append_assoc]
        simp only [newTempEntries, List.singleton_append, TempEntry.pushChild,
          List.append_assoc, List.range'_succ]
    · simp only [flattenChild, List.length_append, length_modifyNth, List.length_singleton]
      omega

theorem numBlocks_eq (b : ProfiledBlock) :
    b.numBlocks = 1 + ProfiledBlock.numBlocksList b.children := by
  cases b
  simp [ProfiledBlock.numBlocks, ProfiledBlock.children]

theorem numBlocksList_eq_sum (cs : List ProfiledBlock) :
    ProfiledBlock.numBlocksList cs = (cs.map ProfiledBlock.numBlocks).sum := by
  induction cs with
  | nil => rfl
  | cons c cs ih => simp [ProfiledBlock.numBlocksList, ih]

theorem length_flatStep (F : List TempEntry) (cur : Nat) (cs : List ProfiledBlock) :
    (flatStep F cur cs).length = F.length + cs.length := by
  simp [flatStep, length_modifyNth, length_newTempEntries]

theorem getElem?_flatStep_lt (F : List TempEntry) (cur : Nat) (cs : List ProfiledBlock)
    {i : Nat} (h : i < F.length) :
    (flatStep F cur cs)[i]? =
      if cur = i then
        F[i]?.map (fun e => { e with childIndexes := e.childIndexes ++ List.range' F.length cs.length })
      else F[i]? := by
  unfold flatStep
  rw [List.getElem?_append_left (by rw [length_modifyNth]; exact h), getElem?_modifyNth]

theorem getElem?_flatStep_ge (F : List TempEntry) (cur : Nat) (cs : List ProfiledBlock)
    {i : Nat} (h : F.length ≤ i) :
    (flatStep F cur cs)[i]? = cs[i - F.length]?.map (fun c => ⟨some c, i, []⟩) := by
  unfold flatStep
  rw [List.getElem?_append_right (by rw [length_modifyNth]; exact h), length_modifyNth,
    getElem?_newTempEntries]
  have : F.length + (i - F.length) = i := by omega
  rw [this]

theorem blockAt_flatStep_lt (F : List TempEntry) (cur : Nat) (cs : List ProfiledBlock)
    {i : Nat} (h : i < F.length) :
    blockAt (flatStep F cur cs) i = blockAt F i := by
  unfold blockAt
  rw [getElem?_flatStep_lt F cur cs h]
  split
  · cases F[i]? <;> rfl
  · rfl

theorem blockAt_flatStep_ge (F : List TempEntry) (cur : Nat) (cs : List ProfiledBlock)
    (k : Nat) :
    blockAt (flatStep F cur cs) (F.length + k) = cs[k]? := by
  unfold blockAt
  rw [getElem?_flatStep_ge F cur cs (by omega)]
  have : F.length + k - F.length = k := by omega
  rw [this]
  cases cs[k]? <;> rfl

theorem map_blockAt_range (F : List TempEntry) (cur : Nat) (cs : List ProfiledBlock) (n : Nat) :
    ∀ (m : Nat) (ds : List ProfiledBlock), ds.length = m →
      (∀ k, k < m → blockAt (flatStep F cur cs) (n + k) = ds[k]?) →
      (List.range' n m).map (blockAt (flatStep F cur cs)) = ds.map some := by
  intro m
  induction m generalizing n with
  | zero =>
    intro ds hl _
    have : ds = [] := List.length_eq_zero.mp hl
    subst this
    rfl
  | succ m ih =>
    intro ds hl h
    cases ds with
    | nil => simp at hl
    | cons d ds =>
      rw [List.range'_succ, List.map_cons, List.map_cons]
      have h0 := h 0 (by omega)
      simp only [Nat.add_zero, List.getElem?_cons_zero] at h0
      rw [h0]
      congr 1
      apply ih (n + 1) ds (by simpa using hl)
      intro k hk
      have := h (k + 1) (by omega)
      simp only [List.getElem?_cons_succ] at this
      rw [← this]
      congr 1
      omega

theorem flatStep_cases (F : List TempEntry) (cur : Nat) (cs : List ProfiledBlock) (i : Nat)
    (e' : TempEntry) (h : (flatStep F cur cs)[i]? = some e') :
    (i < F.length ∧ i ≠ cur ∧ F[i]? = some e') ∨
    (i = cur ∧ i < F.length ∧ ∃ e0, F[cur]? = some e0 ∧
      e' = { e0 with childIndexes := e0.childIndexes ++ List.range' F.length cs.length }) ∨
    (F.length ≤ i ∧ i < F.length + cs.length ∧ ∃ c, cs[i - F.length]? = some c ∧
      e' = ⟨some c, i, []⟩) := by
  by_cases hi : i < F.length
  · rw [getElem?_flatStep_lt F cur cs hi] at h
    by_cases hc : cur = i
    · subst hc
      rw [if_pos rfl] at h
      right; left
      refine ⟨rfl, hi, ?_⟩
      cases h0 : F[cur]? with
      | none => rw [h0] at h; simp at h
      | some e0 =>
        rw [h0] at h
        simp only [Option.map_some', Option.some.injEq] at h
        exact ⟨e0, rfl, h.symm⟩
    · rw [if_neg hc] at h
      left
      exact ⟨hi, fun h' => hc h'.symm, h⟩
  · right; right
    have hi' : F.length ≤ i := by omega
    rw [getElem?_flatStep_ge F cur cs hi'] at h
    cases h0 : cs[i - F.length]? with
    | none => rw [h0] at h; simp at h
    | some c =>
      rw [h0] at h
      simp only [Option.map_some', Option.some.injEq] at h
      have hlt : i - F.length < cs.length := by
        by_contra hn
        rw [List.getElem?_eq_none (by omega)] at h0
        cases h0
      exact ⟨hi', by omega, c, rfl, h.symm⟩

theorem sum_map_range'_blocks (F : List TempEntry) (cur : Nat) (cs : List ProfiledBlock) :
    ∀ (m n : Nat) (ds : List ProfiledBlock), ds.length = m →
      (∀ k, k < m → blockAt (flatStep F cur cs) (n + k) = ds[k]?) →
      ((List.range' n m).map (blocksBelow (flatStep F cur cs))).sum
        = ProfiledBlock.numBlocksList ds := by
  intro m
  induction m with
  | zero =>
    intro n ds hl _
    have : ds = [] := List.length_eq_zero.mp hl
    subst this
    rfl
  | succ m ih =>
    intro n ds hl h
    cases ds with
    | nil => simp at hl
    | cons d ds =>
      rw [List.range'_succ, List.map_cons, List.sum_cons]
      have h0 := h 0 (by omega)
      simp only [Nat.add_zero, List.getElem?_cons_zero] at h0
      rw [ih (n + 1) ds (by simpa using hl)]
      · simp only [blocksBelow, h0, ProfiledBlock.numBlocksList]
      · intro k hk
        have := h (k + 1) (by omega)
        simp only [List.getElem?_cons_succ] at this
        rw [← this]
        congr 1
        omega

/-- One iteration of the flattening loop keeps the invariant, visits one
block, and leaves the entries that are not on the stack as they are. -/
theorem flattenInv_step (st : FlattenState) (hinv : FlattenInv st) (cur : Nat) (rest : List Nat)
    (htodo : st.todo = cur :: rest) (e : TempEntry) (he : st.flatHierarchy[cur]? = some e)
    (b : ProfiledBlock) (hb : e.parentBlock = some b) :
    FlattenInv (b.children.foldl (flattenChild cur) { st with todo := rest }) ∧
    todoBlocks (b.children.foldl (flattenChild cur) { st with todo := rest }) + 1 = todoBlocks st ∧
    (∀ i, i < st.flatHierarchy.length →
      blockAt (b.children.foldl (flattenChild cur) { st with todo := rest }).flatHierarchy i
        = blockAt st.flatHierarchy i) := by
  obtain ⟨todo, F, n⟩ := st
  simp only at htodo he
  subst htodo
  have hn : n = F.length := hinv.idx
  subst hn
  have hcur : cur < F.length := by
    by_contra hn
    rw [List.getElem?_eq_none (by omega)] at he
    cases he
  have hIdx : ∀ (i : Nat) (e : TempEntry), F[i]? = some e → e.entryIdx = i := hinv.entryIdx_eq
  have hBlk : ∀ (i : Nat) (e : TempEntry), F[i]? = some e → ∃ b, e.parentBlock = some b :=
    hinv.block
  have hCR : ∀ (i : Nat) (e : TempEntry) (c : Nat), F[i]? = some e → c ∈ e.childIndexes →
      i < c ∧ c < F.length := hinv.child_range
  have hPend : ∀ i ∈ cur :: rest, ∀ (e : TempEntry), F[i]? = some e → e.childIndexes = [] :=
    hinv.pending
  have hExp : ∀ (i : Nat) (e : TempEntry) (b : ProfiledBlock), i ∉ cur :: rest →
      F[i]? = some e → e.parentBlock = some b →
      e.childIndexes.map (blockAt F) = b.children.map some := hinv.expanded
  have hUniq : ∀ (i j : Nat) (ei ej : TempEntry) (c : Nat), F[i]? = some ei → F[j]? = some ej →
      c ∈ ei.childIndexes → c ∈ ej.childIndexes → i = j := hinv.unique
  have hNd : ∀ (i : Nat) (e : TempEntry), F[i]? = some e → e.childIndexes.Nodup := hinv.nodup
  have hTodoLt : ∀ i ∈ cur :: rest, i < F.length := hinv.todo_lt
  have hPar : ∀ c, 0 < c → c < F.length →
      ∃ (p : Nat) (e : TempEntry), F[p]? = some e ∧ c ∈ e.childIndexes := hinv.has_parent
  have hech : e.childIndexes = [] := hPend cur (by simp) e he
  have hnd : (cur :: rest).Nodup := hinv.todo_nodup
  have hcur_rest : cur ∉ rest := (List.nodup_cons.mp hnd).1
  have hrest_nd : rest.Nodup := (List.nodup_cons.mp hnd).2
  have hrest_lt : ∀ i ∈ rest, i < F.length := fun i hi =>
    hTodoLt i (List.mem_cons_of_mem _ hi)
  clear hinv
  rw [foldl_flattenChild _ _ _ (by simpa using hcur)]
  simp only
  have hF : modifyNth F cur
        (fun e => { e with childIndexes :=
          e.childIndexes ++ List.range' F.length b.children.length })
      ++ newTempEntries F.length b.children
      = flatStep F cur b.children := rfl
  rw [hF]
  generalize hcsdef : b.children = cs at *
  refine ⟨?_, ?_, ?_⟩
  · constructor
    · simp [length_flatStep]
    · intro i e' h
      rcases flatStep_cases F cur cs i e' h with ⟨_, _, h0⟩ | ⟨rfl, _, e0, h0, rfl⟩ | ⟨_, _, c, _, rfl⟩
      · exact hIdx i e' h0
      · exact hIdx i e0 h0
      · rfl
    · intro i e' h
      rcases flatStep_cases F cur cs i e' h with ⟨_, _, h0⟩ | ⟨rfl, _, e0, h0, rfl⟩ | ⟨_, _, c, _, rfl⟩
      · exact hBlk i e' h0
      · exact hBlk i e0 h0
      · exact ⟨c, rfl⟩
    · intro i e' c h hc
      rw [length_flatStep]
      rcases flatStep_cases F cur cs i e' h with ⟨_, _, h0⟩ | ⟨rfl, hi, e0, h0, rfl⟩ | ⟨_, _, c', _, rfl⟩
      · have := hCR i e' c h0 hc
        omega
      · rw [he] at h0
        cases h0
        simp only [hech, List.nil_append, List.mem_range'_1] at hc
        omega
      · simp at hc
    · intro i hi
      rw [length_flatStep]
      simp only [List.mem_append, List.mem_reverse, List.mem_range'_1] at hi
      rcases hi with hi | hi
      · omega
      · have := hrest_lt i hi
        omega
    · simp only
      rw [List.nodup_append]
      refine ⟨List.nodup_reverse.mpr (List.nodup_range' _ _), hrest_nd, ?_⟩
      intro x hx hx'
      simp only [List.mem_reverse, List.mem_range'_1] at hx
      have := hrest_lt x hx'
      omega
    · intro i hi e' h
      simp only [List.mem_append, List.mem_reverse, List.mem_range'_1] at hi
      rcases flatStep_cases F cur cs i e' h with ⟨_, _, h0⟩ | ⟨rfl, hilt, e0, h0, rfl⟩ | ⟨_, _, c', _, rfl⟩
      · rcases hi with hi | hi
        · omega
        · exact hPend i (List.mem_cons_of_mem _ hi) e' h0
      · rcases hi with hi | hi
        · omega
        · exact absurd hi hcur_rest
      · rfl
    · intro i e' b' hi h hb'
      simp only [List.mem_append, List.mem_reverse, List.mem_range'_1, not_or] at hi
      rcases flatStep_cases F cur cs i e' h with ⟨hilt, hne, h0⟩ | ⟨rfl, hilt, e0, h0, rfl⟩ | ⟨h1, h2, c', _, rfl⟩
      · have hnot : i ∉ (cur :: rest) := by
          simp only [List.mem_cons, not_or]
          exact ⟨hne, hi.2⟩
        rw [← hExp i e' b' hnot h0 hb']
        apply List.map_congr_left
        intro c hc
        exact blockAt_flatStep_lt F cur cs (hCR i e' c h0 hc).2
      · rw [he] at h0
        cases h0
        simp only [hech, List.nil_append]
        rw [hb] at hb'
        cases hb'
        rw [hcsdef]
        apply map_blockAt_range F i cs F.length cs.length cs rfl
        intro k _
        exact blockAt_flatStep_ge F i cs k
      · exfalso
        apply hi.1
        omega
    · intro i j ei ej c hi hj hci hcj
      rcases flatStep_cases F cur cs i ei hi with ⟨hilt, hne, h0⟩ | ⟨rfl, hilt, e0, h0, rfl⟩ | ⟨h1, h2, c', _, rfl⟩
      · rcases flatStep_cases F cur cs j ej hj with ⟨hjlt, hnej, h0'⟩ | ⟨rfl, hjlt, e0', h0', rfl⟩ | ⟨h1', h2', c'', _, rfl⟩
        · exact hUniq i j ei ej c h0 h0' hci hcj
        · rw [he] at h0'
          cases h0'
          simp only [hech, List.nil_append, List.mem_range'_1] at hcj
          have := hCR i ei c h0 hci
          omega
        · simp at hcj
      · rw [he] at h0
        cases h0
        simp only [hech, List.nil_append, List.mem_range'_1] at hci
        rcases flatStep_cases F i cs j ej hj with ⟨hjlt, hnej, h0'⟩ | ⟨rfl, hjlt, e0', h0', rfl⟩ | ⟨h1', h2', c'', _, rfl⟩
        · have := hCR j ej c h0' hcj
          omega
        · rfl
        · simp at hcj
      · simp at hci
    · intro i e' h
      rcases flatStep_cases F cur cs i e' h with ⟨_, _, h0⟩ | ⟨rfl, _, e0, h0, rfl⟩ | ⟨_, _, c, _, rfl⟩
      · exact hNd i e' h0
      · rw [he] at h0
        cases h0
        simp only [hech, List.nil_append]
        exact List.nodup_range' _ _
      · exact List.nodup_nil
    · intro c hc0 hc
      rw [length_flatStep] at hc
      by_cases hcn : c < F.length
      · obtain ⟨p, e0, hp, hmem⟩ := hPar c hc0 hcn
        have hplt : p < F.length := by
          by_contra hn
          rw [List.getElem?_eq_none (by omega)] at hp
          cases hp
        by_cases hpc : cur = p
        · subst hpc
          refine ⟨cur, { e0 with childIndexes :=
            e0.childIndexes ++ List.range' F.length cs.length }, ?_, List.mem_append_left _ hmem⟩
          rw [getElem?_flatStep_lt F cur cs hplt, if_pos rfl, hp]
          rfl
        · refine ⟨p, e0, ?_, hmem⟩
          rw [getElem?_flatStep_lt F cur cs hplt, if_neg hpc, hp]
      · refine ⟨cur, { e with childIndexes :=
          e.childIndexes ++ List.range' F.length cs.length }, ?_, List.mem_append_right _ ?_⟩
        · rw [getElem?_flatStep_lt F cur cs hcur, if_pos rfl, he]
          rfl
        · rw [List.mem_range'_1]
          omega
  · unfold todoBlocks
    simp only [List.map_append, List.sum_append, List.map_cons, List.sum_cons,
      List.map_reverse, List.sum_reverse]
    rw [sum_map_range'_blocks F cur cs cs.length F.length cs rfl
      (fun k _ => blockAt_flatStep_ge F cur cs k)]
    have h1 : blocksBelow F cur = b.numBlocks := by
      unfold blocksBelow blockAt
      rw [he]
      simp [hb]
    rw [h1, numBlocks_eq, hcsdef]
    have h2 : rest.map (blocksBelow (flatStep F cur cs)) = rest.map (blocksBelow F) := by
      apply List.map_congr_left
      intro i hi
      unfold blocksBelow
      rw [blockAt_flatStep_lt F cur cs (hrest_lt i hi)]
    rw [h2]
    omega
  · intro i hi
    exact blockAt_flatStep_lt F cur cs hi

theorem numBlocks_pos (b : ProfiledBlock) : 0 < b.numBlocks := by
  rw [numBlocks_eq]
  omega

/-- The flattening loop ends within as many iterations as there are blocks
to visit, with the invariant and an empty stack. -/
theorem flattenLoop_ok (fuel : Nat) : ∀ (st : FlattenState), FlattenInv st → todoBlocks st ≤ fuel →
    ∃ st', flattenLoop fuel st = Except.ok st' ∧ FlattenInv st' ∧ st'.todo = [] ∧
      (∀ i, i < st.flatHierarchy.length →
        blockAt st'.flatHierarchy i = blockAt st.flatHierarchy i) := by
  induction fuel with
  | zero =>
    intro st hinv hfuel
    cases htodo : st.todo with
    | nil =>
      refine ⟨st, ?_, hinv, htodo, fun _ _ => rfl⟩
      simp [flattenLoop, htodo]
    | cons cur rest =>
      exfalso
      have hlt := hinv.todo_lt cur (by rw [htodo]; simp)
      obtain ⟨b, hb⟩ := hinv.block cur st.flatHierarchy[cur] (List.getElem?_eq_getElem hlt)
      have : blocksBelow st.flatHierarchy cur = b.numBlocks := by
        unfold blocksBelow blockAt
        rw [List.getElem?_eq_getElem hlt]
        simp [hb]
      have hpos := numBlocks_pos b
      unfold todoBlocks at hfuel
      rw [htodo, List.map_cons, List.sum_cons, this] at hfuel
      omega
  | succ fuel ih =>
    intro st hinv hfuel
    cases htodo : st.todo with
    | nil =>
      refine ⟨st, ?_, hinv, htodo, fun _ _ => rfl⟩
      simp [flattenLoop, htodo]
    | cons cur rest =>
      have hlt := hinv.todo_lt cur (by rw [htodo]; simp)
      have he : st.flatHierarchy[cur]? = some st.flatHierarchy[cur] := List.getElem?_eq_getElem hlt
      obtain ⟨b, hb⟩ := hinv.block cur st.flatHierarchy[cur] he
      obtain ⟨hinv', hmeasure, hblock⟩ := flattenInv_step st hinv cur rest htodo _ he b hb
      obtain ⟨st', hrun, hinv'', hempty, hblock'⟩ := ih _ hinv' (by omega)
      refine ⟨st', ?_, hinv'', hempty, ?_⟩
      · simp only [flattenLoop, htodo, he, hb]
        exact hrun
      · intro i hi
        have hle : st.flatHierarchy.length ≤
            (b.children.foldl (flattenChild cur) { st with todo := rest }).flatHierarchy.length := by
          rw [foldl_flattenChild _ _ _ (by simpa using hlt)]
          simp only [List.length_append, length_modifyNth]
          omega
        rw [hblock' i (by omega), hblock i hi]

/-- The flattening completes for every tree, and its result has the
properties collected in `FlatOK`. -/
theorem flatten_ok (rootBlock : ProfiledBlock) :
    ∃ flat, flatten rootBlock = Except.ok flat ∧ FlatOK rootBlock flat := by
  have hinit : FlattenInv ⟨[0], [⟨some rootBlock, 0, []⟩], 1⟩ := by
    constructor
    · rfl
    · intro i e h
      cases i with
      | zero => simp at h; subst h; rfl
      | succ i => simp at h
    · intro i e h
      cases i with
      | zero => simp at h; subst h; exact ⟨rootBlock, rfl⟩
      | succ i => simp at h
    · intro i e c h hc
      cases i with
      | zero => simp at h; subst h; simp at hc
      | succ i => simp at h
    · intro i hi
      simp at hi
      subst hi
      simp
    · simp
    · intro i hi e h
      simp at hi
      subst hi
      simp at h
      subst h
      rfl
    · intro i e b hi h
      cases i with
      | zero => simp at hi
      | succ i => simp at h
    · intro i j ei ej c hi hj hci
      cases i with
      | zero => simp at hi; subst hi; simp at hci
      | succ i => simp at hi
    · intro i e h
      cases i with
      | zero => simp at h; subst h; exact List.nodup_nil
      | succ i => simp at h
    · intro c hc0 hc
      simp at hc
      omega
  have hfuel : todoBlocks ⟨[0], [⟨some rootBlock, 0, []⟩], 1⟩ ≤ rootBlock.numBlocks := by
    simp [todoBlocks, blocksBelow, blockAt]
  obtain ⟨st', hrun, hinv, hempty, hblock⟩ := flattenLoop_ok _ _ hinit hfuel
  refine ⟨st'.flatHierarchy, ?_, ?_⟩
  · simp [flatten, hrun]
  · constructor
    · rw [hblock 0 (by simp)]
      rfl
    · exact hinv.entryIdx_eq
    · exact hinv.block
    · exact hinv.child_range
    · intro i e b h hb
      exact hinv.expanded i e b (by rw [hempty]; simp) h hb
    · exact hinv.unique
    · exact hinv.nodup
    · exact hinv.has_parent

@[simp] theorem BasicData.setPct_totalTimeMs (p : FloatVal) (d : BasicData) :
    (d.setPct p).totalTimeMs = d.totalTimeMs := rfl

@[simp] theorem BasicData.setPct_estimatedOverheadMs (p : FloatVal) (d : BasicData) :
    (d.setPct p).estimatedOverheadMs = d.estimatedOverheadMs := rfl

@[simp] theorem BasicData.setPct_setPct (p q : FloatVal) (d : BasicData) :
    (d.setPct p).setPct q = d.setPct q := rfl

@[simp] theorem BasicData.setOverhead_totalTimeMs (o : ℚ) (d : BasicData) :
    (d.setOverhead o).totalTimeMs = d.totalTimeMs := rfl

@[simp] theorem BasicData.setOverhead_estimatedOverheadMs (o : ℚ) (d : BasicData) :
    (d.setOverhead o).estimatedOverheadMs = o := rfl

@[simp] theorem BasicData.setOverhead_setOverhead (o o' : ℚ) (d : BasicData) :
    (d.setOverhead o).setOverhead o' = d.setOverhead o' := rfl

theorem BasicData.setOverhead_self (d : BasicData) :
    d.setOverhead d.estimatedOverheadMs = d := rfl

theorem foldl_basicChildStep (j : Nat) (ch : List Nat) (hj : j ∉ ch) :
    ∀ (acc : ℚ) (entries : List BasicData),
      (ch.foldl (basicChildStep j) (acc, entries)).1 = basicChildTotal entries ch acc ∧
      (ch.foldl (basicChildStep j) (acc, entries)).2.length = entries.length ∧
      ∀ x, (ch.foldl (basicChildStep j) (acc, entries)).2[x]?
        = entries[x]?.map (basicChildEffect entries j ch x) := by
  induction ch with
  | nil =>
    intro acc entries
    refine ⟨rfl, rfl, ?_⟩
    intro x
    cases hx : entries[x]? with
    | none => simp [hx]
    | some e =>
      by_cases hxj : x = j
      · subst hxj
        simp [hx, basicChildEffect, basicChildOverhead, BasicData.setOverhead_self]
      · simp [hx, hxj, basicChildEffect]
  | cons c ch ih =>
    intro acc entries
    have hcj : c ≠ j := fun h => hj (by simp [h])
    have hj' : j ∉ ch := fun h => hj (List.mem_cons_of_mem _ h)
    rw [List.foldl_cons]
    -- the vector after the step for `c`
    have hstep : basicChildStep j (acc, entries) c =
        (acc + (entries.getD c default).totalTimeMs,
          modifyNth (modifyNth entries c
            (fun d => d.setPct (basicPctOfParent d.totalTimeMs (entries.getD j default).totalTimeMs))) j
            (fun e => e.setOverhead
              (e.estimatedOverheadMs + (entries.getD c default).estimatedOverheadMs))) := rfl
    rw [hstep]
    generalize hE1 : modifyNth (modifyNth entries c
            (fun d => d.setPct (basicPctOfParent d.totalTimeMs (entries.getD j default).totalTimeMs))) j
            (fun e => e.setOverhead
              (e.estimatedOverheadMs + (entries.getD c default).estimatedOverheadMs)) = E1
    have hget : ∀ x, E1[x]? = entries[x]?.map (fun e =>
        if x = j then
          e.setOverhead (e.estimatedOverheadMs + (entries.getD c default).estimatedOverheadMs)
        else if x = c then
          e.setPct (basicPctOfParent e.totalTimeMs (entries.getD j default).totalTimeMs)
        else e) := by
      intro x
      rw [← hE1, getElem?_modifyNth, getElem?_modifyNth]
      by_cases hxj : x = j
      · subst hxj
        simp [hcj]
      · by_cases hxc : x = c
        · subst hxc
          simp [hxj, Ne.symm hxj]
        · simp [hxj, hxc, Ne.symm hxj, Ne.symm hxc]
    have htot : ∀ x, (E1.getD x default).totalTimeMs = (entries.getD x default).totalTimeMs := by
      intro x
      rw [List.getD_eq_getElem?_getD, List.getD_eq_getElem?_getD, hget x]
      cases entries[x]? with
      | none => rfl
      | some e =>
        simp only [Option.map_some', Option.getD_some]
        split
        · simp
        · split <;> simp
    have hov : ∀ x, x ≠ j →
        (E1.getD x default).estimatedOverheadMs = (entries.getD x default).estimatedOverheadMs := by
      intro x hxj
      rw [List.getD_eq_getElem?_getD, List.getD_eq_getElem?_getD, hget x]
      cases entries[x]? with
      | none => rfl
      | some e =>
        simp only [Option.map_some', Option.getD_some, hxj, if_false]
        split <;> simp
    obtain ⟨h1, h2, h3⟩ := ih hj' (acc + (entries.getD c default).totalTimeMs) E1
    refine ⟨?_, ?_, ?_⟩
    · rw [h1]
      unfold basicChildTotal
      rw [List.foldl_cons]
      congr 1
      funext a k
      rw [htot]
    · rw [h2, ← hE1, length_modifyNth, length_modifyNth]
    · intro x
      rw [h3, hget]
      cases entries[x]? with
      | none => simp only [Option.map_none']
      | some e =>
        simp only [Option.map_some', Option.some.injEq]
        have hovfold : ∀ a, basicChildOverhead E1 ch a = basicChildOverhead entries ch a := by
          intro a
          unfold basicChildOverhead
          apply List.foldl_ext
          intro a k hk
          rw [hov k (fun h => hj' (h ▸ hk))]
        unfold basicChildEffect
        by_cases hxj : x = j
        · simp only [hxj, if_true, hovfold]
          simp [basicChildOverhead]
        · by_cases hxc : x = c
          · subst hxc
            simp only [hxj, if_false, if_true, List.mem_cons, true_or, htot]
            split <;> simp
          · simp only [hxj, if_false, hxc, List.mem_cons, false_or, htot]

theorem foldl_basic_totalTimeMs (samples : List ProfileSample) :
    ∀ e : BasicData,
      (samples.foldl
        (fun (e : BasicData) sample =>
          { e with totalTimeMs := e.totalTimeMs + sample.time
                   maxTimeMs := max e.maxTimeMs sample.time
                   memAllocs := add64 e.memAllocs sample.numAllocs
                   memFrees := add64 e.memFrees sample.numFrees }) e).totalTimeMs
        = samples.foldl (fun a s => a + s.time) e.totalTimeMs := by
  induction samples with
  | nil => intro e; rfl
  | cons s samples ih => intro e; rw [List.foldl_cons, ih]; rfl

theorem foldl_basic_frame (samples : List ProfileSample) :
    ∀ e : BasicData,
      let r := samples.foldl
        (fun (e : BasicData) sample =>
          { e with totalTimeMs := e.totalTimeMs + sample.time
                   maxTimeMs := max e.maxTimeMs sample.time
                   memAllocs := add64 e.memAllocs sample.numAllocs
                   memFrees := add64 e.memFrees sample.numFrees }) e
      r.name = e.name ∧ r.numCalls = e.numCalls ∧ r.pctOfParent = e.pctOfParent ∧
      r.estimatedOverheadMs = e.estimatedOverheadMs := by
  induction samples with
  | nil => intro e; exact ⟨rfl, rfl, rfl, rfl⟩
  | cons s samples ih =>
    intro e
    simp only [List.foldl_cons]
    exact ih _

theorem basicOwnStats_totalTimeMs (b : ProfiledBlock) (e : BasicData) :
    (basicOwnStats b e).totalTimeMs = basicTotalTime b := by
  unfold basicOwnStats basicTotalTime
  simp only
  split <;> simp only [foldl_basic_totalTimeMs]

theorem basicOwnStats_name (b : ProfiledBlock) (e : BasicData) :
    (basicOwnStats b e).name = c_str b.name := by
  unfold basicOwnStats
  simp only
  split <;> simp only [(foldl_basic_frame _ _).1]

theorem basicOwnStats_numCalls (b : ProfiledBlock) (e : BasicData) :
    (basicOwnStats b e).numCalls = b.basic.samples.length % 2 ^ 32 := by
  unfold basicOwnStats
  simp only
  split <;> rfl

theorem basicOwnStats_pctOfParent (b : ProfiledBlock) (e : BasicData) :
    (basicOwnStats b e).pctOfParent = e.pctOfParent := by
  unfold basicOwnStats
  simp only
  split <;> simp only [(foldl_basic_frame _ _).2.2.1]

theorem basicFinish_totalTimeMs (self : ProfilerCPU) (b : ProfiledBlock) (t : ℚ) (e : BasicData) :
    (basicFinish self b t e).totalTimeMs = e.totalTimeMs := by
  unfold basicFinish
  simp only
  split <;> rfl

theorem basicFinish_name (self : ProfilerCPU) (b : ProfiledBlock) (t : ℚ) (e : BasicData) :
    (basicFinish self b t e).name = e.name := by
  unfold basicFinish
  simp only
  split <;> rfl

theorem basicFinish_numCalls (self : ProfilerCPU) (b : ProfiledBlock) (t : ℚ) (e : BasicData) :
    (basicFinish self b t e).numCalls = e.numCalls := by
  unfold basicFinish
  simp only
  split <;> rfl

theorem basicFinish_pctOfParent (self : ProfilerCPU) (b : ProfiledBlock) (t : ℚ)
    (e : BasicData) : (basicFinish self b t e).pctOfParent = e.pctOfParent := by
  unfold basicFinish
  simp only
  split <;> rfl

theorem basicFinish_totalSelfTimeMs (self : ProfilerCPU) (b : ProfiledBlock) (t : ℚ)
    (e : BasicData) : (basicFinish self b t e).totalSelfTimeMs = e.totalTimeMs - t := by
  unfold basicFinish
  simp only
  split <;> rfl

theorem basicAggregated_totalTimeMs (self : ProfilerCPU) (b : ProfiledBlock) (ch : List Nat)
    (entries : List BasicData) (e0 : BasicData) :
    (basicAggregated self b ch entries e0).totalTimeMs = basicTotalTime b := by
  unfold basicAggregated
  rw [basicFinish_totalTimeMs, BasicData.setOverhead_totalTimeMs, basicOwnStats_totalTimeMs]

theorem basicAggregated_name (self : ProfilerCPU) (b : ProfiledBlock) (ch : List Nat)
    (entries : List BasicData) (e0 : BasicData) :
    (basicAggregated self b ch entries e0).name = c_str b.name := by
  unfold basicAggregated
  rw [basicFinish_name]
  exact basicOwnStats_name b e0

theorem basicAggregated_numCalls (self : ProfilerCPU) (b : ProfiledBlock) (ch : List Nat)
    (entries : List BasicData) (e0 : BasicData) :
    (basicAggregated self b ch entries e0).numCalls = b.basic.samples.length % 2 ^ 32 := by
  unfold basicAggregated
  rw [basicFinish_numCalls]
  exact basicOwnStats_numCalls b e0

theorem basicAggregated_pctOfParent (self : ProfilerCPU) (b : ProfiledBlock) (ch : List Nat)
    (entries : List BasicData) (e0 : BasicData) :
    (basicAggregated self b ch entries e0).pctOfParent = e0.pctOfParent := by
  unfold basicAggregated
  rw [basicFinish_pctOfParent]
  exact basicOwnStats_pctOfParent b e0

theorem basicAggregated_totalSelfTimeMs (self : ProfilerCPU) (b : ProfiledBlock) (ch : List Nat)
    (entries : List BasicData) (e0 : BasicData) :
    (basicAggregated self b ch entries e0).totalSelfTimeMs
      = basicTotalTime b - basicChildTotal entries ch 0 := by
  unfold basicAggregated
  rw [basicFinish_totalSelfTimeMs, BasicData.setOverhead_totalTimeMs, basicOwnStats_totalTimeMs]

/-- The entry of a block depends on the vector only through the totals and the
overheads of the child entries. -/
theorem basicAggregated_congr (self : ProfilerCPU) (b : ProfiledBlock) (ch : List Nat)
    (entries entries' : List BasicData) (e0 : BasicData)
    (h : ∀ c ∈ ch, (entries'.getD c default).totalTimeMs = (entries.getD c default).totalTimeMs ∧
      (entries'.getD c default).estimatedOverheadMs
        = (entries.getD c default).estimatedOverheadMs) :
    basicAggregated self b ch entries' e0 = basicAggregated self b ch entries e0 := by
  unfold basicAggregated
  have h1 : basicChildTotal entries' ch 0 = basicChildTotal entries ch 0 := by
    unfold basicChildTotal
    apply List.foldl_ext
    intro a c hc
    rw [(h c hc).1]
  have h2 : ∀ a, basicChildOverhead entries' ch a = basicChildOverhead entries ch a := by
    intro a
    unfold basicChildOverhead
    apply List.foldl_ext
    intro a c hc
    rw [(h c hc).2]
  rw [h1, h2]

/-- Closed form of the Basic half of the loop body for the entry at `j`. -/
theorem aggregateBasicStep_get (self : ProfilerCPU) (b : ProfiledBlock) (j : Nat) (ch : List Nat)
    (entries : List BasicData) (hj : j ∉ ch) (hlt : j < entries.length) :
    (aggregateBasicStep self ⟨some b, j, ch⟩ entries).length = entries.length ∧
    ∀ x, (aggregateBasicStep self ⟨some b, j, ch⟩ entries)[x]? =
      entries[x]?.map (fun e =>
        if x = j then basicAggregated self b ch entries e
        else if x ∈ ch then e.setPct (basicPctOfParent e.totalTimeMs (basicTotalTime b))
        else e) := by
  unfold aggregateBasicStep
  simp only
  obtain ⟨h1, h2, h3⟩ := foldl_basicChildStep j ch hj 0 (modifyNth entries j (basicOwnStats b))
  generalize hr : ch.foldl (basicChildStep j) (0, modifyNth entries j (basicOwnStats b)) = r at *
  obtain ⟨tot, E2⟩ := r
  simp only at h1 h2 h3 ⊢
  have hE1j : (modifyNth entries j (basicOwnStats b)).getD j default
      = basicOwnStats b (entries.getD j default) := by
    rw [List.getD_eq_getElem?_getD, List.getD_eq_getElem?_getD, getElem?_modifyNth_self,
      List.getElem?_eq_getElem hlt]
    rfl
  have hE1c : ∀ c, c ≠ j → (modifyNth entries j (basicOwnStats b)).getD c default
      = entries.getD c default := by
    intro c hc
    rw [List.getD_eq_getElem?_getD, List.getD_eq_getElem?_getD,
      getElem?_modifyNth_ne _ _ (Ne.symm hc)]
  have htot : tot = basicChildTotal entries ch 0 := by
    rw [h1]
    unfold basicChildTotal
    apply List.foldl_ext
    intro a c hc
    rw [hE1c c (fun h => hj (h ▸ hc))]
  have hovf : ∀ a, basicChildOverhead (modifyNth entries j (basicOwnStats b)) ch a
      = basicChildOverhead entries ch a := by
    intro a
    unfold basicChildOverhead
    apply List.foldl_ext
    intro a c hc
    rw [hE1c c (fun h => hj (h ▸ hc))]
  refine ⟨by rw [length_modifyNth, h2, length_modifyNth], ?_⟩
  intro x
  rw [getElem?_modifyNth, h3, getElem?_modifyNth]
  by_cases hxj : x = j
  · subst hxj
    simp only [if_true, Option.map_map]
    cases entries[x]? with
    | none => rfl
    | some e =>
      simp only [Option.map_some', Function.comp_apply, basicChildEffect, if_true, hovf, htot]
      rfl
  · simp only [hxj, Ne.symm hxj, if_false]
    cases entries[x]? with
    | none => rfl
    | some e =>
      simp only [Option.map_some', basicChildEffect, hxj, if_false, hE1j,
        basicOwnStats_totalTimeMs]

theorem BasicData.totalTimeMs_of_core {d d' : BasicData}
    (h : d.setPct FloatVal.nan = d'.setPct FloatVal.nan) : d.totalTimeMs = d'.totalTimeMs := by
  have h' := congrArg BasicData.totalTimeMs h
  simpa using h'

theorem BasicData.estimatedOverheadMs_of_core {d d' : BasicData}
    (h : d.setPct FloatVal.nan = d'.setPct FloatVal.nan) :
    d.estimatedOverheadMs = d'.estimatedOverheadMs := by
  have h' := congrArg BasicData.estimatedOverheadMs h
  simpa using h'

theorem getElem?_append_cons_length {α : Type} (pre suf : List α) (e : α) :
    (pre ++ e :: suf)[pre.length]? = some e := by
  rw [List.getElem?_append_right (Nat.le_refl _)]
  simp

theorem basicAggInv_suffix (self : ProfilerCPU) (rootBlock : ProfiledBlock) (flat : List TempEntry)
    (hflat : FlatOK rootBlock flat) :
    ∀ (suf pre : List TempEntry), flat = pre ++ suf →
      BasicAggInv self flat pre.length
        (suf.foldr (aggregateBasicStep self) (List.replicate flat.length default)) := by
  intro suf
  induction suf with
  | nil =>
    intro pre hpre
    have hk : pre.length = flat.length := by rw [hpre]; simp
    constructor
    · simp
    · intro x _ hx
      simp [List.getElem?_replicate, hx]
    · intro x e b hx he
      exfalso
      have : x < flat.length := by
        by_contra hn
        rw [List.getElem?_eq_none (by omega)] at he
        cases he
      omega
    · intro x p ep hp hep
      exfalso
      have : p < flat.length := by
        by_contra hn
        rw [List.getElem?_eq_none (by omega)] at hep
        cases hep
      omega
    · intro x hx _
      refine ⟨default, ?_, rfl⟩
      simp [List.getElem?_replicate, hx]
  | cons e suf ih =>
    intro pre hpre
    have hpre' : flat = (pre ++ [e]) ++ suf := by rw [hpre]; simp
    have hinv := ih (pre ++ [e]) hpre'
    rw [List.length_append, List.length_singleton] at hinv
    rw [List.foldr_cons]
    generalize suf.foldr (aggregateBasicStep self) (List.replicate flat.length default) = arr at *
    generalize hk : pre.length = k at *
    have hek : flat[k]? = some e := by
      rw [hpre, ← hk]
      exact getElem?_append_cons_length pre suf e
    have hkn : k < flat.length := by
      by_contra hn
      rw [List.getElem?_eq_none (by omega)] at hek
      cases hek
    obtain ⟨b, hb⟩ := hflat.block k e hek
    have hidx := hflat.entryIdx_eq k e hek
    have hch : ∀ c ∈ e.childIndexes, k < c ∧ c < flat.length := fun c hc =>
      hflat.child_range k e c hek hc
    have hknot : k ∉ e.childIndexes := fun h => by
      have := (hch k h).1
      omega
    have he_eq : e = ⟨some b, k, e.childIndexes⟩ := by
      cases e
      simp only at hb hidx
      subst hb hidx
      rfl
    obtain ⟨hlen, hget⟩ := aggregateBasicStep_get self b k e.childIndexes arr hknot
      (by rw [hinv.length]; exact hkn)
    rw [← he_eq] at hlen hget
    generalize aggregateBasicStep self e arr = arr' at *
    have harrk : arr[k]? = some default := hinv.untouched k (by omega) hkn
    -- the element at `k`
    have hgetk : arr'[k]? = some (basicAggregated self b e.childIndexes arr default) := by
      rw [hget k, harrk]
      simp
    -- the other elements change in `pctOfParent` at most
    have hgetx : ∀ x, x ≠ k → ∀ d, arr[x]? = some d →
        ∃ d', arr'[x]? = some d' ∧ d'.setPct FloatVal.nan = d.setPct FloatVal.nan ∧
          (x ∉ e.childIndexes → d' = d) ∧
          (x ∈ e.childIndexes →
            d'.pctOfParent = basicPctOfParent d.totalTimeMs (basicTotalTime b)) := by
      intro x hx d hd
      rw [hget x, hd]
      simp only [Option.map_some', hx, if_false]
      by_cases hxc : x ∈ e.childIndexes
      · exact ⟨d.setPct (basicPctOfParent d.totalTimeMs (basicTotalTime b)), by rw [if_pos hxc], rfl,
          fun h => absurd hxc h, fun _ => rfl⟩
      · exact ⟨d, by rw [if_neg hxc], rfl, fun _ => rfl, fun h => absurd h hxc⟩
    have hsame : ∀ x, x ≠ k →
        (arr'.getD x default).totalTimeMs = (arr.getD x default).totalTimeMs ∧
        (arr'.getD x default).estimatedOverheadMs = (arr.getD x default).estimatedOverheadMs := by
      intro x hx
      rw [List.getD_eq_getElem?_getD, List.getD_eq_getElem?_getD]
      cases hd : arr[x]? with
      | none =>
        rw [hget x, hd]
        exact ⟨rfl, rfl⟩
      | some d =>
        obtain ⟨d', hd', hcore, -, -⟩ := hgetx x hx d hd
        rw [hd']
        simp only [Option.getD_some]
        exact ⟨BasicData.totalTimeMs_of_core hcore, BasicData.estimatedOverheadMs_of_core hcore⟩
    have hcongr : ∀ (x : Nat) (ex : TempEntry) (bx : ProfiledBlock), k ≤ x → flat[x]? = some ex →
        basicAggregated self bx ex.childIndexes arr' default
          = basicAggregated self bx ex.childIndexes arr default := by
      intro x ex bx hx hex
      apply basicAggregated_congr
      intro c hc
      have := (hflat.child_range x ex c hex hc).1
      exact hsame c (by omega)
    constructor
    · rw [hlen, hinv.length]
    · intro x hx hxn
      have hxk : x ≠ k := by omega
      have hxc : x ∉ e.childIndexes := fun h => by
        have := (hch x h).1
        omega
      rw [hget x, hinv.untouched x (by omega) hxn]
      simp [hxk, hxc]
    · intro x ex bx hx hex hbx
      rw [hcongr x ex bx hx hex]
      by_cases hxk : x = k
      · subst hxk
        rw [hek] at hex
        cases hex
        rw [hb] at hbx
        cases hbx
        exact ⟨_, hgetk, rfl⟩
      · obtain ⟨d, hd, hcore⟩ := hinv.core x ex bx (by omega) hex hbx
        obtain ⟨d', hd', hcore', -, -⟩ := hgetx x hxk d hd
        exact ⟨d', hd', hcore'.trans hcore⟩
    · intro x p ep hp hep hx
      have hxp := (hflat.child_range p ep x hep hx)
      have hxk : x ≠ k := by omega
      by_cases hpk : p = k
      · subst hpk
        rw [hek] at hep
        cases hep
        have hxlt : x < arr.length := by rw [hinv.length]; exact hxp.2
        obtain ⟨d', hd', hcore, -, hpct⟩ := hgetx x hxk arr[x] (List.getElem?_eq_getElem hxlt)
        refine ⟨d', hd', ?_⟩
        rw [hpct hx, List.getD_eq_getElem?_getD, hgetk, Option.getD_some,
          basicAggregated_totalTimeMs]
        congr 1
        exact (BasicData.totalTimeMs_of_core hcore).symm
      · obtain ⟨d, hd, hpct⟩ := hinv.pct_child x p ep (by omega) hep hx
        have hxc : x ∉ e.childIndexes := fun h => hpk (hflat.unique p k ep e x hep hek hx h)
        obtain ⟨d', hd', -, heq, -⟩ := hgetx x hxk d hd
        refine ⟨d', hd', ?_⟩
        rw [heq hxc, hpct, (hsame p hpk).1]
    · intro x hx hno
      by_cases hxk : x = k
      · subst hxk
        refine ⟨_, hgetk, ?_⟩
        rw [basicAggregated_pctOfParent]
        rfl
      · obtain ⟨d, hd, hpct⟩ := hinv.pct_root x hx (fun p ep hp hep => hno p ep (by omega) hep)
        have hxc : x ∉ e.childIndexes := hno k e (Nat.le_refl _) hek
        obtain ⟨d', hd', -, heq, -⟩ := hgetx x hxk d hd
        exact ⟨d', hd', by rw [heq hxc, hpct]⟩

/-- The vector `basicEntries` that `generateReport` computes from the
flattened hierarchy of a tree. -/
theorem aggregateBasic_inv (self : ProfilerCPU) (rootBlock : ProfiledBlock)
    (flat : List TempEntry) (hflat : FlatOK rootBlock flat) :
    BasicAggInv self flat 0 (aggregateBasic self flat) :=
  basicAggInv_suffix self rootBlock flat hflat flat [] rfl

@[simp] theorem PreciseData.setPct_totalCycles (p : FloatVal) (d : PreciseData) :
    (d.setPct p).totalCycles = d.totalCycles := rfl

@[simp] theorem PreciseData.setPct_estimatedOverhead (p : FloatVal) (d : PreciseData) :
    (d.setPct p).estimatedOverhead = d.estimatedOverhead := rfl

@[simp] theorem PreciseData.setPct_idem (p q : FloatVal) (d : PreciseData) :
    (d.setPct p).setPct q = d.setPct q := rfl

@[simp] theorem PreciseData.setOverhead_totalCycles (o : Nat) (d : PreciseData) :
    (d.setOverhead o).totalCycles = d.totalCycles := rfl

@[simp] theorem PreciseData.setOverhead_estimatedOverhead (o : Nat) (d : PreciseData) :
    (d.setOverhead o).estimatedOverhead = o := rfl

@[simp] theorem PreciseData.setOverhead_idem (o o' : Nat) (d : PreciseData) :
    (d.setOverhead o).setOverhead o' = d.setOverhead o' := rfl

theorem PreciseData.setOverhead_same (d : PreciseData) :
    d.setOverhead d.estimatedOverhead = d := rfl

theorem foldl_preciseChildStep (j : Nat) (ch : List Nat) (hj : j ∉ ch) :
    ∀ (acc : Nat) (entries : List PreciseData),
      (ch.foldl (preciseChildStep j) (acc, entries)).1 = preciseChildTotal entries ch acc ∧
      (ch.foldl (preciseChildStep j) (acc, entries)).2.length = entries.length ∧
      ∀ x, (ch.foldl (preciseChildStep j) (acc, entries)).2[x]?
        = entries[x]?.map (preciseChildEffect entries j ch x) := by
  induction ch with
  | nil =>
    intro acc entries
    refine ⟨rfl, rfl, ?_⟩
    intro x
    cases hx : entries[x]? with
    | none => simp [hx]
    | some e =>
      by_cases hxj : x = j
      · subst hxj
        simp [hx, preciseChildEffect, preciseChildOverhead, PreciseData.setOverhead_same]
      · simp [hx, hxj, preciseChildEffect]
  | cons c ch ih =>
    intro acc entries
    have hcj : c ≠ j := fun h => hj (by simp [h])
    have hj' : j ∉ ch := fun h => hj (List.mem_cons_of_mem _ h)
    rw [List.foldl_cons]
    -- the vector after the step for `c`
    have hstep : preciseChildStep j (acc, entries) c =
        (add64 acc (entries.getD c default).totalCycles,
          modifyNth (modifyNth entries c
            (fun d => d.setPct (precisePctOfParent d.totalCycles (entries.getD j default).totalCycles))) j
            (fun e => e.setOverhead
              (add64 e.estimatedOverhead (entries.getD c default).estimatedOverhead))) := rfl
    rw [hstep]
    generalize hE1 : modifyNth (modifyNth entries c
            (fun d => d.setPct (precisePctOfParent d.totalCycles (entries.getD j default).totalCycles))) j
            (fun e => e.setOverhead
              (add64 e.estimatedOverhead (entries.getD c default).estimatedOverhead)) = E1
    have hget : ∀ x, E1[x]? = entries[x]?.map (fun e =>
        if x = j then
          e.setOverhead (add64 e.estimatedOverhead (entries.getD c default).estimatedOverhead)
        else if x = c then
          e.setPct (precisePctOfParent e.totalCycles (entries.getD j default).totalCycles)
        else e) := by
      intro x
      rw [← hE1, getElem?_modifyNth, getElem?_modifyNth]
      by_cases hxj : x = j
      · subst hxj
        simp [hcj]
      · by_cases hxc : x = c
        · subst hxc
          simp [hxj, Ne.symm hxj]
        · simp [hxj, hxc, Ne.symm hxj, Ne.symm hxc]
    have htot : ∀ x, (E1.getD x default).totalCycles = (entries.getD x default).totalCycles := by
      intro x
      rw [List.getD_eq_getElem?_getD, List.getD_eq_getElem?_getD, hget x]
      cases entries[x]? with
      | none => rfl
      | some e =>
        simp only [Option.map_some', Option.getD_some]
        split
        · simp
        · split <;> simp
    have hov : ∀ x, x ≠ j →
        (E1.getD x default).estimatedOverhead = (entries.getD x default).estimatedOverhead := by
      intro x hxj
      rw [List.getD_eq_getElem?_getD, List.getD_eq_getElem?_getD, hget x]
      cases entries[x]? with
      | none => rfl
      | some e =>
        simp only [Option.map_some', Option.getD_some, hxj, if_false]
        split <;> simp
    obtain ⟨h1, h2, h3⟩ := ih hj' (add64 acc (entries.getD c default).totalCycles) E1
    refine ⟨?_, ?_, ?_⟩
    · rw [h1]
      unfold preciseChildTotal
      rw [List.foldl_cons]
      congr 1
      funext a k
      rw [htot]
    · rw [h2, ← hE1, length_modifyNth, length_modifyNth]
    · intro x
      rw [h3, hget]
      cases entries[x]? with
      | none => simp only [Option.map_none']
      | some e =>
        simp only [Option.map_some', Option.some.injEq]
        have hovfold : ∀ a, preciseChildOverhead E1 ch a = preciseChildOverhead entries ch a := by
          intro a
          unfold preciseChildOverhead
          apply List.foldl_ext
          intro a k hk
          rw [hov k (fun h => hj' (h ▸ hk))]
        unfold preciseChildEffect
        by_cases hxj : x = j
        · simp only [hxj, if_true, hovfold]
          simp [preciseChildOverhead]
        · by_cases hxc : x = c
          · subst hxc
            simp only [hxj, if_false, if_true, List.mem_cons, true_or, htot]
            split <;> simp
          · simp only [hxj, if_false, hxc, List.mem_cons, false_or, htot]

theorem foldl_precise_totalCycles (samples : List PreciseProfileSample) :
    ∀ e : PreciseData,
      (samples.foldl
        (fun (e : PreciseData) sample =>
          { e with totalCycles := add64 e.totalCycles sample.cycles
                   maxCycles := max e.maxCycles sample.cycles
                   memAllocs := add64 e.memAllocs sample.numAllocs
                   memFrees := add64 e.memFrees sample.numFrees }) e).totalCycles
        = samples.foldl (fun a s => add64 a s.cycles) e.totalCycles := by
  induction samples with
  | nil => intro e; rfl
  | cons s samples ih => intro e; rw [List.foldl_cons, ih]; rfl

theorem foldl_precise_frame (samples : List PreciseProfileSample) :
    ∀ e : PreciseData,
      let r := samples.foldl
        (fun (e : PreciseData) sample =>
          { e with totalCycles := add64 e.totalCycles sample.cycles
                   maxCycles := max e.maxCycles sample.cycles
                   memAllocs := add64 e.memAllocs sample.numAllocs
                   memFrees := add64 e.memFrees sample.numFrees }) e
      r.name = e.name ∧ r.numCalls = e.numCalls ∧ r.pctOfParent = e.pctOfParent ∧
      r.estimatedOverhead = e.estimatedOverhead := by
  induction samples with
  | nil => intro e; exact ⟨rfl, rfl, rfl, rfl⟩
  | cons s samples ih =>
    intro e
    simp only [List.foldl_cons]
    exact ih _

theorem preciseOwnStats_totalCycles (b : ProfiledBlock) (e : PreciseData) :
    (preciseOwnStats b e).totalCycles = preciseTotalCycles b := by
  unfold preciseOwnStats preciseTotalCycles
  simp only
  split <;> simp only [foldl_precise_totalCycles]

theorem preciseOwnStats_name (b : ProfiledBlock) (e : PreciseData) :
    (preciseOwnStats b e).name = c_str b.name := by
  unfold preciseOwnStats
  simp only
  split <;> simp only [(foldl_precise_frame _ _).1]

theorem preciseOwnStats_numCalls (b : ProfiledBlock) (e : PreciseData) :
    (preciseOwnStats b e).numCalls = b.precise.samples.length % 2 ^ 32 := by
  unfold preciseOwnStats
  simp only
  split <;> rfl

theorem preciseOwnStats_pctOfParent (b : ProfiledBlock) (e : PreciseData) :
    (preciseOwnStats b e).pctOfParent = e.pctOfParent := by
  unfold preciseOwnStats
  simp only
  split <;> simp only [(foldl_precise_frame _ _).2.2.1]

theorem preciseFinish_totalCycles (self : ProfilerCPU) (b : ProfiledBlock) (t : Nat) (e : PreciseData) :
    (preciseFinish self b t e).totalCycles = e.totalCycles := by
  unfold preciseFinish
  simp only
  split <;> rfl

theorem preciseFinish_name (self : ProfilerCPU) (b : ProfiledBlock) (t : Nat) (e : PreciseData) :
    (preciseFinish self b t e).name = e.name := by
  unfold preciseFinish
  simp only
  split <;> rfl

theorem preciseFinish_numCalls (self : ProfilerCPU) (b : ProfiledBlock) (t : Nat) (e : PreciseData) :
    (preciseFinish self b t e).numCalls = e.numCalls := by
  unfold preciseFinish
  simp only
  split <;> rfl

theorem preciseFinish_pctOfParent (self : ProfilerCPU) (b : ProfiledBlock) (t : Nat)
    (e : PreciseData) : (preciseFinish self b t e).pctOfParent = e.pctOfParent := by
  unfold preciseFinish
  simp only
  split <;> rfl

theorem preciseFinish_totalSelfCycles (self : ProfilerCPU) (b : ProfiledBlock) (t : Nat)
    (e : PreciseData) : (preciseFinish self b t e).totalSelfCycles = sub64 e.totalCycles t := by
  unfold preciseFinish
  simp only
  split <;> rfl

theorem preciseAggregated_totalCycles (self : ProfilerCPU) (b : ProfiledBlock) (ch : List Nat)
    (entries : List PreciseData) (e0 : PreciseData) :
    (preciseAggregated self b ch entries e0).totalCycles = preciseTotalCycles b := by
  unfold preciseAggregated
  rw [preciseFinish_totalCycles, PreciseData.setOverhead_totalCycles, preciseOwnStats_totalCycles]

theorem preciseAggregated_name (self : ProfilerCPU) (b : ProfiledBlock) (ch : List Nat)
    (entries : List PreciseData) (e0 : PreciseData) :
    (preciseAggregated self b ch entries e0).name = c_str b.name := by
  unfold preciseAggregated
  rw [preciseFinish_name]
  exact preciseOwnStats_name b e0

theorem preciseAggregated_numCalls (self : ProfilerCPU) (b : ProfiledBlock) (ch : List Nat)
    (entries : List PreciseData) (e0 : PreciseData) :
    (preciseAggregated self b ch entries e0).numCalls = b.precise.samples.length % 2 ^ 32 := by
  unfold preciseAggregated
  rw [preciseFinish_numCalls]
  exact preciseOwnStats_numCalls b e0

theorem preciseAggregated_pctOfParent (self : ProfilerCPU) (b : ProfiledBlock) (ch : List Nat)
    (entries : List PreciseData) (e0 : PreciseData) :
    (preciseAggregated self b ch entries e0).pctOfParent = e0.pctOfParent := by
  unfold preciseAggregated
  rw [preciseFinish_pctOfParent]
  exact preciseOwnStats_pctOfParent b e0

theorem preciseAggregated_totalSelfCycles (self : ProfilerCPU) (b : ProfiledBlock) (ch : List Nat)
    (entries : List PreciseData) (e0 : PreciseData) :
    (preciseAggregated self b ch entries e0).totalSelfCycles
      = sub64 (preciseTotalCycles b) (preciseChildTotal entries ch 0) := by
  unfold preciseAggregated
  rw [preciseFinish_totalSelfCycles, PreciseData.setOverhead_totalCycles, preciseOwnStats_totalCycles]

/-- The entry of a block depends on the vector only through the totals and the
overheads of the child entries. -/
theorem preciseAggregated_congr (self : ProfilerCPU) (b : ProfiledBlock) (ch : List Nat)
    (entries entries' : List PreciseData) (e0 : PreciseData)
    (h : ∀ c ∈ ch, (entries'.getD c default).totalCycles = (entries.getD c default).totalCycles ∧
      (entries'.getD c default).estimatedOverhead
        = (entries.getD c default).estimatedOverhead) :
    preciseAggregated self b ch entries' e0 = preciseAggregated self b ch entries e0 := by
  unfold preciseAggregated
  have h1 : preciseChildTotal entries' ch 0 = preciseChildTotal entries ch 0 := by
    unfold preciseChildTotal
    apply List.foldl_ext
    intro a c hc
    rw [(h c hc).1]
  have h2 : ∀ a, preciseChildOverhead entries' ch a = preciseChildOverhead entries ch a := by
    intro a
    unfold preciseChildOverhead
    apply List.foldl_ext
    intro a c hc
    rw [(h c hc).2]
  rw [h1, h2]

/-- Closed form of the Precise half of the loop body for the entry at `j`. -/
theorem aggregatePreciseStep_get (self : ProfilerCPU) (b : ProfiledBlock) (j : Nat) (ch : List Nat)
    (entries : List PreciseData) (hj : j ∉ ch) (hlt : j < entries.length) :
    (aggregatePreciseStep self ⟨some b, j, ch⟩ entries).length = entries.length ∧
    ∀ x, (aggregatePreciseStep self ⟨some b, j, ch⟩ entries)[x]? =
      entries[x]?.map (fun e =>
        if x = j then preciseAggregated self b ch entries e
        else if x ∈ ch then e.setPct (precisePctOfParent e.totalCycles (preciseTotalCycles b))
        else e) := by
  unfold aggregatePreciseStep
  simp only
  obtain ⟨h1, h2, h3⟩ := foldl_preciseChildStep j ch hj 0 (modifyNth entries j (preciseOwnStats b))
  generalize hr : ch.foldl (preciseChildStep j) (0, modifyNth entries j (preciseOwnStats b)) = r at *
  obtain ⟨tot, E2⟩ := r
  simp only at h1 h2 h3 ⊢
  have hE1j : (modifyNth entries j (preciseOwnStats b)).getD j default
      = preciseOwnStats b (entries.getD j default) := by
    rw [List.getD_eq_getElem?_getD, List.getD_eq_getElem?_getD, getElem?_modifyNth_self,
      List.getElem?_eq_getElem hlt]
    rfl
  have hE1c : ∀ c, c ≠ j → (modifyNth entries j (preciseOwnStats b)).getD c default
      = entries.getD c default := by
    intro c hc
    rw [List.getD_eq_getElem?_getD, List.getD_eq_getElem?_getD,
      getElem?_modifyNth_ne _ _ (Ne.symm hc)]
  have htot : tot = preciseChildTotal entries ch 0 := by
    rw [h1]
    unfold preciseChildTotal
    apply List.foldl_ext
    intro a c hc
    rw [hE1c c (fun h => hj (h ▸ hc))]
  have hovf : ∀ a, preciseChildOverhead (modifyNth entries j (preciseOwnStats b)) ch a
      = preciseChildOverhead entries ch a := by
    intro a
    unfold preciseChildOverhead
    apply List.foldl_ext
    intro a c hc
    rw [hE1c c (fun h => hj (h ▸ hc))]
  refine ⟨by rw [length_modifyNth, h2, length_modifyNth], ?_⟩
  intro x
  rw [getElem?_modifyNth, h3, getElem?_modifyNth]
  by_cases hxj : x = j
  · subst hxj
    simp only [if_true, Option.map_map]
    cases entries[x]? with
    | none => rfl
    | some e =>
      simp only [Option.map_some', Function.comp_apply, preciseChildEffect, if_true, hovf, htot]
      rfl
  · simp only [hxj, Ne.symm hxj, if_false]
    cases entries[x]? with
    | none => rfl
    | some e =>
      simp only [Option.map_some', preciseChildEffect, hxj, if_false, hE1j,
        preciseOwnStats_totalCycles]

theorem PreciseData.totalCycles_of_core {d d' : PreciseData}
    (h : d.setPct FloatVal.nan = d'.setPct FloatVal.nan) : d.totalCycles = d'.totalCycles := by
  have h' := congrArg PreciseData.totalCycles h
  simpa using h'

theorem PreciseData.estimatedOverhead_of_core {d d' : PreciseData}
    (h : d.setPct FloatVal.nan = d'.setPct FloatVal.nan) :
    d.estimatedOverhead = d'.estimatedOverhead := by
  have h' := congrArg PreciseData.estimatedOverhead h
  simpa using h'

theorem preciseAggInv_suffix (self : ProfilerCPU) (rootBlock : ProfiledBlock) (flat : List TempEntry)
    (hflat : FlatOK rootBlock flat) :
    ∀ (suf pre : List TempEntry), flat = pre ++ suf →
      PreciseAggInv self flat pre.length
        (suf.foldr (aggregatePreciseStep self) (List.replicate flat.length default)) := by
  intro suf
  induction suf with
  | nil =>
    intro pre hpre
    have hk : pre.length = flat.length := by rw [hpre]; simp
    constructor
    · simp
    · intro x _ hx
      simp [List.getElem?_replicate, hx]
    · intro x e b hx he
      exfalso
      have : x < flat.length := by
        by_contra hn
        rw [List.getElem?_eq_none (by omega)] at he
        cases he
      omega
    · intro x p ep hp hep
      exfalso
      have : p < flat.length := by
        by_contra hn
        rw [List.getElem?_eq_none (by omega)] at hep
        cases hep
      omega
    · intro x hx _
      refine ⟨default, ?_, rfl⟩
      simp [List.getElem?_replicate, hx]
  | cons e suf ih =>
    intro pre hpre
    have hpre' : flat = (pre ++ [e]) ++ suf := by rw [hpre]; simp
    have hinv := ih (pre ++ [e]) hpre'
    rw [List.length_append, List.length_singleton] at hinv
    rw [List.foldr_cons]
    generalize suf.foldr (aggregatePreciseStep self) (List.replicate flat.length default) = arr at *
    generalize hk : pre.length = k at *
    have hek : flat[k]? = some e := by
      rw [hpre, ← hk]
      exact getElem?_append_cons_length pre suf e
    have hkn : k < flat.length := by
      by_contra hn
      rw [List.getElem?_eq_none (by omega)] at hek
      cases hek
    obtain ⟨b, hb⟩ := hflat.block k e hek
    have hidx := hflat.entryIdx_eq k e hek
    have hch : ∀ c ∈ e.childIndexes, k < c ∧ c < flat.length := fun c hc =>
      hflat.child_range k e c hek hc
    have hknot : k ∉ e.childIndexes := fun h => by
      have := (hch k h).1
      omega
    have he_eq : e = ⟨some b, k, e.childIndexes⟩ := by
      cases e
      simp only at hb hidx
      subst hb hidx
      rfl
    obtain ⟨hlen, hget⟩ := aggregatePreciseStep_get self b k e.childIndexes arr hknot
      (by rw [hinv.length]; exact hkn)
    rw [← he_eq] at hlen hget
    generalize aggregatePreciseStep self e arr = arr' at *
    have harrk : arr[k]? = some default := hinv.untouched k (by omega) hkn
    -- the element at `k`
    have hgetk : arr'[k]? = some (preciseAggregated self b e.childIndexes arr default) := by
      rw [hget k, harrk]
      simp
    -- the other elements change in `pctOfParent` at most
    have hgetx : ∀ x, x ≠ k → ∀ d, arr[x]? = some d →
        ∃ d', arr'[x]? = some d' ∧ d'.setPct FloatVal.nan = d.setPct FloatVal.nan ∧
          (x ∉ e.childIndexes → d' = d) ∧
          (x ∈ e.childIndexes →
            d'.pctOfParent = precisePctOfParent d.totalCycles (preciseTotalCycles b)) := by
      intro x hx d hd
      rw [hget x, hd]
      simp only [Option.map_some', hx, if_false]
      by_cases hxc : x ∈ e.childIndexes
      · exact ⟨d.setPct (precisePctOfParent d.totalCycles (preciseTotalCycles b)), by rw [if_pos hxc], rfl,
          fun h => absurd hxc h, fun _ => rfl⟩
      · exact ⟨d, by rw [if_neg hxc], rfl, fun _ => rfl, fun h => absurd h hxc⟩
    have hsame : ∀ x, x ≠ k →
        (arr'.getD x default).totalCycles = (arr.getD x default).totalCycles ∧
        (arr'.getD x default).estimatedOverhead = (arr.getD x default).estimatedOverhead := by
      intro x hx
      rw [List.getD_eq_getElem?_getD, List.getD_eq_getElem?_getD]
      cases hd : arr[x]? with
      | none =>
        rw [hget x, hd]
        exact ⟨rfl, rfl⟩
      | some d =>
        obtain ⟨d', hd', hcore, -, -⟩ := hgetx x hx d hd
        rw [hd']
        simp only [Option.getD_some]
        exact ⟨PreciseData.totalCycles_of_core hcore, PreciseData.estimatedOverhead_of_core hcore⟩
    have hcongr : ∀ (x : Nat) (ex : TempEntry) (bx : ProfiledBlock), k ≤ x → flat[x]? = some ex →
        preciseAggregated self bx ex.childIndexes arr' default
          = preciseAggregated self bx ex.childIndexes arr default := by
      intro x ex bx hx hex
      apply preciseAggregated_congr
      intro c hc
      have := (hflat.child_range x ex c hex hc).1
      exact hsame c (by omega)
    constructor
    · rw [hlen, hinv.length]
    · intro x hx hxn
      have hxk : x ≠ k := by omega
      have hxc : x ∉ e.childIndexes := fun h => by
        have := (hch x h).1
        omega
      rw [hget x, hinv.untouched x (by omega) hxn]
      simp [hxk, hxc]
    · intro x ex bx hx hex hbx
      rw [hcongr x ex bx hx hex]
      by_cases hxk : x = k
      · subst hxk
        rw [hek] at hex
        cases hex
        rw [hb] at hbx
        cases hbx
        exact ⟨_, hgetk, rfl⟩
      · obtain ⟨d, hd, hcore⟩ := hinv.core x ex bx (by omega) hex hbx
        obtain ⟨d', hd', hcore', -, -⟩ := hgetx x hxk d hd
        exact ⟨d', hd', hcore'.trans hcore⟩
    · intro x p ep hp hep hx
      have hxp := (hflat.child_range p ep x hep hx)
      have hxk : x ≠ k := by omega
      by_cases hpk : p = k
      · subst hpk
        rw [hek] at hep
        cases hep
        have hxlt : x < arr.length := by rw [hinv.length]; exact hxp.2
        obtain ⟨d', hd', hcore, -, hpct⟩ := hgetx x hxk arr[x] (List.getElem?_eq_getElem hxlt)
        refine ⟨d', hd', ?_⟩
        rw [hpct hx, List.getD_eq_getElem?_getD, hgetk, Option.getD_some,
          preciseAggregated_totalCycles]
        rw [PreciseData.totalCycles_of_core hcore]
      · obtain ⟨d, hd, hpct⟩ := hinv.pct_child x p ep (by omega) hep hx
        have hxc : x ∉ e.childIndexes := fun h => hpk (hflat.unique p k ep e x hep hek hx h)
        obtain ⟨d', hd', -, heq, -⟩ := hgetx x hxk d hd
        refine ⟨d', hd', ?_⟩
        rw [heq hxc, hpct, (hsame p hpk).1]
    · intro x hx hno
      by_cases hxk : x = k
      · subst hxk
        refine ⟨_, hgetk, ?_⟩
        rw [preciseAggregated_pctOfParent]
        rfl
      · obtain ⟨d, hd, hpct⟩ := hinv.pct_root x hx (fun p ep hp hep => hno p ep (by omega) hep)
        have hxc : x ∉ e.childIndexes := hno k e (Nat.le_refl _) hek
        obtain ⟨d', hd', -, heq, -⟩ := hgetx x hxk d hd
        exact ⟨d', hd', by rw [heq hxc, hpct]⟩

/-- The vector `preciseEntries` that `generateReport` computes from the
flattened hierarchy of a tree. -/
theorem aggregatePrecise_inv (self : ProfilerCPU) (rootBlock : ProfiledBlock)
    (flat : List TempEntry) (hflat : FlatOK rootBlock flat) :
    PreciseAggInv self flat 0 (aggregatePrecise self flat) :=
  preciseAggInv_suffix self rootBlock flat hflat flat [] rfl

/-- Two entries that agree up to `pctOfParent` agree in every other field. -/
theorem BasicData.congr_of_core {α : Type} (f : BasicData → α)
    (hf : ∀ d p, f (BasicData.setPct p d) = f d) {d d' : BasicData}
    (h : d.setPct FloatVal.nan = d'.setPct FloatVal.nan) : f d = f d' := by
  rw [← hf d FloatVal.nan, h, hf]

/-- Two entries that agree up to `pctOfParent` agree in every other field. -/
theorem PreciseData.congr_of_same_core {α : Type} (f : PreciseData → α)
    (hf : ∀ d p, f (PreciseData.setPct p d) = f d) {d d' : PreciseData}
    (h : d.setPct FloatVal.nan = d'.setPct FloatVal.nan) : f d = f d' := by
  rw [← hf d FloatVal.nan, h, hf]

theorem sub64_cast (a b : Nat) : ((sub64 a b : Nat) : Int) = ((a : Int) - b) % 2 ^ 64 := by
  unfold sub64
  norm_num
  omega

theorem foldl_add_eq_sum {α : Type} (f : α → ℚ) (l : List α) :
    ∀ acc, l.foldl (fun a c => a + f c) acc = acc + (l.map f).sum := by
  induction l with
  | nil => intro acc; simp
  | cons x l ih => intro acc; rw [List.foldl_cons, ih]; simp [add_assoc]

theorem foldl_add64_mod {α : Type} (f : α → Nat) (l : List α) :
    ∀ acc, (l.foldl (fun a c => add64 a (f c)) acc) % 2 ^ 64 = (acc + (l.map f).sum) % 2 ^ 64 := by
  induction l with
  | nil => intro acc; simp
  | cons x l ih =>
    intro acc
    rw [List.foldl_cons, ih]
    simp only [add64, List.map_cons, List.sum_cons]
    omega

theorem sub64_mod_right (a b : Nat) : sub64 a (b % 2 ^ 64) = sub64 a b := by
  unfold sub64
  simp

theorem basicChildTotal_eq_sum (entries : List BasicData) (ch : List Nat) :
    basicChildTotal entries ch 0 = (ch.map (fun c => (entries.getD c default).totalTimeMs)).sum := by
  unfold basicChildTotal
  rw [foldl_add_eq_sum (fun c => (entries.getD c default).totalTimeMs)]
  simp

theorem sub64_preciseChildTotal (entries : List PreciseData) (ch : List Nat) (a : Nat) :
    sub64 a (preciseChildTotal entries ch 0)
      = sub64 a ((ch.map (fun c => (entries.getD c default).totalCycles)).sum) := by
  rw [← sub64_mod_right a (preciseChildTotal _ _ _), ← sub64_mod_right a (List.sum _)]
  unfold preciseChildTotal
  rw [foldl_add64_mod (fun c => (entries.getD c default).totalCycles)]
  simp

/-- The self totals of the entry at position `i` of the aggregated hierarchy. -/
theorem aggregate_self_totals (self : ProfilerCPU) (rootBlock : ProfiledBlock)
    (flat : List TempEntry) (hok : FlatOK rootBlock flat) (i : Nat) (e : TempEntry)
    (he : flat[i]? = some e) :
    ∃ b db dp, e.parentBlock = some b ∧
      e.childIndexes.map (blockAt flat) = b.children.map some ∧
      (aggregateBasic self flat)[i]? = some db ∧
      (aggregatePrecise self flat)[i]? = some dp ∧
      db.totalSelfTimeMs = db.totalTimeMs -
        (e.childIndexes.map
          (fun c => ((aggregateBasic self flat).getD c default).totalTimeMs)).sum ∧
      (dp.totalSelfCycles : Int) = ((dp.totalCycles : Int) -
        ((e.childIndexes.map
          (fun c => ((aggregatePrecise self flat).getD c default).totalCycles)).sum : Nat))
          % 2 ^ 64 := by
  obtain ⟨b, hb⟩ := hok.block i e he
  obtain ⟨db, hdb, hcoreb⟩ := (aggregateBasic_inv self rootBlock flat hok).core i e b
    (Nat.zero_le _) he hb
  obtain ⟨dp, hdp, hcorep⟩ := (aggregatePrecise_inv self rootBlock flat hok).core i e b
    (Nat.zero_le _) he hb
  refine ⟨b, db, dp, hb, hok.expanded i e b he hb, hdb, hdp, ?_, ?_⟩
  · have h1 : db.totalSelfTimeMs
        = (basicAggregated self b e.childIndexes (aggregateBasic self flat) default).totalSelfTimeMs :=
      BasicData.congr_of_core BasicData.totalSelfTimeMs (fun _ _ => rfl) hcoreb
    have h2 : db.totalTimeMs
        = (basicAggregated self b e.childIndexes (aggregateBasic self flat) default).totalTimeMs :=
      BasicData.congr_of_core BasicData.totalTimeMs (fun _ _ => rfl) hcoreb
    rw [h1, h2, basicAggregated_totalSelfTimeMs, basicAggregated_totalTimeMs,
      basicChildTotal_eq_sum]
  · have h1 : dp.totalSelfCycles
        = (preciseAggregated self b e.childIndexes (aggregatePrecise self flat)
            default).totalSelfCycles :=
      PreciseData.congr_of_same_core PreciseData.totalSelfCycles (fun _ _ => rfl) hcorep
    have h2 : dp.totalCycles
        = (preciseAggregated self b e.childIndexes (aggregatePrecise self flat)
            default).totalCycles :=
      PreciseData.congr_of_same_core PreciseData.totalCycles (fun _ _ => rfl) hcorep
    rw [h1, h2, preciseAggregated_totalSelfCycles, preciseAggregated_totalCycles,
      sub64_preciseChildTotal, sub64_cast]

/-- C6: in the aggregated (unpruned) flattened hierarchy of every tree, the
child indexes of an entry are its block's direct children, the Basic entry has
`totalSelfTimeMs = totalTimeMs - sum of the children's totalTimeMs`, and the
Precise entry has `totalSelfCycles = totalCycles - sum of the children's
totalCycles` in 64-bit unsigned arithmetic. -/
theorem selfTotal_eq_total_minus_children (self : ProfilerCPU) (rootBlock : ProfiledBlock) :
    ∃ flat, flatten rootBlock = Except.ok flat ∧
      ∀ (i : Nat) (e : TempEntry), flat[i]? = some e →
        ∃ b db dp, e.parentBlock = some b ∧
          e.childIndexes.map (blockAt flat) = b.children.map some ∧
          (aggregateBasic self flat)[i]? = some db ∧
          (aggregatePrecise self flat)[i]? = some dp ∧
          db.totalSelfTimeMs = db.totalTimeMs -
            (e.childIndexes.map
              (fun c => ((aggregateBasic self flat).getD c default).totalTimeMs)).sum ∧
          (dp.totalSelfCycles : Int) = ((dp.totalCycles : Int) -
            ((e.childIndexes.map
              (fun c => ((aggregatePrecise self flat).getD c default).totalCycles)).sum : Nat))
              % 2 ^ 64 := by
  obtain ⟨flat, hflat, hok⟩ := flatten_ok rootBlock
  exact ⟨flat, hflat, fun i e he => aggregate_self_totals self rootBlock flat hok i e he⟩

/-! ## Rounding -/

theorem pow2_eq (k : Int) : pow2 k = (2 : ℚ) ^ k := by
  unfold pow2
  split_ifs with h
  · obtain ⟨n, rfl⟩ := Int.eq_ofNat_of_zero_le h
    simp
  · have h' : 0 ≤ -k := by omega
    obtain ⟨n, hn⟩ := Int.eq_ofNat_of_zero_le h'
    have hk : k = -(n : Int) := by omega
    subst hk
    simp

theorem log2Fuel_eq (fuel : Nat) : ∀ n, n ≤ fuel → log2Fuel fuel n = Nat.log 2 n := by
  induction fuel with
  | zero =>
    intro n hn
    have : n = 0 := by omega
    subst this
    simp [log2Fuel]
  | succ fuel ih =>
    intro n hn
    unfold log2Fuel
    by_cases h : 2 ≤ n
    · rw [if_pos h, ih (n / 2) (by omega), Nat.log_of_one_lt_of_le (by norm_num) h]
    · rw [if_neg h, Nat.log_of_lt (by omega)]

theorem natLog2_eq (n : Nat) : natLog2 n = Nat.log 2 n := log2Fuel_eq n n (Nat.le_refl n)

theorem clog2Fuel_eq (fuel : Nat) : ∀ n, n ≤ fuel → clog2Fuel fuel n = Nat.clog 2 n := by
  induction fuel with
  | zero =>
    intro n hn
    have : n = 0 := by omega
    subst this
    simp [clog2Fuel]
  | succ fuel ih =>
    intro n hn
    unfold clog2Fuel
    by_cases h : 2 ≤ n
    · rw [if_pos h, ih ((n + 1) / 2) (by omega), Nat.clog_of_two_le (by norm_num) h]
      rfl
    · rw [if_neg h, Nat.clog_of_right_le_one (by omega)]

theorem natClog2_eq (n : Nat) : natClog2 n = Nat.clog 2 n := clog2Fuel_eq n n (Nat.le_refl n)

theorem binExponent_eq_log (x : ℚ) : binExponent x = Int.log 2 x := by
  unfold binExponent Int.log
  rw [natLog2_eq, natClog2_eq]

theorem binExponent_le (x : ℚ) (hx : 0 < x) : (2 : ℚ) ^ binExponent x ≤ x := by
  rw [binExponent_eq_log]
  have := Int.zpow_log_le_self (b := 2) (by norm_num) hx
  simpa using this

theorem lt_binExponent_succ (x : ℚ) : x < (2 : ℚ) ^ (binExponent x + 1) := by
  rw [binExponent_eq_log]
  have := Int.lt_zpow_succ_log_self (b := 2) (by norm_num) x
  simpa using this

theorem roundHalfEven_error (m : ℚ) (hm : 0 ≤ m) : |(roundHalfEven m : ℚ) - m| ≤ 1 / 2 := by
  have h1 : (⌊m⌋₊ : ℚ) ≤ m := Nat.floor_le hm
  have h2 : m < ⌊m⌋₊ + 1 := Nat.lt_floor_add_one m
  unfold roundHalfEven
  simp only
  split_ifs with ha hb hc
  · rw [abs_le]; constructor <;> linarith
  · push_cast; rw [abs_le]; constructor <;> linarith
  · rw [abs_le]; constructor <;> linarith
  · push_cast; rw [abs_le]; constructor <;> linarith

theorem floor_le_roundHalfEven (m : ℚ) : ⌊m⌋₊ ≤ roundHalfEven m := by
  unfold roundHalfEven
  simp only
  split_ifs <;> omega

theorem roundHalfEven_le (m : ℚ) : roundHalfEven m ≤ ⌊m⌋₊ + 1 := by
  unfold roundHalfEven
  simp only
  split_ifs <;> omega

theorem FloatFormat.ulp_pos (f : FloatFormat) (x : ℚ) : 0 < f.ulp x := by
  unfold FloatFormat.ulp
  rw [pow2_eq]
  positivity

/-- The error of the rounding is at most half a unit in the last place. -/
theorem FloatFormat.nearest_error (f : FloatFormat) (x : ℚ) (hx : 0 < x) :
    |f.nearest x - x| ≤ f.ulp x / 2 := by
  have hu := f.ulp_pos x
  have h := roundHalfEven_error (x / f.ulp x) (by positivity)
  unfold FloatFormat.nearest
  rw [if_pos hx]
  have e : (roundHalfEven (x / f.ulp x) : ℚ) * f.ulp x - x
      = ((roundHalfEven (x / f.ulp x) : ℚ) - x / f.ulp x) * f.ulp x := by
    field_simp
  rw [e, abs_mul, abs_of_pos hu]
  calc |(roundHalfEven (x / f.ulp x) : ℚ) - x / f.ulp x| * f.ulp x
      ≤ 1 / 2 * f.ulp x := by
        apply mul_le_mul_of_nonneg_right h (le_of_lt hu)
    _ = f.ulp x / 2 := by ring

theorem FloatFormat.nearest_neg (f : FloatFormat) (x : ℚ) : f.nearest (-x) = -f.nearest x := by
  unfold FloatFormat.nearest
  rcases lt_trichotomy x 0 with h | h | h
  · have h1 : 0 < -x := by linarith
    have h2 : ¬ 0 < x := by linarith
    simp [h, h1, h2]
  · subst h; simp
  · have h1 : ¬ 0 < -x := by linarith
    have h2 : -x < 0 := by linarith
    have h3 : ¬ x < 0 := by linarith
    simp [h, h1, h2, h3]

theorem FloatFormat.nearest_zero (f : FloatFormat) : f.nearest 0 = 0 := by
  simp [FloatFormat.nearest]

theorem FloatFormat.nearest_nonneg (f : FloatFormat) (x : ℚ) (hx : 0 ≤ x) : 0 ≤ f.nearest x := by
  unfold FloatFormat.nearest
  split_ifs with h1 h2
  · have := f.ulp_pos x
    positivity
  · linarith
  · exact le_refl _

/-- In the range of the normal numbers the unit in the last place is at most
`2 ^ (1 - prec)` times the value. -/
theorem FloatFormat.ulp_le (f : FloatFormat) (x : ℚ) (hx : 0 < x)
    (hnormal : (2 : ℚ) ^ (1 - (f.emax : Int)) ≤ x) :
    f.ulp x ≤ (2 : ℚ) ^ (1 - (f.prec : Int)) * x := by
  have he : 1 - (f.emax : Int) ≤ binExponent x := by
    by_contra hcon
    have hlt : binExponent x + 1 ≤ 1 - (f.emax : Int) := by omega
    have h1 := lt_binExponent_succ x
    have h2 : (2 : ℚ) ^ (binExponent x + 1) ≤ (2 : ℚ) ^ (1 - (f.emax : Int)) :=
      zpow_le_zpow_right₀ (by norm_num) hlt
    linarith
  unfold FloatFormat.ulp
  rw [pow2_eq, max_eq_left he]
  have h3 := binExponent_le x hx
  have e : (2 : ℚ) ^ (binExponent x - ((f.prec : Int) - 1))
      = (2 : ℚ) ^ (1 - (f.prec : Int)) * (2 : ℚ) ^ binExponent x := by
    rw [← zpow_add₀ (by norm_num)]
    congr 1
    ring
  rw [e]
  apply mul_le_mul_of_nonneg_left h3
  positivity

/-- The relative error of the rounding of a value in the range of the normal
numbers is at most `2 ^ (-prec)`. -/
theorem FloatFormat.nearest_rel_error (f : FloatFormat) (x : ℚ) (hx : 0 < x)
    (hnormal : (2 : ℚ) ^ (1 - (f.emax : Int)) ≤ x) :
    |f.nearest x - x| ≤ (2 : ℚ) ^ (-(f.prec : Int)) * x := by
  have h1 := f.nearest_error x hx
  have h2 := f.ulp_le x hx hnormal
  have e : (2 : ℚ) ^ (1 - (f.prec : Int)) = 2 * (2 : ℚ) ^ (-(f.prec : Int)) := by
    rw [sub_eq_add_neg, zpow_add₀ (by norm_num), zpow_one]
  rw [e] at h2
  linarith


theorem FloatFormat.nearest_rel_error_abs (f : FloatFormat) (x : ℚ)
    (hnormal : (2 : ℚ) ^ (1 - (f.emax : Int)) ≤ |x|) :
    |f.nearest x - x| ≤ (2 : ℚ) ^ (-(f.prec : Int)) * |x| := by
  have hpos : (0 : ℚ) < (2 : ℚ) ^ (1 - (f.emax : Int)) := by positivity
  rcases le_or_lt 0 x with h | h
  · rw [abs_of_nonneg h] at hnormal ⊢
    exact f.nearest_rel_error x (by linarith) hnormal
  · rw [abs_of_neg h] at hnormal ⊢
    have := f.nearest_rel_error (-x) (by linarith) hnormal
    rw [f.nearest_neg] at this
    have e : -f.nearest x - -x = -(f.nearest x - x) := by ring
    rwa [e, abs_neg] at this

theorem FloatFormat.round_of_abs_lt (f : FloatFormat) (x : ℚ)
    (h : |f.nearest x| < (2 : ℚ) ^ (f.emax + 1)) : f.round x = FloatVal.finite (f.nearest x) := by
  rw [abs_lt] at h
  have e : pow2 ((f.emax : Int) + 1) = (2 : ℚ) ^ (f.emax + 1) := by
    rw [pow2_eq]
    exact_mod_cast zpow_natCast (2 : ℚ) (f.emax + 1)
  unfold FloatFormat.round
  rw [e, if_neg (by linarith [h.2]), if_neg (by linarith [h.1])]

theorem FloatFormat.round_isNonneg (f : FloatFormat) (x : ℚ) (hx : 0 ≤ x) :
    (f.round x).isNonneg = true := by
  have h := f.nearest_nonneg x hx
  have hp : (0 : ℚ) < pow2 ((f.emax : Int) + 1) := by
    rw [pow2_eq]
    positivity
  unfold FloatFormat.round
  split_ifs with h1 h2
  · rfl
  · linarith
  · simpa [FloatVal.isNonneg] using h

theorem FloatFormat.div_zero (f : FloatFormat) (a : ℚ) :
    f.div a 0 = if a = 0 then FloatVal.nan else if 0 < a then FloatVal.posInf
      else FloatVal.negInf := by
  simp [FloatFormat.div]

theorem FloatFormat.div_of_ne_zero (f : FloatFormat) (a b : ℚ) (h : b ≠ 0) :
    f.div a b = f.round (a / b) := by
  simp [FloatFormat.div, h]

theorem FloatVal.div_zero_not_finite (a : ℚ) : (FloatVal.div a 0).isFinite = false := by
  unfold FloatVal.div
  rw [FloatFormat.div_zero]
  split
  · rfl
  · split <;> rfl

theorem FloatVal.toFloat_of_not_finite (v : FloatVal) (h : v.isFinite = false) :
    v.toFloat = v := by
  cases v with
  | finite q => simp [FloatVal.isFinite] at h
  | posInf => rfl
  | negInf => rfl
  | nan => rfl

theorem FloatVal.toFloat_isNonneg (v : FloatVal) (h : v.isNonneg = true) :
    v.toFloat.isNonneg = true := by
  cases v with
  | finite q =>
    simp only [FloatVal.isNonneg, decide_eq_true_eq] at h
    exact binary32.round_isNonneg q h
  | posInf => rfl
  | negInf => simp [FloatVal.isNonneg] at h
  | nan => simp [FloatVal.isNonneg] at h

theorem basicPctOfParent_zero (a : ℚ) : basicPctOfParent a 0 = FloatVal.div a 0 :=
  FloatVal.toFloat_of_not_finite _ (FloatVal.div_zero_not_finite a)

theorem basicPctOfParent_of_ne_zero (a b : ℚ) (h : b ≠ 0) :
    basicPctOfParent a b = (binary64.round (a / b)).toFloat := by
  unfold basicPctOfParent FloatVal.div
  rw [FloatFormat.div_of_ne_zero _ _ _ h]

theorem basicPctOfParent_isNonneg (a b : ℚ) (h : b ≠ 0) (hq : 0 ≤ a / b) :
    (basicPctOfParent a b).isNonneg = true := by
  rw [basicPctOfParent_of_ne_zero a b h]
  exact FloatVal.toFloat_isNonneg _ (binary64.round_isNonneg _ hq)


theorem binary64_normal_of_le (x : ℚ) (h : 1 / 2 ^ 1022 ≤ x) :
    (2 : ℚ) ^ (1 - (binary64.emax : Int)) ≤ x := by
  have e : (2 : ℚ) ^ (1 - (binary64.emax : Int)) = 1 / 2 ^ 1022 := by
    have : (1 - (binary64.emax : Int)) = -((1022 : ℕ) : Int) := by simp [binary64]
    rw [this, zpow_neg, zpow_natCast, one_div]
  rw [e]
  exact h

theorem binary32_normal_of_le (x : ℚ) (h : 1 / 2 ^ 126 ≤ x) :
    (2 : ℚ) ^ (1 - (binary32.emax : Int)) ≤ x := by
  have e : (2 : ℚ) ^ (1 - (binary32.emax : Int)) = 1 / 2 ^ 126 := by
    have : (1 - (binary32.emax : Int)) = -((126 : ℕ) : Int) := by simp [binary32]
    rw [this, zpow_neg, zpow_natCast, one_div]
  rw [e]
  exact h

theorem binary64_eps : (2 : ℚ) ^ (-(binary64.prec : Int)) = 1 / 2 ^ 53 := by
  have : (-(binary64.prec : Int)) = -((53 : ℕ) : Int) := by simp [binary64]
  rw [this, zpow_neg, zpow_natCast, one_div]

theorem binary32_eps : (2 : ℚ) ^ (-(binary32.prec : Int)) = 1 / 2 ^ 24 := by
  have : (-(binary32.prec : Int)) = -((24 : ℕ) : Int) := by simp [binary32]
  rw [this, zpow_neg, zpow_natCast, one_div]

set_option exponentiation.threshold 1100 in
theorem binary64_round_of_abs_lt (x : ℚ) (h : |binary64.nearest x| < 2 ^ 1024) :
    binary64.round x = FloatVal.finite (binary64.nearest x) :=
  binary64.round_of_abs_lt x h

theorem binary32_round_of_abs_lt (x : ℚ) (h : |binary32.nearest x| < 2 ^ 128) :
    binary32.round x = FloatVal.finite (binary32.nearest x) :=
  binary32.round_of_abs_lt x h

/-- The rounding of a `double` in the range of the normal numbers. -/
theorem binary64_nearest_error (x : ℚ) (h : 1 / 2 ^ 1022 ≤ |x|) :
    |binary64.nearest x - x| ≤ |x| / 2 ^ 53 := by
  have := binary64.nearest_rel_error_abs x (binary64_normal_of_le _ h)
  rw [binary64_eps] at this
  linarith

/-- The rounding of a `float` in the range of the normal numbers. -/
theorem binary32_nearest_error (x : ℚ) (h : 1 / 2 ^ 126 ≤ |x|) :
    |binary32.nearest x - x| ≤ |x| / 2 ^ 24 := by
  have := binary32.nearest_rel_error_abs x (binary32_normal_of_le _ h)
  rw [binary32_eps] at this
  linarith

set_option exponentiation.threshold 1100 in
/-- The stored ratio of two `double` totals whose quotient is in the range of
the normal numbers of `float` is a number within `2 ^ (-23)` of the quotient,
relatively. -/
theorem basicPctOfParent_tolerance (a b : ℚ) (hb : b ≠ 0)
    (hlo : a / b = 0 ∨ 1 / 2 ^ 125 ≤ |a / b|) (hhi : |a / b| ≤ 2 ^ 126) :
    ∃ v, basicPctOfParent a b = FloatVal.finite v ∧ |v - a / b| ≤ |a / b| / 2 ^ 23 := by
  rw [basicPctOfParent_of_ne_zero a b hb]
  generalize a / b = q at hlo hhi ⊢
  rcases hlo with hzero | hlo
  · subst hzero
    refine ⟨0, ?_, by simp⟩
    rw [binary64_round_of_abs_lt 0 (by rw [FloatFormat.nearest_zero]; norm_num)]
    show binary32.round (binary64.nearest 0) = FloatVal.finite 0
    rw [FloatFormat.nearest_zero,
      binary32_round_of_abs_lt 0 (by rw [FloatFormat.nearest_zero]; norm_num),
      FloatFormat.nearest_zero]
  have hq0 : 0 ≤ |q| := abs_nonneg q
  have e1 := binary64_nearest_error q (le_trans (by norm_num) hlo)
  have hd1 : |binary64.nearest q| ≤ |q| + |q| / 2 ^ 53 := by
    have := abs_sub_abs_le_abs_sub (binary64.nearest q) q
    linarith
  have hd2 : |q| - |q| / 2 ^ 53 ≤ |binary64.nearest q| := by
    have := abs_sub_abs_le_abs_sub q (binary64.nearest q)
    rw [abs_sub_comm q] at this
    linarith
  rw [binary64_round_of_abs_lt q (by
    have : |q| + |q| / 2 ^ 53 < 2 ^ 1024 := by
      have : |q| / 2 ^ 53 ≤ |q| := by
        apply div_le_self hq0
        norm_num
      have : (2 : ℚ) ^ 126 + 2 ^ 126 < 2 ^ 1024 := by norm_num
      linarith
    linarith)]
  show ∃ v, binary32.round (binary64.nearest q) = FloatVal.finite v ∧ _
  generalize binary64.nearest q = d at e1 hd1 hd2 ⊢
  have hd0 : 0 ≤ |d| := abs_nonneg d
  have hdl : 1 / 2 ^ 126 ≤ |d| := by
    have h1 : |q| / 2 ^ 53 ≤ |q| / 2 := by
      apply div_le_div_of_nonneg_left hq0 (by norm_num) (by norm_num)
    have h2 : (1 : ℚ) / 2 ^ 126 = 1 / 2 ^ 125 / 2 := by norm_num
    linarith
  have e2 := binary32_nearest_error d hdl
  have hv1 : |binary32.nearest d| ≤ |d| + |d| / 2 ^ 24 := by
    have := abs_sub_abs_le_abs_sub (binary32.nearest d) d
    linarith
  have hdu : |d| ≤ 2 ^ 127 := by
    have : |q| / 2 ^ 53 ≤ |q| := by
      apply div_le_self hq0
      norm_num
    have : (2 : ℚ) ^ 126 + 2 ^ 126 = 2 ^ 127 := by norm_num
    linarith
  rw [binary32_round_of_abs_lt d (by
    have : |d| / 2 ^ 24 ≤ |d| / 2 := by
      apply div_le_div_of_nonneg_left hd0 (by norm_num) (by norm_num)
    have : (2 : ℚ) ^ 127 + 2 ^ 127 / 2 < 2 ^ 128 := by norm_num
    linarith)]
  refine ⟨_, rfl, ?_⟩
  have htri : |binary32.nearest d - q| ≤ |binary32.nearest d - d| + |d - q| := by
    have := abs_add (binary32.nearest d - d) (d - q)
    simpa using this
  have h3 : |d| / 2 ^ 24 ≤ (|q| + |q| / 2 ^ 53) / 2 ^ 24 := by
    apply div_le_div_of_nonneg_right hd1 (by norm_num)
  have h4 : (|q| + |q| / 2 ^ 53) / 2 ^ 24 + |q| / 2 ^ 53 ≤ |q| / 2 ^ 23 := by
    have : (|q| + |q| / 2 ^ 53) / 2 ^ 24 + |q| / 2 ^ 53
        = |q| * ((1 + 1 / 2 ^ 53) / 2 ^ 24 + 1 / 2 ^ 53) := by ring
    rw [this, div_eq_mul_one_div |q| (2 ^ 23)]
    apply mul_le_mul_of_nonneg_left _ hq0
    norm_num
  linarith

theorem uint64ToFloat_zero : uint64ToFloat 0 = 0 := by
  unfold uint64ToFloat
  simp [FloatFormat.nearest_zero]

/-- The conversion of a positive `UINT64` to `float` is within `2 ^ (-24)` of
it, relatively. -/
theorem uint64ToFloat_error (n : Nat) (hn : 0 < n) :
    |uint64ToFloat n - n| ≤ (n : ℚ) / 2 ^ 24 := by
  have h1 : (1 : ℚ) ≤ n := by exact_mod_cast hn
  have h0 : |(n : ℚ)| = n := abs_of_nonneg (by positivity)
  have := binary32_nearest_error (n : ℚ) (by
    rw [h0]
    have : (1 : ℚ) / 2 ^ 126 ≤ 1 := by norm_num
    linarith)
  rw [h0] at this
  exact this

theorem uint64ToFloat_pos (n : Nat) (hn : 0 < n) : 0 < uint64ToFloat n := by
  have h1 : (1 : ℚ) ≤ n := by exact_mod_cast hn
  have h := uint64ToFloat_error n hn
  rw [abs_le] at h
  have : (n : ℚ) / 2 ^ 24 ≤ n / 2 := by
    apply div_le_div_of_nonneg_left (by positivity) (by norm_num) (by norm_num)
  linarith [h.1]

/-- The conversion of a `UINT64` to `float` does not overflow. -/
theorem uint64ToFloat_round (n : Nat) (hn : n < 2 ^ 64) :
    binary32.round n = FloatVal.finite (uint64ToFloat n) := by
  apply binary32_round_of_abs_lt
  by_cases h0 : n = 0
  · subst h0
    simp only [Nat.cast_zero, FloatFormat.nearest_zero, abs_zero]
    norm_num
  · have h := uint64ToFloat_error n (Nat.pos_of_ne_zero h0)
    unfold uint64ToFloat at h
    rw [abs_le] at h
    have hN : (n : ℚ) ≤ 2 ^ 64 := by exact_mod_cast (le_of_lt hn)
    have hpos : (0 : ℚ) ≤ n := by positivity
    have h1 : (n : ℚ) / 2 ^ 24 ≤ n := div_le_self hpos (by norm_num)
    have h2 : (2 : ℚ) ^ 64 + 2 ^ 64 < 2 ^ 128 := by norm_num
    rw [abs_lt]
    constructor <;> linarith [h.1, h.2]

theorem precisePctOfParent_zero (n : Nat) :
    precisePctOfParent n 0 = if n = 0 then FloatVal.nan else FloatVal.posInf := by
  unfold precisePctOfParent
  rw [uint64ToFloat_zero, FloatFormat.div_zero]
  by_cases hn : n = 0
  · subst hn
    simp [uint64ToFloat_zero]
  · have := uint64ToFloat_pos n (Nat.pos_of_ne_zero hn)
    simp [hn, this, ne_of_gt this]

theorem precisePctOfParent_of_ne_zero (c p : Nat) (hp : p ≠ 0) :
    precisePctOfParent c p = binary32.round (uint64ToFloat c / uint64ToFloat p) := by
  unfold precisePctOfParent
  rw [FloatFormat.div_of_ne_zero _ _ _ (ne_of_gt (uint64ToFloat_pos p (Nat.pos_of_ne_zero hp)))]

/-- The stored ratio of two `UINT64` totals is a number that is not negative
and within `2 ^ (-22)` of the quotient, relatively. -/
theorem precisePctOfParent_tolerance (c p : Nat) (hp : p ≠ 0) (hc64 : c < 2 ^ 64)
    (hp64 : p < 2 ^ 64) :
    ∃ v, precisePctOfParent c p = FloatVal.finite v ∧ 0 ≤ v ∧
      |v - (c : ℚ) / p| ≤ (c : ℚ) / p / 2 ^ 22 := by
  rw [precisePctOfParent_of_ne_zero c p hp]
  have hppos : 0 < p := Nat.pos_of_ne_zero hp
  have hP : (1 : ℚ) ≤ p := by exact_mod_cast hppos
  have hP64 : (p : ℚ) ≤ 2 ^ 64 := by exact_mod_cast (le_of_lt hp64)
  have hC64 : (c : ℚ) ≤ 2 ^ 64 := by exact_mod_cast (le_of_lt hc64)
  have hp' := uint64ToFloat_error p hppos
  have hp'pos := uint64ToFloat_pos p hppos
  rw [abs_le] at hp'
  by_cases hc : c = 0
  · subst hc
    rw [uint64ToFloat_zero, zero_div]
    refine ⟨0, ?_, le_refl _, by simp⟩
    rw [binary32_round_of_abs_lt 0 (by rw [FloatFormat.nearest_zero]; norm_num),
      FloatFormat.nearest_zero]
  · have hcpos : 0 < c := Nat.pos_of_ne_zero hc
    have hC : (1 : ℚ) ≤ c := by exact_mod_cast hcpos
    have hc' := uint64ToFloat_error c hcpos
    have hc'pos := uint64ToFloat_pos c hcpos
    rw [abs_le] at hc'
    generalize uint64ToFloat c = c' at hc' hc'pos ⊢
    generalize uint64ToFloat p = p' at hp' hp'pos ⊢
    have hq'pos : 0 < c' / p' := div_pos hc'pos hp'pos
    have hqp : c' / p' * p' = c' := div_mul_cancel₀ c' (ne_of_gt hp'pos)
    -- bounds of the quotient of the converted operands
    have hqlo : 1 / 2 ^ 126 ≤ c' / p' := by
      rw [le_div_iff₀ hp'pos]
      have : (1 : ℚ) / 2 ^ 126 * p' ≤ 1 / 2 ^ 126 * 2 ^ 65 := by
        apply mul_le_mul_of_nonneg_left _ (by norm_num)
        have : (p : ℚ) / 2 ^ 24 ≤ p := div_le_self (by positivity) (by norm_num)
        have : (2 : ℚ) ^ 64 + 2 ^ 64 = 2 ^ 65 := by norm_num
        linarith [hp'.2]
      have : (1 : ℚ) / 2 ^ 126 * 2 ^ 65 ≤ 1 / 2 := by norm_num
      have : (c : ℚ) / 2 ^ 24 ≤ c / 2 := by
        apply div_le_div_of_nonneg_left (by positivity) (by norm_num) (by norm_num)
      linarith [hc'.1]
    have hqhi : c' / p' ≤ 2 ^ 66 := by
      rw [div_le_iff₀ hp'pos]
      have h1 : (p : ℚ) / 2 ^ 24 ≤ p / 2 := by
        apply div_le_div_of_nonneg_left (by positivity) (by norm_num) (by norm_num)
      have h2 : (1 : ℚ) / 2 ≤ p' := by linarith [hp'.1]
      have h3 : (2 : ℚ) ^ 66 * (1 / 2) ≤ 2 ^ 66 * p' :=
        mul_le_mul_of_nonneg_left h2 (by norm_num)
      have h4 : (c : ℚ) / 2 ^ 24 ≤ c := div_le_self (by positivity) (by norm_num)
      have h5 : (2 : ℚ) ^ 66 * (1 / 2) = 2 ^ 64 + 2 ^ 64 := by norm_num
      linarith [hc'.2]
    have habs : |c' / p'| = c' / p' := abs_of_pos hq'pos
    have hv := binary32_nearest_error (c' / p') (by rw [habs]; exact hqlo)
    rw [habs, abs_le] at hv
    have hv0 := binary32.nearest_nonneg (c' / p') (le_of_lt hq'pos)
    have hsmall : c' / p' / 2 ^ 24 ≤ c' / p' := div_le_self (le_of_lt hq'pos) (by norm_num)
    rw [binary32_round_of_abs_lt (c' / p') (by
      rw [abs_of_nonneg hv0]
      have : (2 : ℚ) ^ 66 + 2 ^ 66 < 2 ^ 128 := by norm_num
      linarith [hv.2])]
    refine ⟨_, rfl, hv0, ?_⟩
    generalize binary32.nearest (c' / p') = v at hv hv0 ⊢
    generalize hq' : c' / p' = q' at hv hq'pos hqp hsmall
    -- everything multiplied by `p`, the parent total
    have hPpos : (0 : ℚ) < p := by linarith
    have k1 : q' * ((p : ℚ) - p / 2 ^ 24) ≤ c' := by
      rw [← hqp]
      apply mul_le_mul_of_nonneg_left _ (le_of_lt hq'pos)
      linarith [hp'.1]
    have k2 : c' ≤ q' * ((p : ℚ) + p / 2 ^ 24) := by
      rw [← hqp]
      apply mul_le_mul_of_nonneg_left _ (le_of_lt hq'pos)
      linarith [hp'.2]
    have k3 : v * p ≤ (q' + q' / 2 ^ 24) * p :=
      mul_le_mul_of_nonneg_right (by linarith [hv.2]) (le_of_lt hPpos)
    have k4 : (q' - q' / 2 ^ 24) * p ≤ v * p :=
      mul_le_mul_of_nonneg_right (by linarith [hv.1]) (le_of_lt hPpos)
    have e : v - (c : ℚ) / p = (v * p - c) / p := by
      field_simp
    have e' : (c : ℚ) / p / 2 ^ 22 = (c : ℚ) / 2 ^ 22 / p := by ring
    have hfin : |v * p - c| ≤ (c : ℚ) / 2 ^ 22 := by
      rw [abs_le]
      constructor
      · linarith [hc'.1, k1, k2, k3, k4]
      · linarith [hc'.2, k1, k2, k3, k4]
    rw [e, abs_div, abs_of_pos hPpos, e']
    exact div_le_div_of_nonneg_right hfin (le_of_lt hPpos)

theorem FloatFormat.nearest_of_round (f : FloatFormat) (x v : ℚ)
    (h : f.round x = FloatVal.finite v) : v = f.nearest x := by
  unfold FloatFormat.round at h
  split_ifs at h
  exact (FloatVal.finite.inj h).symm

theorem FloatVal.nearest_of_toFloat (x v : ℚ)
    (h : (binary64.round x).toFloat = FloatVal.finite v) :
    v = binary32.nearest (binary64.nearest x) := by
  cases hr : binary64.round x with
  | finite d =>
    rw [hr] at h
    have hd := binary64.nearest_of_round x d hr
    rw [← hd]
    exact binary32.nearest_of_round d v h
  | posInf => rw [hr] at h; cases h
  | negInf => rw [hr] at h; cases h
  | nan => rw [hr] at h; cases h

theorem foldl_add64_lt {α : Type} (f : α → Nat) (l : List α) :
    ∀ acc, acc < 2 ^ 64 → l.foldl (fun a c => add64 a (f c)) acc < 2 ^ 64 := by
  induction l with
  | nil => intro acc h; exact h
  | cons x l ih =>
    intro acc _
    rw [List.foldl_cons]
    exact ih _ (Nat.mod_lt _ (by norm_num))

theorem preciseTotalCycles_lt (b : ProfiledBlock) : preciseTotalCycles b < 2 ^ 64 :=
  foldl_add64_lt (fun s : PreciseProfileSample => s.cycles) b.precise.samples 0 (by norm_num)

/-! ## `pctOfParent` -/

theorem basicTotalTime_nonneg (b : ProfiledBlock) (h : ∀ s ∈ b.basic.samples, 0 ≤ s.time) :
    0 ≤ basicTotalTime b := by
  unfold basicTotalTime
  rw [foldl_add_eq_sum (fun s : ProfileSample => s.time)]
  simp only [zero_add]
  apply List.sum_nonneg
  intro x hx
  obtain ⟨s, hs, rfl⟩ := List.mem_map.mp hx
  exact h s hs

/-- The entries of a parent and of one of its children in both vectors. -/
theorem aggregate_parent_child (self : ProfilerCPU) (rootBlock : ProfiledBlock)
    (flat : List TempEntry) (hok : FlatOK rootBlock flat) (p c : Nat) (ep : TempEntry)
    (hp : flat[p]? = some ep) (hc : c ∈ ep.childIndexes) :
    ∃ (bp bc : ProfiledBlock) (cb pb : BasicData) (cp pp : PreciseData),
      ep.parentBlock = some bp ∧ blockAt flat c = some bc ∧
      (aggregateBasic self flat)[c]? = some cb ∧ (aggregateBasic self flat)[p]? = some pb ∧
      (aggregatePrecise self flat)[c]? = some cp ∧ (aggregatePrecise self flat)[p]? = some pp ∧
      cb.totalTimeMs = basicTotalTime bc ∧ pb.totalTimeMs = basicTotalTime bp ∧
      cp.totalCycles = preciseTotalCycles bc ∧ pp.totalCycles = preciseTotalCycles bp ∧
      cb.pctOfParent = basicPctOfParent cb.totalTimeMs pb.totalTimeMs ∧
      cp.pctOfParent = precisePctOfParent cp.totalCycles pp.totalCycles := by
  have hinvB := aggregateBasic_inv self rootBlock flat hok
  have hinvP := aggregatePrecise_inv self rootBlock flat hok
  obtain ⟨bp, hbp⟩ := hok.block p ep hp
  have hclt := (hok.child_range p ep c hp hc).2
  have hec : flat[c]? = some flat[c] := List.getElem?_eq_getElem hclt
  obtain ⟨bc, hbc⟩ := hok.block c flat[c] hec
  obtain ⟨pb, hpb, hcorepb⟩ := hinvB.core p ep bp (Nat.zero_le _) hp hbp
  obtain ⟨pp, hpp, hcorepp⟩ := hinvP.core p ep bp (Nat.zero_le _) hp hbp
  obtain ⟨cb', hcb', hcorecb⟩ := hinvB.core c flat[c] bc (Nat.zero_le _) hec hbc
  obtain ⟨cp', hcp', hcorecp⟩ := hinvP.core c flat[c] bc (Nat.zero_le _) hec hbc
  obtain ⟨cb, hcb, hpctb⟩ := hinvB.pct_child c p ep (Nat.zero_le _) hp hc
  obtain ⟨cp, hcp, hpctp⟩ := hinvP.pct_child c p ep (Nat.zero_le _) hp hc
  rw [hcb] at hcb'
  have hcbeq : cb = cb' := Option.some.inj hcb'
  subst hcbeq
  rw [hcp] at hcp'
  have hcpeq : cp = cp' := Option.some.inj hcp'
  subst hcpeq
  refine ⟨bp, bc, cb, pb, cp, pp, hbp, ?_, hcb, hpb, hcp, hpp, ?_, ?_, ?_, ?_, ?_, ?_⟩
  · unfold blockAt
    rw [hec]
    exact hbc
  · rw [BasicData.congr_of_core BasicData.totalTimeMs (fun _ _ => rfl) hcorecb,
      basicAggregated_totalTimeMs]
  · rw [BasicData.congr_of_core BasicData.totalTimeMs (fun _ _ => rfl) hcorepb,
      basicAggregated_totalTimeMs]
  · rw [PreciseData.congr_of_same_core PreciseData.totalCycles (fun _ _ => rfl) hcorecp,
      preciseAggregated_totalCycles]
  · rw [PreciseData.congr_of_same_core PreciseData.totalCycles (fun _ _ => rfl) hcorepp,
      preciseAggregated_totalCycles]
  · rw [hpctb, List.getD_eq_getElem?_getD, hpb]
    rfl
  · rw [hpctp, List.getD_eq_getElem?_getD, hpp]
    rfl

/-- C8 as amended: in the aggregated hierarchy of every tree, the root entry
has `pctOfParent = 1`, and every other entry has a parent entry such that
`pctOfParent` is the `float` that the source's division of the entry's total by
the parent's total gives: for Basic the quotient of the two `double` times
converted to `float`, for Precise the `float` quotient of the two cycle counts
converted to `float`.  When the parent's total is not zero, the Precise value
is a number, not negative, within `2 ^ (-22)` of the exact quotient,
relatively; the Basic value is not negative when no sample time of the two
blocks is negative, and it is a number within `2 ^ (-23)` of the exact
quotient, relatively, when the quotient is zero or in the range of the normal
numbers of `float`. -/
theorem pctOfParent_eq_rounded_ratio (self : ProfilerCPU) (rootBlock : ProfiledBlock) :
    ∃ flat, flatten rootBlock = Except.ok flat ∧
      (∃ rb rp, (aggregateBasic self flat)[0]? = some rb ∧
        (aggregatePrecise self flat)[0]? = some rp ∧
        rb.pctOfParent = FloatVal.finite 1 ∧ rp.pctOfParent = FloatVal.finite 1) ∧
      ∀ c, 0 < c → c < flat.length →
        ∃ (p : Nat) (ep : TempEntry) (bp bc : ProfiledBlock) (cb pb : BasicData)
            (cp pp : PreciseData),
          flat[p]? = some ep ∧ c ∈ ep.childIndexes ∧ ep.parentBlock = some bp ∧
          blockAt flat c = some bc ∧
          (aggregateBasic self flat)[c]? = some cb ∧ (aggregateBasic self flat)[p]? = some pb ∧
          (aggregatePrecise self flat)[c]? = some cp ∧
          (aggregatePrecise self flat)[p]? = some pp ∧
          cb.pctOfParent = (FloatVal.div cb.totalTimeMs pb.totalTimeMs).toFloat ∧
          (pb.totalTimeMs ≠ 0 →
            cb.pctOfParent = (binary64.round (cb.totalTimeMs / pb.totalTimeMs)).toFloat ∧
            ((∀ s ∈ bc.basic.samples, 0 ≤ s.time) → (∀ s ∈ bp.basic.samples, 0 ≤ s.time) →
              cb.pctOfParent.isNonneg = true) ∧
            ((cb.totalTimeMs / pb.totalTimeMs = 0 ∨
                1 / 2 ^ 125 ≤ |cb.totalTimeMs / pb.totalTimeMs|) →
              |cb.totalTimeMs / pb.totalTimeMs| ≤ 2 ^ 126 →
              ∃ v, cb.pctOfParent = FloatVal.finite v ∧
                v = binary32.nearest (binary64.nearest (cb.totalTimeMs / pb.totalTimeMs)) ∧
                |v - cb.totalTimeMs / pb.totalTimeMs|
                  ≤ |cb.totalTimeMs / pb.totalTimeMs| / 2 ^ 23)) ∧
          cp.pctOfParent
            = binary32.div (uint64ToFloat cp.totalCycles) (uint64ToFloat pp.totalCycles) ∧
          (pp.totalCycles ≠ 0 →
            ∃ v, cp.pctOfParent = FloatVal.finite v ∧
              v = binary32.nearest
                (uint64ToFloat cp.totalCycles / uint64ToFloat pp.totalCycles) ∧
              0 ≤ v ∧
              |v - (cp.totalCycles : ℚ) / pp.totalCycles|
                ≤ (cp.totalCycles : ℚ) / pp.totalCycles / 2 ^ 22) := by
  obtain ⟨flat, hflat, hok⟩ := flatten_ok rootBlock
  refine ⟨flat, hflat, ?_, ?_⟩
  · have hpos : 0 < flat.length := by
      have := hok.root
      unfold blockAt at this
      by_contra hn
      rw [List.getElem?_eq_none (by omega)] at this
      cases this
    have hnop : ∀ (p : Nat) (ep : TempEntry), 0 ≤ p → flat[p]? = some ep → 0 ∉ ep.childIndexes := by
      intro p ep _ hp h0
      have := (hok.child_range p ep 0 hp h0).1
      omega
    obtain ⟨rb, hrb, hrb1⟩ := (aggregateBasic_inv self rootBlock flat hok).pct_root 0 hpos hnop
    obtain ⟨rp, hrp, hrp1⟩ := (aggregatePrecise_inv self rootBlock flat hok).pct_root 0 hpos hnop
    exact ⟨rb, rp, hrb, hrp, hrb1, hrp1⟩
  · intro c hc0 hc
    obtain ⟨p, ep, hp, hmem⟩ := hok.has_parent c hc0 hc
    obtain ⟨bp, bc, cb, pb, cp, pp, hbp, hbc, hcb, hpb, hcp, hpp, htc, htp, hcc, hcp', hpctb,
        hpctp⟩ := aggregate_parent_child self rootBlock flat hok p c ep hp hmem
    refine ⟨p, ep, bp, bc, cb, pb, cp, pp, hp, hmem, hbp, hbc, hcb, hpb, hcp, hpp, hpctb, ?_,
      hpctp, ?_⟩
    · intro hne
      refine ⟨?_, ?_, ?_⟩
      · rw [hpctb, basicPctOfParent_of_ne_zero _ _ hne]
      · intro hsc hsp
        rw [hpctb]
        apply basicPctOfParent_isNonneg _ _ hne
        rw [htc, htp]
        exact div_nonneg (basicTotalTime_nonneg bc hsc) (basicTotalTime_nonneg bp hsp)
      · intro hlo hhi
        obtain ⟨v, hv, htol⟩ := basicPctOfParent_tolerance _ _ hne hlo hhi
        refine ⟨v, by rw [hpctb, hv], ?_, htol⟩
        rw [basicPctOfParent_of_ne_zero _ _ hne] at hv
        exact FloatVal.nearest_of_toFloat _ v hv
    · intro hne
      have hlt1 : cp.totalCycles < 2 ^ 64 := by
        rw [hcc]
        exact preciseTotalCycles_lt bc
      have hlt2 : pp.totalCycles < 2 ^ 64 := by
        rw [hcp']
        exact preciseTotalCycles_lt bp
      obtain ⟨v, hv, hv0, htol⟩ := precisePctOfParent_tolerance _ _ hne hlt1 hlt2
      refine ⟨v, by rw [hpctp, hv], ?_, hv0, htol⟩
      rw [precisePctOfParent_of_ne_zero _ _ hne] at hv
      exact binary32.nearest_of_round _ v hv

/-- C9 as amended: the division is not guarded.  In the aggregated hierarchy of
every tree, a child of an entry whose total is zero gets the value of the
division by zero as `pctOfParent`: not a finite number for Basic, and for
Precise NaN when the child's own total is zero and plus infinity otherwise. -/
theorem pctOfParent_of_zero_parent (self : ProfilerCPU) (rootBlock : ProfiledBlock) :
    ∃ flat, flatten rootBlock = Except.ok flat ∧
      ∀ (p c : Nat) (ep : TempEntry), flat[p]? = some ep → c ∈ ep.childIndexes →
        ∃ (cb pb : BasicData) (cp pp : PreciseData),
          (aggregateBasic self flat)[c]? = some cb ∧ (aggregateBasic self flat)[p]? = some pb ∧
          (aggregatePrecise self flat)[c]? = some cp ∧
          (aggregatePrecise self flat)[p]? = some pp ∧
          (pb.totalTimeMs = 0 → cb.pctOfParent = FloatVal.div cb.totalTimeMs 0 ∧
            cb.pctOfParent.isFinite = false) ∧
          (pp.totalCycles = 0 →
            cp.pctOfParent = if cp.totalCycles = 0 then FloatVal.nan else FloatVal.posInf) := by
  obtain ⟨flat, hflat, hok⟩ := flatten_ok rootBlock
  refine ⟨flat, hflat, ?_⟩
  intro p c ep hp hmem
  obtain ⟨bp, bc, cb, pb, cp, pp, hbp, hbc, hcb, hpb, hcp, hpp, htc, htp, -, -, hpctb, hpctp⟩ :=
    aggregate_parent_child self rootBlock flat hok p c ep hp hmem
  refine ⟨cb, pb, cp, pp, hcb, hpb, hcp, hpp, ?_, ?_⟩
  · intro h0
    rw [hpctb, h0, basicPctOfParent_zero]
    exact ⟨rfl, FloatVal.div_zero_not_finite _⟩
  · intro h0
    rw [hpctp, h0]
    exact precisePctOfParent_zero _

theorem getElem?_append_singleton {α : Type} (l : List α) (x : α) (k : Nat) :
    (l ++ [x])[k]? = if k < l.length then l[k]? else if k = l.length then some x else none := by
  by_cases h : k < l.length
  · rw [if_pos h, List.getElem?_append_left h]
  · rw [if_neg h, List.getElem?_append_right (by omega)]
    by_cases h' : k = l.length
    · subst h'
      simp
    · rw [if_neg h']
      have : k - l.length ≠ 0 := by omega
      cases hk : k - l.length with
      | zero => exact absurd hk this
      | succ n => simp

theorem pruneChild_inv (numCalls : Nat → Nat) (parentEntryIdx : Nat) (st : PruneState)
    (childIdx : Nat) (hinv : PruneInv numCalls st) (hp : parentEntryIdx < st.newEntries.length) :
    PruneInv numCalls (pruneChild numCalls parentEntryIdx st childIdx) ∧
    st.newEntries.length ≤ (pruneChild numCalls parentEntryIdx st childIdx).newEntries.length := by
  obtain ⟨todo, parents, new, n⟩ := st
  have hn : n = new.length := hinv.idx
  subst hn
  obtain ⟨e0, he0, he0idx⟩ := hinv.first
  have hstacks : todo.length = parents.length := hinv.same_len
  have hpar : ∀ p ∈ parents, p < new.length := hinv.parents_lt
  have hchild : ∀ (k : Nat) (e : TempEntry) (c : Nat), new[k]? = some e →
      c ∈ e.childIndexes → 1 ≤ c ∧ c < new.length := hinv.child_ge
  have hentry : ∀ (k : Nat) (e : TempEntry), 1 ≤ k → new[k]? = some e →
      0 < numCalls e.entryIdx := hinv.entry_ok
  simp only at he0 hp
  have hpos : 0 < new.length := by
    by_contra hcon
    rw [List.getElem?_eq_none (by omega)] at he0
    cases he0
  unfold pruneChild
  by_cases hcalls : numCalls childIdx > 0
  · simp only [hcalls, if_true]
    have hget : ∀ (k : Nat) (e : TempEntry),
        (modifyNth (new ++ [⟨none, childIdx, []⟩]) parentEntryIdx
          (TempEntry.pushChild new.length))[k]? = some e →
        (k < new.length ∧ ∃ e', new[k]? = some e' ∧ e.entryIdx = e'.entryIdx ∧
          (e.childIndexes = e'.childIndexes ∨ e.childIndexes = e'.childIndexes ++ [new.length])) ∨
        (k = new.length ∧ e.entryIdx = childIdx ∧ e.childIndexes = []) := by
      intro k e h
      rw [getElem?_modifyNth, getElem?_append_singleton] at h
      by_cases hk : k < new.length
      · left
        refine ⟨hk, ?_⟩
        simp only [hk, if_true] at h
        by_cases hpk : parentEntryIdx = k
        · simp only [hpk, if_true] at h
          cases he' : new[k]? with
          | none => rw [he'] at h; simp at h
          | some e' =>
            rw [he'] at h
            simp only [Option.map_some', Option.some.injEq] at h
            subst h
            exact ⟨e', rfl, rfl, Or.inr rfl⟩
        · simp only [hpk, if_false] at h
          exact ⟨e, h, rfl, Or.inl rfl⟩
      · right
        have hpk : parentEntryIdx ≠ k := by omega
        simp only [hpk, if_false, hk] at h
        by_cases hkn : k = new.length
        · simp only [hkn, if_true, Option.some.injEq] at h
          subst h
          exact ⟨hkn, rfl, rfl⟩
        · simp only [hkn, if_false] at h
          cases h
    refine ⟨?_, ?_⟩
    · constructor
      · simp [length_modifyNth]
      · simp only
        rw [getElem?_modifyNth, getElem?_append_singleton]
        simp only [hpos, if_true, he0]
        by_cases hp0 : parentEntryIdx = 0
        · exact ⟨TempEntry.pushChild new.length e0, by simp [hp0], he0idx⟩
        · exact ⟨e0, by simp [hp0], he0idx⟩
      · simp [hstacks]
      · intro p hp'
        simp only [length_modifyNth, List.length_append, List.length_singleton]
        simp only [List.mem_cons] at hp'
        rcases hp' with rfl | hp'
        · omega
        · have := hpar p hp'
          omega
      · intro k e c h hc
        simp only [length_modifyNth, List.length_append, List.length_singleton]
        rcases hget k e h with ⟨hk, e', he', -, hch | hch⟩ | ⟨hk, -, hch⟩
        · rw [hch] at hc
          have := hchild k e' c he' hc
          omega
        · rw [hch, List.mem_append, List.mem_singleton] at hc
          rcases hc with hc | rfl
          · have := hchild k e' c he' hc
            omega
          · omega
        · rw [hch] at hc
          simp at hc
      · intro k e hk h
        rcases hget k e h with ⟨_, e', he', hidx, -⟩ | ⟨_, hidx, -⟩
        · rw [hidx]
          exact hentry k e' hk he'
        · rw [hidx]
          exact hcalls
    · simp [length_modifyNth]
  · simp only [hcalls, if_false]
    refine ⟨?_, Nat.le_refl _⟩
    constructor
    · rfl
    · exact ⟨e0, he0, he0idx⟩
    · simp [hstacks]
    · intro p hp'
      simp only [List.mem_cons] at hp'
      rcases hp' with rfl | hp'
      · exact hp
      · exact hpar p hp'
    · exact hchild
    · exact hentry

theorem foldl_pruneChild_inv (numCalls : Nat → Nat) (parentEntryIdx : Nat) (ch : List Nat) :
    ∀ (st : PruneState), PruneInv numCalls st → parentEntryIdx < st.newEntries.length →
      PruneInv numCalls (ch.foldl (pruneChild numCalls parentEntryIdx) st) := by
  induction ch with
  | nil => intro st hinv _; exact hinv
  | cons c ch ih =>
    intro st hinv hp
    rw [List.foldl_cons]
    obtain ⟨hinv', hle⟩ := pruneChild_inv numCalls parentEntryIdx st c hinv hp
    exact ih _ hinv' (by omega)

theorem pruneLoop_inv (numCalls : Nat → Nat) (flat : List TempEntry) (fuel : Nat) :
    ∀ (st st' : PruneState), PruneInv numCalls st →
      pruneLoop numCalls flat fuel st = Except.ok st' → PruneInv numCalls st' := by
  induction fuel with
  | zero =>
    intro st st' hinv h
    unfold pruneLoop at h
    split at h
    · cases h; exact hinv
    · cases h
  | succ fuel ih =>
    intro st st' hinv h
    unfold pruneLoop at h
    split at h
    · cases h; exact hinv
    · rename_i cur todo htodo
      split at h
      · cases h
      · rename_i p parents hparents
        split at h
        · cases h
        · rename_i curEntry hcur
          refine ih _ st' ?_ h
          apply foldl_pruneChild_inv
          · constructor
            · exact hinv.idx
            · exact hinv.first
            · have := hinv.same_len
              rw [htodo, hparents] at this
              simpa using this
            · intro q hq
              exact hinv.parents_lt q (by rw [hparents]; exact List.mem_cons_of_mem _ hq)
            · exact hinv.child_ge
            · exact hinv.entry_ok
          · exact hinv.parents_lt p (by rw [hparents]; simp)

/-- What the pruning guarantees about `newEntries`: the first entry stands for
the root, the child indexes designate later entries, and every entry but the
first stands for an entry with calls. -/
theorem prune_spec (numCalls : Nat → Nat) (flat new : List TempEntry)
    (h : prune numCalls flat = Except.ok new) :
    (∃ e0 : TempEntry, new[0]? = some e0 ∧ e0.entryIdx = 0) ∧
    (∀ (k : Nat) (e : TempEntry) (c : Nat), new[k]? = some e → c ∈ e.childIndexes →
      1 ≤ c ∧ c < new.length) ∧
    (∀ (k : Nat) (e : TempEntry), 1 ≤ k → new[k]? = some e → 0 < numCalls e.entryIdx) := by
  unfold prune at h
  split at h
  · rename_i st hst
    cases h
    have hinit : PruneInv numCalls ⟨[0], [0], [⟨none, 0, []⟩], 1⟩ := by
      constructor
      · rfl
      · exact ⟨_, rfl, rfl⟩
      · rfl
      · intro p hp
        simp at hp
        subst hp
        simp
      · intro k e c hk hc
        cases k with
        | zero => simp at hk; subst hk; simp at hc
        | succ k => simp at hk
      · intro k e hk h
        cases k with
        | zero => omega
        | succ k => simp at h
    have hinv := pruneLoop_inv numCalls flat _ _ st hinit hst
    exact ⟨hinv.first, hinv.child_ge, hinv.entry_ok⟩
  · cases h

theorem ReportEntry.allBelowList_iff {δ : Type} (P : δ → Prop) (cs : List (ReportEntry δ)) :
    ReportEntry.AllBelowList P cs ↔ ∀ c ∈ cs, P c.data ∧ ReportEntry.AllBelow P c := by
  induction cs with
  | nil => simp [ReportEntry.AllBelowList]
  | cons c cs ih =>
    simp only [ReportEntry.AllBelowList, ih, List.mem_cons, forall_eq_or_imp]
    tauto

theorem ReportEntry.allBelow_iff {δ : Type} (P : δ → Prop) (e : ReportEntry δ) :
    ReportEntry.AllBelow P e ↔ ∀ c ∈ e.childEntries, P c.data ∧ ReportEntry.AllBelow P c := by
  cases e with
  | mk d cs =>
    rw [ReportEntry.AllBelow, ReportEntry.allBelowList_iff]
    rfl

theorem ReportEntry.data_setChildEntries {δ : Type} (e : ReportEntry δ)
    (cs : List (ReportEntry δ)) : (e.setChildEntries cs).data = e.data := by
  cases e
  rfl

theorem ReportEntry.childEntries_setChildEntries {δ : Type} (e : ReportEntry δ)
    (cs : List (ReportEntry δ)) : (e.setChildEntries cs).childEntries = cs := by
  cases e
  rfl

theorem ReportEntry.setChildEntries_setChildEntries {δ : Type} (e : ReportEntry δ)
    (cs cs' : List (ReportEntry δ)) :
    (e.setChildEntries cs).setChildEntries cs' = e.setChildEntries cs' := by
  cases e
  rfl

theorem ReportEntry.modifyAt_data {δ : Type} (f : ReportEntry δ → ReportEntry δ)
    (hf : ∀ e, (f e).data = e.data) (path : List Nat) :
    ∀ (root root' : ReportEntry δ), root.modifyAt f path = some root' → root'.data = root.data := by
  induction path with
  | nil =>
    intro root root' h
    simp only [ReportEntry.modifyAt, Option.some.injEq] at h
    rw [← h, hf]
  | cons i rest ih =>
    intro root root' h
    unfold ReportEntry.modifyAt at h
    split at h
    · split at h
      · simp only [Option.some.injEq] at h
        rw [← h, ReportEntry.data_setChildEntries]
      · cases h
    · cases h

theorem ReportEntry.modifyAt_allBelow {δ : Type} (P : δ → Prop)
    (f : ReportEntry δ → ReportEntry δ) (hf : ∀ e, (f e).data = e.data)
    (hP : ∀ e, ReportEntry.AllBelow P (f e)) (path : List Nat) :
    ∀ (root root' : ReportEntry δ), ReportEntry.AllBelow P root →
      root.modifyAt f path = some root' → ReportEntry.AllBelow P root' := by
  induction path with
  | nil =>
    intro root root' _ h
    simp only [ReportEntry.modifyAt, Option.some.injEq] at h
    rw [← h]
    exact hP root
  | cons i rest ih =>
    intro root root' hroot h
    unfold ReportEntry.modifyAt at h
    split at h
    · rename_i c hc
      split at h
      · rename_i c' hc'
        simp only [Option.some.injEq] at h
        rw [← h, ReportEntry.allBelow_iff, ReportEntry.childEntries_setChildEntries]
        rw [ReportEntry.allBelow_iff] at hroot
        have hcmem : c ∈ root.childEntries := List.getElem?_mem hc
        intro x hx
        rcases List.mem_or_eq_of_mem_set hx with hx | rfl
        · exact hroot x hx
        · refine ⟨?_, ih c x (hroot c hcmem).2 hc'⟩
          rw [ReportEntry.modifyAt_data f hf rest c x hc']
          exact (hroot c hcmem).1
      · cases h
    · cases h

theorem ReportEntry.modifyAt_comp {δ : Type} (f g : ReportEntry δ → ReportEntry δ)
    (path : List Nat) :
    ∀ (root r1 : ReportEntry δ), root.modifyAt f path = some r1 →
      r1.modifyAt g path = root.modifyAt (fun e => g (f e)) path := by
  induction path with
  | nil =>
    intro root r1 h
    simp only [ReportEntry.modifyAt, Option.some.injEq] at h
    rw [← h]
    rfl
  | cons i rest ih =>
    intro root r1 h
    unfold ReportEntry.modifyAt at h
    split at h
    · rename_i c hc
      split at h
      · rename_i c1 hc1
        simp only [Option.some.injEq] at h
        have hi : i < root.childEntries.length := by
          by_contra hn
          rw [List.getElem?_eq_none (by omega)] at hc
          cases hc
        rw [← h]
        conv_lhs => unfold ReportEntry.modifyAt
        conv_rhs => unfold ReportEntry.modifyAt
        simp only [ReportEntry.childEntries_setChildEntries, hc,
          List.getElem?_set_self hi]
        rw [ih c c1 hc1]
        cases ReportEntry.modifyAt (fun e => g (f e)) c rest with
        | none => rfl
        | some c2 =>
          simp only [ReportEntry.setChildEntries_setChildEntries, List.set_set]
      · cases h
    · cases h

theorem getElem?_overwriteFrom {α : Type} (xs : List α) :
    ∀ (l : List α) (idx k : Nat), idx + xs.length ≤ l.length →
      (overwriteFrom l idx xs)[k]? =
        if idx ≤ k ∧ k < idx + xs.length then xs[k - idx]? else l[k]? := by
  induction xs with
  | nil =>
    intro l idx k _
    simp only [overwriteFrom, List.length_nil, Nat.add_zero]
    rw [if_neg (by omega)]
  | cons x xs ih =>
    intro l idx k h
    simp only [List.length_cons] at h
    simp only [overwriteFrom, List.length_cons]
    rw [ih (l.set idx x) (idx + 1) k (by rw [List.length_set]; omega)]
    by_cases h1 : idx + 1 ≤ k ∧ k < idx + 1 + xs.length
    · rw [if_pos h1, if_pos (by omega)]
      have : k - idx = (k - (idx + 1)) + 1 := by omega
      rw [this, List.getElem?_cons_succ]
    · rw [if_neg h1]
      by_cases h2 : k = idx
      · subst h2
        rw [if_pos (by omega), List.getElem?_set_self (by omega)]
        simp
      · rw [if_neg (by omega), List.getElem?_set_ne (by omega)]

theorem length_overwriteFrom {α : Type} (xs : List α) :
    ∀ (l : List α) (idx : Nat), (overwriteFrom l idx xs).length = l.length := by
  induction xs with
  | nil => intro l idx; rfl
  | cons x xs ih =>
    intro l idx
    simp only [overwriteFrom]
    rw [ih, List.length_set]

theorem overwriteFrom_zero_eq {α : Type} (l xs : List α) (h : l.length = xs.length) :
    overwriteFrom l 0 xs = xs := by
  apply List.ext_getElem?
  intro k
  rw [getElem?_overwriteFrom xs l 0 k (by omega)]
  by_cases hk : k < xs.length
  · rw [if_pos (by omega)]
    simp
  · rw [if_neg (by omega), List.getElem?_eq_none (by omega), List.getElem?_eq_none (by omega)]

theorem ReportEntry.setChildEntries_self {δ : Type} (e : ReportEntry δ) :
    e.setChildEntries e.childEntries = e := by
  cases e
  rfl

theorem length_resizeChildEntries {δ : Type} [Inhabited δ] (n : Nat) (e : ReportEntry δ) :
    (resizeChildEntries n e).childEntries.length = n := by
  unfold resizeChildEntries
  rw [ReportEntry.childEntries_setChildEntries]
  simp only [List.length_append, List.length_take, List.length_replicate]
  omega

theorem resizeChildEntries_setChildEntries {δ : Type} [Inhabited δ] (n : Nat) (e : ReportEntry δ)
    (cs : List (ReportEntry δ)) :
    (resizeChildEntries n e).setChildEntries cs = e.setChildEntries cs := by
  unfold resizeChildEntries
  rw [ReportEntry.setChildEntries_setChildEntries]

/-- Closed form of the loop over the child indexes in the rebuilding: it
assigns the copied data to the child entries from position `idx` on, pushes
the child indexes on the stack and one pointer per child to `finalEntries`. -/
theorem rebuildChildren_spec {δ : Type} (useBack : Bool) (entries : List δ)
    (newEntries : List TempEntry) (path : List Nat) (size : Nat) (ch : List Nat) :
    ∀ (idx : Nat) (st st' : RebuildState δ) (f : ReportEntry δ → ReportEntry δ)
      (r0 : ReportEntry δ), r0.modifyAt f path = some st.rootEntry →
      rebuildChildren useBack entries newEntries path size ch idx st = Except.ok st' →
      ∃ ds : List δ, ch.map (childData entries newEntries) = ds.map some ∧
        r0.modifyAt (fun e => (f e).setChildEntries
          (overwriteFrom (f e).childEntries idx (ds.map ReportEntry.leaf))) path
          = some st'.rootEntry ∧
        st'.todo = ch.reverse ++ st.todo ∧
        st'.finalEntries = st.finalEntries ++
          (List.range' idx ch.length).map
            (fun k => some (path ++ [if useBack then size - 1 else k])) := by
  induction ch with
  | nil =>
    intro idx st st' f r0 hr0 h
    simp only [rebuildChildren, Except.ok.injEq] at h
    subst h
    refine ⟨[], rfl, ?_, by simp, by simp⟩
    simp only [List.map_nil, overwriteFrom, ReportEntry.setChildEntries_self]
    exact hr0
  | cons c ch ih =>
    intro idx st st' f r0 hr0 h
    unfold rebuildChildren at h
    split at h
    · cases h
    · rename_i childEntry hce
      split at h
      · cases h
      · rename_i d hd
        split at h
        · cases h
        · rename_i rootEntry hroot
          have hcomp := ReportEntry.modifyAt_comp f
            (fun e => e.setChildEntries (e.childEntries.set idx (ReportEntry.mk d []))) path
            r0 st.rootEntry hr0
          rw [hroot] at hcomp
          obtain ⟨ds, hds, hmod, htodo, hfinal⟩ := ih (idx + 1) _ st' _ r0 hcomp.symm h
          refine ⟨d :: ds, ?_, ?_, ?_, ?_⟩
          · simp only [List.map_cons, hds, List.cons.injEq, and_true]
            unfold childData
            rw [hce]
            exact hd
          · exact hmod
          · rw [htodo]
            simp
          · rw [hfinal]
            simp only [List.length_cons, List.range'_succ, List.map_cons, List.append_assoc,
              List.singleton_append]

/-- One iteration of the rebuilding loop replaces the child entries of the
entry behind the pointer by fresh copies, one per child index. -/
theorem rebuildStep_spec {δ : Type} [Inhabited δ] (useBack : Bool) (entries : List δ)
    (newEntries : List TempEntry) (path : List Nat) (ch : List Nat) (todo : List Nat)
    (final : List (Option (List Nat))) (root root1 : ReportEntry δ) (st' : RebuildState δ)
    (hresize : root.modifyAt (resizeChildEntries ch.length) path = some root1)
    (h : rebuildChildren useBack entries newEntries path ch.length ch 0 ⟨todo, final, root1⟩
      = Except.ok st') :
    ∃ ds : List δ, ch.map (childData entries newEntries) = ds.map some ∧
      root.modifyAt (fun e => e.setChildEntries (ds.map ReportEntry.leaf)) path
        = some st'.rootEntry ∧
      st'.todo = ch.reverse ++ todo ∧
      st'.finalEntries = final ++
        (List.range' 0 ch.length).map
          (fun k => some (path ++ [if useBack then ch.length - 1 else k])) := by
  obtain ⟨ds, hds, hmod, htodo, hfinal⟩ :=
    rebuildChildren_spec useBack entries newEntries path ch.length ch 0 ⟨todo, final, root1⟩ st'
      (resizeChildEntries ch.length) root hresize h
  refine ⟨ds, hds, ?_, htodo, hfinal⟩
  rw [← hmod]
  congr 1
  funext e
  have hlen : ds.length = ch.length := by
    have := congrArg List.length hds
    simpa using this.symm
  rw [overwriteFrom_zero_eq _ _ (by rw [length_resizeChildEntries, List.length_map, hlen]),
    resizeChildEntries_setChildEntries]

theorem mem_of_map_eq_map_some {α β : Type} (g : α → Option β) (l : List α) (ds : List β)
    (h : l.map g = ds.map some) (d : β) (hd : d ∈ ds) : ∃ a ∈ l, g a = some d := by
  have : some d ∈ l.map g := by
    rw [h]
    exact List.mem_map_of_mem _ hd
  obtain ⟨a, ha, hga⟩ := List.mem_map.mp this
  exact ⟨a, ha, hga⟩

/-- The rebuilding loop keeps a property of the data of all entries below the
root, when the data copied for every entry but the first has the property. -/
theorem rebuildLoop_allBelow {δ : Type} [Inhabited δ] (useBack : Bool) (entries : List δ)
    (newEntries : List TempEntry) (P : δ → Prop)
    (hchild : ∀ (k : Nat) (e : TempEntry) (c : Nat), newEntries[k]? = some e →
      c ∈ e.childIndexes → 1 ≤ c)
    (hP : ∀ (k : Nat) (e : TempEntry) (d : δ), 1 ≤ k → newEntries[k]? = some e →
      entries[e.entryIdx]? = some d → P d)
    (fuel : Nat) :
    ∀ (st st' : RebuildState δ), ReportEntry.AllBelow P st.rootEntry →
      rebuildLoop useBack entries newEntries fuel st = Except.ok st' →
      ReportEntry.AllBelow P st'.rootEntry ∧ st'.rootEntry.data = st.rootEntry.data := by
  induction fuel with
  | zero =>
    intro st st' hst h
    unfold rebuildLoop at h
    split at h
    · cases h; exact ⟨hst, rfl⟩
    · cases h
  | succ fuel ih =>
    intro st st' hst h
    unfold rebuildLoop at h
    split at h
    · cases h; exact ⟨hst, rfl⟩
    · rename_i cur todo htodo
      split at h
      · cases h
      · rename_i curEntry hcur
        split at h
        · cases h
        · cases h
        · rename_i path hpath
          split at h
          · cases h
          · rename_i entry hentry
            simp only at h
            split at h
            · cases h
            · rename_i root1 hroot1
              split at h
              · cases h
              · rename_i st1 hst1
                obtain ⟨ds, hds, hmod, -, -⟩ := rebuildStep_spec useBack entries newEntries path
                  curEntry.childIndexes _ _ st.rootEntry root1 st1 hroot1 hst1
                have hdata : ∀ e : ReportEntry δ,
                    (e.setChildEntries (ds.map ReportEntry.leaf)).data = e.data :=
                  fun e => ReportEntry.data_setChildEntries e _
                have hall : ∀ e : ReportEntry δ,
                    ReportEntry.AllBelow P (e.setChildEntries (ds.map ReportEntry.leaf)) := by
                  intro e
                  rw [ReportEntry.allBelow_iff, ReportEntry.childEntries_setChildEntries]
                  intro x hx
                  obtain ⟨d, hd, rfl⟩ := List.mem_map.mp hx
                  obtain ⟨c, hc, hcd⟩ := mem_of_map_eq_map_some _ _ _ hds d hd
                  refine ⟨?_, ?_⟩
                  · unfold childData at hcd
                    split at hcd
                    · rename_i ce hce
                      exact hP c ce d (hchild cur curEntry c hcur hc) hce hcd
                    · cases hcd
                  · rw [ReportEntry.allBelow_iff]
                    intro y hy
                    simp [ReportEntry.leaf, ReportEntry.childEntries] at hy
                have h1 := ReportEntry.modifyAt_allBelow P _ hdata hall path st.rootEntry
                  st1.rootEntry hst hmod
                have h2 := ReportEntry.modifyAt_data _ hdata path st.rootEntry st1.rootEntry hmod
                obtain ⟨h3, h4⟩ := ih st1 st' h1 h
                exact ⟨h3, h4.trans h2⟩

/-- The tree that the rebuilding returns: the data of the root entry is the
data of the entry that the first element of `newEntries` stands for, and every
entry below it carries the data of an entry that a later element stands for. -/
theorem rebuild_allBelow {δ : Type} [Inhabited δ] (useBack : Bool) (entries : List δ)
    (newEntries : List TempEntry) (P : δ → Prop)
    (hchild : ∀ (k : Nat) (e : TempEntry) (c : Nat), newEntries[k]? = some e →
      c ∈ e.childIndexes → 1 ≤ c)
    (hP : ∀ (k : Nat) (e : TempEntry) (d : δ), 1 ≤ k → newEntries[k]? = some e →
      entries[e.entryIdx]? = some d → P d)
    (first : TempEntry) (hfirst : newEntries[0]? = some first)
    (r : ReportEntry δ) (h : rebuild useBack entries newEntries = Except.ok r) :
    ReportEntry.AllBelow P r ∧ entries[first.entryIdx]? = some r.data := by
  unfold rebuild at h
  split at h
  · simp at hfirst
  · rename_i first' rest
    simp only [List.getElem?_cons_zero, Option.some.injEq] at hfirst
    subst hfirst
    split at h
    · cases h
    · rename_i d hd
      split at h
      · rename_i st hst
        cases h
        have hinit : ReportEntry.AllBelow P (ReportEntry.mk d []) := by
          rw [ReportEntry.allBelow_iff]
          intro y hy
          simp [ReportEntry.childEntries] at hy
        obtain ⟨h1, h2⟩ := rebuildLoop_allBelow useBack entries (first' :: rest) P hchild hP _
          ⟨[0], [some []], ReportEntry.mk d []⟩ st hinit hst
        refine ⟨h1, ?_⟩
        rw [h2]
        exact hd
      · cases h

mutual
theorem ReportEntry.allBelow_mono {δ : Type} (P Q : δ → Prop) (hPQ : ∀ d, P d → Q d) :
    ∀ (e : ReportEntry δ), ReportEntry.AllBelow P e → ReportEntry.AllBelow Q e
  | ReportEntry.mk _ cs, h => by
    rw [ReportEntry.AllBelow] at h ⊢
    exact ReportEntry.allBelowList_mono P Q hPQ cs h
theorem ReportEntry.allBelowList_mono {δ : Type} (P Q : δ → Prop) (hPQ : ∀ d, P d → Q d) :
    ∀ (cs : List (ReportEntry δ)), ReportEntry.AllBelowList P cs → ReportEntry.AllBelowList Q cs
  | [], _ => by
    rw [ReportEntry.AllBelowList]
    trivial
  | c :: cs, h => by
    rw [ReportEntry.AllBelowList] at h ⊢
    exact ⟨hPQ _ h.1, ReportEntry.allBelow_mono P Q hPQ c h.2.1,
      ReportEntry.allBelowList_mono P Q hPQ cs h.2.2⟩
end

/-- What `generateReport` computes for a tree: both root entries carry the
data of position 0 of the aggregated vectors, and every entry below them
carries the data of some position with `numCalls > 0`. -/
theorem reportOf_spec (self : ProfilerCPU) (rootBlock : ProfiledBlock) (report : CPUProfilerReport)
    (h : self.reportOf rootBlock = Except.ok report) :
    ∃ flat, flatten rootBlock = Except.ok flat ∧ FlatOK rootBlock flat ∧
      (aggregateBasic self flat)[0]? = some report.mBasicSamplingRootEntry.data ∧
      (aggregatePrecise self flat)[0]? = some report.mPreciseSamplingRootEntry.data ∧
      ReportEntry.AllBelow
        (fun d => 0 < d.numCalls ∧ ∃ i : Nat, (aggregateBasic self flat)[i]? = some d)
        report.mBasicSamplingRootEntry ∧
      ReportEntry.AllBelow
        (fun d => 0 < d.numCalls ∧ ∃ i : Nat, (aggregatePrecise self flat)[i]? = some d)
        report.mPreciseSamplingRootEntry := by
  obtain ⟨flat, hflat, hok⟩ := flatten_ok rootBlock
  refine ⟨flat, hflat, hok, ?_⟩
  unfold ProfilerCPU.reportOf at h
  rw [hflat] at h
  simp only at h
  split at h
  · cases h
  · rename_i newB hnewB
    split at h
    · cases h
    · rename_i basicRoot hbasic
      split at h
      · cases h
      · rename_i newP hnewP
        split at h
        · cases h
        · rename_i preciseRoot hprecise
          cases h
          obtain ⟨⟨fb, hfb, hfb0⟩, hchildB, hentryB⟩ := prune_spec _ flat newB hnewB
          obtain ⟨⟨fp, hfp, hfp0⟩, hchildP, hentryP⟩ := prune_spec _ flat newP hnewP
          obtain ⟨hB, hB0⟩ := rebuild_allBelow false (aggregateBasic self flat) newB
            (fun d => 0 < d.numCalls ∧ ∃ i : Nat, (aggregateBasic self flat)[i]? = some d)
            (fun k e c hk hc => (hchildB k e c hk hc).1)
            (by
              intro k e d hk he hd
              refine ⟨?_, e.entryIdx, hd⟩
              have := hentryB k e hk he
              rw [List.getD_eq_getElem?_getD, hd] at this
              exact this)
            fb hfb basicRoot hbasic
          obtain ⟨hP, hP0⟩ := rebuild_allBelow true (aggregatePrecise self flat) newP
            (fun d => 0 < d.numCalls ∧ ∃ i : Nat, (aggregatePrecise self flat)[i]? = some d)
            (fun k e c hk hc => (hchildP k e c hk hc).1)
            (by
              intro k e d hk he hd
              refine ⟨?_, e.entryIdx, hd⟩
              have := hentryP k e hk he
              rw [List.getD_eq_getElem?_getD, hd] at this
              exact this)
            fp hfp preciseRoot hprecise
          rw [hfb0] at hB0
          rw [hfp0] at hP0
          exact ⟨hB0, hP0, hB, hP⟩

/-- The three ways in which `generateReport` returns. -/
theorem generateReport_cases (self : ProfilerCPU) (thread : Option ThreadInfo)
    (rs : Nat → Reading) (report : CPUProfilerReport) (thread' : Option ThreadInfo)
    (h : self.generateReport thread rs = Except.ok (report, thread')) :
    (report = CPUProfilerReport.new ∧
      (thread' = none ∨ ∃ t, thread' = some t ∧ t.rootBlock = none)) ∨
    ∃ t rootBlock, thread' = some t ∧ t.rootBlock = some rootBlock ∧
      self.reportOf rootBlock = Except.ok report := by
  unfold ProfilerCPU.generateReport at h
  split at h
  · cases h
    exact Or.inl ⟨rfl, Or.inl rfl⟩
  · rename_i t
    split at h
    · cases h
    · rename_i t1 ht1
      split at h
      · rename_i hroot
        cases h
        exact Or.inl ⟨rfl, Or.inr ⟨t1, rfl, hroot⟩⟩
      · rename_i rootBlock hroot
        split at h
        · cases h
        · rename_i report' hreport
          cases h
          exact Or.inr ⟨t1, rootBlock, rfl, hroot, hreport⟩

/-- The entry of the root block in both aggregated vectors. -/
theorem aggregate_root (self : ProfilerCPU) (rootBlock : ProfiledBlock) (flat : List TempEntry)
    (hok : FlatOK rootBlock flat) (db : BasicData) (dp : PreciseData)
    (hdb : (aggregateBasic self flat)[0]? = some db)
    (hdp : (aggregatePrecise self flat)[0]? = some dp) :
    db.name = c_str rootBlock.name ∧ db.numCalls = rootBlock.basic.samples.length % 2 ^ 32 ∧
    dp.name = c_str rootBlock.name ∧
    dp.numCalls = rootBlock.precise.samples.length % 2 ^ 32 := by
  have hroot := hok.root
  unfold blockAt at hroot
  cases he : flat[0]? with
  | none => rw [he] at hroot; cases hroot
  | some e =>
    rw [he] at hroot
    have hb : e.parentBlock = some rootBlock := hroot
    obtain ⟨db', hdb', hcoreb⟩ := (aggregateBasic_inv self rootBlock flat hok).core 0 e rootBlock
      (Nat.le_refl _) he hb
    obtain ⟨dp', hdp', hcorep⟩ := (aggregatePrecise_inv self rootBlock flat hok).core 0 e rootBlock
      (Nat.le_refl _) he hb
    rw [hdb] at hdb'
    rw [hdp] at hdp'
    have e1 : db = db' := Option.some.inj hdb'
    have e2 : dp = dp' := Option.some.inj hdp'
    subst e1 e2
    refine ⟨?_, ?_, ?_, ?_⟩
    · rw [BasicData.congr_of_core BasicData.name (fun _ _ => rfl) hcoreb, basicAggregated_name]
    · rw [BasicData.congr_of_core BasicData.numCalls (fun _ _ => rfl) hcoreb,
        basicAggregated_numCalls]
    · rw [PreciseData.congr_of_same_core PreciseData.name (fun _ _ => rfl) hcorep,
        preciseAggregated_name]
    · rw [PreciseData.congr_of_same_core PreciseData.numCalls (fun _ _ => rfl) hcorep,
        preciseAggregated_numCalls]

theorem allBelow_new_basic (P : BasicData → Prop) :
    ReportEntry.AllBelow P CPUProfilerReport.new.mBasicSamplingRootEntry := by
  rw [ReportEntry.allBelow_iff]
  intro y hy
  simp [CPUProfilerReport.new, ReportEntry.childEntries] at hy

theorem allBelow_new_precise (P : PreciseData → Prop) :
    ReportEntry.AllBelow P CPUProfilerReport.new.mPreciseSamplingRootEntry := by
  rw [ReportEntry.allBelow_iff]
  intro y hy
  simp [CPUProfilerReport.new, ReportEntry.childEntries] at hy

/-- C5: in a report that `generateReport` returns, every entry below the two
root entries has `numCalls > 0`; the root entries are there whatever their
`numCalls`: they carry the name of the root block, as `c_str()` gives it, and
its number of Basic (Precise) samples. -/
theorem report_entries_have_calls (self : ProfilerCPU) (thread : Option ThreadInfo)
    (rs : Nat → Reading) (report : CPUProfilerReport) (thread' : Option ThreadInfo)
    (h : self.generateReport thread rs = Except.ok (report, thread')) :
    ReportEntry.AllBelow (fun d => 0 < d.numCalls) report.mBasicSamplingRootEntry ∧
    ReportEntry.AllBelow (fun d => 0 < d.numCalls) report.mPreciseSamplingRootEntry ∧
    ∀ t rootBlock, thread' = some t → t.rootBlock = some rootBlock →
      report.mBasicSamplingRootEntry.data.name = c_str rootBlock.name ∧
      report.mBasicSamplingRootEntry.data.numCalls = rootBlock.basic.samples.length % 2 ^ 32 ∧
      report.mPreciseSamplingRootEntry.data.name = c_str rootBlock.name ∧
      report.mPreciseSamplingRootEntry.data.numCalls
        = rootBlock.precise.samples.length % 2 ^ 32 := by
  rcases generateReport_cases self thread rs report thread' h with
    ⟨rfl, hnone | ⟨t, rfl, hroot⟩⟩ | ⟨t, rootBlock, rfl, hroot, hrep⟩
  · refine ⟨allBelow_new_basic _, allBelow_new_precise _, ?_⟩
    intro t rootBlock ht
    rw [hnone] at ht
    cases ht
  · refine ⟨allBelow_new_basic _, allBelow_new_precise _, ?_⟩
    intro t' rootBlock ht hr
    cases ht
    rw [hroot] at hr
    cases hr
  · obtain ⟨flat, -, hok, hb0, hp0, hB, hP⟩ := reportOf_spec self rootBlock report hrep
    refine ⟨ReportEntry.allBelow_mono _ _ (fun d hd => hd.1) _ hB,
      ReportEntry.allBelow_mono _ _ (fun d hd => hd.1) _ hP, ?_⟩
    intro t' rootBlock' ht hr
    cases ht
    rw [hroot] at hr
    cases hr
    exact aggregate_root self rootBlock flat hok _ _ hb0 hp0

theorem selfCyclesFromRaw_of_get (self : ProfilerCPU) (rootBlock : ProfiledBlock)
    (flat : List TempEntry) (hok : FlatOK rootBlock flat) (i : Nat) (d : PreciseData)
    (hd : (aggregatePrecise self flat)[i]? = some d) : SelfCyclesFromRaw self flat d := by
  have hlen := (aggregatePrecise_inv self rootBlock flat hok).length
  have hi : i < flat.length := by
    by_contra hn
    rw [List.getElem?_eq_none (by omega)] at hd
    cases hd
  obtain ⟨b, db, dp, -, -, -, hdp, -, hself⟩ :=
    aggregate_self_totals self rootBlock flat hok i flat[i] (List.getElem?_eq_getElem hi)
  rw [hd] at hdp
  have : d = dp := Option.some.inj hdp
  subst this
  exact ⟨i, flat[i], List.getElem?_eq_getElem hi, hd, hself⟩

/-- C7 as amended: for every entry of the precise tree of a report,
`totalSelfCycles` is `totalCycles` minus the sum of `totalCycles` over the
direct children of the entry's block in the unpruned hierarchy (64-bit
unsigned arithmetic): the children that the report attaches to the entry
because a zero-call block between them was pruned are not subtracted. -/
theorem report_selfCycles_from_raw_children (self : ProfilerCPU) (thread : Option ThreadInfo)
    (rs : Nat → Reading) (report : CPUProfilerReport) (thread' : Option ThreadInfo)
    (h : self.generateReport thread rs = Except.ok (report, thread')) :
    ∀ t rootBlock, thread' = some t → t.rootBlock = some rootBlock →
      ∃ flat, flatten rootBlock = Except.ok flat ∧
        SelfCyclesFromRaw self flat report.mPreciseSamplingRootEntry.data ∧
        ReportEntry.AllBelow (SelfCyclesFromRaw self flat) report.mPreciseSamplingRootEntry := by
  intro t rootBlock ht hroot
  rcases generateReport_cases self thread rs report thread' h with
    ⟨-, hnone | ⟨t1, ht1, hroot1⟩⟩ | ⟨t1, rootBlock1, ht1, hroot1, hrep⟩
  · rw [hnone] at ht
    cases ht
  · rw [ht1] at ht
    cases ht
    rw [hroot1] at hroot
    cases hroot
  · rw [ht1] at ht
    cases ht
    rw [hroot1] at hroot
    cases hroot
    obtain ⟨flat, hflat, hok, -, hp0, -, hP⟩ := reportOf_spec self rootBlock report hrep
    refine ⟨flat, hflat, selfCyclesFromRaw_of_get self rootBlock flat hok 0 _ hp0, ?_⟩
    apply ReportEntry.allBelow_mono _ _ _ _ hP
    intro d hd
    obtain ⟨i, hi⟩ := hd.2
    exact selfCyclesFromRaw_of_get self rootBlock flat hok i d hi

/-- C5, instance: the report of scenario A. -/
theorem report_entries_have_calls_witness :
    ∃ t report t',
      ProfilerCPU.run true none
        [Call.beginThread "T" ⟨0, 0, 0, 0⟩, Call.beginSample "A" ⟨0, 0, 0, 0⟩ ⟨1, 0, 0, 0⟩,
         Call.endSample "A" ⟨2, 0, 0, 0⟩, Call.endThread (fun _ => ⟨3, 0, 0, 0⟩)]
        = Except.ok t ∧
      ProfilerCPU.generateReport ⟨0, 0, 0, 0, 0, 0⟩ t (fun _ => ⟨0, 0, 0, 0⟩)
        = Except.ok (report, t') ∧
      ReportEntry.AllBelow (fun d => 0 < d.numCalls) report.mBasicSamplingRootEntry ∧
      ReportEntry.AllBelow (fun d => 0 < d.numCalls) report.mPreciseSamplingRootEntry := by
  obtain ⟨t, report, t', hrun, hrep⟩ : ∃ t report t',
      ProfilerCPU.run true none
        [Call.beginThread "T" ⟨0, 0, 0, 0⟩, Call.beginSample "A" ⟨0, 0, 0, 0⟩ ⟨1, 0, 0, 0⟩,
         Call.endSample "A" ⟨2, 0, 0, 0⟩, Call.endThread (fun _ => ⟨3, 0, 0, 0⟩)]
        = Except.ok t ∧
      ProfilerCPU.generateReport ⟨0, 0, 0, 0, 0, 0⟩ t (fun _ => ⟨0, 0, 0, 0⟩)
        = Except.ok (report, t') := by
    simp [ProfilerCPU.run, ProfilerCPU.call, ProfilerCPU.beginThread, ThreadInfo.begin,
      ThreadInfo.new, ProfilerCPU.beginSample, ProfilerCPU.openBlock, ThreadInfo.readBlock,
      ThreadInfo.modifyBlock, ProfiledBlock.getAt, ProfiledBlock.modifyAt,
      ProfiledBlock.findChild, ProfiledBlock.findChildFrom, ProfiledBlock.new,
      ProfiledBlock.setName, ProfiledBlock.setBasic, ProfiledBlock.setChildren,
      ProfiledBlock.children, ProfiledBlock.name, ProfiledBlock.basic, ProfiledBlock.precise,
      ProfilerCPU.endSample, ProfilerCPU.popActive, ActiveBlock.null, ProfileData.beginSample,
      ProfileData.endSample, ProfileData.new, ProfilerCPU.endThread, ThreadInfo.endSampling,
      ThreadInfo.closeBlock, ThreadInfo.closeRemaining, ProfilerCPU.generateReport,
      ProfilerCPU.reportOf, flatten, flattenLoop, flattenChild, ProfiledBlock.numBlocks,
      ProfiledBlock.numBlocksList, modifyNth, TempEntry.pushChild, aggregateBasic,
      aggregateBasicStep, basicOwnStats, basicChildStep, basicFinish, aggregatePrecise,
      aggregatePreciseStep, preciseOwnStats, preciseChildStep, preciseFinish, prune, pruneLoop,
      pruneChild, rebuild, rebuildLoop, rebuildChildren, resizeChildEntries, invalidate,
      ReportEntry.getAt, ReportEntry.modifyAt, ReportEntry.setChildEntries,
      ReportEntry.childEntries, ReportEntry.data, PreciseProfileData.new, c_str]
  exact ⟨t, report, t', hrun, hrep,
    (report_entries_have_calls _ _ _ _ _ hrep).1, (report_entries_have_calls _ _ _ _ _ hrep).2.1⟩

/-- C7 as amended, instance: the report of the run in which "P" contains the
Basic-only block "Z", which contains "A". -/
theorem report_selfCycles_from_raw_children_witness :
    ∃ t report t' t1 rootBlock flat,
      ProfilerCPU.run true none
        [Call.beginThread "R" ⟨0, 0, 0, 0⟩, Call.beginSamplePrecise "P" ⟨0, 0, 0, 0⟩ ⟨0, 0, 0, 0⟩,
         Call.beginSample "Z" ⟨0, 0, 0, 0⟩ ⟨0, 0, 0, 0⟩,
         Call.beginSamplePrecise "A" ⟨0, 0, 0, 0⟩ ⟨0, 10, 0, 0⟩,
         Call.endSamplePrecise "A" ⟨0, 40, 0, 0⟩, Call.endSample "Z" ⟨0, 0, 0, 0⟩,
         Call.endSamplePrecise "P" ⟨0, 100, 0, 0⟩, Call.endThread (fun _ => ⟨0, 0, 0, 0⟩)]
        = Except.ok t ∧
      ProfilerCPU.generateReport ⟨0, 0, 0, 0, 0, 0⟩ t (fun _ => ⟨0, 0, 0, 0⟩)
        = Except.ok (report, t') ∧
      t' = some t1 ∧ t1.rootBlock = some rootBlock ∧ flatten rootBlock = Except.ok flat ∧
      SelfCyclesFromRaw ⟨0, 0, 0, 0, 0, 0⟩ flat report.mPreciseSamplingRootEntry.data ∧
      ReportEntry.AllBelow (SelfCyclesFromRaw ⟨0, 0, 0, 0, 0, 0⟩ flat)
        report.mPreciseSamplingRootEntry := by
  obtain ⟨t, report, t', hrun, hrep, hsome⟩ : ∃ t report t',
      ProfilerCPU.run true none
        [Call.beginThread "R" ⟨0, 0, 0, 0⟩, Call.beginSamplePrecise "P" ⟨0, 0, 0, 0⟩ ⟨0, 0, 0, 0⟩,
         Call.beginSample "Z" ⟨0, 0, 0, 0⟩ ⟨0, 0, 0, 0⟩,
         Call.beginSamplePrecise "A" ⟨0, 0, 0, 0⟩ ⟨0, 10, 0, 0⟩,
         Call.endSamplePrecise "A" ⟨0, 40, 0, 0⟩, Call.endSample "Z" ⟨0, 0, 0, 0⟩,
         Call.endSamplePrecise "P" ⟨0, 100, 0, 0⟩, Call.endThread (fun _ => ⟨0, 0, 0, 0⟩)]
        = Except.ok t ∧
      ProfilerCPU.generateReport ⟨0, 0, 0, 0, 0, 0⟩ t (fun _ => ⟨0, 0, 0, 0⟩)
        = Except.ok (report, t') ∧ (t'.bind ThreadInfo.rootBlock).isSome = true := by
    simp [ProfilerCPU.run, ProfilerCPU.call, ProfilerCPU.beginThread, ThreadInfo.begin,
      ThreadInfo.new, ProfilerCPU.beginSample, ProfilerCPU.beginSamplePrecise,
      ProfilerCPU.endSamplePrecise, ProfilerCPU.openBlock, ThreadInfo.readBlock,
      ThreadInfo.modifyBlock, ProfiledBlock.getAt, ProfiledBlock.modifyAt,
      ProfiledBlock.findChild, ProfiledBlock.findChildFrom, ProfiledBlock.new,
      ProfiledBlock.setName, ProfiledBlock.setBasic, ProfiledBlock.setPrecise,
      ProfiledBlock.setChildren, ProfiledBlock.children, ProfiledBlock.name,
      ProfiledBlock.basic, ProfiledBlock.precise, ProfilerCPU.endSample, ProfilerCPU.popActive,
      ActiveBlock.null, ProfileData.beginSample, ProfileData.endSample, ProfileData.new,
      PreciseProfileData.beginSample, PreciseProfileData.endSample, ProfilerCPU.endThread,
      ThreadInfo.endSampling, ThreadInfo.closeBlock, ThreadInfo.closeRemaining,
      ProfilerCPU.generateReport, ProfilerCPU.reportOf, flatten, flattenLoop, flattenChild,
      ProfiledBlock.numBlocks, ProfiledBlock.numBlocksList, modifyNth, TempEntry.pushChild,
      aggregateBasic, aggregateBasicStep, basicOwnStats, basicChildStep, basicFinish,
      aggregatePrecise, aggregatePreciseStep, preciseOwnStats, preciseChildStep, preciseFinish,
      prune, pruneLoop, pruneChild, rebuild, rebuildLoop, rebuildChildren, resizeChildEntries,
      invalidate, ReportEntry.getAt, ReportEntry.modifyAt, ReportEntry.setChildEntries,
      ReportEntry.childEntries, ReportEntry.data, PreciseProfileData.new, c_str]
    exact ⟨_, _, ⟨rfl, rfl⟩, rfl⟩
  cases t' with
  | none => simp at hsome
  | some t1 =>
    cases hroot : t1.rootBlock with
    | none => simp [hroot] at hsome
    | some rootBlock =>
      obtain ⟨flat, hflat, h0, hall⟩ :=
        report_selfCycles_from_raw_children _ _ _ _ _ hrep t1 rootBlock rfl hroot
      exact ⟨t, report, some t1, t1, rootBlock, flat, hrun, hrep, rfl, hroot, hflat, h0, hall⟩

/-! ## Scenarios, evaluated for arbitrary readings -/

/-- C10: from a thread without profiler state, `beginSample("A")` twice and
`endSample("A")` twice leave a root block "Unknown" with the single child "A",
which has the single child "A"; each "A" holds one Basic sample, the root
holds none yet and is still the open entry of the stack. -/
theorem selfNesting_two_deep (debug : Bool) (r0 r1 r2 r3 r4 r5 : Reading) :
    ∃ t root a a',
      ProfilerCPU.run debug none
        [Call.beginSample "A" r0 r1, Call.beginSample "A" r2 r3, Call.endSample "A" r4,
         Call.endSample "A" r5] = Except.ok (some t) ∧
      t.rootBlock = some root ∧ root.name = "Unknown" ∧ root.children = [a] ∧
      a.name = "A" ∧ a.children = [a'] ∧ a'.name = "A" ∧ a'.children = [] ∧
      a.basic.samples.length = 1 ∧ a'.basic.samples.length = 1 ∧
      root.basic.samples = [] ∧ t.isActive = true ∧
      t.activeBlock = ⟨ActiveSamplingType.Basic, some []⟩ ∧
      t.activeBlocks = [⟨ActiveSamplingType.Basic, some []⟩] := by
  cases debug <;>
  simp [ProfilerCPU.run, ProfilerCPU.call, ProfilerCPU.beginThread, ThreadInfo.begin,
    ThreadInfo.new, ProfilerCPU.beginSample, ProfilerCPU.openBlock, ThreadInfo.readBlock,
    ThreadInfo.modifyBlock, ProfiledBlock.getAt, ProfiledBlock.modifyAt, ProfiledBlock.findChild,
    ProfiledBlock.findChildFrom, ProfiledBlock.new, ProfiledBlock.setName, ProfiledBlock.setBasic,
    ProfiledBlock.setChildren, ProfiledBlock.children, ProfiledBlock.name, ProfiledBlock.basic,
    ProfiledBlock.precise, ProfilerCPU.endSample, ProfilerCPU.popActive, ActiveBlock.null,
    ProfileData.beginSample, ProfileData.endSample, ProfileData.new]

/-- C2: `beginThread("T"); beginSample("A"); endSample("A"); endThread();
generateReport()` on a thread without profiler state returns a report whose
basic root entry is called "T" and has exactly one child entry, called "A",
with `numCalls = 1`. -/
theorem scenarioA_report (self : ProfilerCPU) (debug : Bool) (r1 r0 r2 r3 : Reading)
    (rs rs' : Nat → Reading) :
    ∃ t report t' child,
      ProfilerCPU.run debug none
        [Call.beginThread "T" r1, Call.beginSample "A" r0 r2, Call.endSample "A" r3,
         Call.endThread rs] = Except.ok t ∧
      self.generateReport t rs' = Except.ok (report, t') ∧
      report.mBasicSamplingRootEntry.data.name = "T" ∧
      report.mBasicSamplingRootEntry.childEntries = [child] ∧
      child.data.name = "A" ∧ child.data.numCalls = 1 := by
  cases debug <;>
  simp [ProfilerCPU.run, ProfilerCPU.call, ProfilerCPU.beginThread, ThreadInfo.begin,
    ThreadInfo.new, ProfilerCPU.beginSample, ProfilerCPU.openBlock, ThreadInfo.readBlock,
    ThreadInfo.modifyBlock, ProfiledBlock.getAt, ProfiledBlock.modifyAt, ProfiledBlock.findChild,
    ProfiledBlock.findChildFrom, ProfiledBlock.new, ProfiledBlock.setName, ProfiledBlock.setBasic,
    ProfiledBlock.setChildren, ProfiledBlock.children, ProfiledBlock.name, ProfiledBlock.basic,
    ProfiledBlock.precise, ProfilerCPU.endSample, ProfilerCPU.popActive, ActiveBlock.null,
    ProfileData.beginSample, ProfileData.endSample, ProfileData.new, ProfilerCPU.endThread,
    ThreadInfo.endSampling, ThreadInfo.closeBlock, ThreadInfo.closeRemaining,
    ProfilerCPU.generateReport, ProfilerCPU.reportOf, flatten, flattenLoop, flattenChild,
    ProfiledBlock.numBlocks, ProfiledBlock.numBlocksList, modifyNth, TempEntry.pushChild,
    aggregateBasic, aggregateBasicStep, basicOwnStats, basicChildStep, basicFinish,
    aggregatePrecise, aggregatePreciseStep, preciseOwnStats, preciseChildStep, preciseFinish,
    prune, pruneLoop, pruneChild, rebuild, rebuildLoop, rebuildChildren, resizeChildEntries,
    invalidate, ReportEntry.getAt, ReportEntry.modifyAt, ReportEntry.setChildEntries,
    ReportEntry.childEntries, ReportEntry.data, PreciseProfileData.new, c_str]

/-- C3: a zero-call block with a surviving child ("Z", sampled only in Precise
mode, above "A") that is not the last child of its parent, followed by a
sibling "B" that has a child of its own: the rebuilding of the basic tree reads
`finalBasicEntries[3]` when the vector holds three pointers, so
`generateReport` has no defined result. -/
theorem basicRebuild_reads_out_of_bounds (self : ProfilerCPU) (debug : Bool) (r : Reading)
    (rs rs' : Nat → Reading) :
    ∃ t,
      ProfilerCPU.run debug none
        [Call.beginThread "R" r, Call.beginSamplePrecise "Z" r r, Call.beginSample "A" r r,
         Call.endSample "A" r, Call.endSamplePrecise "Z" r, Call.beginSample "B" r r,
         Call.beginSample "C" r r, Call.endSample "C" r, Call.endSample "B" r,
         Call.endThread rs] = Except.ok t ∧
      self.generateReport t rs' = Except.error Fault.outOfBounds := by
  cases debug <;>
  simp [ProfilerCPU.run, ProfilerCPU.call, ProfilerCPU.beginThread, ThreadInfo.begin,
    ThreadInfo.new, ProfilerCPU.beginSample, ProfilerCPU.beginSamplePrecise,
    ProfilerCPU.endSamplePrecise, ProfilerCPU.openBlock, ThreadInfo.readBlock,
    ThreadInfo.modifyBlock, ProfiledBlock.getAt, ProfiledBlock.modifyAt, ProfiledBlock.findChild,
    ProfiledBlock.findChildFrom, ProfiledBlock.new, ProfiledBlock.setName, ProfiledBlock.setBasic,
    ProfiledBlock.setPrecise, ProfiledBlock.setChildren, ProfiledBlock.children,
    ProfiledBlock.name, ProfiledBlock.basic, ProfiledBlock.precise, ProfilerCPU.endSample,
    ProfilerCPU.popActive, ActiveBlock.null, ProfileData.beginSample, ProfileData.endSample,
    ProfileData.new, PreciseProfileData.beginSample, PreciseProfileData.endSample,
    ProfilerCPU.endThread, ThreadInfo.endSampling, ThreadInfo.closeBlock,
    ThreadInfo.closeRemaining, ProfilerCPU.generateReport, ProfilerCPU.reportOf, flatten,
    flattenLoop, flattenChild, ProfiledBlock.numBlocks, ProfiledBlock.numBlocksList, modifyNth,
    TempEntry.pushChild, aggregateBasic, aggregateBasicStep, basicOwnStats, basicChildStep,
    basicFinish, aggregatePrecise, aggregatePreciseStep, preciseOwnStats, preciseChildStep,
    preciseFinish, prune, pruneLoop, pruneChild, rebuild, rebuildLoop, rebuildChildren,
    resizeChildEntries, invalidate, ReportEntry.getAt, ReportEntry.modifyAt,
    ReportEntry.setChildEntries, ReportEntry.childEntries, ReportEntry.data,
    PreciseProfileData.new, c_str]

/-- C4: two Precise siblings "A" and "B" below the root, "A" with the Precise
child "A1": in the precise tree of the report the entry of "A" has no child
entries and "A1" is a child entry of "B", because both pointers pushed for the
children of the root are the address of `childEntries.back()`. -/
theorem preciseRebuild_attaches_to_last_sibling (self : ProfilerCPU) (debug : Bool) (r : Reading)
    (rs rs' : Nat → Reading) :
    ∃ t report t',
      ProfilerCPU.run debug none
        [Call.beginThread "R" r, Call.beginSamplePrecise "A" r r,
         Call.beginSamplePrecise "A1" r r, Call.endSamplePrecise "A1" r,
         Call.endSamplePrecise "A" r, Call.beginSamplePrecise "B" r r,
         Call.endSamplePrecise "B" r, Call.endThread rs] = Except.ok t ∧
      self.generateReport t rs' = Except.ok (report, t') ∧
      report.mPreciseSamplingRootEntry.childEntries.map
          (fun c => (c.data.name, c.childEntries.map (fun g => g.data.name)))
        = [("A", []), ("B", ["A1"])] := by
  cases debug <;>
  simp [ProfilerCPU.run, ProfilerCPU.call, ProfilerCPU.beginThread, ThreadInfo.begin,
    ThreadInfo.new, ProfilerCPU.beginSample, ProfilerCPU.beginSamplePrecise,
    ProfilerCPU.endSamplePrecise, ProfilerCPU.openBlock, ThreadInfo.readBlock,
    ThreadInfo.modifyBlock, ProfiledBlock.getAt, ProfiledBlock.modifyAt, ProfiledBlock.findChild,
    ProfiledBlock.findChildFrom, ProfiledBlock.new, ProfiledBlock.setName, ProfiledBlock.setBasic,
    ProfiledBlock.setPrecise, ProfiledBlock.setChildren, ProfiledBlock.children,
    ProfiledBlock.name, ProfiledBlock.basic, ProfiledBlock.precise, ProfilerCPU.endSample,
    ProfilerCPU.popActive, ActiveBlock.null, ProfileData.beginSample, ProfileData.endSample,
    ProfileData.new, PreciseProfileData.beginSample, PreciseProfileData.endSample,
    ProfilerCPU.endThread, ThreadInfo.endSampling, ThreadInfo.closeBlock,
    ThreadInfo.closeRemaining, ProfilerCPU.generateReport, ProfilerCPU.reportOf, flatten,
    flattenLoop, flattenChild, ProfiledBlock.numBlocks, ProfiledBlock.numBlocksList, modifyNth,
    TempEntry.pushChild, aggregateBasic, aggregateBasicStep, basicOwnStats, basicChildStep,
    basicFinish, aggregatePrecise, aggregatePreciseStep, preciseOwnStats, preciseChildStep,
    preciseFinish, prune, pruneLoop, pruneChild, rebuild, rebuildLoop, rebuildChildren,
    resizeChildEntries, invalidate, ReportEntry.getAt, ReportEntry.modifyAt,
    ReportEntry.setChildEntries, ReportEntry.childEntries, ReportEntry.data,
    PreciseProfileData.new, c_str]

/-- C9, counterexample: below a root whose Precise total is zero, the entry of
a block with one Precise sample of 5 cycles gets `pctOfParent` plus infinity,
not 0. -/
theorem pctOfParent_unguarded_counterexample :
    ∃ t report t',
      ProfilerCPU.run true none
        [Call.beginThread "T" ⟨0, 0, 0, 0⟩, Call.beginSamplePrecise "A" ⟨0, 0, 0, 0⟩ ⟨0, 0, 0, 0⟩,
         Call.endSamplePrecise "A" ⟨0, 5, 0, 0⟩, Call.endThread (fun _ => ⟨0, 0, 0, 0⟩)]
        = Except.ok t ∧
      ProfilerCPU.generateReport ⟨0, 0, 0, 0, 0, 0⟩ t (fun _ => ⟨0, 0, 0, 0⟩)
        = Except.ok (report, t') ∧
      report.mPreciseSamplingRootEntry.data.totalCycles = 0 ∧
      report.mPreciseSamplingRootEntry.childEntries.map
          (fun c => (c.data.name, c.data.totalCycles, c.data.pctOfParent))
        = [("A", 5, FloatVal.posInf)] := by
  simp [ProfilerCPU.run, ProfilerCPU.call, ProfilerCPU.beginThread, ThreadInfo.begin,
    ThreadInfo.new, ProfilerCPU.beginSample, ProfilerCPU.beginSamplePrecise,
    ProfilerCPU.endSamplePrecise, ProfilerCPU.openBlock, ThreadInfo.readBlock,
    ThreadInfo.modifyBlock, ProfiledBlock.getAt, ProfiledBlock.modifyAt, ProfiledBlock.findChild,
    ProfiledBlock.findChildFrom, ProfiledBlock.new, ProfiledBlock.setName, ProfiledBlock.setBasic,
    ProfiledBlock.setPrecise, ProfiledBlock.setChildren, ProfiledBlock.children,
    ProfiledBlock.name, ProfiledBlock.basic, ProfiledBlock.precise, ProfilerCPU.endSample,
    ProfilerCPU.popActive, ActiveBlock.null, ProfileData.beginSample, ProfileData.endSample,
    ProfileData.new, PreciseProfileData.beginSample, PreciseProfileData.endSample,
    ProfilerCPU.endThread, ThreadInfo.endSampling, ThreadInfo.closeBlock,
    ThreadInfo.closeRemaining, ProfilerCPU.generateReport, ProfilerCPU.reportOf, flatten,
    flattenLoop, flattenChild, ProfiledBlock.numBlocks, ProfiledBlock.numBlocksList, modifyNth,
    TempEntry.pushChild, aggregateBasic, aggregateBasicStep, basicOwnStats, basicChildStep,
    basicFinish, aggregatePrecise, aggregatePreciseStep, preciseOwnStats, preciseChildStep,
    preciseFinish, prune, pruneLoop, pruneChild, rebuild, rebuildLoop, rebuildChildren,
    resizeChildEntries, invalidate, ReportEntry.getAt, ReportEntry.modifyAt,
    ReportEntry.setChildEntries, ReportEntry.childEntries, ReportEntry.data,
    PreciseProfileData.new, TimerPrecise.new, TimerPrecise.reset, TimerPrecise.start,
    TimerPrecise.stop, add64, sub64, mul64, precisePctOfParent_zero, c_str]

set_option exponentiation.threshold 1100 in
/-- The quotient of the `double` values 4 and 7, converted to `float`. -/
theorem basicPctOfParent_example :
    basicPctOfParent 4 7 = FloatVal.finite (9586981 / 16777216) := by
  with_unfolding_all rfl

/-- C8, counterexample: the root "T" is sampled for 7 ms and its child "A" for
4 ms.  The `float` stored in `pctOfParent` of "A" is 9586981 / 2^24, the
`float` nearest to 4 / 7, not 4 / 7. -/
theorem pctOfParent_rounded_counterexample :
    ∃ t report t',
      ProfilerCPU.run true none
        [Call.beginThread "T" ⟨0, 0, 0, 0⟩, Call.beginSample "A" ⟨0, 0, 0, 0⟩ ⟨1, 0, 0, 0⟩,
         Call.endSample "A" ⟨5, 0, 0, 0⟩, Call.endThread (fun _ => ⟨7, 0, 0, 0⟩)]
        = Except.ok t ∧
      ProfilerCPU.generateReport ⟨0, 0, 0, 0, 0, 0⟩ t (fun _ => ⟨0, 0, 0, 0⟩)
        = Except.ok (report, t') ∧
      report.mBasicSamplingRootEntry.data.totalTimeMs = 7 ∧
      report.mBasicSamplingRootEntry.childEntries.map
          (fun c => (c.data.name, c.data.totalTimeMs, c.data.pctOfParent))
        = [("A", 4, FloatVal.finite (9586981 / 16777216))] ∧
      FloatVal.finite (9586981 / 16777216) ≠ FloatVal.finite (4 / 7) := by
  simp [ProfilerCPU.run, ProfilerCPU.call, ProfilerCPU.beginThread, ThreadInfo.begin,
    ThreadInfo.new, ProfilerCPU.beginSample, ProfilerCPU.openBlock, ThreadInfo.readBlock,
    ThreadInfo.modifyBlock, ProfiledBlock.getAt, ProfiledBlock.modifyAt, ProfiledBlock.findChild,
    ProfiledBlock.findChildFrom, ProfiledBlock.new, ProfiledBlock.setName, ProfiledBlock.setBasic,
    ProfiledBlock.setChildren, ProfiledBlock.children, ProfiledBlock.name, ProfiledBlock.basic,
    ProfiledBlock.precise, ProfilerCPU.endSample, ProfilerCPU.popActive, ActiveBlock.null,
    ProfileData.beginSample, ProfileData.endSample, ProfileData.new, ProfilerCPU.endThread,
    ThreadInfo.endSampling, ThreadInfo.closeBlock, ThreadInfo.closeRemaining,
    ProfilerCPU.generateReport, ProfilerCPU.reportOf, flatten, flattenLoop, flattenChild,
    ProfiledBlock.numBlocks, ProfiledBlock.numBlocksList, modifyNth, TempEntry.pushChild,
    aggregateBasic, aggregateBasicStep, basicOwnStats, basicChildStep, basicFinish,
    aggregatePrecise, aggregatePreciseStep, preciseOwnStats, preciseChildStep, preciseFinish,
    prune, pruneLoop, pruneChild, rebuild, rebuildLoop, rebuildChildren, resizeChildEntries,
    invalidate, ReportEntry.getAt, ReportEntry.modifyAt, ReportEntry.setChildEntries,
    ReportEntry.childEntries, ReportEntry.data, PreciseProfileData.new, c_str,
    Timer.new, Timer.reset, Timer.start, Timer.stop]
  refine ⟨⟨by norm_num, ?_⟩, by norm_num⟩
  have e : (5 : ℚ) - 1 = 4 := by norm_num
  rw [e]
  exact basicPctOfParent_example

set_option exponentiation.threshold 1100 in
/-- The `float` quotient of the cycle counts 2^24 + 1 and 2^25, each converted
to `float`: the conversion rounds 2^24 + 1 to 2^24. -/
theorem precisePctOfParent_example :
    precisePctOfParent 16777217 33554432 = FloatVal.finite (1 / 2) := by
  with_unfolding_all rfl

/-- Two sibling regions whose names agree up to a NUL character are two blocks
of the tree and two entries of the report with one name. -/
theorem names_cut_at_nul_example :
    ∃ t report t',
      ProfilerCPU.run true none
        [Call.beginThread "T" ⟨0, 0, 0, 0⟩,
         Call.beginSample (String.mk ['A', Char.ofNat 0, 'B']) ⟨0, 0, 0, 0⟩ ⟨0, 0, 0, 0⟩,
         Call.endSample (String.mk ['A', Char.ofNat 0, 'B']) ⟨0, 0, 0, 0⟩,
         Call.beginSample (String.mk ['A', Char.ofNat 0, 'C']) ⟨0, 0, 0, 0⟩ ⟨0, 0, 0, 0⟩,
         Call.endSample (String.mk ['A', Char.ofNat 0, 'C']) ⟨0, 0, 0, 0⟩,
         Call.endThread (fun _ => ⟨0, 0, 0, 0⟩)]
        = Except.ok t ∧
      ProfilerCPU.generateReport ⟨0, 0, 0, 0, 0, 0⟩ t (fun _ => ⟨0, 0, 0, 0⟩)
        = Except.ok (report, t') ∧
      report.mBasicSamplingRootEntry.childEntries.map (fun c => (c.data.name, c.data.numCalls))
        = [("A", 1), ("A", 1)] := by
  simp [ProfilerCPU.run, ProfilerCPU.call, ProfilerCPU.beginThread, ThreadInfo.begin,
    ThreadInfo.new, ProfilerCPU.beginSample, ProfilerCPU.openBlock, ThreadInfo.readBlock,
    ThreadInfo.modifyBlock, ProfiledBlock.getAt, ProfiledBlock.modifyAt, ProfiledBlock.findChild,
    ProfiledBlock.findChildFrom, ProfiledBlock.new, ProfiledBlock.setName, ProfiledBlock.setBasic,
    ProfiledBlock.setChildren, ProfiledBlock.children, ProfiledBlock.name, ProfiledBlock.basic,
    ProfiledBlock.precise, ProfilerCPU.endSample, ProfilerCPU.popActive, ActiveBlock.null,
    ProfileData.beginSample, ProfileData.endSample, ProfileData.new, ProfilerCPU.endThread,
    ThreadInfo.endSampling, ThreadInfo.closeBlock, ThreadInfo.closeRemaining,
    ProfilerCPU.generateReport, ProfilerCPU.reportOf, flatten, flattenLoop, flattenChild,
    ProfiledBlock.numBlocks, ProfiledBlock.numBlocksList, modifyNth, TempEntry.pushChild,
    aggregateBasic, aggregateBasicStep, basicOwnStats, basicChildStep, basicFinish,
    aggregatePrecise, aggregatePreciseStep, preciseOwnStats, preciseChildStep, preciseFinish,
    prune, pruneLoop, pruneChild, rebuild, rebuildLoop, rebuildChildren, resizeChildEntries,
    invalidate, ReportEntry.getAt, ReportEntry.modifyAt, ReportEntry.setChildEntries,
    ReportEntry.childEntries, ReportEntry.data, PreciseProfileData.new, c_str]

/-- C7, counterexample: "P" (Precise, 100 cycles) contains "Z" (Basic only),
which contains "A" (Precise, 30 cycles).  In the report "A" is a child entry of
"P", and `totalSelfCycles` of "P" is 100, not 100 - 30. -/
theorem selfCycles_pruned_counterexample :
    ∃ t report t',
      ProfilerCPU.run true none
        [Call.beginThread "R" ⟨0, 0, 0, 0⟩, Call.beginSamplePrecise "P" ⟨0, 0, 0, 0⟩ ⟨0, 0, 0, 0⟩,
         Call.beginSample "Z" ⟨0, 0, 0, 0⟩ ⟨0, 0, 0, 0⟩,
         Call.beginSamplePrecise "A" ⟨0, 0, 0, 0⟩ ⟨0, 10, 0, 0⟩,
         Call.endSamplePrecise "A" ⟨0, 40, 0, 0⟩, Call.endSample "Z" ⟨0, 0, 0, 0⟩,
         Call.endSamplePrecise "P" ⟨0, 100, 0, 0⟩, Call.endThread (fun _ => ⟨0, 0, 0, 0⟩)]
        = Except.ok t ∧
      ProfilerCPU.generateReport ⟨0, 0, 0, 0, 0, 0⟩ t (fun _ => ⟨0, 0, 0, 0⟩)
        = Except.ok (report, t') ∧
      report.mPreciseSamplingRootEntry.childEntries.map
          (fun p => (p.data.name, p.data.totalCycles, p.data.totalSelfCycles,
            p.childEntries.map (fun a => (a.data.name, a.data.totalCycles))))
        = [("P", 100, 100, [("A", 30)])] := by
  simp [ProfilerCPU.run, ProfilerCPU.call, ProfilerCPU.beginThread, ThreadInfo.begin,
    ThreadInfo.new, ProfilerCPU.beginSample, ProfilerCPU.beginSamplePrecise,
    ProfilerCPU.endSamplePrecise, ProfilerCPU.openBlock, ThreadInfo.readBlock,
    ThreadInfo.modifyBlock, ProfiledBlock.getAt, ProfiledBlock.modifyAt, ProfiledBlock.findChild,
    ProfiledBlock.findChildFrom, ProfiledBlock.new, ProfiledBlock.setName, ProfiledBlock.setBasic,
    ProfiledBlock.setPrecise, ProfiledBlock.setChildren, ProfiledBlock.children,
    ProfiledBlock.name, ProfiledBlock.basic, ProfiledBlock.precise, ProfilerCPU.endSample,
    ProfilerCPU.popActive, ActiveBlock.null, ProfileData.beginSample, ProfileData.endSample,
    ProfileData.new, PreciseProfileData.beginSample, PreciseProfileData.endSample,
    ProfilerCPU.endThread, ThreadInfo.endSampling, ThreadInfo.closeBlock,
    ThreadInfo.closeRemaining, ProfilerCPU.generateReport, ProfilerCPU.reportOf, flatten,
    flattenLoop, flattenChild, ProfiledBlock.numBlocks, ProfiledBlock.numBlocksList, modifyNth,
    TempEntry.pushChild, aggregateBasic, aggregateBasicStep, basicOwnStats, basicChildStep,
    basicFinish, aggregatePrecise, aggregatePreciseStep, preciseOwnStats, preciseChildStep,
    preciseFinish, prune, pruneLoop, pruneChild, rebuild, rebuildLoop, rebuildChildren,
    resizeChildEntries, invalidate, ReportEntry.getAt, ReportEntry.modifyAt,
    ReportEntry.setChildEntries, ReportEntry.childEntries, ReportEntry.data,
    PreciseProfileData.new, TimerPrecise.new, TimerPrecise.reset, TimerPrecise.start,
    TimerPrecise.stop, add64, sub64, mul64, precisePctOfParent_zero, c_str]

/-- The entries that are not on the stack of the flattening loop are final. -/
theorem flattenLoop_stable (fuel : Nat) : ∀ (st st' : FlattenState), FlattenInv st →
    flattenLoop fuel st = Except.ok st' →
    ∀ (i : Nat) (e : TempEntry), i ∉ st.todo → st.flatHierarchy[i]? = some e →
      st'.flatHierarchy[i]? = some e := by
  induction fuel with
  | zero =>
    intro st st' _ h i e _ he
    unfold flattenLoop at h
    split at h
    · cases h; exact he
    · cases h
  | succ fuel ih =>
    intro st st' hinv h i e hi he
    unfold flattenLoop at h
    split at h
    · cases h; exact he
    · rename_i cur rest htodo
      split at h
      · cases h
      · rename_i curData hcur
        split at h
        · cases h
        · rename_i b hb
          obtain ⟨hinv', -, -⟩ := flattenInv_step st hinv cur rest htodo curData hcur b hb
          have hcurlt : cur < st.flatHierarchy.length := by
            by_contra hn
            rw [List.getElem?_eq_none (by omega)] at hcur
            cases hcur
          have hilt : i < st.flatHierarchy.length := by
            by_contra hn
            rw [List.getElem?_eq_none (by omega)] at he
            cases he
          have hne : cur ≠ i := by
            intro hci
            apply hi
            rw [htodo, hci]
            simp
          apply ih _ st' hinv' h i e
          · rw [foldl_flattenChild _ _ _ (by simpa using hcurlt)]
            simp only [List.mem_append, List.mem_reverse, List.mem_range'_1, not_or]
            refine ⟨?_, ?_⟩
            · have := hinv.idx
              omega
            · intro hir
              apply hi
              rw [htodo]
              exact List.mem_cons_of_mem _ hir
          · rw [foldl_flattenChild _ _ _ (by simpa using hcurlt)]
            simp only [hinv.idx]
            have := getElem?_flatStep_lt st.flatHierarchy cur b.children hilt
            unfold flatStep at this
            rw [this, if_neg hne]
            exact he

/-- The result of the flattening is numbered in the order of the stack
traversal. -/
theorem flattenLoop_trav (fuel : Nat) : ∀ (st st' : FlattenState), FlattenInv st →
    flattenLoop fuel st = Except.ok st' →
    Trav st'.flatHierarchy st.todo st.flatHierarchy.length := by
  induction fuel with
  | zero =>
    intro st st' _ h
    unfold flattenLoop at h
    split at h
    · rename_i htodo
      cases h
      rw [htodo]
      exact Trav.done
    · cases h
  | succ fuel ih =>
    intro st st' hinv h
    unfold flattenLoop at h
    split at h
    · rename_i htodo
      cases h
      rw [htodo]
      exact Trav.done
    · rename_i cur rest htodo
      split at h
      · cases h
      · rename_i curData hcur
        split at h
        · cases h
        · rename_i b hb
          obtain ⟨hinv', -, -⟩ := flattenInv_step st hinv cur rest htodo curData hcur b hb
          have hcurlt : cur < st.flatHierarchy.length := by
            by_contra hn
            rw [List.getElem?_eq_none (by omega)] at hcur
            cases hcur
          have htrav := ih _ st' hinv' h
          have hstable := flattenLoop_stable fuel _ st' hinv' h cur
          rw [foldl_flattenChild _ _ _ (by simpa using hcurlt)] at htrav hstable
          simp only [hinv.idx] at htrav hstable
          have hpend : curData.childIndexes = [] :=
            hinv.pending cur (by rw [htodo]; simp) curData hcur
          have hfinal := hstable
            { curData with childIndexes :=
                curData.childIndexes ++ List.range' st.flatHierarchy.length b.children.length }
            (by
              simp only [List.mem_append, List.mem_reverse, List.mem_range'_1, not_or]
              refine ⟨by omega, ?_⟩
              have hnd := hinv.todo_nodup
              rw [htodo] at hnd
              exact (List.nodup_cons.mp hnd).1)
            (by
              have := getElem?_flatStep_lt st.flatHierarchy cur b.children hcurlt
              unfold flatStep at this
              rw [this, if_pos rfl, hcur]
              rfl)
          rw [htodo]
          refine Trav.step cur rest _ b.children.length _ hfinal ?_ ?_
          · simp [hpend]
          · simp only [List.length_append, length_modifyNth, length_newTempEntries] at htrav
            exact htrav

/-- The flattened hierarchy of a tree is numbered in the order of the stack
traversal that starts at the root. -/
theorem flatten_trav (rootBlock : ProfiledBlock) (flat : List TempEntry)
    (h : flatten rootBlock = Except.ok flat) : Trav flat [0] 1 := by
  unfold flatten at h
  split at h
  · rename_i st hst
    cases h
    have hinit : FlattenInv ⟨[0], [⟨some rootBlock, 0, []⟩], 1⟩ := by
      constructor
      · rfl
      · intro i e h
        cases i with
        | zero => simp at h; subst h; rfl
        | succ i => simp at h
      · intro i e h
        cases i with
        | zero => simp at h; subst h; exact ⟨rootBlock, rfl⟩
        | succ i => simp at h
      · intro i e c h hc
        cases i with
        | zero => simp at h; subst h; simp at hc
        | succ i => simp at h
      · intro i hi
        simp at hi
        subst hi
        simp
      · simp
      · intro i hi e h
        simp at hi
        subst hi
        simp at h
        subst h
        rfl
      · intro i e b hi h
        cases i with
        | zero => simp at hi
        | succ i => simp at h
      · intro i j ei ej c hi hj hci
        cases i with
        | zero => simp at hi; subst hi; simp at hci
        | succ i => simp at hi
      · intro i e h
        cases i with
        | zero => simp at h; subst h; exact List.nodup_nil
        | succ i => simp at h
      · intro c hc0 hc
        simp at hc
        omega
    exact flattenLoop_trav _ _ st hinit hst
  · cases h

theorem Trav.le {flat : List TempEntry} {todo : List Nat} {n : Nat} (h : Trav flat todo n) :
    n ≤ flat.length := by
  induction h with
  | done => exact Nat.le_refl _
  | step cur rest n m e _ _ _ ih => omega

/-- Closed form of the loop over the children of the entry that the pruning
pops, when every child has calls. -/
theorem foldl_pruneChild_all (numCalls : Nat → Nat) (cur : Nat) : ∀ (m n : Nat) (st : PruneState),
    st.entryIdx = n → cur < st.newEntries.length →
    (∀ c, n ≤ c → c < n + m → numCalls c > 0) →
    (List.range' n m).foldl (pruneChild numCalls cur) st =
      { todo := (List.range' n m).reverse ++ st.todo
        parentEntryIndexes := (List.range' n m).reverse ++ st.parentEntryIndexes
        newEntries :=
          modifyNth st.newEntries cur
              (fun e => { e with childIndexes := e.childIndexes ++ List.range' n m })
            ++ (List.range' n m).map (fun c => ⟨none, c, []⟩)
        entryIdx := n + m } := by
  intro m
  induction m with
  | zero =>
    intro n st hn _ _
    cases st with
    | mk todo parents new k =>
      simp only at hn
      subst hn
      simp only [List.range'_zero, List.foldl_nil, List.reverse_nil, List.nil_append,
        List.map_nil, List.append_nil, Nat.add_zero, PruneState.mk.injEq, true_and, and_true]
      apply List.ext_getElem?
      intro j
      rw [getElem?_modifyNth]
      split
      · cases new[j]? <;> simp
      · rfl
  | succ m ih =>
    intro n st hn hcur hpos
    rw [List.range'_succ, List.foldl_cons]
    have hc : numCalls n > 0 := hpos n (Nat.le_refl _) (by omega)
    rw [ih (n + 1)]
    · simp only [pruneChild, if_pos hc, hn, PruneState.mk.injEq]
      refine ⟨by simp, by simp, ?_, by omega⟩
      rw [modifyNth_append_left _ _ _ _ hcur,
        modifyNth_append_left _ _ _ _ (by rw [length_modifyNth]; exact hcur),
        modifyNth_modifyNth, List.append_assoc]
      simp only [TempEntry.pushChild, List.singleton_append, List.append_assoc, List.map_cons]
    · simp only [pruneChild, if_pos hc, hn]
    · simp only [pruneChild, if_pos hc, length_modifyNth, List.length_append,
        List.length_singleton]
      omega
    · intro c h1 h2
      exact hpos c (by omega) (by omega)

/-- When every entry but the root has calls, the pruning keeps every entry at
its index, with its child indexes. -/
theorem pruneLoop_all (numCalls : Nat → Nat) (flat : List TempEntry)
    (hpos : ∀ c, 1 ≤ c → c < flat.length → numCalls c > 0)
    (todo : List Nat) (n : Nat) (htrav : Trav flat todo n) :
    ∀ (fuel : Nat) (new : List TempEntry), todo.length + (flat.length - n) ≤ fuel → 1 ≤ n →
      new.length = n → (∀ k ∈ todo, k < n) → todo.Nodup →
      (∀ k ∈ todo, new[k]? = some ⟨none, k, []⟩) →
      (∀ (k : Nat) (e : TempEntry), k < n → k ∉ todo → flat[k]? = some e →
        new[k]? = some ⟨none, k, e.childIndexes⟩) →
      ∃ new', pruneLoop numCalls flat fuel ⟨todo, todo, new, n⟩
            = Except.ok ⟨[], [], new', flat.length⟩ ∧
          new'.length = flat.length ∧
          ∀ (k : Nat) (e : TempEntry), flat[k]? = some e →
            new'[k]? = some ⟨none, k, e.childIndexes⟩ := by
  induction htrav with
  | done =>
    intro fuel new _ _ hlen _ _ _ hdone
    refine ⟨new, ?_, hlen, ?_⟩
    · cases fuel <;> simp [pruneLoop]
    · intro k e hk
      have hklt : k < flat.length := by
        by_contra hn
        rw [List.getElem?_eq_none (by omega)] at hk
        cases hk
      exact hdone k e hklt (by simp) hk
  | step cur rest n m e hcur hch hsub ih =>
    intro fuel new hfuel hn hlen hlt hnd hpend hdone
    have hle := hsub.le
    have hcurlt : cur < n := hlt cur (by simp)
    have hnd' := List.nodup_cons.mp hnd
    cases fuel with
    | zero => simp at hfuel
    | succ fuel =>
      simp only [pruneLoop, hcur, hch]
      rw [foldl_pruneChild_all numCalls cur m n _ rfl (by simpa [hlen] using hcurlt)
        (fun c h1 h2 => hpos c (by omega) (by omega))]
      dsimp only
      have hmem : ∀ k, k ∈ (List.range' n m).reverse ++ rest ↔ (n ≤ k ∧ k < n + m) ∨ k ∈ rest := by
        intro k
        simp [List.mem_range'_1]
      apply ih
      · simp only [List.length_append, List.length_reverse, List.length_range']
        simp only [List.length_cons] at hfuel
        omega
      · omega
      · simp [length_modifyNth, hlen]
      · intro k hk
        rcases (hmem k).mp hk with h | h
        · exact h.2
        · have := hlt k (List.mem_cons_of_mem _ h)
          omega
      · rw [List.nodup_append]
        refine ⟨List.nodup_reverse.mpr (List.nodup_range' _ _), hnd'.2, ?_⟩
        intro k hk1 hk2
        rw [List.mem_reverse, List.mem_range'_1] at hk1
        have := hlt k (List.mem_cons_of_mem _ hk2)
        omega
      · intro k hk
        rcases (hmem k).mp hk with h | h
        · rw [List.getElem?_append_right (by rw [length_modifyNth]; omega), length_modifyNth,
            hlen, List.getElem?_map, List.getElem?_range' _ _ (by omega)]
          simp only [Option.map_some', Nat.one_mul]
          congr 2
          omega
        · have hk' := hlt k (List.mem_cons_of_mem _ h)
          have hne : cur ≠ k := by
            intro hck
            apply hnd'.1
            rw [hck]
            exact h
          rw [List.getElem?_append_left (by rw [length_modifyNth]; omega),
            getElem?_modifyNth_ne _ _ hne]
          exact hpend k (List.mem_cons_of_mem _ h)
      · intro k e' hk hnot hflat
        have hk' : k < n := by
          by_contra hcon
          exact hnot ((hmem k).mpr (Or.inl ⟨by omega, hk⟩))
        have hrest : k ∉ rest := fun h => hnot ((hmem k).mpr (Or.inr h))
        rw [List.getElem?_append_left (by rw [length_modifyNth]; omega)]
        by_cases hck : cur = k
        · subst hck
          rw [hcur] at hflat
          cases hflat
          rw [getElem?_modifyNth_self, hpend cur (by simp)]
          simp [hch]
        · rw [getElem?_modifyNth_ne _ _ hck]
          apply hdone k e' hk' _ hflat
          intro hmem'
          rcases List.mem_cons.mp hmem' with h | h
          · exact hck h.symm
          · exact hrest h

/-- When every block but the root has calls, nothing is pruned. -/
theorem prune_all (numCalls : Nat → Nat) (rootBlock : ProfiledBlock) (flat : List TempEntry)
    (hflat : FlatOK rootBlock flat) (htrav : Trav flat [0] 1)
    (hpos : ∀ c, 1 ≤ c → c < flat.length → numCalls c > 0) :
    prune numCalls flat = Except.ok (unpruned flat) := by
  obtain ⟨new', hrun, hlen, hall⟩ := pruneLoop_all numCalls flat hpos [0] 1 htrav flat.length
    [⟨none, 0, []⟩] (by have := htrav.le; simp; omega) (Nat.le_refl _) rfl (by simp) (by simp)
    (by simp) (by
      intro k e hk hnot
      simp at hnot
      omega)
  unfold prune
  rw [hrun]
  simp only [Except.ok.injEq]
  apply List.ext_getElem?
  intro k
  unfold unpruned
  rw [List.getElem?_map]
  cases hk : flat[k]? with
  | none =>
    rw [List.getElem?_eq_none]
    · rfl
    · rw [hlen]
      by_contra hcon
      rw [List.getElem?_eq_getElem (by omega)] at hk
      cases hk
  | some e =>
    rw [hall k e hk, Option.map_some', hflat.entryIdx_eq k e hk]

theorem ReportEntry.getAt_append {δ : Type} (p q : List Nat) :
    ∀ (root : ReportEntry δ), root.getAt (p ++ q) = (root.getAt p).bind (fun e => e.getAt q) := by
  induction p with
  | nil => intro root; rfl
  | cons i p ih =>
    intro root
    simp only [List.cons_append, ReportEntry.getAt]
    cases root.childEntries[i]? with
    | none => rfl
    | some c => exact ih c

/-- A write through a pointer that designates an entry succeeds and changes
that entry. -/
theorem ReportEntry.modifyAt_of_getAt {δ : Type} (f : ReportEntry δ → ReportEntry δ)
    (p : List Nat) : ∀ (root node : ReportEntry δ), root.getAt p = some node →
      ∃ root', root.modifyAt f p = some root' ∧ root'.getAt p = some (f node) := by
  induction p with
  | nil =>
    intro root node h
    simp only [ReportEntry.getAt, Option.some.injEq] at h
    subst h
    exact ⟨f root, rfl, rfl⟩
  | cons i p ih =>
    intro root node h
    simp only [ReportEntry.getAt] at h
    cases hc : root.childEntries[i]? with
    | none => rw [hc] at h; cases h
    | some c =>
      rw [hc] at h
      obtain ⟨c', hc', hget⟩ := ih c node h
      refine ⟨root.setChildEntries (root.childEntries.set i c'), ?_, ?_⟩
      · simp only [ReportEntry.modifyAt, hc, hc']
      · have hlt : i < root.childEntries.length := by
          by_contra hn
          rw [List.getElem?_eq_none (by omega)] at hc
          cases hc
        simp only [ReportEntry.getAt, ReportEntry.childEntries_setChildEntries,
          List.getElem?_set_self hlt]
        exact hget

/-- A write through a pointer leaves the data and the number of child entries
of the entries that are not below the written one. -/
theorem ReportEntry.getAt_modifyAt_other {δ : Type} (f : ReportEntry δ → ReportEntry δ)
    (q : List Nat) : ∀ (p : List Nat) (root root' x : ReportEntry δ),
      root.modifyAt f p = some root' → root.getAt q = some x → ¬ p <+: q →
      ∃ x', root'.getAt q = some x' ∧ x'.data = x.data ∧
        x'.childEntries.length = x.childEntries.length := by
  induction q with
  | nil =>
    intro p root root' x hmod hget hpre
    simp only [ReportEntry.getAt, Option.some.injEq] at hget
    subst hget
    cases p with
    | nil => exact absurd (List.prefix_refl _) hpre
    | cons i p =>
      simp only [ReportEntry.modifyAt] at hmod
      split at hmod
      · split at hmod
        · simp only [Option.some.injEq] at hmod
          subst hmod
          refine ⟨_, rfl, ReportEntry.data_setChildEntries _ _, ?_⟩
          rw [ReportEntry.childEntries_setChildEntries, List.length_set]
        · cases hmod
      · cases hmod
  | cons j q ih =>
    intro p root root' x hmod hget hpre
    cases p with
    | nil => exact absurd (List.nil_prefix) hpre
    | cons i p =>
      simp only [ReportEntry.modifyAt] at hmod
      split at hmod
      · rename_i c hc
        split at hmod
        · rename_i c' hc'
          simp only [Option.some.injEq] at hmod
          subst hmod
          have hlt : i < root.childEntries.length := by
            by_contra hn
            rw [List.getElem?_eq_none (by omega)] at hc
            cases hc
          simp only [ReportEntry.getAt, ReportEntry.childEntries_setChildEntries]
          by_cases hij : i = j
          · subst hij
            rw [List.getElem?_set_self hlt]
            simp only [ReportEntry.getAt, hc] at hget
            apply ih p c c' x hc' hget
            intro hpq
            apply hpre
            exact (List.cons_prefix_cons).mpr ⟨rfl, hpq⟩
          · rw [List.getElem?_set_ne hij]
            simp only [ReportEntry.getAt] at hget
            cases hcj : root.childEntries[j]? with
            | none => rw [hcj] at hget; cases hget
            | some cj =>
              rw [hcj] at hget
              exact ⟨x, hget, rfl, rfl⟩
        · cases hmod
      · cases hmod

/-- No pointer designates anything below an entry without child entries. -/
theorem ReportEntry.getAt_below_leaf {δ : Type} (root node : ReportEntry δ) (p : List Nat)
    (i : Nat) (r : List Nat) (h : root.getAt p = some node) (hleaf : node.childEntries = []) :
    root.getAt (p ++ i :: r) = none := by
  rw [ReportEntry.getAt_append, h]
  simp [ReportEntry.getAt, hleaf]

/-- The loop over the child indexes in the rebuilding ends without a fault
when the data of every child exists and the pointer is good. -/
theorem rebuildChildren_ok {δ : Type} (useBack : Bool) (entries : List δ)
    (newEntries : List TempEntry) (path : List Nat) (size : Nat) (ch : List Nat) :
    ∀ (idx : Nat) (st : RebuildState δ),
      (∀ c ∈ ch, ∃ d, childData entries newEntries c = some d) →
      (∃ node, st.rootEntry.getAt path = some node) →
      ∃ st', rebuildChildren useBack entries newEntries path size ch idx st = Except.ok st' := by
  induction ch with
  | nil =>
    intro idx st _ _
    exact ⟨st, rfl⟩
  | cons c ch ih =>
    intro idx st hdata hnode
    obtain ⟨d, hd⟩ := hdata c (by simp)
    unfold childData at hd
    split at hd
    · rename_i childEntry hce
      obtain ⟨node, hnode⟩ := hnode
      obtain ⟨root', hmod, hget⟩ := ReportEntry.modifyAt_of_getAt
        (fun e => e.setChildEntries (e.childEntries.set idx (ReportEntry.mk d []))) path
        st.rootEntry node hnode
      simp only [rebuildChildren, hce, hd, hmod]
      exact ih _ _ (fun c' hc' => hdata c' (List.mem_cons_of_mem _ hc')) ⟨_, hget⟩
    · cases hd

/-- One iteration of the rebuilding loop keeps `RebuildInv`. -/
theorem rebuildInv_step {δ : Type} (flat : List TempEntry) (arr : List δ) (cur : Nat)
    (rest : List Nat) (n m : Nat) (final : List (Option (List Nat))) (root root' : ReportEntry δ)
    (hinv : RebuildInv flat arr (cur :: rest) n final root)
    (hlt : ∀ k ∈ cur :: rest, k < n) (hnd : (cur :: rest).Nodup)
    (e : TempEntry) (hcur : flat[cur]? = some e) (hch : e.childIndexes = List.range' n m)
    (p : List Nat) (x : ReportEntry δ) (hp : final[cur]? = some (some p))
    (hx : root.getAt p = some x)
    (ds : List δ) (hds : (List.range' n m).map (fun c => arr[c]?) = ds.map some)
    (hmod : root.modifyAt (fun e => e.setChildEntries (ds.map ReportEntry.leaf)) p = some root') :
    RebuildInv flat arr ((List.range' n m).reverse ++ rest) (n + m)
      (final ++ (List.range' 0 m).map (fun j => some (p ++ [j]))) root' := by
  have hnd' := List.nodup_cons.mp hnd
  have hleaf : x.childEntries = [] := hinv.pending cur (by simp) p x hp hx
  have hdslen : ds.length = m := by
    have := congrArg List.length hds
    simpa using this.symm
  have hdsget : ∀ j, j < m → ∃ d, ds[j]? = some d ∧ arr[n + j]? = some d := by
    intro j hj
    have h1 := congrArg (fun l => l[j]?) hds
    simp only [List.getElem?_map, List.getElem?_range' _ _ hj, Option.map_some',
      Nat.one_mul] at h1
    cases hd : ds[j]? with
    | none =>
      rw [List.getElem?_eq_none_iff] at hd
      omega
    | some d =>
      rw [hd] at h1
      simp only [Option.map_some', Option.some.injEq] at h1
      exact ⟨d, rfl, h1⟩
  have F1 : ∀ k, k < n →
      (final ++ (List.range' 0 m).map (fun j => some (p ++ [j])))[k]? = final[k]? := by
    intro k hk
    rw [List.getElem?_append_left (by rw [hinv.length]; exact hk)]
  have F2 : ∀ k, n ≤ k → k < n + m →
      (final ++ (List.range' 0 m).map (fun j => some (p ++ [j])))[k]?
        = some (some (p ++ [k - n])) := by
    intro k hk1 hk2
    rw [List.getElem?_append_right (by rw [hinv.length]; exact hk1), hinv.length,
      List.getElem?_map, List.getElem?_range' _ _ (by omega)]
    simp
  have F3 : ∀ k, n + m ≤ k →
      (final ++ (List.range' 0 m).map (fun j => some (p ++ [j])))[k]? = none := by
    intro k hk
    rw [List.getElem?_eq_none]
    simp only [List.length_append, List.length_map, List.length_range', hinv.length]
    exact hk
  obtain ⟨root2, hmod2, G0⟩ := ReportEntry.modifyAt_of_getAt
    (fun e => e.setChildEntries (ds.map ReportEntry.leaf)) p root x hx
  rw [hmod] at hmod2
  cases hmod2
  have G1 : ∀ j, j < m → ∃ d, root'.getAt (p ++ [j]) = some (ReportEntry.leaf d) ∧
      arr[n + j]? = some d := by
    intro j hj
    obtain ⟨d, hd, harr⟩ := hdsget j hj
    refine ⟨d, ?_, harr⟩
    rw [ReportEntry.getAt_append, G0]
    simp only [Option.some_bind, ReportEntry.getAt, ReportEntry.childEntries_setChildEntries,
      List.getElem?_map, hd, Option.map_some']
  -- no other pointer designates the popped entry or anything below it
  have N : ∀ (k : Nat) (q : List Nat) (y : ReportEntry δ), k ≠ cur →
      final[k]? = some (some q) → root.getAt q = some y → ¬ p <+: q := by
    intro k q y hk hq hy hpre
    obtain ⟨t, ht⟩ := hpre
    cases t with
    | nil =>
      rw [List.append_nil] at ht
      subst ht
      exact hk (hinv.inj k cur p hq hp)
    | cons i r =>
      subst ht
      rw [ReportEntry.getAt_below_leaf root x p i r hx hleaf] at hy
      cases hy
  have G2 : ∀ (k : Nat) (q : List Nat) (y : ReportEntry δ), k ≠ cur →
      final[k]? = some (some q) → root.getAt q = some y →
      ∃ y', root'.getAt q = some y' ∧ y'.data = y.data ∧
        y'.childEntries.length = y.childEntries.length := by
    intro k q y hk hq hy
    exact ReportEntry.getAt_modifyAt_other _ q p root root' y hmod hy (N k q y hk hq hy)
  have hmem : ∀ k, k ∈ (List.range' n m).reverse ++ rest ↔ (n ≤ k ∧ k < n + m) ∨ k ∈ rest := by
    intro k
    simp [List.mem_range'_1]
  have hfinlt : ∀ (k : Nat) (q : Option (List Nat)), final[k]? = some q → k < n := by
    intro k q hq
    by_contra hcon
    rw [List.getElem?_eq_none (by rw [hinv.length]; omega)] at hq
    cases hq
  constructor
  · simp [hinv.length]
  · have h0 : 0 < n := hfinlt 0 _ hinv.first
    rw [F1 0 h0]
    exact hinv.first
  · intro k hk
    by_cases hkn : k < n
    · by_cases hkc : k = cur
      · subst hkc
        refine ⟨p, _, ?_, G0, ?_⟩
        · rw [F1 k hkn]; exact hp
        · obtain ⟨p0, x0, h1, h2, h3⟩ := hinv.node k hkn
          rw [hp] at h1
          cases h1
          rw [hx] at h2
          cases h2
          rw [ReportEntry.data_setChildEntries]
          exact h3
      · obtain ⟨q, y, h1, h2, h3⟩ := hinv.node k hkn
        obtain ⟨y', hy', hdata, -⟩ := G2 k q y hkc h1 h2
        refine ⟨q, y', ?_, hy', ?_⟩
        · rw [F1 k hkn]; exact h1
        · rw [hdata]; exact h3
    · obtain ⟨d, hd, harr⟩ := G1 (k - n) (by omega)
      refine ⟨p ++ [k - n], _, F2 k (by omega) hk, hd, ?_⟩
      have : n + (k - n) = k := by omega
      rw [this] at harr
      exact harr
  · intro k hk q y hq hy
    rcases (hmem k).mp hk with h | h
    · rw [F2 k h.1 h.2] at hq
      cases hq
      obtain ⟨d, hd, -⟩ := G1 (k - n) (by omega)
      rw [hd] at hy
      cases hy
      rfl
    · have hkn : k < n := hlt k (List.mem_cons_of_mem _ h)
      have hkc : k ≠ cur := by
        intro hkc
        apply hnd'.1
        rw [← hkc]
        exact h
      rw [F1 k hkn] at hq
      obtain ⟨q0, y0, h1, h2, -⟩ := hinv.node k hkn
      rw [hq] at h1
      cases h1
      obtain ⟨y', hy', -, hlen⟩ := G2 k q y0 hkc hq h2
      rw [hy] at hy'
      cases hy'
      have := hinv.pending k (List.mem_cons_of_mem _ h) q y0 hq h2
      rw [this] at hlen
      exact List.length_eq_zero.mp hlen
  · intro k e' q y hk hflat hq hy
    have hk1 : ¬ (n ≤ k ∧ k < n + m) := fun h => hk ((hmem k).mpr (Or.inl h))
    have hk2 : k ∉ rest := fun h => hk ((hmem k).mpr (Or.inr h))
    have hkn : k < n := by
      by_contra hcon
      by_cases hkm : k < n + m
      · exact hk1 ⟨by omega, hkm⟩
      · rw [F3 k (by omega)] at hq
        cases hq
    rw [F1 k hkn] at hq
    by_cases hkc : k = cur
    · subst hkc
      rw [hcur] at hflat
      cases hflat
      rw [hp] at hq
      cases hq
      rw [G0] at hy
      cases hy
      refine ⟨?_, ?_⟩
      · rw [ReportEntry.childEntries_setChildEntries, List.length_map, hdslen, hch,
          List.length_range']
      · intro j c hjc
        rw [hch] at hjc
        have hj : j < m := by
          by_contra hcon
          rw [List.getElem?_eq_none (by simp; omega)] at hjc
          cases hjc
        rw [List.getElem?_range' _ _ hj] at hjc
        simp only [Nat.one_mul, Option.some.injEq] at hjc
        subst hjc
        rw [F2 (n + j) (by omega) (by omega)]
        simp
    · obtain ⟨q0, y0, h1, h2, -⟩ := hinv.node k hkn
      rw [hq] at h1
      cases h1
      obtain ⟨y', hy', -, hlen⟩ := G2 k q y0 hkc hq h2
      rw [hy] at hy'
      cases hy'
      have hknot : k ∉ cur :: rest := by
        intro h
        rcases List.mem_cons.mp h with h | h
        · exact hkc h
        · exact hk2 h
      obtain ⟨e1, e2⟩ := hinv.expanded k e' q y0 hknot hflat hq h2
      refine ⟨by rw [hlen]; exact e1, ?_⟩
      intro j c hjc
      have := e2 j c hjc
      rw [F1 c (hfinlt c _ this)]
      exact this
  · intro k k' q hk hk'
    have key : ∀ (a b : Nat), a < n → n ≤ b →
        (final ++ (List.range' 0 m).map (fun j => some (p ++ [j])))[a]? = some (some q) →
        (final ++ (List.range' 0 m).map (fun j => some (p ++ [j])))[b]? = some (some q) →
        False := by
      intro a b ha hb h1 h2
      have hbm : b < n + m := by
        by_contra hcon
        rw [F3 b (by omega)] at h2
        cases h2
      rw [F1 a ha] at h1
      rw [F2 b hb hbm] at h2
      cases h2
      obtain ⟨q0, y0, g1, g2, -⟩ := hinv.node a ha
      rw [h1] at g1
      cases g1
      rw [ReportEntry.getAt_below_leaf root x p (b - n) [] hx hleaf] at g2
      cases g2
    by_cases hkn : k < n
    · by_cases hkn' : k' < n
      · rw [F1 k hkn] at hk
        rw [F1 k' hkn'] at hk'
        exact hinv.inj k k' q hk hk'
      · exact (key k k' hkn (by omega) hk hk').elim
    · by_cases hkn' : k' < n
      · exact (key k' k hkn' (by omega) hk' hk).elim
      · have hkm : k < n + m := by
          by_contra hcon
          rw [F3 k (by omega)] at hk
          cases hk
        have hkm' : k' < n + m := by
          by_contra hcon
          rw [F3 k' (by omega)] at hk'
          cases hk'
        rw [F2 k (by omega) hkm] at hk
        rw [F2 k' (by omega) hkm'] at hk'
        cases hk
        simp only [Option.some.injEq, List.append_cancel_left_eq, List.cons.injEq,
          and_true] at hk'
        omega

theorem getElem?_unpruned (flat : List TempEntry) (k : Nat) (e : TempEntry)
    (h : flat[k]? = some e) :
    (unpruned flat)[k]? = some ⟨none, e.entryIdx, e.childIndexes⟩ := by
  unfold unpruned
  rw [List.getElem?_map, h]
  rfl

theorem childData_unpruned {δ : Type} (flat : List TempEntry) (arr : List δ)
    (hidx : ∀ (k : Nat) (e : TempEntry), flat[k]? = some e → e.entryIdx = k)
    (c : Nat) (hc : c < flat.length) : childData arr (unpruned flat) c = arr[c]? := by
  unfold childData
  rw [getElem?_unpruned flat c flat[c] (List.getElem?_eq_getElem hc)]
  simp only
  rw [hidx c flat[c] (List.getElem?_eq_getElem hc)]

/-- When nothing was pruned, the rebuilding loop ends without a fault and
gives every entry of the flattened hierarchy an entry of the report. -/
theorem rebuildLoop_all {δ : Type} [Inhabited δ] (flat : List TempEntry) (arr : List δ)
    (harr : arr.length = flat.length)
    (hidx : ∀ (k : Nat) (e : TempEntry), flat[k]? = some e → e.entryIdx = k)
    (todo : List Nat) (n : Nat) (htrav : Trav flat todo n) :
    ∀ (fuel : Nat) (final : List (Option (List Nat))) (root : ReportEntry δ),
      todo.length + (flat.length - n) ≤ fuel → (∀ k ∈ todo, k < n) → todo.Nodup →
      RebuildInv flat arr todo n final root →
      ∃ (final' : List (Option (List Nat))) (root' : ReportEntry δ),
        rebuildLoop false arr (unpruned flat) fuel ⟨todo, final, root⟩
            = Except.ok ⟨[], final', root'⟩ ∧
          RebuildInv flat arr [] flat.length final' root' := by
  induction htrav with
  | done =>
    intro fuel final root _ _ _ hinv
    refine ⟨final, root, ?_, hinv⟩
    cases fuel <;> simp [rebuildLoop]
  | step cur rest n m e hcur hch hsub ih =>
    intro fuel final root hfuel hlt hnd hinv
    have hle := hsub.le
    have hcurlt : cur < n := hlt cur (by simp)
    have hnd' := List.nodup_cons.mp hnd
    obtain ⟨p, x, hp, hx, -⟩ := hinv.node cur hcurlt
    have hleaf : x.childEntries = [] := hinv.pending cur (by simp) p x hp hx
    have hchlen : e.childIndexes.length = m := by rw [hch, List.length_range']
    obtain ⟨root1, hresize, hget1⟩ := ReportEntry.modifyAt_of_getAt
      (resizeChildEntries e.childIndexes.length) p root x hx
    have hinvalid : final.map (invalidate p x.childEntries.length e.childIndexes.length)
        = final := by
      conv_rhs => rw [← List.map_id final]
      apply List.map_congr_left
      intro ptr hptr
      obtain ⟨k, hk⟩ := List.mem_iff_getElem?.mp hptr
      have hkn : k < n := by
        by_contra hcon
        rw [List.getElem?_eq_none (by rw [hinv.length]; omega)] at hk
        cases hk
      obtain ⟨q, y, h1, h2, -⟩ := hinv.node k hkn
      rw [hk] at h1
      cases h1
      simp only [invalidate, id]
      rw [if_neg]
      intro hcond
      simp only [Bool.and_eq_true, decide_eq_true_eq] at hcond
      obtain ⟨t, ht⟩ := List.isPrefixOf_iff_prefix.mp hcond.1
      cases t with
      | nil =>
        rw [List.append_nil] at ht
        rw [ht] at hcond
        exact Nat.lt_irrefl _ hcond.2
      | cons i r =>
        subst ht
        rw [ReportEntry.getAt_below_leaf root x p i r hx hleaf] at h2
        cases h2
    have hdata : ∀ c ∈ e.childIndexes, ∃ d, childData arr (unpruned flat) c = some d := by
      intro c hc
      rw [hch, List.mem_range'_1] at hc
      rw [childData_unpruned flat arr hidx c (by omega)]
      have hclt : c < arr.length := by omega
      exact ⟨arr[c], List.getElem?_eq_getElem hclt⟩
    obtain ⟨st', hst'⟩ := rebuildChildren_ok false arr (unpruned flat) p e.childIndexes.length
      e.childIndexes 0 ⟨rest, final, root1⟩ hdata ⟨_, hget1⟩
    obtain ⟨ds, hds, hmod, htodo, hfinal⟩ := rebuildStep_spec false arr (unpruned flat) p
      e.childIndexes rest final root root1 st' hresize hst'
    have hds' : (List.range' n m).map (fun c => arr[c]?) = ds.map some := by
      rw [← hds, hch]
      apply List.map_congr_left
      intro c hc
      rw [List.mem_range'_1] at hc
      rw [childData_unpruned flat arr hidx c (by omega)]
    have hinv' := rebuildInv_step flat arr cur rest n m final root st'.rootEntry hinv hlt hnd
      e hcur hch p x hp hx ds hds' hmod
    cases fuel with
    | zero => simp at hfuel
    | succ fuel =>
      simp only [rebuildLoop, getElem?_unpruned flat cur e hcur, hp, hx, hresize, hinvalid, hst']
      obtain ⟨todo', final', root'⟩ := st'
      simp only at htodo hfinal hinv'
      subst htodo
      subst hfinal
      simp only [Bool.false_eq_true, if_false, hchlen, hch, List.length_range'] at hinv' ⊢
      apply ih
      · simp only [List.length_append, List.length_reverse, List.length_range']
        simp only [List.length_cons] at hfuel
        omega
      · intro k hk
        simp only [List.mem_append, List.mem_reverse, List.mem_range'_1] at hk
        rcases hk with h | h
        · omega
        · have := hlt k (List.mem_cons_of_mem _ h)
          omega
      · rw [List.nodup_append]
        refine ⟨List.nodup_reverse.mpr (List.nodup_range' _ _), hnd'.2, ?_⟩
        intro k hk1 hk2
        rw [List.mem_reverse, List.mem_range'_1] at hk1
        have := hlt k (List.mem_cons_of_mem _ hk2)
        omega
      · exact hinv'

/-- When nothing was pruned, the rebuilding ends without a fault; the report
tree has one entry per entry of the flattened hierarchy. -/
theorem rebuild_all {δ : Type} [Inhabited δ] (rootBlock : ProfiledBlock)
    (flat : List TempEntry) (arr : List δ) (hflat : FlatOK rootBlock flat)
    (htrav : Trav flat [0] 1) (harr : arr.length = flat.length) :
    ∃ (final : List (Option (List Nat))) (root : ReportEntry δ),
      rebuild false arr (unpruned flat) = Except.ok root ∧
        RebuildInv flat arr [] flat.length final root := by
  have hlen := htrav.le
  have h0 : flat[0]? = some flat[0] := List.getElem?_eq_getElem (by omega)
  have hd : arr[0]? = some arr[0] := List.getElem?_eq_getElem (by omega)
  have hinit : RebuildInv flat arr [0] 1 [some []] (ReportEntry.mk arr[0] []) := by
    constructor
    · rfl
    · rfl
    · intro k hk
      have : k = 0 := by omega
      subst this
      exact ⟨[], _, rfl, rfl, hd⟩
    · intro k hk p x hp hx
      simp only [List.mem_singleton] at hk
      subst hk
      simp only [List.getElem?_cons_zero, Option.some.injEq] at hp
      subst hp
      simp only [ReportEntry.getAt, Option.some.injEq] at hx
      subst hx
      rfl
    · intro k e p x hk hflat' hp hx
      cases k with
      | zero => simp at hk
      | succ k => simp at hp
    · intro k k' p hk hk'
      cases k with
      | zero =>
        cases k' with
        | zero => rfl
        | succ k' => simp at hk'
      | succ k => simp at hk
  obtain ⟨final, root, hrun, hinv⟩ := rebuildLoop_all flat arr harr hflat.entryIdx_eq [0] 1 htrav
    (unpruned flat).length [some []] (ReportEntry.mk arr[0] [])
    (by simp [unpruned]; omega) (by simp) (by simp) hinit
  refine ⟨final, root, ?_, hinv⟩
  have hne : unpruned flat = ⟨none, 0, flat[0].childIndexes⟩ :: (unpruned flat).tail := by
    have h1 := getElem?_unpruned flat 0 flat[0] h0
    rw [hflat.entryIdx_eq 0 flat[0] h0] at h1
    cases hu : unpruned flat with
    | nil => rw [hu] at h1; simp at h1
    | cons a l =>
      rw [hu] at h1
      simp only [List.getElem?_cons_zero, Option.some.injEq] at h1
      rw [h1]
      rfl
  unfold rebuild
  split
  · rename_i hnil
    rw [hne] at hnil
    cases hnil
  · rename_i first tl hcons
    rw [hne] at hcons
    simp only [List.cons.injEq] at hcons
    rw [← hcons.1]
    simp only [hd]
    rw [hrun]

theorem ProfiledBlock.allBelowList_iff_mem (P : ProfiledBlock → Prop) (cs : List ProfiledBlock) :
    ProfiledBlock.AllBelowList P cs ↔ ∀ c ∈ cs, P c ∧ ProfiledBlock.AllBelow P c := by
  induction cs with
  | nil => simp [ProfiledBlock.AllBelowList]
  | cons c cs ih =>
    simp only [ProfiledBlock.AllBelowList, ih, List.mem_cons, forall_eq_or_imp]
    tauto

theorem ProfiledBlock.allBelow_iff_children (P : ProfiledBlock → Prop) (b : ProfiledBlock) :
    ProfiledBlock.AllBelow P b ↔ ∀ c ∈ b.children, P c ∧ ProfiledBlock.AllBelow P c := by
  cases b with
  | mk n bd pd cs =>
    rw [ProfiledBlock.AllBelow, ProfiledBlock.allBelowList_iff_mem]
    rfl

/-- A property of all blocks below the root holds of the block of every entry
of the flattened hierarchy but the first. -/
theorem FlatOK.allBelow {rootBlock : ProfiledBlock} {flat : List TempEntry}
    (hflat : FlatOK rootBlock flat) (P : ProfiledBlock → Prop)
    (hP : ProfiledBlock.AllBelow P rootBlock) :
    ∀ (k : Nat) (b : ProfiledBlock), blockAt flat k = some b →
      (1 ≤ k → P b) ∧ ProfiledBlock.AllBelow P b := by
  intro k
  induction k using Nat.strong_induction_on with
  | _ k ih =>
    intro b hb
    by_cases hk : k = 0
    · subst hk
      rw [hflat.root] at hb
      cases hb
      exact ⟨fun h => absurd h (by omega), hP⟩
    · have hklt : k < flat.length := by
        by_contra hcon
        unfold blockAt at hb
        rw [List.getElem?_eq_none (by omega)] at hb
        cases hb
      obtain ⟨p, e, he, hmem⟩ := hflat.has_parent k (by omega) hklt
      obtain ⟨hpk, -⟩ := hflat.child_range p e k he hmem
      obtain ⟨bp, hbp⟩ := hflat.block p e he
      have hblockp : blockAt flat p = some bp := by
        unfold blockAt
        rw [he]
        exact hbp
      have hall := (ih p hpk bp hblockp).2
      have hexp := hflat.expanded p e bp he hbp
      have : some b ∈ e.childIndexes.map (blockAt flat) := by
        rw [← hb]
        exact List.mem_map_of_mem _ hmem
      rw [hexp] at this
      obtain ⟨c, hc, hcb⟩ := List.mem_map.mp this
      cases hcb
      have := (ProfiledBlock.allBelow_iff_children P bp).mp hall b hc
      exact ⟨fun _ => this.1, this.2⟩

/-- The name and the number of calls in the aggregated vectors, at the index
of a block. -/
theorem aggregate_at (self : ProfilerCPU) (rootBlock : ProfiledBlock) (flat : List TempEntry)
    (hok : FlatOK rootBlock flat) (k : Nat) (b : ProfiledBlock) (hb : blockAt flat k = some b) :
    ∃ (db : BasicData) (dp : PreciseData),
      (aggregateBasic self flat)[k]? = some db ∧ (aggregatePrecise self flat)[k]? = some dp ∧
      db.name = c_str b.name ∧ db.numCalls = b.basic.samples.length % 2 ^ 32 ∧
      dp.name = c_str b.name ∧ dp.numCalls = b.precise.samples.length % 2 ^ 32 := by
  unfold blockAt at hb
  cases he : flat[k]? with
  | none => rw [he] at hb; cases hb
  | some e =>
    rw [he] at hb
    have hb' : e.parentBlock = some b := hb
    obtain ⟨db, hdb, hcoreb⟩ := (aggregateBasic_inv self rootBlock flat hok).core k e b
      (Nat.zero_le _) he hb'
    obtain ⟨dp, hdp, hcorep⟩ := (aggregatePrecise_inv self rootBlock flat hok).core k e b
      (Nat.zero_le _) he hb'
    refine ⟨db, dp, hdb, hdp, ?_, ?_, ?_, ?_⟩
    · rw [BasicData.congr_of_core BasicData.name (fun _ _ => rfl) hcoreb, basicAggregated_name]
    · rw [BasicData.congr_of_core BasicData.numCalls (fun _ _ => rfl) hcoreb,
        basicAggregated_numCalls]
    · rw [PreciseData.congr_of_same_core PreciseData.name (fun _ _ => rfl) hcorep,
        preciseAggregated_name]
    · rw [PreciseData.congr_of_same_core PreciseData.numCalls (fun _ _ => rfl) hcorep,
        preciseAggregated_numCalls]

/-- The loop over the children in the pruning pushes every child on the stack
and one parent index per child. -/
theorem foldl_pruneChild_todo (numCalls : Nat → Nat) (parentEntryIdx : Nat) (ch : List Nat) :
    ∀ (st : PruneState),
      (ch.foldl (pruneChild numCalls parentEntryIdx) st).todo = ch.reverse ++ st.todo ∧
      (ch.foldl (pruneChild numCalls parentEntryIdx) st).parentEntryIndexes.length
        = ch.length + st.parentEntryIndexes.length := by
  induction ch with
  | nil => intro st; simp
  | cons c ch ih =>
    intro st
    rw [List.foldl_cons]
    obtain ⟨h1, h2⟩ := ih (pruneChild numCalls parentEntryIdx st c)
    rw [h1, h2]
    unfold pruneChild
    split <;> simp <;> omega

/-- The pruning loop ends without a fault on a flattened hierarchy. -/
theorem pruneLoop_ok (numCalls : Nat → Nat) (flat : List TempEntry) (todo : List Nat) (n : Nat)
    (htrav : Trav flat todo n) :
    ∀ (fuel : Nat) (st : PruneState), todo.length + (flat.length - n) ≤ fuel →
      st.todo = todo → st.parentEntryIndexes.length = todo.length →
      ∃ st', pruneLoop numCalls flat fuel st = Except.ok st' := by
  induction htrav with
  | done =>
    intro fuel st _ htodo _
    refine ⟨st, ?_⟩
    cases fuel <;> simp [pruneLoop, htodo]
  | step cur rest n m e hcur hch hsub ih =>
    intro fuel st hfuel htodo hpar
    have hle := hsub.le
    cases fuel with
    | zero => simp at hfuel
    | succ fuel =>
      cases hp : st.parentEntryIndexes with
      | nil => rw [hp] at hpar; simp at hpar
      | cons par parents =>
        simp only [pruneLoop, htodo, hp, hcur]
        obtain ⟨h1, h2⟩ := foldl_pruneChild_todo numCalls par e.childIndexes
          ⟨rest, parents, st.newEntries, st.entryIdx⟩
        apply ih
        · simp only [List.length_append, List.length_reverse, List.length_range']
          simp only [List.length_cons] at hfuel
          omega
        · rw [h1, hch]
        · rw [h2, hch]
          rw [hp] at hpar
          simp only [List.length_cons] at hpar
          simp only [List.length_append, List.length_reverse, List.length_range']
          omega

/-- The pruning ends without a fault on the flattened hierarchy of a tree. -/
theorem prune_ok (numCalls : Nat → Nat) (flat : List TempEntry) (htrav : Trav flat [0] 1) :
    ∃ new, prune numCalls flat = Except.ok new := by
  obtain ⟨st', hst'⟩ := pruneLoop_ok numCalls flat [0] 1 htrav flat.length
    ⟨[0], [0], [⟨none, 0, []⟩], 1⟩ (by have := htrav.le; simp; omega) rfl rfl
  exact ⟨st'.newEntries, by unfold prune; rw [hst']⟩

/-- When no entry has calls, the pruning leaves the root entry alone. -/
theorem prune_none (numCalls : Nat → Nat) (flat : List TempEntry) (htrav : Trav flat [0] 1)
    (hzero : ∀ i, numCalls i = 0) :
    ∃ pb, prune numCalls flat = Except.ok [⟨pb, 0, []⟩] := by
  obtain ⟨new, hnew⟩ := prune_ok numCalls flat htrav
  obtain ⟨⟨e0, he0, hidx⟩, hchild, hentry⟩ := prune_spec numCalls flat new hnew
  have hlen : new.length = 1 := by
    by_contra hcon
    have h1 : 1 < new.length := by
      have : 0 < new.length := by
        by_contra hc
        rw [List.getElem?_eq_none (by omega)] at he0
        cases he0
      omega
    have := hentry 1 new[1] (Nat.le_refl _) (List.getElem?_eq_getElem h1)
    rw [hzero] at this
    exact Nat.lt_irrefl _ this
  have hch : e0.childIndexes = [] := by
    cases hc : e0.childIndexes with
    | nil => rfl
    | cons c cs =>
      have := hchild 0 e0 c he0 (by rw [hc]; simp)
      omega
  refine ⟨e0.parentBlock, ?_⟩
  rw [hnew]
  congr 1
  match new, hlen, he0 with
  | [a], _, he0 =>
    simp only [List.getElem?_cons_zero, Option.some.injEq] at he0
    subst he0
    cases a with
    | mk pb idx ch =>
      simp only at hidx hch
      subst hidx hch
      rfl

/-- The rebuilding of a report with the root entry alone. -/
theorem rebuild_single {δ : Type} [Inhabited δ] (useBack : Bool) (arr : List δ)
    (pb : Option ProfiledBlock) (d : δ) (hd : arr[0]? = some d) :
    rebuild useBack arr [⟨pb, 0, []⟩] = Except.ok (ReportEntry.mk d []) := by
  simp [rebuild, hd, rebuildLoop, ReportEntry.getAt, ReportEntry.modifyAt, resizeChildEntries,
    rebuildChildren, ReportEntry.setChildEntries, ReportEntry.childEntries, ReportEntry.data]

/-- The report for a tree in which every block below the root has Basic
calls and no block has Precise calls: `generateReport` ends without a fault,
nothing is pruned from the Basic tree, and every entry of the flattened
hierarchy has an entry in the Basic tree. -/
theorem reportOf_basic_only (self : ProfilerCPU) (rootBlock : ProfiledBlock)
    (hbasic : ProfiledBlock.AllBelow (fun b => 0 < b.basic.samples.length % 2 ^ 32) rootBlock)
    (hprecise : ProfiledBlock.AllBelow (fun b => b.precise.samples.length % 2 ^ 32 = 0)
      rootBlock)
    (hroot : rootBlock.precise.samples.length % 2 ^ 32 = 0) :
    ∃ (report : CPUProfilerReport) (flat : List TempEntry) (final : List (Option (List Nat))),
      self.reportOf rootBlock = Except.ok report ∧ FlatOK rootBlock flat ∧
      RebuildInv flat (aggregateBasic self flat) [] flat.length final
        report.mBasicSamplingRootEntry := by
  obtain ⟨flat, hflat, hok⟩ := flatten_ok rootBlock
  have htrav := flatten_trav rootBlock flat hflat
  have hblock : ∀ k, k < flat.length → ∃ b, blockAt flat k = some b := by
    intro k hk
    obtain ⟨b, hb⟩ := hok.block k flat[k] (List.getElem?_eq_getElem hk)
    refine ⟨b, ?_⟩
    unfold blockAt
    rw [List.getElem?_eq_getElem hk]
    exact hb
  have hposB : ∀ c, 1 ≤ c → c < flat.length →
      ((aggregateBasic self flat).getD c default).numCalls > 0 := by
    intro c hc1 hc2
    obtain ⟨b, hb⟩ := hblock c hc2
    obtain ⟨db, dp, hdb, -, -, hnum, -, -⟩ := aggregate_at self rootBlock flat hok c b hb
    rw [List.getD_eq_getElem?_getD, hdb, Option.getD_some, hnum]
    exact (hok.allBelow _ hbasic c b hb).1 hc1
  have hzeroP : ∀ i, ((aggregatePrecise self flat).getD i default).numCalls = 0 := by
    intro i
    by_cases hi : i < flat.length
    · obtain ⟨b, hb⟩ := hblock i hi
      obtain ⟨db, dp, -, hdp, -, -, -, hnum⟩ := aggregate_at self rootBlock flat hok i b hb
      rw [List.getD_eq_getElem?_getD, hdp, Option.getD_some, hnum]
      by_cases h0 : i = 0
      · subst h0
        rw [hok.root] at hb
        cases hb
        exact hroot
      · exact (hok.allBelow _ hprecise i b hb).1 (by omega)
    · rw [List.getD_eq_getElem?_getD, List.getElem?_eq_none, Option.getD_none]
      · rfl
      · rw [(aggregatePrecise_inv self rootBlock flat hok).length]
        omega
  have hpruneB := prune_all _ rootBlock flat hok htrav hposB
  obtain ⟨final, basicRoot, hrebuildB, hinv⟩ := rebuild_all rootBlock flat
    (aggregateBasic self flat) hok htrav (aggregateBasic_inv self rootBlock flat hok).length
  obtain ⟨pb, hpruneP⟩ := prune_none _ flat htrav hzeroP
  obtain ⟨b0, hb0⟩ := hblock 0 (by have := htrav.le; omega)
  obtain ⟨-, dp0, -, hdp0, -⟩ := aggregate_at self rootBlock flat hok 0 b0 hb0
  have hrebuildP := rebuild_single true (aggregatePrecise self flat) pb dp0 hdp0
  refine ⟨⟨basicRoot, ReportEntry.mk dp0 []⟩, flat, final, ?_, hok, hinv⟩
  unfold ProfilerCPU.reportOf
  simp only [hflat, hpruneB, hrebuildB, hpruneP, hrebuildP]

/-- The scan of `findChild` and the search for the first child entry with the
same name agree on vectors with the same names. -/
theorem find_of_findChildFrom {δ : Type} (nameOf : δ → ProfilerString) (name : ProfilerString)
    (cs : List ProfiledBlock) :
    ∀ (xs : List (ReportEntry δ)) (i0 i : Nat),
      cs.map ProfiledBlock.name = xs.map (fun x => nameOf x.data) →
      ProfiledBlock.findChildFrom name cs i0 = some i →
      i0 ≤ i ∧ ∃ x, xs[i - i0]? = some x ∧
        xs.find? (fun c => decide (nameOf c.data = name)) = some x := by
  induction cs with
  | nil =>
    intro xs i0 i _ h
    simp [ProfiledBlock.findChildFrom] at h
  | cons c cs ih =>
    intro xs i0 i hnames h
    cases xs with
    | nil => simp at hnames
    | cons x xs =>
      simp only [List.map_cons, List.cons.injEq] at hnames
      unfold ProfiledBlock.findChildFrom at h
      split at h
      · rename_i hc
        cases h
        refine ⟨Nat.le_refl _, x, by simp, ?_⟩
        rw [List.find?_cons_of_pos]
        simp only [decide_eq_true_eq]
        rw [← hnames.1]
        exact hc
      · rename_i hc
        obtain ⟨hle, x', hx', hfind⟩ := ih xs (i0 + 1) i hnames.2 h
        refine ⟨by omega, x', ?_, ?_⟩
        · have : i - i0 = (i - (i0 + 1)) + 1 := by omega
          rw [this, List.getElem?_cons_succ]
          exact hx'
        · rw [List.find?_cons_of_neg]
          · exact hfind
          · simp only [decide_eq_true_eq]
            rw [← hnames.1]
            exact hc

/-- The scan of `findChild` finds nothing exactly when no child entry of a
vector with the same names has the name. -/
theorem find_none_of_findChildFrom {δ : Type} (nameOf : δ → ProfilerString)
    (name : ProfilerString) (cs : List ProfiledBlock) :
    ∀ (xs : List (ReportEntry δ)) (i0 : Nat),
      cs.map ProfiledBlock.name = xs.map (fun x => nameOf x.data) →
      ProfiledBlock.findChildFrom name cs i0 = none →
      xs.find? (fun c => decide (nameOf c.data = name)) = none := by
  induction cs with
  | nil =>
    intro xs i0 hnames _
    cases xs with
    | nil => rfl
    | cons x xs => simp at hnames
  | cons c cs ih =>
    intro xs i0 hnames h
    cases xs with
    | nil => simp at hnames
    | cons x xs =>
      simp only [List.map_cons, List.cons.injEq] at hnames
      unfold ProfiledBlock.findChildFrom at h
      split at h
      · cases h
      · rename_i hc
        rw [List.find?_cons_of_neg]
        · exact ih xs (i0 + 1) hnames.2 h
        · simp only [decide_eq_true_eq]
          rw [← hnames.1]
          exact hc

/-- In a report from which nothing was pruned, the child entries of the entry
of a block are the entries of the children of the block, in the same order. -/
theorem rebuilt_child (self : ProfilerCPU) (rootBlock : ProfiledBlock) (flat : List TempEntry)
    (final : List (Option (List Nat))) (report : ReportEntry BasicData)
    (hok : FlatOK rootBlock flat)
    (hinv : RebuildInv flat (aggregateBasic self flat) [] flat.length final report)
    (k : Nat) (b : ProfiledBlock) (pk : List Nat) (x : ReportEntry BasicData)
    (hb : blockAt flat k = some b) (hpk : final[k]? = some (some pk))
    (hx : report.getAt pk = some x) :
    x.data.name = c_str b.name ∧ x.data.numCalls = b.basic.samples.length % 2 ^ 32 ∧
    x.childEntries.length = b.children.length ∧
    ∀ (j : Nat) (c : ProfiledBlock), b.children[j]? = some c →
      ∃ (ci : Nat) (xj : ReportEntry BasicData), blockAt flat ci = some c ∧
        final[ci]? = some (some (pk ++ [j])) ∧ report.getAt (pk ++ [j]) = some xj ∧
        x.childEntries[j]? = some xj := by
  have hklt : k < flat.length := by
    by_contra hcon
    unfold blockAt at hb
    rw [List.getElem?_eq_none (by omega)] at hb
    cases hb
  have he : flat[k]? = some flat[k] := List.getElem?_eq_getElem hklt
  have hbe : flat[k].parentBlock = some b := by
    unfold blockAt at hb
    rw [he] at hb
    exact hb
  obtain ⟨p0, x0, h1, h2, h3⟩ := hinv.node k hklt
  rw [hpk] at h1
  cases h1
  rw [hx] at h2
  cases h2
  obtain ⟨db, -, hdb, -, hname, hnum, -⟩ := aggregate_at self rootBlock flat hok k b hb
  rw [h3] at hdb
  cases hdb
  obtain ⟨hlen, hptr⟩ := hinv.expanded k flat[k] pk x (by simp) he hpk hx
  have hexp := hok.expanded k flat[k] b he hbe
  have hlen' : flat[k].childIndexes.length = b.children.length := by
    have := congrArg List.length hexp
    simpa using this
  refine ⟨hname, hnum, by rw [hlen, hlen'], ?_⟩
  intro j c hc
  have hj : j < b.children.length := by
    by_contra hcon
    rw [List.getElem?_eq_none (by omega)] at hc
    cases hc
  have hjlt : j < flat[k].childIndexes.length := by omega
  have hci : flat[k].childIndexes[j]? = some flat[k].childIndexes[j] :=
    List.getElem?_eq_getElem hjlt
  have hblock : blockAt flat flat[k].childIndexes[j] = some c := by
    have := congrArg (fun l => l[j]?) hexp
    simp only [List.getElem?_map, hci, hc, Option.map_some', Option.some.injEq] at this
    exact this
  have hfin := hptr j _ hci
  have hcilt : flat[k].childIndexes[j] < flat.length :=
    (hok.child_range k flat[k] _ he (List.getElem_mem _)).2
  obtain ⟨q, xj, g1, g2, -⟩ := hinv.node _ hcilt
  rw [hfin] at g1
  cases g1
  refine ⟨_, xj, hblock, hfin, g2, ?_⟩
  rw [ReportEntry.getAt_append, hx] at g2
  simp only [Option.some_bind, ReportEntry.getAt] at g2
  cases hxj : x.childEntries[j]? with
  | none => rw [hxj] at g2; cases g2
  | some y =>
    rw [hxj] at g2
    simp only [Option.some.injEq] at g2
    rw [g2]

/-- In a report from which nothing was pruned, the entry at a tree position
is the entry of the block at that position: it has its name and its number
of calls. -/
theorem entryAt_of_findPath (self : ProfilerCPU) (rootBlock : ProfiledBlock)
    (flat : List TempEntry) (final : List (Option (List Nat))) (report : ReportEntry BasicData)
    (hok : FlatOK rootBlock flat)
    (hinv : RebuildInv flat (aggregateBasic self flat) [] flat.length final report)
    (hnul : ProfiledBlock.AllBelow (fun b => c_str b.name = b.name) rootBlock)
    (p : List ProfilerString) :
    ∀ (k : Nat) (b b' : ProfiledBlock) (pk : List Nat) (x : ReportEntry BasicData),
      blockAt flat k = some b → final[k]? = some (some pk) → report.getAt pk = some x →
      b.findPath p = some b' →
      ∃ x', x.entryAt BasicData.name p = some x' ∧ x'.data.name = c_str b'.name ∧
        x'.data.numCalls = b'.basic.samples.length % 2 ^ 32 := by
  induction p with
  | nil =>
    intro k b b' pk x hb hpk hx hfind
    simp only [ProfiledBlock.findPath, Option.some.injEq] at hfind
    subst hfind
    obtain ⟨h1, h2, -⟩ := rebuilt_child self rootBlock flat final report hok hinv k b pk x hb hpk hx
    exact ⟨x, rfl, h1, h2⟩
  | cons name rest ih =>
    intro k b b' pk x hb hpk hx hfind
    obtain ⟨-, -, hlen, hchild⟩ :=
      rebuilt_child self rootBlock flat final report hok hinv k b pk x hb hpk hx
    have hnames : b.children.map ProfiledBlock.name
        = x.childEntries.map (fun y => BasicData.name y.data) := by
      apply List.ext_getElem?
      intro j
      simp only [List.getElem?_map]
      by_cases hj : j < b.children.length
      · obtain ⟨ci, xj, hci, hfin, hget, hxj⟩ := hchild j b.children[j]
          (List.getElem?_eq_getElem hj)
        obtain ⟨h1, -⟩ := rebuilt_child self rootBlock flat final report hok hinv ci
          b.children[j] (pk ++ [j]) xj hci hfin hget
        have hn : c_str (b.children[j]).name = (b.children[j]).name :=
          ((ProfiledBlock.allBelow_iff_children _ b).mp (hok.allBelow _ hnul k b hb).2 _
            (List.getElem_mem _)).1
        rw [List.getElem?_eq_getElem hj, hxj]
        simp only [Option.map_some', h1, hn]
      · rw [List.getElem?_eq_none (by omega), List.getElem?_eq_none (by omega)]
        rfl
    simp only [ProfiledBlock.findPath] at hfind
    split at hfind
    · rename_i i hi
      split at hfind
      · rename_i c hc
        unfold ProfiledBlock.findChild at hi
        obtain ⟨-, xi, hxi, hfindx⟩ := find_of_findChildFrom BasicData.name name b.children
          x.childEntries 0 i hnames hi
        obtain ⟨ci, xj, hci, hfin, hget, hxj⟩ := hchild i c hc
        rw [Nat.sub_zero, hxj] at hxi
        rw [← Option.some.inj hxi] at hfindx
        obtain ⟨x', hx', hres⟩ := ih ci c b' (pk ++ [i]) xj hci hfin hget hfind
        refine ⟨x', ?_, hres⟩
        simp only [ReportEntry.entryAt, hfindx]
        exact hx'
      · cases hfind
    · cases hfind

/-! ### Pointers into the block tree -/

theorem ProfiledBlock.children_setChildren (b : ProfiledBlock) (cs : List ProfiledBlock) :
    (b.setChildren cs).children = cs := by
  cases b; rfl

theorem ProfiledBlock.name_setChildren (b : ProfiledBlock) (cs : List ProfiledBlock) :
    (b.setChildren cs).name = b.name := by
  cases b; rfl

theorem ProfiledBlock.basic_setChildren (b : ProfiledBlock) (cs : List ProfiledBlock) :
    (b.setChildren cs).basic = b.basic := by
  cases b; rfl

theorem ProfiledBlock.precise_setChildren (b : ProfiledBlock) (cs : List ProfiledBlock) :
    (b.setChildren cs).precise = b.precise := by
  cases b; rfl

theorem ProfiledBlock.setChildren_setChildren (b : ProfiledBlock) (cs cs' : List ProfiledBlock) :
    (b.setChildren cs).setChildren cs' = b.setChildren cs' := by
  cases b; rfl

theorem ProfiledBlock.children_setBasic (b : ProfiledBlock) (d : ProfileData) :
    (b.setBasic d).children = b.children := by
  cases b; rfl

theorem ProfiledBlock.name_setBasic (b : ProfiledBlock) (d : ProfileData) :
    (b.setBasic d).name = b.name := by
  cases b; rfl

theorem ProfiledBlock.basic_setBasic (b : ProfiledBlock) (d : ProfileData) :
    (b.setBasic d).basic = d := by
  cases b; rfl

theorem ProfiledBlock.precise_setBasic (b : ProfiledBlock) (d : ProfileData) :
    (b.setBasic d).precise = b.precise := by
  cases b; rfl

theorem ProfiledBlock.getAt_append_path (p q : List Nat) :
    ∀ (root : ProfiledBlock), root.getAt (p ++ q) = (root.getAt p).bind (fun e => e.getAt q) := by
  induction p with
  | nil => intro root; rfl
  | cons i p ih =>
    intro root
    simp only [List.cons_append, ProfiledBlock.getAt]
    cases root.children[i]? with
    | none => rfl
    | some c => exact ih c

/-- A write through a pointer that designates a block is the replacement of
that block. -/
theorem ProfiledBlock.modifyAt_eq_replace (f : ProfiledBlock → ProfiledBlock) (q : List Nat) :
    ∀ (root b : ProfiledBlock), root.getAt q = some b →
      root.modifyAt f q = root.modifyAt (fun _ => f b) q := by
  induction q with
  | nil =>
    intro root b h
    simp only [ProfiledBlock.getAt, Option.some.injEq] at h
    subst h
    rfl
  | cons i q ih =>
    intro root b h
    simp only [ProfiledBlock.getAt] at h
    cases hc : root.children[i]? with
    | none => rw [hc] at h; cases h
    | some c =>
      rw [hc] at h
      simp only [ProfiledBlock.modifyAt, hc, ih c b h]

/-- The replacement of a designated block succeeds; the pointer then
designates the new block, and a second replacement undoes the first. -/
theorem ProfiledBlock.replace_spec (B : ProfiledBlock) (q : List Nat) :
    ∀ (root b : ProfiledBlock), root.getAt q = some b →
      ∃ root', root.modifyAt (fun _ => B) q = some root' ∧ root'.getAt q = some B ∧
        ∀ B', root'.modifyAt (fun _ => B') q = root.modifyAt (fun _ => B') q := by
  induction q with
  | nil =>
    intro root b _
    exact ⟨B, rfl, rfl, fun _ => rfl⟩
  | cons i q ih =>
    intro root b h
    simp only [ProfiledBlock.getAt] at h
    cases hc : root.children[i]? with
    | none => rw [hc] at h; cases h
    | some c =>
      rw [hc] at h
      obtain ⟨c', hc', hget, hrep⟩ := ih c b h
      have hlt : i < root.children.length := by
        by_contra hn
        rw [List.getElem?_eq_none (by omega)] at hc
        cases hc
      refine ⟨root.setChildren (root.children.set i c'), ?_, ?_, ?_⟩
      · simp only [ProfiledBlock.modifyAt, hc, hc']
      · simp only [ProfiledBlock.getAt, ProfiledBlock.children_setChildren,
          List.getElem?_set_self hlt]
        exact hget
      · intro B'
        simp only [ProfiledBlock.modifyAt, ProfiledBlock.children_setChildren,
          List.getElem?_set_self hlt, hc, hrep B']
        cases root.modifyAt (fun _ => B') (i :: q) with
        | none =>
          cases hm : c.modifyAt (fun _ => B') q with
          | none => rfl
          | some c'' =>
            simp only [ProfiledBlock.setChildren_setChildren, List.set_set,
              ProfiledBlock.name_setChildren, ProfiledBlock.basic_setChildren,
              ProfiledBlock.precise_setChildren]
        | some r =>
          cases hm : c.modifyAt (fun _ => B') q with
          | none => rfl
          | some c'' =>
            simp only [ProfiledBlock.setChildren_setChildren, List.set_set,
              ProfiledBlock.name_setChildren, ProfiledBlock.basic_setChildren,
              ProfiledBlock.precise_setChildren]

/-- A write through a pointer to a child is the replacement of the parent by
the parent with the written child. -/
theorem ProfiledBlock.modifyAt_child (f : ProfiledBlock → ProfiledBlock) (q : List Nat) (i : Nat) :
    ∀ (root b c : ProfiledBlock), root.getAt q = some b → b.children[i]? = some c →
      root.modifyAt f (q ++ [i])
        = root.modifyAt (fun _ => b.setChildren (b.children.set i (f c))) q := by
  induction q with
  | nil =>
    intro root b c h hc
    simp only [ProfiledBlock.getAt, Option.some.injEq] at h
    subst h
    simp only [List.nil_append, ProfiledBlock.modifyAt, hc]
  | cons j q ih =>
    intro root b c h hc
    simp only [ProfiledBlock.getAt] at h
    cases hj : root.children[j]? with
    | none => rw [hj] at h; cases h
    | some cj =>
      rw [hj] at h
      have hrec := ih cj b c h hc
      simp only [List.cons_append, ProfiledBlock.modifyAt, hj, List.append_eq, hrec]

/-! ### `findChild` -/

theorem findChildFrom_some (name : ProfilerString) (cs : List ProfiledBlock) :
    ∀ (i0 i : Nat), ProfiledBlock.findChildFrom name cs i0 = some i →
      i0 ≤ i ∧ ∃ c, cs[i - i0]? = some c ∧ c.name = name ∧
        ∀ (j : Nat) (c' : ProfiledBlock), j < i - i0 → cs[j]? = some c' → c'.name ≠ name := by
  induction cs with
  | nil =>
    intro i0 i h
    simp [ProfiledBlock.findChildFrom] at h
  | cons c cs ih =>
    intro i0 i h
    unfold ProfiledBlock.findChildFrom at h
    split at h
    · rename_i hc
      cases h
      refine ⟨Nat.le_refl _, c, by simp, hc, ?_⟩
      intro j c' hj
      omega
    · rename_i hc
      obtain ⟨hle, c1, hc1, hname, hbefore⟩ := ih (i0 + 1) i h
      have hij : i - i0 = (i - (i0 + 1)) + 1 := by omega
      refine ⟨by omega, c1, ?_, hname, ?_⟩
      · rw [hij, List.getElem?_cons_succ]
        exact hc1
      · intro j c' hj hc'
        cases j with
        | zero =>
          simp only [List.getElem?_cons_zero, Option.some.injEq] at hc'
          subst hc'
          exact hc
        | succ j =>
          rw [List.getElem?_cons_succ] at hc'
          exact hbefore j c' (by omega) hc'

theorem findChildFrom_none (name : ProfilerString) (cs : List ProfiledBlock) :
    ∀ (i0 : Nat), ProfiledBlock.findChildFrom name cs i0 = none ↔ ∀ c ∈ cs, c.name ≠ name := by
  induction cs with
  | nil =>
    intro i0
    simp [ProfiledBlock.findChildFrom]
  | cons c cs ih =>
    intro i0
    unfold ProfiledBlock.findChildFrom
    by_cases hc : c.name = name
    · simp [hc]
    · simp [hc, ih (i0 + 1)]

theorem findChildFrom_eq_some (name : ProfilerString) (cs : List ProfiledBlock) :
    ∀ (i0 j : Nat) (c : ProfiledBlock), cs[j]? = some c → c.name = name →
      (∀ (j' : Nat) (c' : ProfiledBlock), j' < j → cs[j']? = some c' → c'.name ≠ name) →
      ProfiledBlock.findChildFrom name cs i0 = some (i0 + j) := by
  induction cs with
  | nil =>
    intro i0 j c h
    simp at h
  | cons c0 cs ih =>
    intro i0 j c hj hname hbefore
    unfold ProfiledBlock.findChildFrom
    cases j with
    | zero =>
      simp only [List.getElem?_cons_zero, Option.some.injEq] at hj
      subst hj
      simp [hname]
    | succ j =>
      have h0 := hbefore 0 c0 (by omega) (by simp)
      rw [if_neg h0]
      rw [List.getElem?_cons_succ] at hj
      rw [ih (i0 + 1) j c hj hname (fun j' c' hj' hc' =>
        hbefore (j' + 1) c' (by omega) (by rw [List.getElem?_cons_succ]; exact hc'))]
      congr 1
      omega

/-- What `findChild` returns when it finds a block. -/
theorem ProfiledBlock.findChild_some {b : ProfiledBlock} {name : ProfilerString} {i : Nat}
    (h : b.findChild name = some i) :
    ∃ c, b.children[i]? = some c ∧ c.name = name ∧
      ∀ (j : Nat) (c' : ProfiledBlock), j < i → b.children[j]? = some c' → c'.name ≠ name := by
  obtain ⟨-, c, hc, hname, hbefore⟩ := findChildFrom_some name b.children 0 i h
  exact ⟨c, hc, hname, hbefore⟩

theorem ProfiledBlock.findChild_none {b : ProfiledBlock} {name : ProfilerString} :
    b.findChild name = none ↔ ∀ c ∈ b.children, c.name ≠ name :=
  findChildFrom_none name b.children 0

theorem ProfiledBlock.findChild_eq_some {b : ProfiledBlock} {name : ProfilerString} {j : Nat}
    {c : ProfiledBlock} (hc : b.children[j]? = some c) (hname : c.name = name)
    (hbefore : ∀ (j' : Nat) (c' : ProfiledBlock), j' < j → b.children[j']? = some c' →
      c'.name ≠ name) : b.findChild name = some j := by
  have := findChildFrom_eq_some name b.children 0 j c hc hname hbefore
  rw [Nat.zero_add] at this
  exact this

theorem ProfiledBlock.name_putChild (b : ProfiledBlock) (i : Nat) (c : ProfiledBlock) :
    (b.putChild i c).name = b.name := ProfiledBlock.name_setChildren _ _

theorem ProfiledBlock.basic_putChild (b : ProfiledBlock) (i : Nat) (c : ProfiledBlock) :
    (b.putChild i c).basic = b.basic := ProfiledBlock.basic_setChildren _ _

theorem ProfiledBlock.precise_putChild (b : ProfiledBlock) (i : Nat) (c : ProfiledBlock) :
    (b.putChild i c).precise = b.precise := ProfiledBlock.precise_setChildren _ _

theorem ProfiledBlock.children_putChild_lt (b : ProfiledBlock) (i : Nat) (c : ProfiledBlock)
    (h : i < b.children.length) : (b.putChild i c).children = b.children.set i c := by
  unfold ProfiledBlock.putChild
  rw [ProfiledBlock.children_setChildren, if_pos h]

theorem ProfiledBlock.children_putChild_length (b : ProfiledBlock) (c : ProfiledBlock) :
    (b.putChild b.children.length c).children = b.children ++ [c] := by
  unfold ProfiledBlock.putChild
  rw [ProfiledBlock.children_setChildren, if_neg (Nat.lt_irrefl _)]

theorem ProfiledBlock.slot_le (b : ProfiledBlock) (name : ProfilerString) :
    b.slot name ≤ b.children.length := by
  unfold ProfiledBlock.slot
  cases h : b.findChild name with
  | none => exact Nat.le_refl _
  | some i =>
    obtain ⟨c, hc, -⟩ := ProfiledBlock.findChild_some h
    have : i < b.children.length := by
      by_contra hn
      rw [List.getElem?_eq_none (by omega)] at hc
      cases hc
    exact Nat.le_of_lt this

theorem ProfiledBlock.getElem?_putChild (b : ProfiledBlock) (i : Nat) (c : ProfiledBlock)
    (h : i ≤ b.children.length) : (b.putChild i c).children[i]? = some c := by
  by_cases hlt : i < b.children.length
  · rw [ProfiledBlock.children_putChild_lt b i c hlt, List.getElem?_set_self hlt]
  · have : i = b.children.length := by omega
    subst this
    rw [ProfiledBlock.children_putChild_length]
    simp

theorem ProfiledBlock.getElem?_putChild_ne (b : ProfiledBlock) (i j : Nat) (c : ProfiledBlock)
    (h : i ≤ b.children.length) (hj : j < b.children.length) (hij : i ≠ j) :
    (b.putChild i c).children[j]? = b.children[j]? := by
  by_cases hlt : i < b.children.length
  · rw [ProfiledBlock.children_putChild_lt b i c hlt, List.getElem?_set_ne hij]
  · have : i = b.children.length := by omega
    subst this
    rw [ProfiledBlock.children_putChild_length, List.getElem?_append_left hj]

theorem ProfiledBlock.length_putChild (b : ProfiledBlock) (i : Nat) (c : ProfiledBlock)
    (h : i ≤ b.children.length) : i < (b.putChild i c).children.length := by
  by_cases hlt : i < b.children.length
  · rw [ProfiledBlock.children_putChild_lt b i c hlt, List.length_set]
    exact hlt
  · have : i = b.children.length := by omega
    subst this
    rw [ProfiledBlock.children_putChild_length]
    simp

theorem ProfiledBlock.putChild_putChild (b : ProfiledBlock) (i : Nat) (c c' : ProfiledBlock)
    (h : i ≤ b.children.length) : (b.putChild i c).putChild i c' = b.putChild i c' := by
  have hlt := ProfiledBlock.length_putChild b i c h
  unfold ProfiledBlock.putChild at hlt ⊢
  rw [ProfiledBlock.setChildren_setChildren, ProfiledBlock.children_setChildren]
  rw [ProfiledBlock.children_setChildren] at hlt
  rw [if_pos hlt]
  congr 1
  by_cases hi : i < b.children.length
  · rw [if_pos hi, if_pos hi, List.set_set]
  · have : i = b.children.length := by omega
    subst this
    rw [if_neg hi]
    simp

theorem ProfiledBlock.putChild_of_lt (b : ProfiledBlock) (i : Nat) (c : ProfiledBlock)
    (h : i < b.children.length) : b.putChild i c = b.setChildren (b.children.set i c) := by
  unfold ProfiledBlock.putChild
  rw [if_pos h]

theorem ProfiledBlock.setChildren_set_putChild (b : ProfiledBlock) (i : Nat)
    (c c' : ProfiledBlock) (h : i ≤ b.children.length) :
    (b.putChild i c).setChildren ((b.putChild i c).children.set i c') = b.putChild i c' := by
  rw [← ProfiledBlock.putChild_of_lt _ _ _ (ProfiledBlock.length_putChild b i c h),
    ProfiledBlock.putChild_putChild b i c c' h]

/-- The child that `beginSample(name)` finds is at its slot. -/
theorem ProfiledBlock.childOrNew_spec (b : ProfiledBlock) (name : ProfilerString) :
    (b.childOrNew name).name = name ∧
    ((∃ i, b.findChild name = some i ∧ b.slot name = i ∧
        b.children[i]? = some (b.childOrNew name)) ∨
      (b.findChild name = none ∧ b.slot name = b.children.length ∧
        b.childOrNew name = ProfiledBlock.new.setName name)) := by
  unfold ProfiledBlock.childOrNew ProfiledBlock.slot
  cases h : b.findChild name with
  | none => exact ⟨rfl, Or.inr ⟨rfl, rfl, rfl⟩⟩
  | some i =>
    obtain ⟨c, hc, hname, -⟩ := ProfiledBlock.findChild_some h
    refine ⟨?_, Or.inl ⟨i, rfl, rfl, ?_⟩⟩ <;> simp [hc, hname]

/-- The call `beginSample(name)` on an active thread whose active block is at
`q`: the block is found or created below the active block, becomes the active
block, and a sample begins on it. -/
theorem beginSample_nested (root b : ProfiledBlock) (q : List Nat) (a : ActiveBlock)
    (stack : List ActiveBlock) (name : ProfilerString) (r0 r : Reading)
    (ha : a.block = some q) (hb : root.getAt q = some b) :
    ∃ root1,
      root.modifyAt (fun _ => b.putChild (b.slot name)
        (ProfiledBlock.openSample r (b.childOrNew name))) q = some root1 ∧
      ProfilerCPU.beginSample (some ⟨true, some root, a, a :: stack⟩) name r0 r
        = Except.ok (some ⟨true, some root1,
            ⟨ActiveSamplingType.Basic, some (q ++ [b.slot name])⟩,
            ⟨ActiveSamplingType.Basic, some (q ++ [b.slot name])⟩ :: a :: stack⟩) := by
  obtain ⟨root1, hmod1, -, -⟩ := ProfiledBlock.replace_spec
    (b.putChild (b.slot name) (ProfiledBlock.openSample r (b.childOrNew name))) q root b hb
  refine ⟨root1, hmod1, ?_⟩
  obtain ⟨-, hcase | hcase⟩ := b.childOrNew_spec name
  · obtain ⟨i, hfind, hslot, hchild⟩ := hcase
    have hilt : i < b.children.length := by
      by_contra hn
      rw [List.getElem?_eq_none (by omega)] at hchild
      cases hchild
    have hmod : root.modifyAt (fun b => b.setBasic (b.basic.beginSample r)) (q ++ [i])
        = some root1 := by
      rw [ProfiledBlock.modifyAt_child _ q i root b _ hb hchild, ← hmod1, hslot]
      unfold ProfiledBlock.putChild ProfiledBlock.openSample
      rw [if_pos hilt]
    simp only [ProfilerCPU.beginSample, ProfilerCPU.openBlock, ThreadInfo.readBlock, ha, hb,
      hfind, ThreadInfo.modifyBlock, hmod, hslot, Bool.not_true, Bool.false_eq_true, if_false]
  · obtain ⟨hfind, hslot, hnew⟩ := hcase
    obtain ⟨root0, hmod0, hget0, hrep0⟩ := ProfiledBlock.replace_spec
      (b.setChildren (b.children ++ [ProfiledBlock.new.setName name])) q root b hb
    have happend : root.modifyAt
        (fun b => b.setChildren (b.children ++ [ProfiledBlock.new.setName name])) q
        = some root0 := by
      rw [ProfiledBlock.modifyAt_eq_replace _ q root b hb, hmod0]
    have hmod : root0.modifyAt (fun b => b.setBasic (b.basic.beginSample r))
        (q ++ [b.children.length]) = some root1 := by
      rw [ProfiledBlock.modifyAt_child _ q b.children.length root0 _
        (ProfiledBlock.new.setName name) hget0
        (by rw [ProfiledBlock.children_setChildren]; simp), hrep0, ← hmod1, hslot, hnew]
      congr 2
      unfold ProfiledBlock.putChild ProfiledBlock.openSample
      rw [if_neg (Nat.lt_irrefl _), ProfiledBlock.setChildren_setChildren,
        ProfiledBlock.children_setChildren]
      simp
    simp only [ProfilerCPU.beginSample, ProfilerCPU.openBlock, ThreadInfo.readBlock, ha, hb,
      hfind, ThreadInfo.modifyBlock, happend, hmod, hslot, Bool.not_true, Bool.false_eq_true,
      if_false]

/-- The call `endSample(name)` on a thread whose active block is the child
`i` of the block at `q`, is called `name` and was opened for Basic sampling:
the sample ends, and the block at `q` is the active block again. -/
theorem endSample_nested (debug : Bool) (root b c : ProfiledBlock) (q : List Nat) (i : Nat)
    (a : ActiveBlock) (stack : List ActiveBlock) (name : ProfilerString) (r : Reading)
    (hb : root.getAt q = some b) (hc : b.children[i]? = some c) (hname : c.name = name) :
    ∃ root',
      root.modifyAt (fun _ => b.setChildren (b.children.set i (ProfiledBlock.closeSample r c))) q
        = some root' ∧
      ProfilerCPU.endSample debug (some ⟨true, some root,
          ⟨ActiveSamplingType.Basic, some (q ++ [i])⟩,
          ⟨ActiveSamplingType.Basic, some (q ++ [i])⟩ :: a :: stack⟩) name r
        = Except.ok (some ⟨true, some root', a, a :: stack⟩) := by
  obtain ⟨root', hmod', -, -⟩ := ProfiledBlock.replace_spec
    (b.setChildren (b.children.set i (ProfiledBlock.closeSample r c))) q root b hb
  refine ⟨root', hmod', ?_⟩
  have hget : root.getAt (q ++ [i]) = some c := by
    rw [ProfiledBlock.getAt_append_path, hb]
    simp [ProfiledBlock.getAt, hc]
  have hmod : root.modifyAt (fun b => b.setBasic (b.basic.endSample r)) (q ++ [i])
      = some root' := by
    rw [ProfiledBlock.modifyAt_child _ q i root b c hb hc, ← hmod']
    rfl
  simp only [ProfilerCPU.endSample, ThreadInfo.readBlock, hget, ThreadInfo.modifyBlock, hmod,
    ProfilerCPU.popActive, hname]
  cases debug <;> simp

theorem ProfilerCPU.run_append (debug : Bool) (l1 l2 : List Call) :
    ∀ (thread : Option ThreadInfo), ProfilerCPU.run debug thread (l1 ++ l2) =
      match ProfilerCPU.run debug thread l1 with
      | Except.ok thread' => ProfilerCPU.run debug thread' l2
      | Except.error e => Except.error e := by
  induction l1 with
  | nil => intro thread; rfl
  | cons c l1 ih =>
    intro thread
    simp only [List.cons_append, ProfilerCPU.run]
    cases ProfilerCPU.call debug thread c with
    | error e => rfl
    | ok t => exact ih t

theorem NestedSample.name_record (s : NestedSample) (b : ProfiledBlock) :
    (s.record b).name = b.name := by
  cases s
  simp only [NestedSample.record, ProfiledBlock.name_putChild]

theorem NestedSample.name_recordList (l : List NestedSample) :
    ∀ (b : ProfiledBlock), (NestedSample.recordList l b).name = b.name := by
  induction l with
  | nil => intro b; rfl
  | cons s l ih =>
    intro b
    simp only [NestedSample.recordList, ih, NestedSample.name_record]

/-- The replacement of a block by itself changes nothing. -/
theorem ProfiledBlock.replace_self (q : List Nat) :
    ∀ (root b : ProfiledBlock), root.getAt q = some b →
      root.modifyAt (fun _ => b) q = some root := by
  induction q with
  | nil =>
    intro root b h
    simp only [ProfiledBlock.getAt, Option.some.injEq] at h
    subst h
    rfl
  | cons i q ih =>
    intro root b h
    simp only [ProfiledBlock.getAt] at h
    cases hc : root.children[i]? with
    | none => rw [hc] at h; cases h
    | some c =>
      rw [hc] at h
      simp only [ProfiledBlock.modifyAt, hc, ih c b h]
      have hlt : i < root.children.length := by
        by_contra hn
        rw [List.getElem?_eq_none (by omega)] at hc
        cases hc
      have : root.children.set i c = root.children := by
        apply List.ext_getElem?
        intro j
        by_cases hij : i = j
        · subst hij
          rw [List.getElem?_set_self hlt, hc]
        · rw [List.getElem?_set_ne hij]
      rw [this]
      cases root
      rfl

mutual
/-- The calls of a pair, issued while the block at `q` is active, do to that
block what `record` says, and leave it the active block. -/
theorem run_calls (debug : Bool) : ∀ (s : NestedSample) (root b : ProfiledBlock) (q : List Nat)
    (a : ActiveBlock) (stack : List ActiveBlock), a.block = some q → root.getAt q = some b →
    ∃ root', root.modifyAt (fun _ => s.record b) q = some root' ∧
      ProfilerCPU.run debug (some ⟨true, some root, a, a :: stack⟩) s.calls
        = Except.ok (some ⟨true, some root', a, a :: stack⟩)
  | NestedSample.node name r0 rBegin rEnd inner, root, b, q, a, stack, ha, hb => by
    obtain ⟨root1, hmod1, hrun1⟩ := beginSample_nested root b q a stack name r0 rBegin ha hb
    obtain ⟨r1, hr1, hget1, hrep1⟩ := ProfiledBlock.replace_spec
      (b.putChild (b.slot name) (ProfiledBlock.openSample rBegin (b.childOrNew name))) q root b hb
    rw [hmod1] at hr1
    cases hr1
    have hslot := b.slot_le name
    have hchild1 := ProfiledBlock.getElem?_putChild b (b.slot name)
      (ProfiledBlock.openSample rBegin (b.childOrNew name)) hslot
    have hgetc : root1.getAt (q ++ [b.slot name])
        = some (ProfiledBlock.openSample rBegin (b.childOrNew name)) := by
      rw [ProfiledBlock.getAt_append_path, hget1]
      simp [ProfiledBlock.getAt, hchild1]
    obtain ⟨root2, hmod2, hrun2⟩ := run_callsList debug inner root1 _ (q ++ [b.slot name])
      ⟨ActiveSamplingType.Basic, some (q ++ [b.slot name])⟩ (a :: stack) rfl hgetc
    rw [ProfiledBlock.modifyAt_child _ q (b.slot name) root1 _ _ hget1 hchild1,
      ProfiledBlock.setChildren_set_putChild b _ _ _ hslot, hrep1] at hmod2
    obtain ⟨r2, hr2, hget2, hrep2⟩ := ProfiledBlock.replace_spec
      (b.putChild (b.slot name) (NestedSample.recordList inner
        (ProfiledBlock.openSample rBegin (b.childOrNew name)))) q root b hb
    rw [hmod2] at hr2
    cases hr2
    have hchild2 := ProfiledBlock.getElem?_putChild b (b.slot name)
      (NestedSample.recordList inner (ProfiledBlock.openSample rBegin (b.childOrNew name))) hslot
    obtain ⟨root3, hmod3, hrun3⟩ := endSample_nested debug root2 _ _ q (b.slot name) a stack name
      rEnd hget2 hchild2 (by
        rw [NestedSample.name_recordList]
        unfold ProfiledBlock.openSample
        rw [ProfiledBlock.name_setBasic]
        exact (b.childOrNew_spec name).1)
    rw [ProfiledBlock.setChildren_set_putChild b _ _ _ hslot, hrep2] at hmod3
    refine ⟨root3, hmod3, ?_⟩
    simp only [NestedSample.calls, ProfilerCPU.run, ProfilerCPU.call, hrun1,
      ProfilerCPU.run_append, hrun2, hrun3]
/-- The calls of a sequence of pairs, issued while the block at `q` is active,
do to that block what `recordList` says, and leave it the active block. -/
theorem run_callsList (debug : Bool) : ∀ (l : List NestedSample) (root b : ProfiledBlock)
    (q : List Nat) (a : ActiveBlock) (stack : List ActiveBlock), a.block = some q →
    root.getAt q = some b →
    ∃ root', root.modifyAt (fun _ => NestedSample.recordList l b) q = some root' ∧
      ProfilerCPU.run debug (some ⟨true, some root, a, a :: stack⟩) (NestedSample.callsList l)
        = Except.ok (some ⟨true, some root', a, a :: stack⟩)
  | [], root, b, q, a, stack, _, hb =>
    ⟨root, ProfiledBlock.replace_self q root b hb, rfl⟩
  | s :: rest, root, b, q, a, stack, ha, hb => by
    obtain ⟨root1, hmod1, hrun1⟩ := run_calls debug s root b q a stack ha hb
    obtain ⟨r1, hr1, hget1, hrep1⟩ := ProfiledBlock.replace_spec (s.record b) q root b hb
    rw [hmod1] at hr1
    cases hr1
    obtain ⟨root2, hmod2, hrun2⟩ := run_callsList debug rest root1 (s.record b) q a stack ha hget1
    rw [hrep1] at hmod2
    refine ⟨root2, hmod2, ?_⟩
    simp only [NestedSample.callsList, ProfilerCPU.run_append, hrun1, hrun2]
end

theorem ProfiledBlock.findChild_congr {b b' : ProfiledBlock} (h : b.children = b'.children)
    (name : ProfilerString) : b.findChild name = b'.findChild name := by
  unfold ProfiledBlock.findChild
  rw [h]

theorem ProfiledBlock.findPath_congr {b b' : ProfiledBlock} (h : b.children = b'.children)
    (name : ProfilerString) (path : List ProfilerString) :
    b.findPath (name :: path) = b'.findPath (name :: path) := by
  simp only [ProfiledBlock.findPath, ProfiledBlock.findChild_congr h, h]

theorem ProfiledBlock.children_closeSample (r : Reading) (b : ProfiledBlock) :
    (ProfiledBlock.closeSample r b).children = b.children := ProfiledBlock.children_setBasic _ _

theorem ProfiledBlock.children_openSample (r : Reading) (b : ProfiledBlock) :
    (ProfiledBlock.openSample r b).children = b.children := ProfiledBlock.children_setBasic _ _

/-- After `putChild` at the slot of a name, `findChild` finds the new child under
that name. -/
theorem ProfiledBlock.findChild_putChild_same (b X : ProfiledBlock) (name : ProfilerString)
    (hX : X.name = name) : (b.putChild (b.slot name) X).findChild name = some (b.slot name) := by
  apply ProfiledBlock.findChild_eq_some
    (ProfiledBlock.getElem?_putChild b (b.slot name) X (b.slot_le name)) hX
  intro j c hj hc
  obtain ⟨-, hcase | hcase⟩ := b.childOrNew_spec name
  · obtain ⟨i, hfind, hslot, -⟩ := hcase
    obtain ⟨c0, hc0, -, hbefore⟩ := ProfiledBlock.findChild_some hfind
    have hilt : i < b.children.length := by
      by_contra hn
      rw [List.getElem?_eq_none (by omega)] at hc0
      cases hc0
    rw [hslot] at hj hc
    rw [ProfiledBlock.getElem?_putChild_ne b i j X (by omega) (by omega) (by omega)] at hc
    exact hbefore j c hj hc
  · obtain ⟨hfind, hslot, -⟩ := hcase
    rw [hslot] at hj hc
    rw [ProfiledBlock.children_putChild_length, List.getElem?_append_left hj] at hc
    exact ProfiledBlock.findChild_none.mp hfind c (List.getElem?_mem hc)

/-- After `putChild` at the slot of a name, `findChild` finds under every other name
what it found before. -/
theorem ProfiledBlock.findChild_putChild_other (b X : ProfiledBlock) (n name : ProfilerString)
    (hX : X.name = n) (hne : n ≠ name) :
    (b.putChild (b.slot n) X).findChild name = b.findChild name ∧
    ∀ j, b.findChild name = some j →
      (b.putChild (b.slot n) X).children[j]? = b.children[j]? := by
  have hslot := b.slot_le n
  -- the child at the slot, when there is one, is called `n`
  have hat : ∀ c, b.children[b.slot n]? = some c → c.name = n := by
    intro c hc
    obtain ⟨-, hcase | hcase⟩ := b.childOrNew_spec n
    · obtain ⟨i, hfind, hs, -⟩ := hcase
      obtain ⟨c0, hc0, hname, -⟩ := ProfiledBlock.findChild_some hfind
      rw [hs, hc0] at hc
      cases hc
      exact hname
    · obtain ⟨-, hs, -⟩ := hcase
      rw [hs, List.getElem?_eq_none (Nat.le_refl _)] at hc
      cases hc
  -- every child after `putChild` is an old child at the same index or `X`
  have hnew : ∀ (j : Nat) (c : ProfiledBlock),
      (b.putChild (b.slot n) X).children[j]? = some c →
      (j = b.slot n ∧ c = X) ∨ (j ≠ b.slot n ∧ b.children[j]? = some c) := by
    intro j c hc
    by_cases hj : j = b.slot n
    · subst hj
      rw [ProfiledBlock.getElem?_putChild b _ X hslot] at hc
      cases hc
      exact Or.inl ⟨rfl, rfl⟩
    · refine Or.inr ⟨hj, ?_⟩
      by_cases hlt : b.slot n < b.children.length
      · rw [ProfiledBlock.children_putChild_lt b _ X hlt,
          List.getElem?_set_ne (fun h => hj h.symm)] at hc
        exact hc
      · have hs : b.slot n = b.children.length := by omega
        rw [hs] at hc hj
        rw [ProfiledBlock.children_putChild_length] at hc
        by_cases hjl : j < b.children.length
        · rw [List.getElem?_append_left hjl] at hc
          exact hc
        · rw [List.getElem?_append_right (by omega)] at hc
          have : j - b.children.length ≠ 0 := by omega
          cases hk : j - b.children.length with
          | zero => exact absurd hk this
          | succ k => rw [hk] at hc; simp at hc
  cases hfind : b.findChild name with
  | none =>
    refine ⟨?_, fun j hj => by cases hj⟩
    rw [ProfiledBlock.findChild_none]
    intro c hc
    obtain ⟨j, hj⟩ := List.mem_iff_getElem?.mp hc
    rcases hnew j c hj with ⟨-, rfl⟩ | ⟨-, hold⟩
    · rw [hX]; exact hne
    · exact ProfiledBlock.findChild_none.mp hfind c (List.getElem?_mem hold)
  | some j =>
    obtain ⟨c, hc, hname, hbefore⟩ := ProfiledBlock.findChild_some hfind
    have hjlt : j < b.children.length := by
      by_contra hn
      rw [List.getElem?_eq_none (by omega)] at hc
      cases hc
    have hjs : b.slot n ≠ j := by
      intro h
      rw [← h] at hc
      have := hat c hc
      rw [hname] at this
      exact hne this.symm
    have hsame : (b.putChild (b.slot n) X).children[j]? = b.children[j]? :=
      ProfiledBlock.getElem?_putChild_ne b _ j X hslot hjlt hjs
    refine ⟨?_, fun j' hj' => by cases hj'; exact hsame⟩
    apply ProfiledBlock.findChild_eq_some (by rw [hsame]; exact hc) hname
    intro j' c' hj' hc'
    rcases hnew j' c' hc' with ⟨-, rfl⟩ | ⟨-, hold⟩
    · rw [hX]; exact hne
    · exact hbefore j' c' hj' hold

/-- The samples at a position below `b` whose first name is `name` are the
samples at the rest of the position below the block that `beginSample(name)` finds
or creates. -/
theorem ProfiledBlock.samplesAt_cons (b : ProfiledBlock) (name : ProfilerString)
    (path : List ProfilerString) :
    b.samplesAt (name :: path) = (b.childOrNew name).samplesAt path := by
  obtain ⟨-, hcase | hcase⟩ := b.childOrNew_spec name
  · obtain ⟨i, hfind, -, hchild⟩ := hcase
    unfold ProfiledBlock.samplesAt
    simp only [ProfiledBlock.findPath, hfind, hchild]
  · obtain ⟨hfind, -, hnew⟩ := hcase
    unfold ProfiledBlock.samplesAt
    simp only [ProfiledBlock.findPath, hfind, hnew]
    cases path with
    | nil => rfl
    | cons n p => rfl

theorem NestedSample.basic_record (s : NestedSample) (b : ProfiledBlock) :
    (s.record b).basic = b.basic := by
  cases s
  simp only [NestedSample.record, ProfiledBlock.basic_putChild]

theorem NestedSample.basic_recordList (l : List NestedSample) :
    ∀ (b : ProfiledBlock), (NestedSample.recordList l b).basic = b.basic := by
  induction l with
  | nil => intro b; rfl
  | cons s l ih =>
    intro b
    simp only [NestedSample.recordList, ih, NestedSample.basic_record]

theorem NestedSample.precise_record (s : NestedSample) (b : ProfiledBlock) :
    (s.record b).precise = b.precise := by
  cases s
  simp only [NestedSample.record, ProfiledBlock.precise_putChild]

theorem NestedSample.precise_recordList (l : List NestedSample) :
    ∀ (b : ProfiledBlock), (NestedSample.recordList l b).precise = b.precise := by
  induction l with
  | nil => intro b; rfl
  | cons s l ih =>
    intro b
    simp only [NestedSample.recordList, ih, NestedSample.precise_record]

mutual
/-- A pair adds, at every tree position below the block that is active when
it begins, as many samples as it has pairs executed at that position. -/
theorem NestedSample.samplesAt_record : ∀ (s : NestedSample) (b : ProfiledBlock)
    (name : ProfilerString) (path : List ProfilerString),
    (s.record b).samplesAt (name :: path) = b.samplesAt (name :: path) + s.pairsAt name path
  | NestedSample.node n r0 rBegin rEnd inner, b, name, path => by
    have hXname : (ProfiledBlock.closeSample rEnd (NestedSample.recordList inner
        (ProfiledBlock.openSample rBegin (b.childOrNew n)))).name = n := by
      unfold ProfiledBlock.closeSample ProfiledBlock.openSample
      rw [ProfiledBlock.name_setBasic, NestedSample.name_recordList, ProfiledBlock.name_setBasic]
      exact (b.childOrNew_spec n).1
    by_cases hn : n = name
    · subst hn
      simp only [NestedSample.record, NestedSample.pairsAt, if_true]
      rw [ProfiledBlock.samplesAt_cons b n path]
      have hfind := ProfiledBlock.findChild_putChild_same b _ n hXname
      have hchild := ProfiledBlock.getElem?_putChild b (b.slot n)
        (ProfiledBlock.closeSample rEnd (NestedSample.recordList inner
          (ProfiledBlock.openSample rBegin (b.childOrNew n)))) (b.slot_le n)
      have hstep : ∀ p, (b.putChild (b.slot n)
          (ProfiledBlock.closeSample rEnd (NestedSample.recordList inner
            (ProfiledBlock.openSample rBegin (b.childOrNew n))))).samplesAt (n :: p)
          = (ProfiledBlock.closeSample rEnd (NestedSample.recordList inner
            (ProfiledBlock.openSample rBegin (b.childOrNew n)))).samplesAt p := by
        intro p
        unfold ProfiledBlock.samplesAt
        simp only [ProfiledBlock.findPath, hfind, hchild]
      rw [hstep]
      cases path with
      | nil =>
        simp only [ProfiledBlock.samplesAt, ProfiledBlock.findPath, ProfiledBlock.closeSample,
          ProfiledBlock.basic_setBasic, ProfileData.endSample, List.length_append,
          List.length_singleton, NestedSample.basic_recordList, ProfiledBlock.openSample,
          ProfileData.beginSample]
      | cons n' p' =>
        have h1 : (ProfiledBlock.closeSample rEnd (NestedSample.recordList inner
            (ProfiledBlock.openSample rBegin (b.childOrNew n)))).samplesAt (n' :: p')
            = (NestedSample.recordList inner
              (ProfiledBlock.openSample rBegin (b.childOrNew n))).samplesAt (n' :: p') := by
          unfold ProfiledBlock.samplesAt
          rw [ProfiledBlock.findPath_congr (ProfiledBlock.children_closeSample _ _)]
        have h2 : (ProfiledBlock.openSample rBegin (b.childOrNew n)).samplesAt (n' :: p')
            = (b.childOrNew n).samplesAt (n' :: p') := by
          unfold ProfiledBlock.samplesAt
          rw [ProfiledBlock.findPath_congr (ProfiledBlock.children_openSample _ _)]
        rw [h1, NestedSample.samplesAt_recordList inner _ n' p', h2]
    · simp only [NestedSample.record, NestedSample.pairsAt, if_neg hn, Nat.add_zero]
      obtain ⟨hfind, hchild⟩ := ProfiledBlock.findChild_putChild_other b _ n name hXname hn
      unfold ProfiledBlock.samplesAt
      simp only [ProfiledBlock.findPath, hfind]
      cases hf : b.findChild name with
      | none => rfl
      | some j => simp only [hchild j hf]
/-- A sequence of pairs adds, at every tree position below the block that is
active when it begins, as many samples as it has pairs executed at that
position. -/
theorem NestedSample.samplesAt_recordList : ∀ (l : List NestedSample) (b : ProfiledBlock)
    (name : ProfilerString) (path : List ProfilerString),
    (NestedSample.recordList l b).samplesAt (name :: path)
      = b.samplesAt (name :: path) + NestedSample.pairsAtList l name path
  | [], b, name, path => rfl
  | s :: rest, b, name, path => by
    simp only [NestedSample.recordList, NestedSample.pairsAtList]
    rw [NestedSample.samplesAt_recordList rest (s.record b) name path,
      NestedSample.samplesAt_record s b name path, Nat.add_assoc]
end

theorem ProfiledBlock.uniqueNamesList_iff (cs : List ProfiledBlock) :
    ProfiledBlock.UniqueNamesList cs ↔ ∀ c ∈ cs, ProfiledBlock.UniqueNames c := by
  induction cs with
  | nil => simp [ProfiledBlock.UniqueNamesList]
  | cons c cs ih =>
    simp only [ProfiledBlock.UniqueNamesList, ih, List.mem_cons, forall_eq_or_imp]

theorem ProfiledBlock.uniqueNames_iff (b : ProfiledBlock) :
    ProfiledBlock.UniqueNames b ↔
      (b.children.map ProfiledBlock.name).Nodup ∧ ∀ c ∈ b.children, ProfiledBlock.UniqueNames c := by
  cases b with
  | mk n bd pd cs =>
    rw [ProfiledBlock.UniqueNames, ProfiledBlock.uniqueNamesList_iff]
    rfl

theorem ProfiledBlock.allBelow_congr (P : ProfiledBlock → Prop) {b b' : ProfiledBlock}
    (h : b.children = b'.children) :
    ProfiledBlock.AllBelow P b ↔ ProfiledBlock.AllBelow P b' := by
  rw [ProfiledBlock.allBelow_iff_children, ProfiledBlock.allBelow_iff_children, h]

theorem ProfiledBlock.uniqueNames_congr {b b' : ProfiledBlock} (h : b.children = b'.children) :
    ProfiledBlock.UniqueNames b ↔ ProfiledBlock.UniqueNames b' := by
  rw [ProfiledBlock.uniqueNames_iff, ProfiledBlock.uniqueNames_iff, h]

theorem ProfiledBlock.mem_putChild (b : ProfiledBlock) (i : Nat) (X c : ProfiledBlock)
    (h : c ∈ (b.putChild i X).children) : c = X ∨ c ∈ b.children := by
  unfold ProfiledBlock.putChild at h
  rw [ProfiledBlock.children_setChildren] at h
  split at h
  · rcases List.mem_or_eq_of_mem_set h with h | h
    · exact Or.inr h
    · exact Or.inl h
  · rcases List.mem_append.mp h with h | h
    · exact Or.inr h
    · simp only [List.mem_singleton] at h
      exact Or.inl h

/-- The block that `beginSample(name)` finds or creates is a child or a new
block. -/
theorem ProfiledBlock.childOrNew_cases (b : ProfiledBlock) (name : ProfilerString) :
    b.childOrNew name ∈ b.children ∨ b.childOrNew name = ProfiledBlock.new.setName name := by
  obtain ⟨-, hcase | hcase⟩ := b.childOrNew_spec name
  · obtain ⟨i, -, -, hchild⟩ := hcase
    exact Or.inl (List.getElem?_mem hchild)
  · exact Or.inr hcase.2.2

mutual
/-- A pair keeps a property of all blocks below the active block, when the
block of a pair has the property at the end of the pair. -/
theorem NestedSample.allBelow_record (P : ProfiledBlock → Prop)
    (hP : ∀ (c : ProfiledBlock) (rBegin rEnd : Reading) (inner : List NestedSample),
      (P c ∨ c = ProfiledBlock.new.setName c.name) →
      P (ProfiledBlock.closeSample rEnd
        (NestedSample.recordList inner (ProfiledBlock.openSample rBegin c)))) :
    ∀ (s : NestedSample) (b : ProfiledBlock), ProfiledBlock.AllBelow P b →
      ProfiledBlock.AllBelow P (s.record b)
  | NestedSample.node n r0 rBegin rEnd inner, b, hb => by
    rw [ProfiledBlock.allBelow_iff_children]
    intro c hc
    simp only [NestedSample.record] at hc
    rcases ProfiledBlock.mem_putChild b _ _ c hc with h | h
    · subst h
      have hc0 : (P (b.childOrNew n) ∧ ProfiledBlock.AllBelow P (b.childOrNew n)) ∨
          b.childOrNew n = ProfiledBlock.new.setName n := by
        rcases b.childOrNew_cases n with h | h
        · exact Or.inl ((ProfiledBlock.allBelow_iff_children P b).mp hb _ h)
        · exact Or.inr h
      have hname := (b.childOrNew_spec n).1
      refine ⟨hP _ rBegin rEnd inner ?_, ?_⟩
      · rcases hc0 with h | h
        · exact Or.inl h.1
        · right
          rw [hname]
          exact h
      · rw [ProfiledBlock.allBelow_congr P (ProfiledBlock.children_closeSample _ _)]
        apply NestedSample.allBelow_recordList P hP inner
        rw [ProfiledBlock.allBelow_congr P (ProfiledBlock.children_openSample _ _)]
        rcases hc0 with h | h
        · exact h.2
        · rw [h, ProfiledBlock.allBelow_iff_children]
          intro c hc
          simp [ProfiledBlock.setName, ProfiledBlock.new, ProfiledBlock.children] at hc
    · exact (ProfiledBlock.allBelow_iff_children P b).mp hb c h
/-- A sequence of pairs keeps a property of all blocks below the active block,
when the block of a pair has the property at the end of the pair. -/
theorem NestedSample.allBelow_recordList (P : ProfiledBlock → Prop)
    (hP : ∀ (c : ProfiledBlock) (rBegin rEnd : Reading) (inner : List NestedSample),
      (P c ∨ c = ProfiledBlock.new.setName c.name) →
      P (ProfiledBlock.closeSample rEnd
        (NestedSample.recordList inner (ProfiledBlock.openSample rBegin c)))) :
    ∀ (l : List NestedSample) (b : ProfiledBlock), ProfiledBlock.AllBelow P b →
      ProfiledBlock.AllBelow P (NestedSample.recordList l b)
  | [], _, hb => hb
  | s :: rest, b, hb =>
    NestedSample.allBelow_recordList P hP rest (s.record b)
      (NestedSample.allBelow_record P hP s b hb)
end

theorem List.set_eq_self_of_getElem? {α : Type} (l : List α) (i : Nat) (a : α)
    (h : l[i]? = some a) : l.set i a = l := by
  apply List.ext_getElem?
  intro j
  by_cases hij : i = j
  · subst hij
    have hlt : i < l.length := by
      by_contra hn
      rw [List.getElem?_eq_none (by omega)] at h
      cases h
    rw [List.getElem?_set_self hlt, h]
  · rw [List.getElem?_set_ne hij]

mutual
/-- A pair keeps the names of the children of every block distinct. -/
theorem NestedSample.uniqueNames_record : ∀ (s : NestedSample) (b : ProfiledBlock),
    ProfiledBlock.UniqueNames b → ProfiledBlock.UniqueNames (s.record b)
  | NestedSample.node n r0 rBegin rEnd inner, b, hb => by
    have hXname : (ProfiledBlock.closeSample rEnd (NestedSample.recordList inner
        (ProfiledBlock.openSample rBegin (b.childOrNew n)))).name = n := by
      unfold ProfiledBlock.closeSample ProfiledBlock.openSample
      rw [ProfiledBlock.name_setBasic, NestedSample.name_recordList, ProfiledBlock.name_setBasic]
      exact (b.childOrNew_spec n).1
    obtain ⟨hnd, hchildren⟩ := (ProfiledBlock.uniqueNames_iff b).mp hb
    rw [ProfiledBlock.uniqueNames_iff]
    simp only [NestedSample.record]
    refine ⟨?_, ?_⟩
    · obtain ⟨-, hcase | hcase⟩ := b.childOrNew_spec n
      · obtain ⟨i, hfind, hslot, hchild⟩ := hcase
        obtain ⟨c0, hc0, hname0, -⟩ := ProfiledBlock.findChild_some hfind
        have hilt : i < b.children.length := by
          by_contra hcon
          rw [List.getElem?_eq_none (by omega)] at hc0
          cases hc0
        rw [hslot, ProfiledBlock.children_putChild_lt b i _ hilt, List.map_set, ← hslot, hXname,
          List.set_eq_self_of_getElem?]
        · exact hnd
        · rw [hslot, List.getElem?_map, hc0, Option.map_some', hname0]
      · obtain ⟨hfind, hslot, -⟩ := hcase
        rw [hslot, ProfiledBlock.children_putChild_length, List.map_append, List.nodup_append]
        refine ⟨hnd, by simp, ?_⟩
        intro x hx1 hx2
        simp only [List.map_cons, List.map_nil, List.mem_singleton] at hx2
        obtain ⟨c, hc, hcx⟩ := List.mem_map.mp hx1
        rw [hx2, hXname] at hcx
        exact ProfiledBlock.findChild_none.mp hfind c hc hcx
    · intro c hc
      rcases ProfiledBlock.mem_putChild b _ _ c hc with h | h
      · subst h
        rw [ProfiledBlock.uniqueNames_congr (ProfiledBlock.children_closeSample _ _)]
        apply NestedSample.uniqueNames_recordList inner
        rw [ProfiledBlock.uniqueNames_congr (ProfiledBlock.children_openSample _ _)]
        rcases b.childOrNew_cases n with h | h
        · exact hchildren _ h
        · rw [h, ProfiledBlock.uniqueNames_iff]
          simp [ProfiledBlock.setName, ProfiledBlock.new, ProfiledBlock.children]
      · exact hchildren c h
/-- A sequence of pairs keeps the names of the children of every block
distinct. -/
theorem NestedSample.uniqueNames_recordList : ∀ (l : List NestedSample) (b : ProfiledBlock),
    ProfiledBlock.UniqueNames b → ProfiledBlock.UniqueNames (NestedSample.recordList l b)
  | [], _, hb => hb
  | s :: rest, b, hb =>
    NestedSample.uniqueNames_recordList rest (s.record b) (NestedSample.uniqueNames_record s b hb)
end

/-- Among children with distinct names, `findChild` finds every child under its
name. -/
theorem ProfiledBlock.findChild_of_nodup (b : ProfiledBlock)
    (hnd : (b.children.map ProfiledBlock.name).Nodup) (j : Nat) (c : ProfiledBlock)
    (hc : b.children[j]? = some c) : b.findChild c.name = some j := by
  apply ProfiledBlock.findChild_eq_some hc rfl
  intro j' c' hj' hc' hname
  have hjlt : j < b.children.length := by
    by_contra hcon
    rw [List.getElem?_eq_none (by omega)] at hc
    cases hc
  have := List.nodup_iff_getElem?_ne_getElem?.mp hnd j' j hj' (by simpa using hjlt)
  apply this
  rw [List.getElem?_map, List.getElem?_map, hc, hc', Option.map_some', Option.map_some', hname]

mutual
/-- In a tree with distinct child names, a property of the blocks at all tree
positions is a property of all blocks. -/
theorem ProfiledBlock.allBelow_of_findPath (P : ProfiledBlock → Prop) :
    ∀ (b : ProfiledBlock), ProfiledBlock.UniqueNames b →
      (∀ (name : ProfilerString) (path : List ProfilerString) (x : ProfiledBlock),
        b.findPath (name :: path) = some x → P x) →
      ProfiledBlock.AllBelow P b
  | ProfiledBlock.mk n bd pd cs, hu, h => by
    obtain ⟨hnd, hchildren⟩ := (ProfiledBlock.uniqueNames_iff _).mp hu
    apply ProfiledBlock.allBelowList_of_findPath P cs
    intro c hc
    obtain ⟨j, hj⟩ := List.mem_iff_getElem?.mp hc
    have hfind := ProfiledBlock.findChild_of_nodup (ProfiledBlock.mk n bd pd cs) hnd j c hj
    have hj' : (ProfiledBlock.mk n bd pd cs).children[j]? = some c := hj
    refine ⟨hchildren c hc, ?_, ?_⟩
    · apply h c.name [] c
      simp only [ProfiledBlock.findPath, hfind, hj']
    · intro name path x hx
      apply h c.name (name :: path) x
      simp only [ProfiledBlock.findPath, hfind, hj']
      exact hx
/-- The same for the blocks of a list and the blocks below them. -/
theorem ProfiledBlock.allBelowList_of_findPath (P : ProfiledBlock → Prop) :
    ∀ (cs : List ProfiledBlock),
      (∀ c ∈ cs, ProfiledBlock.UniqueNames c ∧ P c ∧
        ∀ (name : ProfilerString) (path : List ProfilerString) (x : ProfiledBlock),
          c.findPath (name :: path) = some x → P x) →
      ProfiledBlock.AllBelowList P cs
  | [], _ => trivial
  | c :: cs, h =>
    ⟨(h c (by simp)).2.1,
      ProfiledBlock.allBelow_of_findPath P c (h c (by simp)).1 (h c (by simp)).2.2,
      ProfiledBlock.allBelowList_of_findPath P cs
        (fun c' hc' => h c' (List.mem_cons_of_mem _ hc'))⟩
end

/-- The run of `beginThread`, a properly nested sequence of pairs, and
`endThread` on a thread without state ends without a fault, with the thread
inactive and the tree that `recordedTree` describes. -/
theorem run_thread (debug : Bool) (name : ProfilerString) (r : Reading)
    (forest : List NestedSample) (rs : Nat → Reading) :
    ProfilerCPU.run debug none
        (Call.beginThread name r :: (NestedSample.callsList forest ++ [Call.endThread rs]))
      = Except.ok (some ⟨false, some (recordedTree name r forest rs), ActiveBlock.null, []⟩) := by
  obtain ⟨root', hmod, hrun⟩ := run_callsList debug forest (freshRoot name r) (freshRoot name r) []
    ⟨ActiveSamplingType.Basic, some []⟩ [] rfl rfl
  simp only [ProfiledBlock.modifyAt, Option.some.injEq] at hmod
  subst hmod
  have hbegin : ProfilerCPU.beginThread none name r
      = some ⟨true, some (freshRoot name r), ⟨ActiveSamplingType.Basic, some []⟩,
          [⟨ActiveSamplingType.Basic, some []⟩]⟩ := rfl
  simp only [ProfilerCPU.run, ProfilerCPU.call, hbegin, ProfilerCPU.run_append, hrun,
    ProfilerCPU.endThread, ThreadInfo.endSampling, ThreadInfo.closeBlock,
    ThreadInfo.modifyBlock, ProfiledBlock.modifyAt, ThreadInfo.closeRemaining]
  rfl

theorem ProfiledBlock.findPath_allBelow (P : ProfiledBlock → Prop)
    (path : List ProfilerString) : ∀ (b x : ProfiledBlock) (name : ProfilerString),
    ProfiledBlock.AllBelow P b → b.findPath (name :: path) = some x → P x := by
  induction path with
  | nil =>
    intro b x name hb h
    simp only [ProfiledBlock.findPath] at h
    split at h
    · split at h
      · rename_i c hc
        cases h
        exact ((ProfiledBlock.allBelow_iff_children P b).mp hb x (List.getElem?_mem hc)).1
      · cases h
    · cases h
  | cons n p ih =>
    intro b x name hb h
    rw [ProfiledBlock.findPath] at h
    split at h
    · split at h
      · rename_i c hc
        exact ih c x n ((ProfiledBlock.allBelow_iff_children P b).mp hb c (List.getElem?_mem hc)).2 h
      · cases h
    · cases h

/-- The block at a tree position has the last name of the position. -/
theorem ProfiledBlock.name_of_findPath (path : List ProfilerString) :
    ∀ (b x : ProfiledBlock) (name : ProfilerString), b.findPath (name :: path) = some x →
      x.name = (name :: path).getLast (List.cons_ne_nil _ _) := by
  induction path with
  | nil =>
    intro b x name h
    simp only [ProfiledBlock.findPath] at h
    split at h
    · rename_i i hi
      split at h
      · rename_i c hc
        cases h
        obtain ⟨c', hc', hname, -⟩ := ProfiledBlock.findChild_some hi
        rw [hc] at hc'
        cases hc'
        simpa using hname
      · cases h
    · cases h
  | cons n p ih =>
    intro b x name h
    rw [ProfiledBlock.findPath] at h
    split at h
    · split at h
      · rename_i c hc
        rw [List.getLast_cons (List.cons_ne_nil _ _)]
        exact ih c x n h
      · cases h
    · cases h

/-- In a report from which nothing was pruned, there is no entry at a tree
position without a block. -/
theorem entryAt_none_of_findPath (self : ProfilerCPU) (rootBlock : ProfiledBlock)
    (flat : List TempEntry) (final : List (Option (List Nat))) (report : ReportEntry BasicData)
    (hok : FlatOK rootBlock flat)
    (hinv : RebuildInv flat (aggregateBasic self flat) [] flat.length final report)
    (hnul : ProfiledBlock.AllBelow (fun b => c_str b.name = b.name) rootBlock)
    (p : List ProfilerString) :
    ∀ (k : Nat) (b : ProfiledBlock) (pk : List Nat) (x : ReportEntry BasicData),
      blockAt flat k = some b → final[k]? = some (some pk) → report.getAt pk = some x →
      b.findPath p = none → x.entryAt BasicData.name p = none := by
  induction p with
  | nil =>
    intro k b pk x _ _ _ hfind
    simp [ProfiledBlock.findPath] at hfind
  | cons name rest ih =>
    intro k b pk x hb hpk hx hfind
    obtain ⟨-, -, hlen, hchild⟩ :=
      rebuilt_child self rootBlock flat final report hok hinv k b pk x hb hpk hx
    have hnames : b.children.map ProfiledBlock.name
        = x.childEntries.map (fun y => BasicData.name y.data) := by
      apply List.ext_getElem?
      intro j
      simp only [List.getElem?_map]
      by_cases hj : j < b.children.length
      · obtain ⟨ci, xj, hci, hfin, hget, hxj⟩ := hchild j b.children[j]
          (List.getElem?_eq_getElem hj)
        obtain ⟨h1, -⟩ := rebuilt_child self rootBlock flat final report hok hinv ci
          b.children[j] (pk ++ [j]) xj hci hfin hget
        have hn : c_str (b.children[j]).name = (b.children[j]).name :=
          ((ProfiledBlock.allBelow_iff_children _ b).mp (hok.allBelow _ hnul k b hb).2 _
            (List.getElem_mem _)).1
        rw [List.getElem?_eq_getElem hj, hxj]
        simp only [Option.map_some', h1, hn]
      · rw [List.getElem?_eq_none (by omega), List.getElem?_eq_none (by omega)]
        rfl
    simp only [ProfiledBlock.findPath] at hfind
    cases hi : b.findChild name with
    | none =>
      unfold ProfiledBlock.findChild at hi
      have := find_none_of_findChildFrom BasicData.name name b.children x.childEntries 0
        hnames hi
      simp only [ReportEntry.entryAt, this]
    | some i =>
      rw [hi] at hfind
      obtain ⟨c, hc, -⟩ := ProfiledBlock.findChild_some hi
      simp only [hc] at hfind
      unfold ProfiledBlock.findChild at hi
      obtain ⟨-, xi, hxi, hfindx⟩ := find_of_findChildFrom BasicData.name name b.children
        x.childEntries 0 i hnames hi
      obtain ⟨ci, xj, hci, hfin, hget, hxj⟩ := hchild i c hc
      rw [Nat.sub_zero, hxj] at hxi
      rw [← Option.some.inj hxi] at hfindx
      simp only [ReportEntry.entryAt, hfindx]
      exact ih ci c (pk ++ [i]) xj hci hfin hget hfind

theorem freshRoot_children (name : ProfilerString) (r : Reading) :
    (freshRoot name r).children = [] := rfl

theorem recordedTree_children (name : ProfilerString) (r : Reading)
    (forest : List NestedSample) (rs : Nat → Reading) :
    (recordedTree name r forest rs).children
      = (NestedSample.recordList forest (freshRoot name r)).children :=
  ProfiledBlock.children_closeSample _ _

/-- The number of Basic samples at a tree position of the recorded tree is the
number of pairs executed at that position. -/
theorem recordedTree_samplesAt (rootName : ProfilerString) (r : Reading)
    (forest : List NestedSample) (rs : Nat → Reading) (name : ProfilerString)
    (path : List ProfilerString) :
    (recordedTree rootName r forest rs).samplesAt (name :: path)
      = NestedSample.pairsAtList forest name path := by
  have h1 : (recordedTree rootName r forest rs).samplesAt (name :: path)
      = (NestedSample.recordList forest (freshRoot rootName r)).samplesAt (name :: path) := by
    unfold ProfiledBlock.samplesAt
    rw [ProfiledBlock.findPath_congr (recordedTree_children rootName r forest rs)]
  rw [h1, NestedSample.samplesAt_recordList]
  have h0 : (freshRoot rootName r).samplesAt (name :: path) = 0 := rfl
  rw [h0, Nat.zero_add]

/-- Every block below the root of the recorded tree has a Basic sample. -/
theorem recordedTree_sampled (rootName : ProfilerString) (r : Reading)
    (forest : List NestedSample) (rs : Nat → Reading) :
    ProfiledBlock.AllBelow (fun x => 0 < x.basic.samples.length)
      (recordedTree rootName r forest rs) := by
  rw [ProfiledBlock.allBelow_congr _ (recordedTree_children rootName r forest rs)]
  apply NestedSample.allBelow_recordList
  · intro c rBegin rEnd inner _
    simp [ProfiledBlock.closeSample, ProfiledBlock.basic_setBasic, ProfileData.endSample]
  · rw [ProfiledBlock.allBelow_iff_children]
    intro c hc
    rw [freshRoot_children] at hc
    cases hc

/-- No block of the recorded tree has a Precise sample. -/
theorem recordedTree_no_precise (rootName : ProfilerString) (r : Reading)
    (forest : List NestedSample) (rs : Nat → Reading) :
    ProfiledBlock.AllBelow (fun x => x.precise.samples.length % 2 ^ 32 = 0)
        (recordedTree rootName r forest rs) ∧
      (recordedTree rootName r forest rs).precise.samples.length % 2 ^ 32 = 0 := by
  refine ⟨?_, ?_⟩
  · rw [ProfiledBlock.allBelow_congr _ (recordedTree_children rootName r forest rs)]
    apply NestedSample.allBelow_recordList
    · intro c rBegin rEnd inner hc
      simp only [ProfiledBlock.closeSample, ProfiledBlock.precise_setBasic,
        NestedSample.precise_recordList, ProfiledBlock.openSample]
      rcases hc with hc | hc
      · exact hc
      · rw [hc]
        rfl
    · rw [ProfiledBlock.allBelow_iff_children]
      intro c hc
      rw [freshRoot_children] at hc
      cases hc
  · simp only [recordedTree, ProfiledBlock.closeSample, ProfiledBlock.precise_setBasic,
      NestedSample.precise_recordList]
    rfl

theorem recordedTree_uniqueNames (rootName : ProfilerString) (r : Reading)
    (forest : List NestedSample) (rs : Nat → Reading) :
    ProfiledBlock.UniqueNames (recordedTree rootName r forest rs) := by
  rw [ProfiledBlock.uniqueNames_congr (recordedTree_children rootName r forest rs)]
  apply NestedSample.uniqueNames_recordList
  rw [ProfiledBlock.uniqueNames_iff, freshRoot_children]
  simp

mutual
/-- The last name of a tree position at which a pair was executed is a name of
the pair. -/
theorem NestedSample.getLast_mem_names : ∀ (s : NestedSample) (name : ProfilerString)
    (path : List ProfilerString), 0 < s.pairsAt name path →
    (name :: path).getLast (List.cons_ne_nil _ _) ∈ s.names
  | NestedSample.node n r0 rb re inner, name, path, h => by
    simp only [NestedSample.pairsAt] at h
    simp only [NestedSample.names]
    split at h
    · rename_i hn
      cases path with
      | nil =>
        simp only [List.getLast_singleton]
        rw [hn]
        exact List.mem_cons_self _ _
      | cons name' path' =>
        simp only at h
        rw [List.getLast_cons (List.cons_ne_nil _ _)]
        exact List.mem_cons_of_mem _ (NestedSample.getLast_mem_namesList inner name' path' h)
    · exact absurd h (Nat.lt_irrefl 0)
/-- The last name of a tree position at which a pair of a sequence was executed
is a name of the sequence. -/
theorem NestedSample.getLast_mem_namesList : ∀ (l : List NestedSample) (name : ProfilerString)
    (path : List ProfilerString), 0 < NestedSample.pairsAtList l name path →
    (name :: path).getLast (List.cons_ne_nil _ _) ∈ NestedSample.namesList l
  | [], _, _, h => by
    simp only [NestedSample.pairsAtList] at h
    exact absurd h (Nat.lt_irrefl 0)
  | s :: rest, name, path, h => by
    simp only [NestedSample.pairsAtList] at h
    simp only [NestedSample.namesList, List.mem_append]
    by_cases hs : 0 < s.pairsAt name path
    · exact Or.inl (NestedSample.getLast_mem_names s name path hs)
    · exact Or.inr (NestedSample.getLast_mem_namesList rest name path (by omega))
end

/-- C1 as amended: on a thread without state, `beginThread`, any properly nested
sequence of `beginSample`/`endSample` pairs whose names hold no NUL character,
with fewer than 2^32 pairs at every tree position, and `endThread` run without a
fault, for any readings; `generateReport` then returns a report whose Basic tree
has, at every tree position (path of region names below the root) at which pairs
were executed, an entry with the last name of the position whose `numCalls` is
the number of pairs executed at that position, and no entry at any other
position. -/
theorem numCalls_eq_pairs_below_wrap (self : ProfilerCPU) (debug : Bool)
    (rootName : ProfilerString) (r : Reading) (forest : List NestedSample)
    (rs rs' : Nat → Reading)
    (hnames : ∀ n ∈ NestedSample.namesList forest, Char.ofNat 0 ∉ n.data)
    (hbound : ∀ (name : ProfilerString) (path : List ProfilerString),
      NestedSample.pairsAtList forest name path < 2 ^ 32) :
    ∃ (thread : Option ThreadInfo) (report : CPUProfilerReport) (thread' : Option ThreadInfo),
      ProfilerCPU.run debug none
          (Call.beginThread rootName r :: (NestedSample.callsList forest ++ [Call.endThread rs]))
        = Except.ok thread ∧
      self.generateReport thread rs' = Except.ok (report, thread') ∧
      ∀ (name : ProfilerString) (path : List ProfilerString),
        (0 < NestedSample.pairsAtList forest name path →
          ∃ e, report.mBasicSamplingRootEntry.entryAt BasicData.name (name :: path) = some e ∧
            e.data.name = (name :: path).getLast (List.cons_ne_nil _ _) ∧
            e.data.numCalls = NestedSample.pairsAtList forest name path) ∧
        (NestedSample.pairsAtList forest name path = 0 →
          report.mBasicSamplingRootEntry.entryAt BasicData.name (name :: path) = none) := by
  have hsampled := recordedTree_sampled rootName r forest rs
  have hcount := recordedTree_samplesAt rootName r forest rs
  have hat : ∀ (name : ProfilerString) (path : List ProfilerString) (x : ProfiledBlock),
      (recordedTree rootName r forest rs).findPath (name :: path) = some x →
      x.basic.samples.length = NestedSample.pairsAtList forest name path ∧
        0 < x.basic.samples.length := by
    intro name path x hx
    refine ⟨?_, ProfiledBlock.findPath_allBelow _ path _ x name hsampled hx⟩
    rw [← hcount name path]
    unfold ProfiledBlock.samplesAt
    rw [hx]
  have hbasic : ProfiledBlock.AllBelow (fun b => 0 < b.basic.samples.length % 2 ^ 32)
      (recordedTree rootName r forest rs) := by
    apply ProfiledBlock.allBelow_of_findPath _ _ (recordedTree_uniqueNames rootName r forest rs)
    intro name path x hx
    obtain ⟨h1, h2⟩ := hat name path x hx
    have := hbound name path
    show 0 < x.basic.samples.length % 2 ^ 32
    rw [Nat.mod_eq_of_lt (by omega)]
    exact h2
  have hnul : ProfiledBlock.AllBelow (fun b => c_str b.name = b.name)
      (recordedTree rootName r forest rs) := by
    apply ProfiledBlock.allBelow_of_findPath _ _ (recordedTree_uniqueNames rootName r forest rs)
    intro name path x hx
    obtain ⟨h1, h2⟩ := hat name path x hx
    show c_str x.name = x.name
    rw [ProfiledBlock.name_of_findPath path _ x name hx]
    exact c_str_of_not_mem _
      (hnames _ (NestedSample.getLast_mem_namesList forest name path (by omega)))
  obtain ⟨hprecise, hroot⟩ := recordedTree_no_precise rootName r forest rs
  obtain ⟨report, flat, final, hreport, hok, hinv⟩ :=
    reportOf_basic_only self (recordedTree rootName r forest rs) hbasic hprecise hroot
  refine ⟨some ⟨false, some (recordedTree rootName r forest rs), ActiveBlock.null, []⟩, report,
    some ⟨false, some (recordedTree rootName r forest rs), ActiveBlock.null, []⟩,
    run_thread debug rootName r forest rs, ?_, ?_⟩
  · simp only [ProfilerCPU.generateReport, Bool.false_eq_true, if_false, hreport]
  · intro name path
    refine ⟨?_, ?_⟩
    · intro hpos
      cases hx : (recordedTree rootName r forest rs).findPath (name :: path) with
      | none =>
        have := hcount name path
        unfold ProfiledBlock.samplesAt at this
        rw [hx] at this
        simp only at this
        omega
      | some x =>
        obtain ⟨h1, -⟩ := hat name path x hx
        obtain ⟨e, he, hname, hnum⟩ := entryAt_of_findPath self _ flat final
          report.mBasicSamplingRootEntry hok hinv hnul (name :: path) 0 _ x []
          report.mBasicSamplingRootEntry hok.root hinv.first rfl hx
        refine ⟨e, he, ?_, ?_⟩
        · rw [hname, ProfiledBlock.findPath_allBelow _ path _ x name hnul hx]
          exact ProfiledBlock.name_of_findPath path _ x name hx
        · rw [hnum, h1, Nat.mod_eq_of_lt (hbound name path)]
    · intro hzero
      apply entryAt_none_of_findPath self _ flat final report.mBasicSamplingRootEntry hok hinv
        hnul (name :: path) 0 _ [] report.mBasicSamplingRootEntry hok.root hinv.first rfl
      cases hx : (recordedTree rootName r forest rs).findPath (name :: path) with
      | none => rfl
      | some x =>
        obtain ⟨h1, h2⟩ := hat name path x hx
        omega

theorem NestedSample.pairsAtList_replicate (a : ProfilerString) (r0 rBegin rEnd : Reading)
    (n : Nat) :
    NestedSample.pairsAtList (List.replicate n (NestedSample.node a r0 rBegin rEnd [])) a [] = n := by
  induction n with
  | zero => rfl
  | succ n ih =>
    rw [List.replicate_succ, NestedSample.pairsAtList, ih]
    simp only [NestedSample.pairsAt, if_true]
    omega

/-- A pair without nested pairs, on a block with at most one leaf of its
name: the block has one such leaf afterwards, with one more sample. -/
theorem NestedSample.record_leaf (a : ProfilerString) (r0 rBegin rEnd : Reading)
    (b : ProfiledBlock) (hb : b.AtMostLeaf a) :
    ∃ c, ((NestedSample.node a r0 rBegin rEnd []).record b).children = [c] ∧ c.name = a ∧
      c.children = [] ∧ c.precise.samples = [] ∧
      c.basic.samples.length = b.childCalls + 1 := by
  cases b with
  | mk n bd pd cs =>
    rcases hb with hb | ⟨c, hb, hname, hc, hp⟩
    · simp only [ProfiledBlock.children] at hb
      subst hb
      refine ⟨_, rfl, rfl, rfl, rfl, rfl⟩
    · cases c with
      | mk cn cbd cpd ccs =>
        simp only [ProfiledBlock.children, ProfiledBlock.name, ProfiledBlock.precise] at hb hname hc hp
        subst hb hname hc
        refine ⟨ProfiledBlock.closeSample rEnd (ProfiledBlock.openSample rBegin
          (ProfiledBlock.mk cn cbd cpd [])), ?_, rfl, rfl, hp, ?_⟩
        · simp [NestedSample.record, NestedSample.recordList, ProfiledBlock.putChild,
            ProfiledBlock.slot, ProfiledBlock.childOrNew, ProfiledBlock.findChild,
            ProfiledBlock.findChildFrom, ProfiledBlock.children, ProfiledBlock.name,
            ProfiledBlock.setChildren]
        · simp [ProfiledBlock.closeSample, ProfiledBlock.openSample, ProfiledBlock.setBasic,
            ProfiledBlock.basic, ProfileData.endSample, ProfileData.beginSample,
            ProfiledBlock.childCalls, ProfiledBlock.children]

/-- A sequence of `n > 0` pairs with one name, none nested in another, on a
block with at most one leaf of that name: the block has one such leaf
afterwards, with `n` more samples. -/
theorem NestedSample.recordList_replicate (a : ProfilerString) (r0 rBegin rEnd : Reading)
    (n : Nat) : ∀ (b : ProfiledBlock), b.AtMostLeaf a → 0 < n →
    ∃ c, (NestedSample.recordList (List.replicate n (NestedSample.node a r0 rBegin rEnd []))
        b).children = [c] ∧ c.name = a ∧ c.children = [] ∧ c.precise.samples = [] ∧
      c.basic.samples.length = b.childCalls + n := by
  induction n with
  | zero => intro b _ h; exact absurd h (Nat.lt_irrefl 0)
  | succ n ih =>
    intro b hb _
    obtain ⟨c, hc, hname, hleaf, hp, hlen⟩ := NestedSample.record_leaf a r0 rBegin rEnd b hb
    rw [List.replicate_succ, NestedSample.recordList]
    cases n with
    | zero => exact ⟨c, hc, hname, hleaf, hp, hlen⟩
    | succ n =>
      obtain ⟨c', hc', hname', hleaf', hp', hlen'⟩ := ih _ (Or.inr ⟨c, hc, hname, hleaf, hp⟩)
        (Nat.succ_pos n)
      refine ⟨c', hc', hname', hleaf', hp', ?_⟩
      rw [hlen']
      have : ((NestedSample.node a r0 rBegin rEnd []).record b).childCalls
          = b.childCalls + 1 := by
        unfold ProfiledBlock.childCalls
        rw [hc]
        simp [hlen, ProfiledBlock.childCalls]
      rw [this]
      omega

/-- The report for a tree with one block below the root, when the Basic and the
Precise number of calls of that block are zero: the block is pruned from the
Basic tree. -/
theorem reportOf_single_pruned (self : ProfilerCPU) (rootBlock c : ProfiledBlock)
    (hroot : rootBlock.children = [c]) (hc : c.children = [])
    (hbasic : c.basic.samples.length % 2 ^ 32 = 0)
    (hprecise : c.precise.samples.length % 2 ^ 32 = 0) :
    ∃ report, self.reportOf rootBlock = Except.ok report ∧
      report.mBasicSamplingRootEntry.childEntries = [] := by
  cases rootBlock with
  | mk n bd pd cs =>
    cases c with
    | mk cn cbd cpd ccs =>
      simp only [ProfiledBlock.children] at hroot hc
      simp only [ProfiledBlock.basic, ProfiledBlock.precise] at hbasic hprecise
      subst hroot hc
      have hb' : cbd.samples.length % 4294967296 = 0 := hbasic
      have hp' : cpd.samples.length % 4294967296 = 0 := hprecise
      simp [ProfilerCPU.reportOf, flatten,
        flattenLoop, flattenChild, ProfiledBlock.numBlocks, ProfiledBlock.numBlocksList, modifyNth,
        TempEntry.pushChild, aggregateBasic, aggregateBasicStep, basicOwnStats, basicChildStep,
        basicFinish, aggregatePrecise, aggregatePreciseStep, preciseOwnStats, preciseChildStep,
        preciseFinish, prune, pruneLoop, pruneChild, rebuild, rebuildLoop, rebuildChildren,
        resizeChildEntries, invalidate, ReportEntry.getAt, ReportEntry.modifyAt,
        ReportEntry.setChildEntries, ReportEntry.childEntries, ReportEntry.data,
        ProfiledBlock.children, ProfiledBlock.name, ProfiledBlock.basic, ProfiledBlock.precise,
        hb', hp']

mutual
theorem NestedSample.pairsAt_le_size : ∀ (s : NestedSample) (name : ProfilerString)
    (path : List ProfilerString), s.pairsAt name path ≤ s.size
  | NestedSample.node n r0 rb re inner, name, path => by
    simp only [NestedSample.pairsAt, NestedSample.size]
    split
    · split
      · omega
      · rename_i n' p'
        have := NestedSample.pairsAtList_le_sizeList inner n' p'
        omega
    · omega
theorem NestedSample.pairsAtList_le_sizeList : ∀ (l : List NestedSample) (name : ProfilerString)
    (path : List ProfilerString), NestedSample.pairsAtList l name path ≤ NestedSample.sizeList l
  | [], _, _ => Nat.le_refl _
  | s :: rest, name, path => by
    simp only [NestedSample.pairsAtList, NestedSample.sizeList]
    have h1 := NestedSample.pairsAt_le_size s name path
    have h2 := NestedSample.pairsAtList_le_sizeList rest name path
    omega
end

/-- A sequence of `n > 0` pairs "A" issued one after the other below the root,
with `n` a multiple of 2^32: the calls run without a fault, `n` pairs were
executed at the position "A", and the Basic tree of the report has no entry at
that position. -/
theorem numCalls_wraps (n : Nat) (hpos : 0 < n) (hmod : n % 2 ^ 32 = 0) :
    NestedSample.pairsAtList
        (List.replicate n (NestedSample.node "A" ⟨0, 0, 0, 0⟩ ⟨0, 0, 0, 0⟩ ⟨0, 0, 0, 0⟩ []))
        "A" [] = n ∧
    ∃ (thread : Option ThreadInfo) (report : CPUProfilerReport) (thread' : Option ThreadInfo),
      ProfilerCPU.run true none
          (Call.beginThread "Main" ⟨0, 0, 0, 0⟩
            :: (NestedSample.callsList
                (List.replicate n
                  (NestedSample.node "A" ⟨0, 0, 0, 0⟩ ⟨0, 0, 0, 0⟩ ⟨0, 0, 0, 0⟩ []))
              ++ [Call.endThread (fun _ => ⟨0, 0, 0, 0⟩)]))
        = Except.ok thread ∧
      ProfilerCPU.generateReport ⟨0, 0, 0, 0, 0, 0⟩ thread (fun _ => ⟨0, 0, 0, 0⟩)
        = Except.ok (report, thread') ∧
      report.mBasicSamplingRootEntry.entryAt BasicData.name ["A"] = none := by
  refine ⟨NestedSample.pairsAtList_replicate "A" _ _ _ n, ?_⟩
  generalize hforest :
    List.replicate n (NestedSample.node "A" ⟨0, 0, 0, 0⟩ ⟨0, 0, 0, 0⟩ ⟨0, 0, 0, 0⟩ []) = forest
  obtain ⟨c, hc, -, hleaf, hp, hlen⟩ := NestedSample.recordList_replicate "A" ⟨0, 0, 0, 0⟩
    ⟨0, 0, 0, 0⟩ ⟨0, 0, 0, 0⟩ n (freshRoot "Main" ⟨0, 0, 0, 0⟩) (Or.inl rfl) hpos
  rw [hforest] at hc
  have hchildren := recordedTree_children "Main" ⟨0, 0, 0, 0⟩ forest (fun _ => ⟨0, 0, 0, 0⟩)
  obtain ⟨report, hreport, hnone⟩ := reportOf_single_pruned ⟨0, 0, 0, 0, 0, 0⟩
    (recordedTree "Main" ⟨0, 0, 0, 0⟩ forest (fun _ => ⟨0, 0, 0, 0⟩)) c
    (hchildren.trans hc) hleaf
    (by
      rw [hlen]
      have : (freshRoot "Main" ⟨0, 0, 0, 0⟩).childCalls = 0 := rfl
      rw [this, Nat.zero_add, hmod])
    (by rw [hp]; rfl)
  refine ⟨some ⟨false, some (recordedTree "Main" ⟨0, 0, 0, 0⟩ forest
      (fun _ => ⟨0, 0, 0, 0⟩)), ActiveBlock.null, []⟩, report,
    some ⟨false, some (recordedTree "Main" ⟨0, 0, 0, 0⟩ forest
      (fun _ => ⟨0, 0, 0, 0⟩)), ActiveBlock.null, []⟩,
    run_thread true "Main" ⟨0, 0, 0, 0⟩ forest (fun _ => ⟨0, 0, 0, 0⟩), ?_, ?_⟩
  · simp only [ProfilerCPU.generateReport, Bool.false_eq_true, if_false, hreport]
  · simp only [ReportEntry.entryAt, hnone, List.find?_nil]

/-- C1, counterexample: 2^32 pairs "A" issued one after the other below
the root: the calls run without a fault and 2^32 pairs were executed at the
position "A", but the `UINT32` field `numCalls` of the block wraps to zero, the
block is pruned, and the Basic tree of the report has no entry at that
position. -/
theorem numCalls_wraps_counterexample :
    NestedSample.pairsAtList
        (List.replicate (2 ^ 32)
          (NestedSample.node "A" ⟨0, 0, 0, 0⟩ ⟨0, 0, 0, 0⟩ ⟨0, 0, 0, 0⟩ []))
        "A" [] = 2 ^ 32 ∧
    ∃ (thread : Option ThreadInfo) (report : CPUProfilerReport) (thread' : Option ThreadInfo),
      ProfilerCPU.run true none
          (Call.beginThread "Main" ⟨0, 0, 0, 0⟩
            :: (NestedSample.callsList
                (List.replicate (2 ^ 32)
                  (NestedSample.node "A" ⟨0, 0, 0, 0⟩ ⟨0, 0, 0, 0⟩ ⟨0, 0, 0, 0⟩ []))
              ++ [Call.endThread (fun _ => ⟨0, 0, 0, 0⟩)]))
        = Except.ok thread ∧
      ProfilerCPU.generateReport ⟨0, 0, 0, 0, 0, 0⟩ thread (fun _ => ⟨0, 0, 0, 0⟩)
        = Except.ok (report, thread') ∧
      report.mBasicSamplingRootEntry.entryAt BasicData.name ["A"] = none :=
  numCalls_wraps (2 ^ 32) (Nat.pos_pow_of_pos 32 (Nat.succ_pos 1)) (Nat.mod_self (2 ^ 32))

/-- C1 as amended, instance: the sequence in which "A" is sampled twice below
the root, the first time with "B" sampled inside it. -/
theorem numCalls_eq_pairs_below_wrap_witness :
    ∃ (thread : Option ThreadInfo) (report : CPUProfilerReport) (thread' : Option ThreadInfo),
      ProfilerCPU.run true none
          (Call.beginThread "Main" ⟨0, 0, 0, 0⟩
            :: (NestedSample.callsList nestedExample ++ [Call.endThread (fun _ => ⟨7, 70, 3, 1⟩)]))
        = Except.ok thread ∧
      ProfilerCPU.generateReport ⟨0, 0, 0, 0, 0, 0⟩ thread (fun _ => ⟨8, 80, 3, 1⟩)
        = Except.ok (report, thread') ∧
      ∀ (name : ProfilerString) (path : List ProfilerString),
        (0 < NestedSample.pairsAtList nestedExample name path →
          ∃ e, report.mBasicSamplingRootEntry.entryAt BasicData.name (name :: path) = some e ∧
            e.data.name = (name :: path).getLast (List.cons_ne_nil _ _) ∧
            e.data.numCalls = NestedSample.pairsAtList nestedExample name path) ∧
        (NestedSample.pairsAtList nestedExample name path = 0 →
          report.mBasicSamplingRootEntry.entryAt BasicData.name (name :: path) = none) :=
  numCalls_eq_pairs_below_wrap ⟨0, 0, 0, 0, 0, 0⟩ true "Main" ⟨0, 0, 0, 0⟩ nestedExample
    (fun _ => ⟨7, 70, 3, 1⟩) (fun _ => ⟨8, 80, 3, 1⟩) (by decide) (by
      intro name path
      exact Nat.lt_of_le_of_lt (NestedSample.pairsAtList_le_sizeList _ name path) (by decide))

theorem sub64_lt (a b : Nat) : sub64 a b < 2 ^ 64 := Nat.mod_lt _ (by norm_num)

theorem add64_zero_sub64 (a b : Nat) : add64 0 (sub64 a b) = sub64 a b := by
  unfold add64
  rw [Nat.zero_add, Nat.mod_eq_of_lt (sub64_lt a b)]

theorem add64_cast (a b : Nat) : ((add64 a b : Nat) : Int) = ((a : Int) + b) % 2 ^ 64 := by
  unfold add64
  push_cast
  rfl

/-- C20: on every Precise accumulator, `beginSample()` followed by
`endSample()` appends one sample after the samples that are there; its
`cycles`, `numAllocs` and `numFrees` are the differences of the counters read
by the two calls, modulo 2^64, whatever the timer had accumulated before. -/
theorem precise_begin_end_appends_sample (d : PreciseProfileData) (r r' : Reading) :
    ∃ s : PreciseProfileSample,
      ((d.beginSample r).endSample r').samples = d.samples ++ [s] ∧
      (s.cycles : Int) = ((r'.cycles : Int) - r.cycles) % 2 ^ 64 ∧
      (s.numAllocs : Int) = ((r'.numAllocs : Int) - r.numAllocs) % 2 ^ 64 ∧
      (s.numFrees : Int) = ((r'.numFrees : Int) - r.numFrees) % 2 ^ 64 := by
  refine ⟨⟨sub64 r'.cycles r.cycles, sub64 r'.numAllocs r.numAllocs,
    sub64 r'.numFrees r.numFrees⟩, ?_, sub64_cast _ _, sub64_cast _ _, sub64_cast _ _⟩
  simp only [PreciseProfileData.beginSample, PreciseProfileData.endSample, TimerPrecise.reset,
    TimerPrecise.start, TimerPrecise.stop, sub64_mod_right, add64_zero_sub64]

/-- C19: on a Basic and on a Precise accumulator with at least one sample,
`resumeLastSample()` removes the last sample and keeps the others in order, and
keeps what the timer has accumulated; the sample that a following `endSample()`
appends has as time (cycles, modulo 2^64) the accumulated value plus what
elapsed between the two calls. -/
theorem resumeLastSample_keeps_accumulated (d : ProfileData) (p : PreciseProfileData)
    (r r' : Reading) (hd : d.samples ≠ []) (hp : p.samples ≠ []) :
    (∃ d', d.resumeLastSample r = Except.ok d' ∧
      d'.samples = d.samples.take (d.samples.length - 1) ∧
      d'.timer.time = d.timer.time ∧
      ∃ s : ProfileSample, (d'.endSample r').samples
          = d.samples.take (d.samples.length - 1) ++ [s] ∧
        s.time = d.timer.time + (r'.timeMs - r.timeMs)) ∧
    (∃ p', p.resumeLastSample r = Except.ok p' ∧
      p'.samples = p.samples.take (p.samples.length - 1) ∧
      p'.timer.cycles = p.timer.cycles ∧
      ∃ s : PreciseProfileSample, (p'.endSample r').samples
          = p.samples.take (p.samples.length - 1) ++ [s] ∧
        (s.cycles : Int)
          = ((p.timer.cycles : Int) + (((r'.cycles : Int) - r.cycles) % 2 ^ 64)) % 2 ^ 64) := by
  refine ⟨?_, ?_⟩
  · cases hs : d.samples with
    | nil => exact absurd hs hd
    | cons x xs =>
      refine ⟨{ d with timer := d.timer.start r.timeMs, samples := d.samples.dropLast }, ?_, ?_,
        rfl, ⟨d.timer.time + (r'.timeMs - r.timeMs), sub64 r'.numAllocs d.memAllocs,
          sub64 r'.numFrees d.memFrees⟩, ?_, rfl⟩
      · simp only [ProfileData.resumeLastSample, hs]
      · simp only [hs, List.dropLast_eq_take]
      · simp only [ProfileData.endSample, Timer.stop, Timer.start, hs, List.dropLast_eq_take]
  · cases hs : p.samples with
    | nil => exact absurd hs hp
    | cons x xs =>
      refine ⟨{ p with timer := p.timer.start r.cycles, samples := p.samples.dropLast }, ?_, ?_,
        rfl, ⟨add64 p.timer.cycles (sub64 r'.cycles r.cycles), sub64 r'.numAllocs p.memAllocs,
          sub64 r'.numFrees p.memFrees⟩, ?_, ?_⟩
      · simp only [PreciseProfileData.resumeLastSample, hs]
      · simp only [hs, List.dropLast_eq_take]
      · simp only [PreciseProfileData.endSample, TimerPrecise.stop, TimerPrecise.start, hs,
          List.dropLast_eq_take, sub64_mod_right]
      · show ((add64 p.timer.cycles (sub64 r'.cycles r.cycles) : Nat) : Int) = _
        rw [add64_cast, sub64_cast]

/-- C19, instance: an accumulator with the single sample of 5 ms (5 cycles),
resumed at 10 and ended at 12. -/
theorem resumeLastSample_keeps_accumulated_witness :
    (∃ d', (⟨[⟨5, 0, 0⟩], ⟨5, 0⟩, 0, 0⟩ : ProfileData).resumeLastSample ⟨10, 10, 0, 0⟩
        = Except.ok d' ∧
      d'.samples = [] ∧ (d'.endSample ⟨12, 12, 0, 0⟩).samples.map ProfileSample.time = [7]) ∧
    (∃ p', (⟨[⟨5, 0, 0⟩], ⟨5, 0⟩, 0, 0⟩ : PreciseProfileData).resumeLastSample ⟨10, 10, 0, 0⟩
        = Except.ok p' ∧
      p'.samples = [] ∧
      (p'.endSample ⟨12, 12, 0, 0⟩).samples.map PreciseProfileSample.cycles = [7]) := by
  obtain ⟨⟨d', h1, h2, -, s, h3, h4⟩, ⟨p', g1, g2, -, s', g3, g4⟩⟩ :=
    resumeLastSample_keeps_accumulated ⟨[⟨5, 0, 0⟩], ⟨5, 0⟩, 0, 0⟩ ⟨[⟨5, 0, 0⟩], ⟨5, 0⟩, 0, 0⟩
      ⟨10, 10, 0, 0⟩ ⟨12, 12, 0, 0⟩ (by simp) (by simp)
  refine ⟨⟨d', h1, h2, ?_⟩, ⟨p', g1, g2, ?_⟩⟩
  · rw [h3]
    simp only [List.length_singleton, Nat.sub_self, List.take_zero, List.nil_append,
      List.map_cons, List.map_nil, h4]
    norm_num
  · rw [g3]
    simp only [List.length_singleton, Nat.sub_self, List.take_zero, List.nil_append,
      List.map_cons, List.map_nil, List.cons.injEq, and_true]
    have : ((s'.cycles : Nat) : Int) = 7 := by
      rw [g4]
      norm_num
    exact_mod_cast this

theorem ProfiledBlock.children_beginOn (type : ActiveSamplingType) (r : Reading)
    (b : ProfiledBlock) : (ProfiledBlock.beginOn type r b).children = b.children := by
  cases b; cases type <;> rfl

theorem ProfiledBlock.name_beginOn (type : ActiveSamplingType) (r : Reading)
    (b : ProfiledBlock) : (ProfiledBlock.beginOn type r b).name = b.name := by
  cases b; cases type <;> rfl

theorem ProfiledBlock.children_endOn (type : ActiveSamplingType) (r : Reading)
    (b : ProfiledBlock) : (ProfiledBlock.endOn type r b).children = b.children := by
  cases b; cases type <;> rfl

theorem ProfiledBlock.name_endOn (type : ActiveSamplingType) (r : Reading)
    (b : ProfiledBlock) : (ProfiledBlock.endOn type r b).name = b.name := by
  cases b; cases type <;> rfl

/-- The shared part of `beginSample` and `beginSamplePrecise` on a thread whose
active block `P` is at `q`: the block at `q` becomes `P` with the found or new
child at its slot, with the sample begun; that child is the active block and
is pushed on the stack. -/
theorem openBlock_spec (t : ThreadInfo) (type : ActiveSamplingType) (name : ProfilerString)
    (r : Reading) (root P : ProfiledBlock) (q : List Nat) (hroot : t.rootBlock = some root)
    (hact : t.activeBlock.block = some q) (hP : root.getAt q = some P) :
    ∃ root',
      root.modifyAt (fun _ => P.putChild (P.slot name)
        (ProfiledBlock.beginOn type r (P.childOrNew name))) q = some root' ∧
      ProfilerCPU.openBlock t type name r
        = Except.ok { t with rootBlock := some root'
                             activeBlock := ⟨type, some (q ++ [P.slot name])⟩
                             activeBlocks := ⟨type, some (q ++ [P.slot name])⟩ :: t.activeBlocks } := by
  obtain ⟨root1, hmod1, -, -⟩ := ProfiledBlock.replace_spec
    (P.putChild (P.slot name) (ProfiledBlock.beginOn type r (P.childOrNew name))) q root P hP
  refine ⟨root1, hmod1, ?_⟩
  obtain ⟨-, hcase | hcase⟩ := P.childOrNew_spec name
  · obtain ⟨i, hfind, hslot, hchild⟩ := hcase
    have hilt : i < P.children.length := by
      by_contra hn
      rw [List.getElem?_eq_none (by omega)] at hchild
      cases hchild
    have hmod : root.modifyAt (ProfiledBlock.beginOn type r) (q ++ [i]) = some root1 := by
      rw [ProfiledBlock.modifyAt_child _ q i root P _ hP hchild, ← hmod1, hslot]
      unfold ProfiledBlock.putChild
      rw [if_pos hilt]
    cases type
    · have hmod' : root.modifyAt (fun b => b.setBasic (b.basic.beginSample r)) (q ++ [i])
          = some root1 := hmod
      simp only [ProfilerCPU.openBlock, ThreadInfo.readBlock, hroot, hact, hP, hfind,
        ThreadInfo.modifyBlock, hslot, hmod']
    · have hmod' : root.modifyAt (fun b => b.setPrecise (b.precise.beginSample r)) (q ++ [i])
          = some root1 := hmod
      simp only [ProfilerCPU.openBlock, ThreadInfo.readBlock, hroot, hact, hP, hfind,
        ThreadInfo.modifyBlock, hslot, hmod']
  · obtain ⟨hfind, hslot, hnew⟩ := hcase
    obtain ⟨root0, hmod0, hget0, hrep0⟩ := ProfiledBlock.replace_spec
      (P.setChildren (P.children ++ [ProfiledBlock.new.setName name])) q root P hP
    have happend : root.modifyAt
        (fun b => b.setChildren (b.children ++ [ProfiledBlock.new.setName name])) q
        = some root0 := by
      rw [ProfiledBlock.modifyAt_eq_replace _ q root P hP, hmod0]
    have hmod : root0.modifyAt (ProfiledBlock.beginOn type r) (q ++ [P.children.length])
        = some root1 := by
      rw [ProfiledBlock.modifyAt_child _ q P.children.length root0 _
        (ProfiledBlock.new.setName name) hget0
        (by rw [ProfiledBlock.children_setChildren]; simp), hrep0, ← hmod1, hslot, hnew]
      congr 2
      unfold ProfiledBlock.putChild
      rw [if_neg (Nat.lt_irrefl _), ProfiledBlock.setChildren_setChildren,
        ProfiledBlock.children_setChildren]
      simp
    cases type
    · have hmod' : root0.modifyAt (fun b => b.setBasic (b.basic.beginSample r))
          (q ++ [P.children.length]) = some root1 := hmod
      simp only [ProfilerCPU.openBlock, ThreadInfo.readBlock, hroot, hact, hP, hfind,
        ThreadInfo.modifyBlock, happend, hslot, hmod']
    · have hmod' : root0.modifyAt (fun b => b.setPrecise (b.precise.beginSample r))
          (q ++ [P.children.length]) = some root1 := hmod
      simp only [ProfilerCPU.openBlock, ThreadInfo.readBlock, hroot, hact, hP, hfind,
        ThreadInfo.modifyBlock, happend, hslot, hmod']

/-- The shape of the block that `openBlock` puts at the place of the active
block. -/
theorem putChild_slot_cases (P : ProfiledBlock) (name : ProfilerString) (X : ProfiledBlock → ProfiledBlock) :
    (∃ c, P.children[P.slot name]? = some c ∧ c.name = name ∧
        (∀ (j : Nat) (c' : ProfiledBlock), j < P.slot name → P.children[j]? = some c' →
          c'.name ≠ name) ∧
        (P.putChild (P.slot name) (X (P.childOrNew name))).children
          = P.children.set (P.slot name) (X c)) ∨
      ((∀ c ∈ P.children, c.name ≠ name) ∧ P.slot name = P.children.length ∧
        (P.putChild (P.slot name) (X (P.childOrNew name))).children
          = P.children ++ [X (ProfiledBlock.new.setName name)]) := by
  obtain ⟨-, hcase | hcase⟩ := P.childOrNew_spec name
  · obtain ⟨i, hfind, hslot, hchild⟩ := hcase
    obtain ⟨c, hc, hname, hbefore⟩ := ProfiledBlock.findChild_some hfind
    have hilt : i < P.children.length := by
      by_contra hn
      rw [List.getElem?_eq_none (by omega)] at hc
      cases hc
    rw [hc] at hchild
    left
    refine ⟨c, by rw [hslot]; exact hc, hname, by rw [hslot]; exact hbefore, ?_⟩
    rw [hslot, ProfiledBlock.children_putChild_lt P i _ hilt, ← Option.some.inj hchild]
  · obtain ⟨hfind, hslot, hnew⟩ := hcase
    right
    refine ⟨ProfiledBlock.findChild_none.mp hfind, hslot, ?_⟩
    rw [hslot, ProfiledBlock.children_putChild_length, hnew]

/-- The result of a call that, on the thread `t` whose active block `P` is
at `q`, returns what the shared part of `beginSample` and `beginSamplePrecise`
returns. -/
theorem opensChild_of_openBlock (t : ThreadInfo) (type : ActiveSamplingType)
    (name : ProfilerString) (r : Reading) (root P : ProfiledBlock) (q : List Nat)
    (hroot : t.rootBlock = some root) (hact : t.activeBlock.block = some q)
    (hP : root.getAt q = some P) (result : Except Fault (Option ThreadInfo))
    (hres : ∀ t', ProfilerCPU.openBlock t type name r = Except.ok t' →
      result = Except.ok (some t')) :
    OpensChild t type name r root P q result := by
  obtain ⟨root', hmod, hopen⟩ := openBlock_spec t type name r root P q hroot hact hP
  exact ⟨root', _, P.slot name, hres _ hopen, hmod, ProfiledBlock.name_putChild _ _ _,
    ProfiledBlock.basic_putChild _ _ _, ProfiledBlock.precise_putChild _ _ _,
    putChild_slot_cases P name (ProfiledBlock.beginOn type r)⟩

/-- C11: on an active thread whose active block `P` is not null, `beginSample(n)`
and `beginSamplePrecise(n)` complete; if `P` has a child called `n`, the child
vector of `P` keeps its elements and the first child called `n` becomes the
active block, with a sample begun on it; otherwise one new block called `n` is
appended to the child vector of `P` and becomes the active block.  The tree
changes in the block `P` only. -/
theorem beginSample_reuses_or_appends (t : ThreadInfo) (name : ProfilerString) (r0 r : Reading)
    (root P : ProfiledBlock) (q : List Nat) (hactive : t.isActive = true)
    (hroot : t.rootBlock = some root) (hact : t.activeBlock.block = some q)
    (hP : root.getAt q = some P) :
    OpensChild t ActiveSamplingType.Basic name r root P q
      (ProfilerCPU.beginSample (some t) name r0 r) ∧
    OpensChild t ActiveSamplingType.Precise name r root P q
      (ProfilerCPU.beginSamplePrecise (some t) name r0 r) := by
  refine ⟨opensChild_of_openBlock t _ name r root P q hroot hact hP _ ?_,
    opensChild_of_openBlock t _ name r root P q hroot hact hP _ ?_⟩
  · intro t' hopen
    simp only [ProfilerCPU.beginSample, hactive, Bool.not_true, Bool.false_eq_true, if_false,
      hopen]
  · intro t' hopen
    simp only [ProfilerCPU.beginSamplePrecise, hactive, Bool.not_true, Bool.false_eq_true,
      if_false, hopen]

/-- The call `endSamplePrecise(name)` on a thread whose active block is the
child `i` of the block at `q`, is called `name` and was opened for Precise
sampling: the sample ends, and the block at `q` is the active block again. -/
theorem endSamplePrecise_nested (debug : Bool) (root b c : ProfiledBlock) (q : List Nat)
    (i : Nat) (a : ActiveBlock) (stack : List ActiveBlock) (name : ProfilerString) (r : Reading)
    (hb : root.getAt q = some b) (hc : b.children[i]? = some c) (hname : c.name = name) :
    ∃ root',
      root.modifyAt (fun _ => b.setChildren (b.children.set i
        (ProfiledBlock.endOn ActiveSamplingType.Precise r c))) q = some root' ∧
      ProfilerCPU.endSamplePrecise debug (some ⟨true, some root,
          ⟨ActiveSamplingType.Precise, some (q ++ [i])⟩,
          ⟨ActiveSamplingType.Precise, some (q ++ [i])⟩ :: a :: stack⟩) name r
        = Except.ok (some ⟨true, some root', a, a :: stack⟩) := by
  obtain ⟨root', hmod', -, -⟩ := ProfiledBlock.replace_spec
    (b.setChildren (b.children.set i (ProfiledBlock.endOn ActiveSamplingType.Precise r c)))
    q root b hb
  refine ⟨root', hmod', ?_⟩
  have hget : root.getAt (q ++ [i]) = some c := by
    rw [ProfiledBlock.getAt_append_path, hb]
    simp [ProfiledBlock.getAt, hc]
  have hmod : root.modifyAt (fun b => b.setPrecise (b.precise.endSample r)) (q ++ [i])
      = some root' := by
    rw [ProfiledBlock.modifyAt_child _ q i root b c hb hc, ← hmod']
    rfl
  simp only [ProfilerCPU.endSamplePrecise, ThreadInfo.readBlock, hget, ThreadInfo.modifyBlock,
    hmod, ProfilerCPU.popActive, hname]
  cases debug <;> simp

/-- The slot and the block that `beginSample(name)` finds below a block in
which a block called `name` was put at the slot of `name`. -/
theorem ProfiledBlock.slot_putChild_same (b X : ProfiledBlock) (name : ProfilerString)
    (hX : X.name = name) :
    (b.putChild (b.slot name) X).slot name = b.slot name ∧
    (b.putChild (b.slot name) X).childOrNew name = X := by
  have hfind := ProfiledBlock.findChild_putChild_same b X name hX
  have hchild := ProfiledBlock.getElem?_putChild b (b.slot name) X (b.slot_le name)
  have h1 : ∀ (B : ProfiledBlock) (i : Nat), B.findChild name = some i → B.slot name = i := by
    intro B i h
    simp only [ProfiledBlock.slot, h]
  have h2 : ∀ (B : ProfiledBlock) (i : Nat) (c : ProfiledBlock), B.findChild name = some i →
      B.children[i]? = some c → B.childOrNew name = c := by
    intro B i c h hc
    simp only [ProfiledBlock.childOrNew, h, hc, Option.getD_some]
  exact ⟨h1 _ _ hfind, h2 _ _ _ hfind hchild⟩

theorem ProfiledBlock.sampleBoth_spec (r1 r2 r3 r4 : Reading) (c : ProfiledBlock) :
    (c.sampleBoth r1 r2 r3 r4).name = c.name ∧
    (c.sampleBoth r1 r2 r3 r4).children = c.children ∧
    (c.sampleBoth r1 r2 r3 r4).basic = (c.basic.beginSample r1).endSample r2 ∧
    (c.sampleBoth r1 r2 r3 r4).precise = (c.precise.beginSample r3).endSample r4 := by
  cases c
  exact ⟨rfl, rfl, rfl, rfl⟩

/-- C12: on an active thread whose active block `P` is the top of the stack,
the calls `beginSample(X); endSample(X); beginSamplePrecise(X);
endSamplePrecise(X)` complete and leave the thread as it was but for the tree,
which changes in the block `P` only: if `P` had a child called `X`, its child
vector has the same length and the first such child has one Basic and one
Precise sample more; if not, one block called `X` is appended, with one Basic
and one Precise sample.  The Basic accumulator of the block is what the Basic
pair alone makes of it, the Precise accumulator what the Precise pair alone
makes of it. -/
theorem basic_and_precise_share_block (debug : Bool) (root P : ProfiledBlock) (q : List Nat)
    (a : ActiveBlock) (stack : List ActiveBlock) (X : ProfilerString)
    (r0 r1 r2 r0' r3 r4 : Reading) (ha : a.block = some q) (hP : root.getAt q = some P) :
    ∃ (root' P' c0 c : ProfiledBlock) (i : Nat),
      ProfilerCPU.run debug (some ⟨true, some root, a, a :: stack⟩)
          [Call.beginSample X r0 r1, Call.endSample X r2, Call.beginSamplePrecise X r0' r3,
            Call.endSamplePrecise X r4]
        = Except.ok (some ⟨true, some root', a, a :: stack⟩) ∧
      root.modifyAt (fun _ => P') q = some root' ∧
      P'.name = P.name ∧ P'.basic = P.basic ∧ P'.precise = P.precise ∧
      c.name = X ∧ c.children = c0.children ∧
      c.basic = (c0.basic.beginSample r1).endSample r2 ∧
      c.precise = (c0.precise.beginSample r3).endSample r4 ∧
      c.basic.samples.length = c0.basic.samples.length + 1 ∧
      c.precise.samples.length = c0.precise.samples.length + 1 ∧
      ((P.children[i]? = some c0 ∧ c0.name = X ∧
          (∀ (j : Nat) (c' : ProfiledBlock), j < i → P.children[j]? = some c' → c'.name ≠ X) ∧
          P'.children = P.children.set i c) ∨
        ((∀ ch ∈ P.children, ch.name ≠ X) ∧ c0 = ProfiledBlock.new.setName X ∧
          P'.children = P.children ++ [c])) := by
  have hslot := P.slot_le X
  have hname0 := (P.childOrNew_spec X).1
  -- beginSample(X)
  obtain ⟨root1, hmod1, hrun1⟩ := beginSample_nested root P q a stack X r0 r1 ha hP
  obtain ⟨x1, hx1, hget1, hrep1⟩ := ProfiledBlock.replace_spec
    (P.putChild (P.slot X) (ProfiledBlock.openSample r1 (P.childOrNew X))) q root P hP
  rw [hmod1] at hx1
  cases hx1
  have hchild1 := ProfiledBlock.getElem?_putChild P (P.slot X)
    (ProfiledBlock.openSample r1 (P.childOrNew X)) hslot
  -- endSample(X)
  obtain ⟨root2, hmod2, hrun2⟩ := endSample_nested debug root1 _ _ q (P.slot X) a stack X r2
    hget1 hchild1 (by
      unfold ProfiledBlock.openSample
      rw [ProfiledBlock.name_setBasic]
      exact hname0)
  rw [ProfiledBlock.setChildren_set_putChild P _ _ _ hslot, hrep1] at hmod2
  obtain ⟨x2, hx2, hget2, hrep2⟩ := ProfiledBlock.replace_spec
    (P.putChild (P.slot X) (ProfiledBlock.closeSample r2
      (ProfiledBlock.openSample r1 (P.childOrNew X)))) q root P hP
  rw [hmod2] at hx2
  cases hx2
  have hname2 : (ProfiledBlock.closeSample r2
      (ProfiledBlock.openSample r1 (P.childOrNew X))).name = X := by
    unfold ProfiledBlock.closeSample ProfiledBlock.openSample
    rw [ProfiledBlock.name_setBasic, ProfiledBlock.name_setBasic]
    exact hname0
  obtain ⟨hslot2, hchild2⟩ := ProfiledBlock.slot_putChild_same P _ X hname2
  -- beginSamplePrecise(X)
  obtain ⟨root3, hmod3, hopen3⟩ := openBlock_spec ⟨true, some root2, a, a :: stack⟩
    ActiveSamplingType.Precise X r3 root2 _ q rfl ha hget2
  rw [hslot2, hchild2, ProfiledBlock.putChild_putChild P _ _ _ hslot, hrep2] at hmod3
  rw [hslot2] at hopen3
  have hrun3 : ProfilerCPU.beginSamplePrecise (some ⟨true, some root2, a, a :: stack⟩) X r0' r3
      = Except.ok (some ⟨true, some root3, ⟨ActiveSamplingType.Precise, some (q ++ [P.slot X])⟩,
          ⟨ActiveSamplingType.Precise, some (q ++ [P.slot X])⟩ :: a :: stack⟩) := by
    simp only [ProfilerCPU.beginSamplePrecise, Bool.not_true, Bool.false_eq_true, if_false,
      hopen3]
  obtain ⟨x3, hx3, hget3, hrep3⟩ := ProfiledBlock.replace_spec
    (P.putChild (P.slot X) (ProfiledBlock.beginOn ActiveSamplingType.Precise r3
      (ProfiledBlock.closeSample r2 (ProfiledBlock.openSample r1 (P.childOrNew X))))) q root P hP
  rw [hmod3] at hx3
  cases hx3
  have hchild3 := ProfiledBlock.getElem?_putChild P (P.slot X)
    (ProfiledBlock.beginOn ActiveSamplingType.Precise r3
      (ProfiledBlock.closeSample r2 (ProfiledBlock.openSample r1 (P.childOrNew X)))) hslot
  -- endSamplePrecise(X)
  obtain ⟨root4, hmod4, hrun4⟩ := endSamplePrecise_nested debug root3 _ _ q (P.slot X) a stack X
    r4 hget3 hchild3 (by rw [ProfiledBlock.name_beginOn]; exact hname2)
  rw [ProfiledBlock.setChildren_set_putChild P _ _ _ hslot, hrep3] at hmod4
  obtain ⟨h1, h2, h3, h4⟩ := ProfiledBlock.sampleBoth_spec r1 r2 r3 r4 (P.childOrNew X)
  refine ⟨root4, P.putChild (P.slot X) ((P.childOrNew X).sampleBoth r1 r2 r3 r4),
    P.childOrNew X, (P.childOrNew X).sampleBoth r1 r2 r3 r4, P.slot X, ?_, hmod4,
    ProfiledBlock.name_putChild _ _ _, ProfiledBlock.basic_putChild _ _ _,
    ProfiledBlock.precise_putChild _ _ _, by rw [h1]; exact hname0, h2, h3, h4, ?_, ?_, ?_⟩
  · simp only [ProfilerCPU.run, ProfilerCPU.call, hrun1, hrun2, hrun3, hrun4]
  · rw [h3]
    simp [ProfileData.endSample, ProfileData.beginSample]
  · rw [h4]
    simp [PreciseProfileData.endSample, PreciseProfileData.beginSample]
  · rcases putChild_slot_cases P X (ProfiledBlock.sampleBoth r1 r2 r3 r4) with
      ⟨c, hc, hcn, hfirst, hch⟩ | ⟨hnone, hs, hch⟩
    · left
      obtain ⟨-, hcase | hcase⟩ := P.childOrNew_spec X
      · obtain ⟨i, -, hsi, hci⟩ := hcase
        rw [hsi] at hc hfirst hch ⊢
        rw [hc] at hci
        cases hci
        exact ⟨hc, hcn, hfirst, hch⟩
      · obtain ⟨-, hsl, -⟩ := hcase
        rw [hsl, List.getElem?_eq_none (Nat.le_refl _)] at hc
        cases hc
    · right
      obtain ⟨-, hcase | hcase⟩ := P.childOrNew_spec X
      · obtain ⟨i, hfi, -, -⟩ := hcase
        obtain ⟨c, hc, hcn, -⟩ := ProfiledBlock.findChild_some hfi
        exact absurd hcn (hnone c (List.getElem?_mem hc))
      · obtain ⟨-, -, hnew⟩ := hcase
        rw [hnew] at hch ⊢
        exact ⟨hnone, rfl, hch⟩

/-- C13: in a debug build an end call that fails a check returns the thread
state as it is: both end calls when the active block is null, `endSample` when
the active block was opened as Precise, `endSamplePrecise` when it was opened
as Basic, and both end calls when the name of the active block is not the name
passed. -/
theorem debug_end_rejected_changes_nothing (t : ThreadInfo) (name : ProfilerString)
    (r : Reading) :
    (t.activeBlock.block = none →
      ProfilerCPU.endSample true (some t) name r = Except.ok (some t) ∧
      ProfilerCPU.endSamplePrecise true (some t) name r = Except.ok (some t)) ∧
    (t.activeBlock.type = ActiveSamplingType.Precise →
      ProfilerCPU.endSample true (some t) name r = Except.ok (some t)) ∧
    (t.activeBlock.type = ActiveSamplingType.Basic →
      ProfilerCPU.endSamplePrecise true (some t) name r = Except.ok (some t)) ∧
    (∀ b, t.readBlock t.activeBlock.block = Except.ok b → b.name ≠ name →
      ProfilerCPU.endSample true (some t) name r = Except.ok (some t) ∧
      ProfilerCPU.endSamplePrecise true (some t) name r = Except.ok (some t)) := by
  refine ⟨?_, ?_, ?_, ?_⟩
  · intro h
    simp [ProfilerCPU.endSample, ProfilerCPU.endSamplePrecise, h]
  · intro h
    simp [ProfilerCPU.endSample, h]
  · intro h
    simp [ProfilerCPU.endSamplePrecise, h]
  · intro b hb hne
    simp only [ProfilerCPU.endSample, ProfilerCPU.endSamplePrecise, hb, Bool.true_and]
    refine ⟨?_, ?_⟩
    · split
      · rfl
      · split
        · rfl
        · simp [hne]
    · split
      · rfl
      · split
        · rfl
        · simp [hne]

/-- C13, instance: with "X" open as Basic the calls `endSample("Y")` and
`endSamplePrecise("X")` change nothing, with "X" open as Precise the call
`endSample("X")` changes nothing, and with no block open both end calls change
nothing. -/
theorem debug_end_rejected_changes_nothing_witness :
    (ProfilerCPU.endSample true (some (openBlockExample ActiveSamplingType.Basic)) "Y"
        ⟨2, 2, 0, 0⟩ = Except.ok (some (openBlockExample ActiveSamplingType.Basic)) ∧
      ProfilerCPU.endSamplePrecise true (some (openBlockExample ActiveSamplingType.Basic)) "X"
        ⟨2, 2, 0, 0⟩ = Except.ok (some (openBlockExample ActiveSamplingType.Basic))) ∧
    ProfilerCPU.endSample true (some (openBlockExample ActiveSamplingType.Precise)) "X"
        ⟨2, 2, 0, 0⟩ = Except.ok (some (openBlockExample ActiveSamplingType.Precise)) ∧
    (ProfilerCPU.endSample true (some noOpenBlockExample) "R" ⟨2, 2, 0, 0⟩
        = Except.ok (some noOpenBlockExample) ∧
      ProfilerCPU.endSamplePrecise true (some noOpenBlockExample) "R" ⟨2, 2, 0, 0⟩
        = Except.ok (some noOpenBlockExample)) :=
  ⟨⟨((debug_end_rejected_changes_nothing (openBlockExample ActiveSamplingType.Basic) "Y"
        ⟨2, 2, 0, 0⟩).2.2.2
        (ProfiledBlock.mk "X" ProfileData.new PreciseProfileData.new []) rfl (by decide)).1,
      (debug_end_rejected_changes_nothing (openBlockExample ActiveSamplingType.Basic) "X"
        ⟨2, 2, 0, 0⟩).2.2.1 rfl⟩,
    (debug_end_rejected_changes_nothing (openBlockExample ActiveSamplingType.Precise) "X"
      ⟨2, 2, 0, 0⟩).2.1 rfl,
    (debug_end_rejected_changes_nothing noOpenBlockExample "R" ⟨2, 2, 0, 0⟩).1 rfl⟩

/-- C14: on a thread without `ThreadInfo`, `beginSamplePrecise(n)` reads
`thread->activeBlock` through the null pointer it read before the implied
`beginThread("Unknown")`, where `beginSample(n)` reads the pointer again and
completes.  On a thread whose `ThreadInfo` is inactive both calls complete, and
their results differ in the sampling type of the new active block and in the
accumulator on which the sample is begun. -/
theorem beginSamplePrecise_without_threadInfo (name : ProfilerString) (r0 r : Reading) :
    ProfilerCPU.beginSamplePrecise none name r0 r = Except.error Fault.nullDereference ∧
    (∃ t, ProfilerCPU.beginSample none name r0 r = Except.ok (some t)) ∧
    ∀ t : ThreadInfo, t.isActive = false →
      ∃ (root P : ProfiledBlock),
        (t.begin "Unknown" r0).rootBlock = some root ∧ root.getAt [] = some P ∧
        OpensChild (t.begin "Unknown" r0) ActiveSamplingType.Basic name r root P []
          (ProfilerCPU.beginSample (some t) name r0 r) ∧
        OpensChild (t.begin "Unknown" r0) ActiveSamplingType.Precise name r root P []
          (ProfilerCPU.beginSamplePrecise (some t) name r0 r) := by
  have key : ∀ t : ThreadInfo, t.isActive = false →
      ∃ (root P : ProfiledBlock),
        (t.begin "Unknown" r0).rootBlock = some root ∧ root.getAt [] = some P ∧
        (t.begin "Unknown" r0).isActive = true ∧
        (t.begin "Unknown" r0).activeBlock.block = some [] := by
    intro t ht
    unfold ThreadInfo.begin
    rw [if_neg (by simp [ht])]
    exact ⟨_, _, rfl, rfl, rfl, rfl⟩
  refine ⟨rfl, ?_, ?_⟩
  · obtain ⟨root, P, hroot, hP, hact, hblock⟩ := key ThreadInfo.new rfl
    obtain ⟨root', -, hopen⟩ := openBlock_spec (ThreadInfo.new.begin "Unknown" r0)
      ActiveSamplingType.Basic name r root P [] hroot hblock hP
    have h : ProfilerCPU.beginSample none name r0 r
        = (match ProfilerCPU.openBlock (ThreadInfo.new.begin "Unknown" r0)
              ActiveSamplingType.Basic name r with
          | Except.ok t' => Except.ok (some t')
          | Except.error e => Except.error e) := rfl
    rw [h, hopen]
    exact ⟨_, rfl⟩
  · intro t ht
    obtain ⟨root, P, hroot, hP, hact, hblock⟩ := key t ht
    refine ⟨root, P, hroot, hP,
      opensChild_of_openBlock _ _ name r root P [] hroot hblock hP _ ?_,
      opensChild_of_openBlock _ _ name r root P [] hroot hblock hP _ ?_⟩
    · intro t' hopen
      simp only [ProfilerCPU.beginSample, ProfilerCPU.beginThread, ht, Bool.not_false,
        if_true, hopen]
    · intro t' hopen
      simp only [ProfilerCPU.beginSamplePrecise, ht, Bool.not_false, if_true, hopen]

/-- C15: after `beginThread("R"); endSample("R")` the thread is active with an
empty stack and a null active block; `beginSample("A"); endSample("A")` issued
twice in that state gives the root two children called "A" with one sample each:
with a null `parent` the call does not look among the children of the root. -/
theorem beginSample_on_empty_stack_duplicates (debug : Bool) (r1 r2 r3 r4 r5 r6 r7 r8 : Reading) :
    ∃ t root,
      ProfilerCPU.run debug none
        [Call.beginThread "R" r1, Call.endSample "R" r2, Call.beginSample "A" r3 r4,
         Call.endSample "A" r5, Call.beginSample "A" r6 r7, Call.endSample "A" r8]
        = Except.ok (some t) ∧
      t.isActive = true ∧ t.activeBlocks = [] ∧ t.activeBlock = ActiveBlock.null ∧
      t.rootBlock = some root ∧
      root.children.map (fun c => (c.name, c.basic.samples.length, c.children.length))
        = [("A", 1, 0), ("A", 1, 0)] := by
  cases debug <;>
  simp [ProfilerCPU.run, ProfilerCPU.call, ProfilerCPU.beginThread, ThreadInfo.begin,
    ThreadInfo.new, ProfilerCPU.beginSample, ProfilerCPU.openBlock, ThreadInfo.readBlock,
    ThreadInfo.modifyBlock, ProfiledBlock.getAt, ProfiledBlock.modifyAt, ProfiledBlock.findChild,
    ProfiledBlock.findChildFrom, ProfiledBlock.new, ProfiledBlock.setName, ProfiledBlock.setBasic,
    ProfiledBlock.setChildren, ProfiledBlock.children,
    ProfiledBlock.name, ProfiledBlock.basic, ProfiledBlock.precise, ProfilerCPU.endSample,
    ProfilerCPU.popActive, ActiveBlock.null, ProfileData.beginSample, ProfileData.endSample,
    ProfileData.new]

/-- C17: `ThreadInfo::end()` with a null active block dereferences it, whatever
the rest of the state is; so does the second `endThread()` of
`beginThread("R"); endThread(); endThread()`. -/
theorem end_without_open_block_dereferences_null (debug isActive : Bool)
    (rootBlock : Option ProfiledBlock) (type : ActiveSamplingType) (stack : List ActiveBlock)
    (r : Reading) (rs rs' : Nat → Reading) :
    ThreadInfo.endSampling ⟨isActive, rootBlock, ⟨type, none⟩, stack⟩ rs
      = Except.error Fault.nullDereference ∧
    ProfilerCPU.run debug none [Call.beginThread "R" r, Call.endThread rs, Call.endThread rs']
      = Except.error Fault.nullDereference := by
  refine ⟨?_, ?_⟩
  · cases type <;> simp [ThreadInfo.endSampling, ThreadInfo.closeBlock, ThreadInfo.modifyBlock]
  · simp [ProfilerCPU.run, ProfilerCPU.call, ProfilerCPU.beginThread, ThreadInfo.begin,
      ThreadInfo.new, ProfilerCPU.endThread, ThreadInfo.endSampling, ThreadInfo.closeBlock,
      ThreadInfo.closeRemaining, ThreadInfo.modifyBlock, ProfiledBlock.modifyAt, ActiveBlock.null]

theorem ProfiledBlock.precise_setPrecise (b : ProfiledBlock) (d : PreciseProfileData) :
    (b.setPrecise d).precise = d := by
  cases b; rfl

theorem ProfiledBlock.basic_setPrecise (b : ProfiledBlock) (d : PreciseProfileData) :
    (b.setPrecise d).basic = b.basic := by
  cases b; rfl

/-- The accumulators after `endOn` depend on the accumulators before only. -/
theorem ProfiledBlock.endOn_congr (type : ActiveSamplingType) (r : Reading)
    (b b' : ProfiledBlock) (hb : b'.basic = b.basic) (hp : b'.precise = b.precise) :
    (ProfiledBlock.endOn type r b').basic = (ProfiledBlock.endOn type r b).basic ∧
    (ProfiledBlock.endOn type r b').precise = (ProfiledBlock.endOn type r b).precise := by
  cases type
  · simp only [ProfiledBlock.endOn, ProfiledBlock.basic_setBasic, ProfiledBlock.precise_setBasic,
      hb, hp, and_self]
  · simp only [ProfiledBlock.endOn, ProfiledBlock.basic_setPrecise,
      ProfiledBlock.precise_setPrecise, hb, hp, and_self]

/-- A write through a pointer that keeps the name and the children of the
block written: every pointer designates afterwards what it designated, with
the same name and as many children; the accumulators are those that the write
gives at the pointer written and the old ones elsewhere. -/
theorem ProfiledBlock.getAt_modifyAt_keep (f : ProfiledBlock → ProfiledBlock)
    (hname : ∀ b, (f b).name = b.name) (hch : ∀ b, (f b).children = b.children)
    (p : List Nat) : ∀ (q : List Nat) (root root1 : ProfiledBlock),
    root.modifyAt f q = some root1 →
    (root.getAt p = none → root1.getAt p = none) ∧
    ∀ b, root.getAt p = some b →
      ∃ b', root1.getAt p = some b' ∧ b'.name = b.name ∧
        b'.children.length = b.children.length ∧
        (p = q → b'.basic = (f b).basic ∧ b'.precise = (f b).precise) ∧
        (p ≠ q → b'.basic = b.basic ∧ b'.precise = b.precise) := by
  induction p with
  | nil =>
    intro q root root1 hmod
    refine ⟨fun h => by simp [ProfiledBlock.getAt] at h, ?_⟩
    intro b hb
    simp only [ProfiledBlock.getAt, Option.some.injEq] at hb
    subst hb
    cases q with
    | nil =>
      simp only [ProfiledBlock.modifyAt, Option.some.injEq] at hmod
      subst hmod
      exact ⟨_, rfl, hname _, by rw [hch], fun _ => ⟨rfl, rfl⟩, fun h => absurd rfl h⟩
    | cons i q =>
      simp only [ProfiledBlock.modifyAt] at hmod
      split at hmod
      · split at hmod
        · simp only [Option.some.injEq] at hmod
          subst hmod
          refine ⟨_, rfl, ProfiledBlock.name_setChildren _ _, ?_, fun h => (by cases h),
            fun _ => ⟨ProfiledBlock.basic_setChildren _ _, ProfiledBlock.precise_setChildren _ _⟩⟩
          rw [ProfiledBlock.children_setChildren, List.length_set]
        · cases hmod
      · cases hmod
  | cons j p ih =>
    intro q root root1 hmod
    cases q with
    | nil =>
      simp only [ProfiledBlock.modifyAt, Option.some.injEq] at hmod
      subst hmod
      have hsame : (f root).getAt (j :: p) = root.getAt (j :: p) := by
        simp only [ProfiledBlock.getAt, hch]
      rw [hsame]
      refine ⟨fun h => h, ?_⟩
      intro b hb
      exact ⟨b, hb, rfl, rfl, fun h => (by cases h), fun _ => ⟨rfl, rfl⟩⟩
    | cons i q =>
      simp only [ProfiledBlock.modifyAt] at hmod
      split at hmod
      · rename_i c hc
        split at hmod
        · rename_i c' hc'
          simp only [Option.some.injEq] at hmod
          subst hmod
          have hlt : i < root.children.length := by
            by_contra hn
            rw [List.getElem?_eq_none (by omega)] at hc
            cases hc
          by_cases hij : i = j
          · subst hij
            have h1 : (root.setChildren (root.children.set i c')).getAt (i :: p) = c'.getAt p := by
              simp only [ProfiledBlock.getAt, ProfiledBlock.children_setChildren,
                List.getElem?_set_self hlt]
            have h2 : root.getAt (i :: p) = c.getAt p := by
              simp only [ProfiledBlock.getAt, hc]
            rw [h1, h2]
            obtain ⟨g1, g2⟩ := ih q c c' hc'
            refine ⟨g1, ?_⟩
            intro b hb
            obtain ⟨b', e1, e2, e3, e4, e5⟩ := g2 b hb
            refine ⟨b', e1, e2, e3, ?_, ?_⟩
            · intro hpq
              exact e4 (List.cons.inj hpq).2
            · intro hpq
              exact e5 (fun h => hpq (by rw [h]))
          · have h1 : (root.setChildren (root.children.set i c')).getAt (j :: p)
                = root.getAt (j :: p) := by
              simp only [ProfiledBlock.getAt, ProfiledBlock.children_setChildren,
                List.getElem?_set_ne hij]
            rw [h1]
            refine ⟨fun h => h, ?_⟩
            intro b hb
            exact ⟨b, hb, rfl, rfl, fun h => absurd (List.cons.inj h).1.symm hij,
              fun _ => ⟨rfl, rfl⟩⟩
        · cases hmod
      · cases hmod

/-- The `endSample` that `ThreadInfo::end` issues on a stack entry whose
pointer is good. -/
theorem ThreadInfo.closeBlock_spec (t : ThreadInfo) (a : ActiveBlock) (r : Reading)
    (root b : ProfiledBlock) (q : List Nat) (hroot : t.rootBlock = some root)
    (ha : a.block = some q) (hb : root.getAt q = some b) :
    ∃ root1, root.modifyAt (ProfiledBlock.endOn a.type r) q = some root1 ∧
      t.closeBlock a r = Except.ok { t with rootBlock := some root1 } := by
  obtain ⟨root1, hmod, -, -⟩ := ProfiledBlock.replace_spec (ProfiledBlock.endOn a.type r b) q
    root b hb
  rw [← ProfiledBlock.modifyAt_eq_replace (ProfiledBlock.endOn a.type r) q root b hb] at hmod
  refine ⟨root1, hmod, ?_⟩
  cases hty : a.type
  · rw [hty] at hmod
    have hmod' : root.modifyAt (fun b => b.setBasic (b.basic.endSample r)) q = some root1 := hmod
    simp only [ThreadInfo.closeBlock, hty, ThreadInfo.modifyBlock, ha, hroot, hmod']
  · rw [hty] at hmod
    have hmod' : root.modifyAt (fun b => b.setPrecise (b.precise.endSample r)) q
        = some root1 := hmod
    simp only [ThreadInfo.closeBlock, hty, ThreadInfo.modifyBlock, ha, hroot, hmod']

/-- The loop of `ThreadInfo::end` over a stack of good pointers ends without
a fault and keeps the shape of the tree. -/
theorem ThreadInfo.closeRemaining_ok (rs : Nat → Reading) (stack : List ActiveBlock) :
    ∀ (k : Nat) (t : ThreadInfo) (root : ProfiledBlock), t.rootBlock = some root →
      StackValid root stack →
      ∃ root', ThreadInfo.closeRemaining rs stack k t
          = Except.ok { t with rootBlock := some root' } ∧
        (∀ p, root.getAt p = none → root'.getAt p = none) ∧
        ∀ (p : List Nat) (b : ProfiledBlock), root.getAt p = some b →
          ∃ b', root'.getAt p = some b' ∧ b'.name = b.name ∧
            b'.children.length = b.children.length := by
  induction stack with
  | nil =>
    intro k t root hroot _
    refine ⟨root, ?_, fun p h => h, fun p b hb => ⟨b, hb, rfl, rfl⟩⟩
    cases t
    simp only at hroot
    subst hroot
    rfl
  | cons a rest ih =>
    intro k t root hroot hvalid
    obtain ⟨q, b, ha, hb⟩ := hvalid a (by simp)
    obtain ⟨root1, hmod, hclose⟩ := ThreadInfo.closeBlock_spec t a (rs k) root b q hroot ha hb
    have hkeep := fun p => ProfiledBlock.getAt_modifyAt_keep (ProfiledBlock.endOn a.type (rs k))
      (ProfiledBlock.name_endOn _ _) (ProfiledBlock.children_endOn _ _) p q root root1 hmod
    have hvalid1 : StackValid root1 rest := by
      intro a' ha'
      obtain ⟨q', b', h1, h2⟩ := hvalid a' (List.mem_cons_of_mem _ ha')
      obtain ⟨b1, h3, -⟩ := (hkeep q').2 b' h2
      exact ⟨q', b1, h1, h3⟩
    obtain ⟨root', hrun, hnone, hsome⟩ := ih (k + 1) { t with rootBlock := some root1 } root1 rfl
      hvalid1
    refine ⟨root', ?_, ?_, ?_⟩
    · simp only [ThreadInfo.closeRemaining, hclose, hrun]
    · intro p hp
      exact hnone p ((hkeep p).1 hp)
    · intro p b0 hb0
      obtain ⟨b1, h1, h2, h3, -⟩ := (hkeep p).2 b0 hb0
      obtain ⟨b', g1, g2, g3⟩ := hsome p b1 h1
      exact ⟨b', g1, by rw [g2, h2], by rw [g3, h3]⟩

/-- The loop of `ThreadInfo::end` over a stack of good pointers to different
blocks: the block of the entry at position `j` gets the `endSample` of the
entry's sampling type with the reading `rs (k + j)`, every other block keeps
its accumulators. -/
theorem ThreadInfo.closeRemaining_spec (rs : Nat → Reading) (stack : List ActiveBlock) :
    ∀ (k : Nat) (t : ThreadInfo) (root : ProfiledBlock), t.rootBlock = some root →
      StackValid root stack → (stack.map ActiveBlock.block).Nodup →
      ∃ root', ThreadInfo.closeRemaining rs stack k t
          = Except.ok { t with rootBlock := some root' } ∧
        (∀ p, root.getAt p = none → root'.getAt p = none) ∧
        ∀ (p : List Nat) (b : ProfiledBlock), root.getAt p = some b →
          ∃ b', root'.getAt p = some b' ∧ b'.name = b.name ∧
            b'.children.length = b.children.length ∧
            ((∀ a ∈ stack, a.block ≠ some p) → b'.basic = b.basic ∧ b'.precise = b.precise) ∧
            ∀ (j : Nat) (a : ActiveBlock), stack[j]? = some a → a.block = some p →
              b'.basic = (ProfiledBlock.endOn a.type (rs (k + j)) b).basic ∧
              b'.precise = (ProfiledBlock.endOn a.type (rs (k + j)) b).precise := by
  induction stack with
  | nil =>
    intro k t root hroot _ _
    refine ⟨root, ?_, fun p h => h, fun p b hb => ⟨b, hb, rfl, rfl, fun _ => ⟨rfl, rfl⟩, ?_⟩⟩
    · cases t
      simp only at hroot
      subst hroot
      rfl
    · intro j a h
      simp at h
  | cons a rest ih =>
    intro k t root hroot hvalid hnd
    obtain ⟨q, b, ha, hb⟩ := hvalid a (by simp)
    obtain ⟨root1, hmod, hclose⟩ := ThreadInfo.closeBlock_spec t a (rs k) root b q hroot ha hb
    have hkeep := fun p => ProfiledBlock.getAt_modifyAt_keep (ProfiledBlock.endOn a.type (rs k))
      (ProfiledBlock.name_endOn _ _) (ProfiledBlock.children_endOn _ _) p q root root1 hmod
    have hvalid1 : StackValid root1 rest := by
      intro a' ha'
      obtain ⟨q', b', h1, h2⟩ := hvalid a' (List.mem_cons_of_mem _ ha')
      obtain ⟨b1, h3, -⟩ := (hkeep q').2 b' h2
      exact ⟨q', b1, h1, h3⟩
    simp only [List.map_cons, List.nodup_cons] at hnd
    have hrest : ∀ a' ∈ rest, a'.block ≠ some q := by
      intro a' ha' h
      apply hnd.1
      rw [ha, ← h]
      exact List.mem_map_of_mem _ ha'
    obtain ⟨root', hrun, hnone, hsome⟩ := ih (k + 1) { t with rootBlock := some root1 } root1 rfl
      hvalid1 hnd.2
    refine ⟨root', ?_, ?_, ?_⟩
    · simp only [ThreadInfo.closeRemaining, hclose, hrun]
    · intro p hp
      exact hnone p ((hkeep p).1 hp)
    · intro p b0 hb0
      obtain ⟨b1, h1, h2, h3, h4, h5⟩ := (hkeep p).2 b0 hb0
      obtain ⟨b', g1, g2, g3, g4, g5⟩ := hsome p b1 h1
      refine ⟨b', g1, by rw [g2, h2], by rw [g3, h3], ?_, ?_⟩
      · intro hno
        have hpq : p ≠ q := by
          intro h
          apply hno a (by simp)
          rw [ha, h]
        obtain ⟨e1, e2⟩ := h5 hpq
        obtain ⟨e3, e4⟩ := g4 (fun a' ha' => hno a' (List.mem_cons_of_mem _ ha'))
        exact ⟨by rw [e3, e1], by rw [e4, e2]⟩
      · intro j a' hj ha'
        cases j with
        | zero =>
          simp only [List.getElem?_cons_zero, Option.some.injEq] at hj
          subst hj
          have hpq : p = q := by
            rw [ha] at ha'
            exact (Option.some.inj ha').symm
          obtain ⟨e1, e2⟩ := h4 hpq
          obtain ⟨e3, e4⟩ := g4 (fun a' ha' => by rw [hpq]; exact hrest a' ha')
          exact ⟨by rw [e3, e1]; rfl, by rw [e4, e2]; rfl⟩
        | succ j =>
          rw [List.getElem?_cons_succ] at hj
          have hpq : p ≠ q := by
            intro h
            apply hrest a' (List.getElem?_mem hj)
            rw [ha', h]
          obtain ⟨e1, e2⟩ := h5 hpq
          obtain ⟨e3, e4⟩ := g5 j a' hj ha'
          obtain ⟨c1, c2⟩ := ProfiledBlock.endOn_congr a'.type (rs (k + 1 + j)) b0 b1 e1 e2
          have hk : k + (j + 1) = k + 1 + j := by omega
          rw [hk]
          exact ⟨by rw [e3, c1], by rw [e4, c2]⟩

/-- The statement `endSample()` on the accumulator of the given type appends
one sample to that accumulator and leaves the other accumulator alone. -/
theorem ProfiledBlock.endOn_samples (type : ActiveSamplingType) (r : Reading)
    (b : ProfiledBlock) :
    (type = ActiveSamplingType.Basic →
      (∃ s, (ProfiledBlock.endOn type r b).basic.samples = b.basic.samples ++ [s]) ∧
      (ProfiledBlock.endOn type r b).precise = b.precise) ∧
    (type = ActiveSamplingType.Precise →
      (∃ s, (ProfiledBlock.endOn type r b).precise.samples = b.precise.samples ++ [s]) ∧
      (ProfiledBlock.endOn type r b).basic = b.basic) := by
  cases type
  · refine ⟨fun _ => ⟨?_, ?_⟩, fun h => (by cases h)⟩
    · exact ⟨_, rfl⟩
    · simp only [ProfiledBlock.endOn, ProfiledBlock.precise_setBasic]
  · refine ⟨fun h => (by cases h), fun _ => ⟨?_, ?_⟩⟩
    · exact ⟨_, rfl⟩
    · simp only [ProfiledBlock.endOn, ProfiledBlock.basic_setPrecise]

theorem ProfiledBlock.grown_of_eq (b b' : ProfiledBlock) (h1 : b'.basic = b.basic)
    (h2 : b'.precise = b.precise) : ProfiledBlock.Grown b b' 0 0 := by
  simp only [ProfiledBlock.Grown, h1, h2, Nat.add_zero, List.prefix_rfl, and_self]

theorem ProfiledBlock.grown_trans (b b1 b2 : ProfiledBlock) (m n m' n' : Nat)
    (h : ProfiledBlock.Grown b b1 m n) (h' : ProfiledBlock.Grown b1 b2 m' n') :
    ProfiledBlock.Grown b b2 (m' + m) (n' + n) := by
  obtain ⟨h1, h2, h3, h4⟩ := h
  obtain ⟨g1, g2, g3, g4⟩ := h'
  exact ⟨by omega, h2.trans g2, by omega, h4.trans g4⟩

theorem ProfiledBlock.grown_endOn (type : ActiveSamplingType) (r : Reading)
    (b b1 : ProfiledBlock) (hb : b1.basic = (ProfiledBlock.endOn type r b).basic)
    (hp : b1.precise = (ProfiledBlock.endOn type r b).precise) :
    ProfiledBlock.Grown b b1 (if type = ActiveSamplingType.Basic then 1 else 0)
      (if type = ActiveSamplingType.Precise then 1 else 0) := by
  cases type
  · obtain ⟨⟨s, hs⟩, hq⟩ := (ProfiledBlock.endOn_samples ActiveSamplingType.Basic r b).1 rfl
    simp only [ProfiledBlock.Grown, hb, hp, hs, hq, List.length_append, List.length_singleton,
      if_true, List.prefix_append, List.prefix_rfl, Nat.add_zero, and_self, reduceCtorEq,
      if_false]
  · obtain ⟨⟨s, hs⟩, hq⟩ := (ProfiledBlock.endOn_samples ActiveSamplingType.Precise r b).2 rfl
    simp only [ProfiledBlock.Grown, hb, hp, hs, hq, List.length_append, List.length_singleton,
      if_true, List.prefix_append, List.prefix_rfl, Nat.add_zero, and_self, reduceCtorEq,
      if_false]

/-- The loop of `ThreadInfo::end` over a stack of good pointers: every block
gets as many samples more, in each accumulator, as the stack has entries of that
sampling type that point to it, and a block without an entry keeps its
accumulators. -/
theorem ThreadInfo.closeRemaining_count (rs : Nat → Reading) (stack : List ActiveBlock) :
    ∀ (k : Nat) (t : ThreadInfo) (root : ProfiledBlock), t.rootBlock = some root →
      StackValid root stack →
      ∃ root', ThreadInfo.closeRemaining rs stack k t
          = Except.ok { t with rootBlock := some root' } ∧
        ∀ (p : List Nat) (b : ProfiledBlock), root.getAt p = some b →
          ∃ b', root'.getAt p = some b' ∧
            ProfiledBlock.Grown b b' (stack.count ⟨ActiveSamplingType.Basic, some p⟩)
              (stack.count ⟨ActiveSamplingType.Precise, some p⟩) ∧
            ((∀ a ∈ stack, a.block ≠ some p) → b'.basic = b.basic ∧ b'.precise = b.precise) := by
  induction stack with
  | nil =>
    intro k t root hroot _
    refine ⟨root, ?_, fun p b hb => ⟨b, hb, ?_, fun _ => ⟨rfl, rfl⟩⟩⟩
    · cases t
      simp only at hroot
      subst hroot
      rfl
    · exact ProfiledBlock.grown_of_eq b b rfl rfl
  | cons a rest ih =>
    intro k t root hroot hvalid
    obtain ⟨q, b, ha, hb⟩ := hvalid a (by simp)
    obtain ⟨root1, hmod, hclose⟩ := ThreadInfo.closeBlock_spec t a (rs k) root b q hroot ha hb
    have hkeep := fun p => ProfiledBlock.getAt_modifyAt_keep (ProfiledBlock.endOn a.type (rs k))
      (ProfiledBlock.name_endOn _ _) (ProfiledBlock.children_endOn _ _) p q root root1 hmod
    have hvalid1 : StackValid root1 rest := by
      intro a' ha'
      obtain ⟨q', b', h1, h2⟩ := hvalid a' (List.mem_cons_of_mem _ ha')
      obtain ⟨b1, h3, -⟩ := (hkeep q').2 b' h2
      exact ⟨q', b1, h1, h3⟩
    obtain ⟨root', hrun, hsome⟩ := ih (k + 1) { t with rootBlock := some root1 } root1 rfl
      hvalid1
    refine ⟨root', ?_, ?_⟩
    · simp only [ThreadInfo.closeRemaining, hclose, hrun]
    · intro p b0 hb0
      obtain ⟨b1, h1, -, -, h4, h5⟩ := (hkeep p).2 b0 hb0
      obtain ⟨b', g1, g2, g3⟩ := hsome p b1 h1
      refine ⟨b', g1, ?_, ?_⟩
      · have haeq : a = ⟨a.type, some q⟩ := by
          cases a
          simp only at ha
          subst ha
          rfl
        by_cases hpq : p = q
        · obtain ⟨e1, e2⟩ := h4 hpq
          have hg := ProfiledBlock.grown_endOn a.type (rs k) b0 b1 e1 e2
          have := ProfiledBlock.grown_trans b0 b1 b' _ _ _ _ hg g2
          rw [List.count_cons, List.count_cons]
          subst hpq
          rw [haeq]
          cases hty : a.type <;> rw [hty] at this <;> simpa using this
        · obtain ⟨e1, e2⟩ := h5 hpq
          have hg := ProfiledBlock.grown_of_eq b0 b1 e1 e2
          have := ProfiledBlock.grown_trans b0 b1 b' _ _ _ _ hg g2
          rw [List.count_cons, List.count_cons, haeq]
          have hne : ∀ ty ty', ((⟨ty, some q⟩ : ActiveBlock) == ⟨ty', some p⟩) = false := by
            intro ty ty'
            simp only [beq_eq_false_iff_ne, ne_eq, ActiveBlock.mk.injEq, Option.some.injEq,
              not_and]
            intro _ h
            exact hpq h.symm
          simpa [hne] using this
      · intro hno
        have hpq : p ≠ q := by
          intro h
          apply hno a (by simp)
          rw [ha, h]
        obtain ⟨e1, e2⟩ := h5 hpq
        obtain ⟨e3, e4⟩ := g3 (fun a' ha' => hno a' (List.mem_cons_of_mem _ ha'))
        exact ⟨by rw [e3, e1], by rw [e4, e2]⟩

/-- With the active block on top of the stack, `ThreadInfo::end` is the loop
over the whole stack followed by the three final assignments. -/
theorem ThreadInfo.endSampling_eq_loop (t : ThreadInfo) (rs : Nat → Reading)
    (rest : List ActiveBlock) (hstack : t.activeBlocks = t.activeBlock :: rest)
    (root' : ProfiledBlock)
    (hloop : ThreadInfo.closeRemaining rs t.activeBlocks 0 t
      = Except.ok { t with rootBlock := some root' }) :
    t.endSampling rs = Except.ok ⟨false, some root', ActiveBlock.null, []⟩ := by
  rw [hstack] at hloop
  simp only [ThreadInfo.closeRemaining] at hloop
  unfold ThreadInfo.endSampling
  cases hc : t.closeBlock t.activeBlock (rs 0) with
  | error e => rw [hc] at hloop; cases hloop
  | ok t1 =>
    rw [hc] at hloop
    simp only at hloop
    have hkeep : t1.activeBlocks = t.activeBlocks := by
      unfold ThreadInfo.closeBlock ThreadInfo.modifyBlock at hc
      split at hc <;> split at hc <;> first
        | cases hc
        | (split at hc
           · simp only [Except.ok.injEq] at hc
             rw [← hc]
           · cases hc)
    simp only [hkeep, hstack, zero_add, hloop]

theorem openStackExample_valid : StackValid openTreeExample openStackExample.activeBlocks := by
  intro a ha
  simp only [openStackExample, List.mem_cons, List.mem_singleton, List.not_mem_nil,
    or_false] at ha
  rcases ha with rfl | rfl | rfl
  · exact ⟨[0, 0], _, rfl, rfl⟩
  · exact ⟨[0], _, rfl, rfl⟩
  · exact ⟨[], _, rfl, rfl⟩

/-- With the active block on top of a stack of good pointers,
`ThreadInfo::end` returns, with the three final assignments done. -/
theorem ThreadInfo.endSampling_ok (t : ThreadInfo) (rs : Nat → Reading)
    (root : ProfiledBlock) (rest : List ActiveBlock)
    (hroot : t.rootBlock = some root)
    (hstack : t.activeBlocks = t.activeBlock :: rest)
    (hvalid : StackValid root t.activeBlocks) :
    ∃ root', t.endSampling rs = Except.ok ⟨false, some root', ActiveBlock.null, []⟩ ∧
      ThreadInfo.closeRemaining rs t.activeBlocks 0 t
        = Except.ok { t with rootBlock := some root' } := by
  obtain ⟨r1, h1, -, -⟩ :=
    ThreadInfo.closeRemaining_ok rs t.activeBlocks 0 t root hroot hvalid
  refine ⟨r1, ?_, h1⟩
  exact ThreadInfo.endSampling_eq_loop t rs rest hstack r1 h1

/-- C16: on a thread whose active block is the top entry of its stack and whose
stack entries all point to blocks of the tree, `ThreadInfo::end()` returns with
`isActive == false`, an empty stack and a null active block; the tree keeps its
shape; every block gets as many samples more, appended in the Basic and in the
Precise accumulator, as the stack has entries of that sampling type pointing to
it, so a block without an entry keeps its accumulators; and when the entries
point to different blocks, the block of the entry at depth `j` from the top is
closed by `endSample()` on the accumulator of the entry's type with the `j`-th
reading, the top entry first. -/
theorem end_closes_every_open_block (t : ThreadInfo) (rs : Nat → Reading)
    (root : ProfiledBlock) (rest : List ActiveBlock)
    (hroot : t.rootBlock = some root)
    (hstack : t.activeBlocks = t.activeBlock :: rest)
    (hvalid : StackValid root t.activeBlocks) :
    ∃ root', t.endSampling rs = Except.ok ⟨false, some root', ActiveBlock.null, []⟩ ∧
      (∀ p, root.getAt p = none → root'.getAt p = none) ∧
      ∀ (p : List Nat) (b : ProfiledBlock), root.getAt p = some b →
        ∃ b', root'.getAt p = some b' ∧ b'.name = b.name ∧
          b'.children.length = b.children.length ∧
          ProfiledBlock.Grown b b'
            (t.activeBlocks.count ⟨ActiveSamplingType.Basic, some p⟩)
            (t.activeBlocks.count ⟨ActiveSamplingType.Precise, some p⟩) ∧
          ((∀ a ∈ t.activeBlocks, a.block ≠ some p) →
            b'.basic = b.basic ∧ b'.precise = b.precise) ∧
          ((t.activeBlocks.map ActiveBlock.block).Nodup →
            ∀ (j : Nat) (a : ActiveBlock), t.activeBlocks[j]? = some a → a.block = some p →
              b'.basic = (ProfiledBlock.endOn a.type (rs j) b).basic ∧
              b'.precise = (ProfiledBlock.endOn a.type (rs j) b).precise) := by
  obtain ⟨r1, h1, hnone, hshape⟩ :=
    ThreadInfo.closeRemaining_ok rs t.activeBlocks 0 t root hroot hvalid
  obtain ⟨r2, h2, hcount⟩ :=
    ThreadInfo.closeRemaining_count rs t.activeBlocks 0 t root hroot hvalid
  have h21 : r2 = r1 := by
    rw [h1] at h2
    simp only [Except.ok.injEq, ThreadInfo.mk.injEq, Option.some.injEq, true_and,
      and_true] at h2
    exact h2.symm
  subst h21
  refine ⟨r2, ?_, hnone, ?_⟩
  · exact ThreadInfo.endSampling_eq_loop t rs rest hstack r2 h1
  · intro p b hb
    obtain ⟨b', g1, g2, g3⟩ := hshape p b hb
    obtain ⟨b2, c1, c2, c3⟩ := hcount p b hb
    have hb2 : b2 = b' := by
      rw [c1] at g1
      exact Option.some.inj g1
    subst hb2
    refine ⟨b2, c1, g2, g3, c2, c3, ?_⟩
    intro hnd j a hj ha
    obtain ⟨r3, h3, -, hspec⟩ :=
      ThreadInfo.closeRemaining_spec rs t.activeBlocks 0 t root hroot hvalid hnd
    have h32 : r3 = r2 := by
      rw [h1] at h3
      simp only [Except.ok.injEq, ThreadInfo.mk.injEq, Option.some.injEq, true_and,
        and_true] at h3
      exact h3.symm
    subst h32
    obtain ⟨b3, d1, -, -, -, d2⟩ := hspec p b hb
    have hb3 : b3 = b2 := by
      rw [c1] at d1
      exact (Option.some.inj d1).symm
    subst hb3
    have := d2 j a hj ha
    rw [Nat.zero_add] at this
    exact this

theorem end_closes_every_open_block_witness :
    StackValid openTreeExample openStackExample.activeBlocks ∧
    ∃ root', openStackExample.endSampling (fun k => ⟨k, k, 0, 0⟩)
      = Except.ok ⟨false, some root', ActiveBlock.null, []⟩ :=
  ⟨openStackExample_valid,
    (end_closes_every_open_block openStackExample (fun k => ⟨k, k, 0, 0⟩) openTreeExample
      [⟨ActiveSamplingType.Basic, some [0]⟩, ⟨ActiveSamplingType.Basic, some []⟩] rfl rfl
      openStackExample_valid).imp (fun _ h => h.1)⟩

/-- C18: on a thread that is inactive, with the empty stack and the null active
block that `ThreadInfo::end()` and the constructor leave, or that is active with
its active block on top of a stack of pointers to blocks of the tree,
`ThreadInfo::reset()` returns the state with `rootBlock == nullptr`,
`isActive == false`, an empty stack and a null active block; a second `reset()`
returns that state again, so resetting twice gives what resetting once gives;
and `ProfilerCPU::reset()` on a thread without `ThreadInfo` leaves it without
one. -/
theorem reset_clears_and_is_idempotent (t : ThreadInfo) (rs rs' : Nat → Reading)
    (h : (t.isActive = false ∧ t.activeBlocks = [] ∧ t.activeBlock = ActiveBlock.null) ∨
      (t.isActive = true ∧ ∃ (root : ProfiledBlock) (rest : List ActiveBlock),
        t.rootBlock = some root ∧ t.activeBlocks = t.activeBlock :: rest ∧
        StackValid root t.activeBlocks)) :
    t.reset rs = Except.ok ⟨false, none, ActiveBlock.null, []⟩ ∧
    (ThreadInfo.mk false none ActiveBlock.null []).reset rs'
      = Except.ok ⟨false, none, ActiveBlock.null, []⟩ ∧
    (t.reset rs >>= fun s => s.reset rs') = t.reset rs ∧
    ProfilerCPU.reset (some t) rs = Except.ok (some ⟨false, none, ActiveBlock.null, []⟩) ∧
    ProfilerCPU.reset none rs = Except.ok none := by
  have h2 : (ThreadInfo.mk false none ActiveBlock.null []).reset rs'
      = Except.ok ⟨false, none, ActiveBlock.null, []⟩ := rfl
  have h1 : t.reset rs = Except.ok ⟨false, none, ActiveBlock.null, []⟩ := by
    rcases h with ⟨ha, hs, hb⟩ | ⟨ha, root, rest, hroot, hstack, hvalid⟩
    · cases t
      simp only at ha hs hb
      subst ha hs hb
      rfl
    · obtain ⟨root', hend, -⟩ := ThreadInfo.endSampling_ok t rs root rest hroot hstack hvalid
      simp only [ThreadInfo.reset, ha, if_true, hend]
  refine ⟨h1, h2, ?_, ?_, rfl⟩
  · rw [h1]
    exact h2
  · simp only [ProfilerCPU.reset, h1]

theorem reset_clears_and_is_idempotent_witness :
    openStackExample.reset (fun k => ⟨k, k, 0, 0⟩)
      = Except.ok ⟨false, none, ActiveBlock.null, []⟩ :=
  (reset_clears_and_is_idempotent openStackExample (fun k => ⟨k, k, 0, 0⟩)
    (fun k => ⟨k, k, 0, 0⟩)
    (Or.inr ⟨rfl, openTreeExample, _, rfl, rfl, openStackExample_valid⟩)).1

/-- A write through a pointer changes the tree only. -/
theorem ThreadInfo.modifyBlock_fields (t t' : ThreadInfo) (ptr : Option (List Nat))
    (f : ProfiledBlock → ProfiledBlock) (h : t.modifyBlock ptr f = Except.ok t') :
    t'.isActive = t.isActive ∧ t'.activeBlock = t.activeBlock ∧
      t'.activeBlocks = t.activeBlocks := by
  unfold ThreadInfo.modifyBlock at h
  split at h
  · cases h
  · cases h
  · split at h
    · simp only [Except.ok.injEq] at h
      rw [← h]
      exact ⟨rfl, rfl, rfl⟩
    · cases h

theorem ProfilerCPU.popActive_isActive (t t' : ThreadInfo)
    (h : ProfilerCPU.popActive t = Except.ok t') : t'.isActive = t.isActive := by
  unfold ProfilerCPU.popActive at h
  split at h
  · cases h
  · split at h <;>
    · simp only [Except.ok.injEq] at h
      rw [← h]

theorem ProfilerCPU.openBlock_isActive (t t' : ThreadInfo) (type : ActiveSamplingType)
    (name : ProfilerString) (r : Reading)
    (h : ProfilerCPU.openBlock t type name r = Except.ok t') : t'.isActive = t.isActive := by
  simp only [ProfilerCPU.openBlock] at h
  split at h
  · cases h
  · split at h
    · cases h
    · rename_i t1 block hloc
      have h1 : t1.isActive = t.isActive := by
        split at hloc
        · simp only [Except.ok.injEq, Prod.mk.injEq] at hloc
          rw [← hloc.1]
        · split at hloc
          · cases hloc
          · split at hloc
            · rename_i t2 hm
              simp only [Except.ok.injEq, Prod.mk.injEq] at hloc
              rw [← hloc.1]
              exact (ThreadInfo.modifyBlock_fields _ _ _ _ hm).1
            · cases hloc
      split at h
      · rw [(ThreadInfo.modifyBlock_fields _ _ _ _ h).1]
        exact h1
      · rw [(ThreadInfo.modifyBlock_fields _ _ _ _ h).1]
        exact h1

theorem ThreadInfo.inactiveClean_of_active (t : ThreadInfo) (h : t.isActive = true) :
    t.InactiveClean := by
  intro h'
  rw [h] at h'
  cases h'

theorem ThreadInfo.inactiveClean_begin (t : ThreadInfo) (name : ProfilerString) (r : Reading)
    (h : t.InactiveClean) : (t.begin name r).InactiveClean ∧
      (t.isActive = false → (t.begin name r).isActive = true) := by
  unfold ThreadInfo.begin
  by_cases ha : t.isActive = true
  · rw [if_pos ha]
    exact ⟨h, fun h' => by rw [ha] at h'; cases h'⟩
  · rw [if_neg ha]
    exact ⟨ThreadInfo.inactiveClean_of_active _ rfl, fun _ => rfl⟩

theorem ThreadInfo.inactiveClean_endSampling (t t' : ThreadInfo) (rs : Nat → Reading)
    (h : t.endSampling rs = Except.ok t') :
    t'.isActive = false ∧ t'.activeBlocks = [] ∧ t'.activeBlock = ActiveBlock.null := by
  unfold ThreadInfo.endSampling at h
  split at h
  · cases h
  · split at h
    · cases h
    · split at h
      · cases h
      · simp only [Except.ok.injEq] at h
        rw [← h]
        exact ⟨rfl, rfl, rfl⟩

/-- Every call keeps an inactive thread with an empty stack and a null active
block. -/
theorem ProfilerCPU.call_inactiveClean (debug : Bool) (thread thread' : Option ThreadInfo)
    (c : Call) (hinv : ∀ t, thread = some t → t.InactiveClean)
    (hcall : ProfilerCPU.call debug thread c = Except.ok thread') :
    ∀ t, thread' = some t → t.InactiveClean := by
  have hnew : ThreadInfo.new.InactiveClean := fun _ => ⟨rfl, rfl⟩
  have hopen : ∀ (t0 t1 : ThreadInfo) (type : ActiveSamplingType) (name : ProfilerString)
      (r : Reading), t0.isActive = true → ProfilerCPU.openBlock t0 type name r = Except.ok t1 →
      t1.InactiveClean := by
    intro t0 t1 type name r h0 h1
    apply ThreadInfo.inactiveClean_of_active
    rw [ProfilerCPU.openBlock_isActive _ _ _ _ _ h1, h0]
  have hclose : ∀ (t0 t1 t2 : ThreadInfo) (f : ProfiledBlock → ProfiledBlock),
      t0.InactiveClean → t0.modifyBlock t0.activeBlock.block f = Except.ok t1 →
      ProfilerCPU.popActive t1 = Except.ok t2 → t2.InactiveClean := by
    intro t0 t1 t2 f h0 h1 h2 hin
    rw [ProfilerCPU.popActive_isActive _ _ h2, (ThreadInfo.modifyBlock_fields _ _ _ _ h1).1]
      at hin
    rw [(h0 hin).2] at h1
    cases h1
  intro t ht
  subst ht
  cases c with
  | beginThread name r =>
    simp only [ProfilerCPU.call, Except.ok.injEq] at hcall
    cases thread with
    | none =>
      simp only [ProfilerCPU.beginThread, Option.some.injEq] at hcall
      rw [← hcall]
      exact (ThreadInfo.inactiveClean_begin _ _ _ hnew).1
    | some t0 =>
      simp only [ProfilerCPU.beginThread, Option.some.injEq] at hcall
      rw [← hcall]
      exact (ThreadInfo.inactiveClean_begin _ _ _ (hinv t0 rfl)).1
  | endThread rs =>
    simp only [ProfilerCPU.call, ProfilerCPU.endThread] at hcall
    split at hcall
    · cases hcall
    · split at hcall
      · rename_i t0 t1 hend
        simp only [Except.ok.injEq, Option.some.injEq] at hcall
        rw [← hcall]
        intro _
        exact (ThreadInfo.inactiveClean_endSampling _ _ _ hend).2
      · cases hcall
  | beginSample name r0 r =>
    simp only [ProfilerCPU.call, ProfilerCPU.beginSample] at hcall
    split at hcall
    · cases hcall
    · rename_i t0 heq
      split at hcall
      · rename_i t1 hop
        simp only [Except.ok.injEq, Option.some.injEq] at hcall
        rw [← hcall]
        refine hopen t0 t1 _ _ _ ?_ hop
        cases thread with
        | none =>
          simp only [ProfilerCPU.beginThread, Option.some.injEq] at heq
          rw [← heq]
          rfl
        | some t2 =>
          simp only at heq
          by_cases ha : t2.isActive = true
          · simp only [ha, Bool.not_true, Bool.false_eq_true, if_false,
              Option.some.injEq] at heq
            rw [← heq]
            exact ha
          · simp only [Bool.not_eq_true] at ha
            simp only [ha, Bool.not_false, if_true, ProfilerCPU.beginThread,
              Option.some.injEq] at heq
            rw [← heq]
            exact (ThreadInfo.inactiveClean_begin _ _ _ (hinv t2 rfl)).2 ha
      · cases hcall
  | beginSamplePrecise name r0 r =>
    simp only [ProfilerCPU.call, ProfilerCPU.beginSamplePrecise] at hcall
    split at hcall
    · cases hcall
    · rename_i t0
      split at hcall
      · rename_i t1 hop
        simp only [Except.ok.injEq, Option.some.injEq] at hcall
        rw [← hcall]
        refine hopen _ t1 _ _ _ ?_ hop
        by_cases ha : t0.isActive = true
        · simp only [ha, Bool.not_true, Bool.false_eq_true, if_false]
        · simp only [Bool.not_eq_true] at ha
          simp only [ha, Bool.not_false, if_true]
          exact (ThreadInfo.inactiveClean_begin _ _ _ (hinv t0 rfl)).2 ha
      · cases hcall
  | endSample name r =>
    simp only [ProfilerCPU.call, ProfilerCPU.endSample] at hcall
    split at hcall
    · cases hcall
    · rename_i t0
      split at hcall
      · cases hcall; exact hinv _ rfl
      · split at hcall
        · cases hcall; exact hinv _ rfl
        · split at hcall
          · cases hcall
          · split at hcall
            · cases hcall; exact hinv _ rfl
            · split at hcall
              · cases hcall
              · rename_i t1 hm
                split at hcall
                · rename_i t2 hp
                  simp only [Except.ok.injEq, Option.some.injEq] at hcall
                  rw [← hcall]
                  exact hclose t0 t1 t2 _ (hinv t0 rfl) hm hp
                · cases hcall
  | endSamplePrecise name r =>
    simp only [ProfilerCPU.call, ProfilerCPU.endSamplePrecise] at hcall
    split at hcall
    · cases hcall
    · rename_i t0
      split at hcall
      · cases hcall; exact hinv _ rfl
      · split at hcall
        · cases hcall; exact hinv _ rfl
        · split at hcall
          · cases hcall
          · split at hcall
            · cases hcall; exact hinv _ rfl
            · split at hcall
              · cases hcall
              · rename_i t1 hm
                split at hcall
                · rename_i t2 hp
                  simp only [Except.ok.injEq, Option.some.injEq] at hcall
                  rw [← hcall]
                  exact hclose t0 t1 t2 _ (hinv t0 rfl) hm hp
                · cases hcall
  | reset rs =>
    simp only [ProfilerCPU.call, ProfilerCPU.reset] at hcall
    split at hcall
    · cases hcall
    · rename_i t0
      split at hcall
      · rename_i t1 hr
        simp only [Except.ok.injEq, Option.some.injEq] at hcall
        rw [← hcall]
        unfold ThreadInfo.reset at hr
        split at hr
        · cases hr
        · rename_i t2 hif
          simp only [Except.ok.injEq] at hr
          rw [← hr]
          by_cases ha : t0.isActive = true
          · rw [if_pos ha] at hif
            intro _
            exact (ThreadInfo.inactiveClean_endSampling _ _ _ hif).2
          · rw [if_neg ha] at hif
            simp only [Except.ok.injEq] at hif
            rw [← hif]
            exact hinv t0 rfl
      · cases hcall

/-- Every thread state that a sequence of calls reaches from a thread without
`ThreadInfo` has, when inactive, an empty stack and a null active block. -/
theorem ProfilerCPU.run_inactiveClean (debug : Bool) (calls : List Call) :
    ∀ (thread thread' : Option ThreadInfo), (∀ t, thread = some t → t.InactiveClean) →
      ProfilerCPU.run debug thread calls = Except.ok thread' →
      ∀ t, thread' = some t → t.InactiveClean := by
  induction calls with
  | nil =>
    intro thread thread' hinv hrun
    simp only [ProfilerCPU.run, Except.ok.injEq] at hrun
    rw [← hrun]
    exact hinv
  | cons c rest ih =>
    intro thread thread' hinv hrun
    simp only [ProfilerCPU.run] at hrun
    split at hrun
    · rename_i thread1 hc
      exact ih thread1 thread' (ProfilerCPU.call_inactiveClean debug thread thread1 c hinv hc) hrun
    · cases hrun

theorem beginSample_reuses_or_appends_witness :
    OpensChild rootOpenExample ActiveSamplingType.Basic "A" ⟨1, 1, 0, 0⟩ openTreeExample
      openTreeExample []
      (ProfilerCPU.beginSample (some rootOpenExample) "A" ⟨0, 0, 0, 0⟩ ⟨1, 1, 0, 0⟩) ∧
    OpensChild rootOpenExample ActiveSamplingType.Precise "A" ⟨1, 1, 0, 0⟩ openTreeExample
      openTreeExample []
      (ProfilerCPU.beginSamplePrecise (some rootOpenExample) "A" ⟨0, 0, 0, 0⟩ ⟨1, 1, 0, 0⟩) :=
  beginSample_reuses_or_appends rootOpenExample "A" ⟨0, 0, 0, 0⟩ ⟨1, 1, 0, 0⟩ openTreeExample
    openTreeExample [] rfl rfl rfl rfl

theorem basic_and_precise_share_block_witness :
    ∃ root', ProfilerCPU.run true (some rootOpenExample)
        [Call.beginSample "A" ⟨0, 0, 0, 0⟩ ⟨1, 1, 0, 0⟩, Call.endSample "A" ⟨2, 2, 0, 0⟩,
          Call.beginSamplePrecise "A" ⟨2, 2, 0, 0⟩ ⟨3, 3, 0, 0⟩,
          Call.endSamplePrecise "A" ⟨4, 4, 0, 0⟩]
      = Except.ok (some ⟨true, some root', ⟨ActiveSamplingType.Basic, some []⟩,
          [⟨ActiveSamplingType.Basic, some []⟩]⟩) :=
  let ⟨root', _, _, _, _, h, _⟩ := basic_and_precise_share_block true openTreeExample
    openTreeExample [] ⟨ActiveSamplingType.Basic, some []⟩ [] "A" ⟨0, 0, 0, 0⟩ ⟨1, 1, 0, 0⟩
    ⟨2, 2, 0, 0⟩ ⟨2, 2, 0, 0⟩ ⟨3, 3, 0, 0⟩ ⟨4, 4, 0, 0⟩ rfl rfl
  ⟨root', h⟩

theorem ProfiledBlock.overheadCyclesList_eq_sum (pc : ProfilerCPU) (cs : List ProfiledBlock) :
    ProfiledBlock.overheadCyclesList pc cs = (cs.map (ProfiledBlock.overheadCycles pc)).sum := by
  induction cs with
  | nil => rfl
  | cons c cs ih => simp only [ProfiledBlock.overheadCyclesList, ih, List.map_cons, List.sum_cons]

theorem ProfiledBlock.overheadCycles_eq (pc : ProfilerCPU) (b : ProfiledBlock) :
    b.overheadCycles pc
      = b.precise.samples.length * pc.mPreciseSamplingOverheadCycles
        + b.basic.samples.length * pc.mBasicSamplingOverheadCycles
        + (b.children.map (ProfiledBlock.overheadCycles pc)).sum := by
  cases b
  simp only [ProfiledBlock.overheadCycles, ProfiledBlock.overheadCyclesList_eq_sum,
    ProfiledBlock.precise, ProfiledBlock.basic, ProfiledBlock.children]

theorem preciseOwnStats_estimatedOverhead (b : ProfiledBlock) (e : PreciseData) :
    (preciseOwnStats b e).estimatedOverhead = e.estimatedOverhead := by
  unfold preciseOwnStats
  simp only
  split <;> simp only [(foldl_precise_frame _ _).2.2.2]

theorem preciseFinish_estimatedOverhead (pc : ProfilerCPU) (b : ProfiledBlock) (t : Nat)
    (e : PreciseData) :
    (preciseFinish pc b t e).estimatedOverhead
      = add64 (add64 e.estimatedOverhead
          (mul64 b.precise.samples.length pc.mPreciseSamplingOverheadCycles))
        (mul64 b.basic.samples.length pc.mBasicSamplingOverheadCycles) := by
  unfold preciseFinish
  simp only
  split <;> rfl

theorem preciseAggregated_estimatedOverhead (pc : ProfilerCPU) (b : ProfiledBlock)
    (ch : List Nat) (entries : List PreciseData) (e0 : PreciseData) :
    (preciseAggregated pc b ch entries e0).estimatedOverhead % 2 ^ 64
      = (e0.estimatedOverhead
          + (ch.map (fun c => (entries.getD c default).estimatedOverhead)).sum
          + b.precise.samples.length * pc.mPreciseSamplingOverheadCycles
          + b.basic.samples.length * pc.mBasicSamplingOverheadCycles) % 2 ^ 64 := by
  unfold preciseAggregated
  rw [preciseFinish_estimatedOverhead, PreciseData.setOverhead_estimatedOverhead,
    preciseOwnStats_estimatedOverhead]
  have h := foldl_add64_mod (fun c => (entries.getD c default).estimatedOverhead) ch
    e0.estimatedOverhead
  unfold preciseChildOverhead
  simp only [add64, mul64] at h ⊢
  omega

theorem preciseAggregated_estimatedOverhead_lt (pc : ProfilerCPU) (b : ProfiledBlock)
    (ch : List Nat) (entries : List PreciseData) (e0 : PreciseData) :
    (preciseAggregated pc b ch entries e0).estimatedOverhead < 2 ^ 64 := by
  unfold preciseAggregated
  rw [preciseFinish_estimatedOverhead]
  exact Nat.mod_lt _ (by norm_num)

/-- Sums over the child indexes of an entry and over the children of its
block agree, modulo `M`, when they agree child by child. -/
theorem sum_childIndexes_mod (flat : List TempEntry) (M : Nat) (f : Nat → Nat)
    (g : ProfiledBlock → Nat) :
    ∀ (ch : List Nat) (cs : List ProfiledBlock), ch.map (blockAt flat) = cs.map some →
      (∀ c ∈ ch, ∀ bc, blockAt flat c = some bc → f c % M = g bc % M) →
      (ch.map f).sum % M = (cs.map g).sum % M := by
  intro ch
  induction ch with
  | nil =>
    intro cs hmap _
    cases cs with
    | nil => rfl
    | cons c cs => simp at hmap
  | cons c ch ih =>
    intro cs hmap hall
    cases cs with
    | nil => simp at hmap
    | cons bc cs =>
      simp only [List.map_cons, List.cons.injEq] at hmap
      have h1 := hall c (by simp) bc hmap.1
      have h2 := ih cs hmap.2 (fun c' hc' => hall c' (List.mem_cons_of_mem _ hc'))
      simp only [List.map_cons, List.sum_cons]
      rw [Nat.add_mod, h1, h2, ← Nat.add_mod]

/-- The `estimatedOverhead` of every entry of the aggregated hierarchy. -/
theorem aggregate_estimatedOverhead (pc : ProfilerCPU) (rootBlock : ProfiledBlock)
    (flat : List TempEntry) (hok : FlatOK rootBlock flat) :
    ∀ (n i : Nat), flat.length - i ≤ n → ∀ b, blockAt flat i = some b →
      ∃ dp, (aggregatePrecise pc flat)[i]? = some dp ∧
        dp.estimatedOverhead = b.overheadCycles pc % 2 ^ 64 := by
  have hinv := aggregatePrecise_inv pc rootBlock flat hok
  intro n
  induction n with
  | zero =>
    intro i hi b hb
    unfold blockAt at hb
    rw [List.getElem?_eq_none (by omega)] at hb
    cases hb
  | succ n ih =>
    intro i hi b hb
    have hb' := hb
    unfold blockAt at hb'
    cases he : flat[i]? with
    | none => rw [he] at hb'; cases hb'
    | some e =>
      rw [he] at hb'
      change e.parentBlock = some b at hb'
      obtain ⟨d, hd, hcore⟩ := hinv.core i e b (Nat.zero_le _) he hb'
      refine ⟨d, hd, ?_⟩
      have hest : d.estimatedOverhead
          = (preciseAggregated pc b e.childIndexes (aggregatePrecise pc flat)
              default).estimatedOverhead := by
        have := congrArg PreciseData.estimatedOverhead hcore
        simpa [PreciseData.setPct] using this
      have hlt := preciseAggregated_estimatedOverhead_lt pc b e.childIndexes
        (aggregatePrecise pc flat) default
      have hmod := preciseAggregated_estimatedOverhead pc b e.childIndexes
        (aggregatePrecise pc flat) default
      have hsum := sum_childIndexes_mod flat (2 ^ 64)
        (fun c => ((aggregatePrecise pc flat).getD c default).estimatedOverhead)
        (ProfiledBlock.overheadCycles pc) e.childIndexes b.children
        (hok.expanded i e b he hb') (by
          intro c hc bc hbc
          obtain ⟨hic, -⟩ := hok.child_range i e c he hc
          obtain ⟨dc, hdc, hval⟩ := ih c (by omega) bc hbc
          simp only [List.getD_eq_getElem?_getD, hdc, Option.getD_some, hval, Nat.mod_mod])
      have hdef : (default : PreciseData).estimatedOverhead = 0 := rfl
      rw [hest, ProfiledBlock.overheadCycles_eq, ← Nat.mod_eq_of_lt hlt, hmod, hdef]
      omega

/-- C21: the flattening returns, and in the aggregated hierarchy the Precise
entry of every node has as `estimatedOverhead` the sum, over the block of the
node and all blocks below it in the raw tree, of the number of Precise samples
times `mPreciseSamplingOverheadCycles` plus the number of Basic samples times
`mBasicSamplingOverheadCycles`, modulo `2 ^ 64`; the Precise root entry of every
report that `generateReport` builds for the tree has that sum for the whole
tree. -/
theorem estimatedOverhead_covers_subtree (pc : ProfilerCPU) (rootBlock : ProfiledBlock) :
    ∃ flat, flatten rootBlock = Except.ok flat ∧
      (∀ (i : Nat) (b : ProfiledBlock), blockAt flat i = some b →
        ∃ dp, (aggregatePrecise pc flat)[i]? = some dp ∧
          dp.estimatedOverhead = b.overheadCycles pc % 2 ^ 64) ∧
      ∀ report, pc.reportOf rootBlock = Except.ok report →
        report.mPreciseSamplingRootEntry.data.estimatedOverhead
          = rootBlock.overheadCycles pc % 2 ^ 64 := by
  obtain ⟨flat, hflat, hok⟩ := flatten_ok rootBlock
  have hall := fun (i : Nat) (b : ProfiledBlock) (hb : blockAt flat i = some b) =>
    aggregate_estimatedOverhead pc rootBlock flat hok (flat.length - i) i (Nat.le_refl _) b hb
  refine ⟨flat, hflat, hall, ?_⟩
  intro report hreport
  obtain ⟨flat', hflat', -, -, hroot, -⟩ := reportOf_spec pc rootBlock report hreport
  rw [hflat] at hflat'
  cases hflat'
  obtain ⟨dp, hdp, hval⟩ := hall 0 rootBlock hok.root
  rw [hroot] at hdp
  cases hdp
  exact hval

/-- The four sums that the loop over the Precise samples of a block builds up,
and the fields it leaves alone. -/
theorem foldl_precise_sums (samples : List PreciseProfileSample) :
    ∀ e : PreciseData,
      let r := samples.foldl
        (fun (e : PreciseData) sample =>
          { e with totalCycles := add64 e.totalCycles sample.cycles
                   maxCycles := max e.maxCycles sample.cycles
                   memAllocs := add64 e.memAllocs sample.numAllocs
                   memFrees := add64 e.memFrees sample.numFrees }) e
      r.maxCycles = samples.foldl (fun a s => max a s.cycles) e.maxCycles ∧
      r.memAllocs = samples.foldl (fun a s => add64 a s.numAllocs) e.memAllocs ∧
      r.memFrees = samples.foldl (fun a s => add64 a s.numFrees) e.memFrees ∧
      r.avgCycles = e.avgCycles := by
  induction samples with
  | nil => intro e; exact ⟨rfl, rfl, rfl, rfl⟩
  | cons s samples ih =>
    intro e
    simp only [List.foldl_cons]
    exact ih _

theorem foldl_add64_eq_sum {α : Type} (f : α → Nat) (l : List α) :
    l.foldl (fun a c => add64 a (f c)) 0 = (l.map f).sum % 2 ^ 64 := by
  have h := foldl_add64_mod f l 0
  rw [Nat.zero_add] at h
  rw [← h]
  cases l with
  | nil => rfl
  | cons x l =>
    have : ∀ (l : List α) (acc : Nat), acc < 2 ^ 64 →
        l.foldl (fun a c => add64 a (f c)) acc < 2 ^ 64 := by
      intro l
      induction l with
      | nil => intro acc h; exact h
      | cons y l ih =>
        intro acc _
        rw [List.foldl_cons]
        exact ih _ (Nat.mod_lt _ (by norm_num))
    exact (Nat.mod_eq_of_lt (this _ 0 (by norm_num))).symm

/-- The value that the repeated `std::max` leaves: an upper bound of the
cycles of the samples that is the start value or one of them. -/
theorem foldl_max_spec (samples : List PreciseProfileSample) :
    ∀ acc : Nat,
      (∀ s ∈ samples, s.cycles ≤ samples.foldl (fun a s => max a s.cycles) acc) ∧
      acc ≤ samples.foldl (fun a s => max a s.cycles) acc ∧
      (samples.foldl (fun a s => max a s.cycles) acc = acc ∨
        ∃ s ∈ samples, samples.foldl (fun a s => max a s.cycles) acc = s.cycles) := by
  induction samples with
  | nil => intro acc; exact ⟨by simp, Nat.le_refl _, Or.inl rfl⟩
  | cons x samples ih =>
    intro acc
    rw [List.foldl_cons]
    obtain ⟨h1, h2, h3⟩ := ih (max acc x.cycles)
    refine ⟨?_, ?_, ?_⟩
    · intro s hs
      rcases List.mem_cons.1 hs with rfl | hs
      · exact Nat.le_trans (Nat.le_max_right _ _) h2
      · exact h1 s hs
    · exact Nat.le_trans (Nat.le_max_left _ _) h2
    · rcases h3 with h3 | ⟨s, hs, h3⟩
      · rcases Nat.le_total acc x.cycles with h | h
        · right
          exact ⟨x, by simp, by rw [h3, Nat.max_eq_right h]⟩
        · left
          rw [h3, Nat.max_eq_left h]
      · right
        exact ⟨s, List.mem_cons_of_mem _ hs, h3⟩

/-- The fields of the own statistics of a block in the Precise half. -/
theorem preciseOwnStats_sums (b : ProfiledBlock) (e : PreciseData) :
    (preciseOwnStats b e).maxCycles = b.precise.samples.foldl (fun a s => max a s.cycles) 0 ∧
    (preciseOwnStats b e).memAllocs = (b.precise.samples.map (fun s => s.numAllocs)).sum % 2 ^ 64 ∧
    (preciseOwnStats b e).memFrees = (b.precise.samples.map (fun s => s.numFrees)).sum % 2 ^ 64 ∧
    (preciseOwnStats b e).avgCycles
      = (if 0 < b.precise.samples.length % 2 ^ 32
          then preciseTotalCycles b / (b.precise.samples.length % 2 ^ 32) else e.avgCycles) := by
  have htot := preciseOwnStats_totalCycles b e
  unfold preciseOwnStats preciseTotalCycles at *
  simp only at htot ⊢
  split
  · rename_i hpos
    simp only [gt_iff_lt] at hpos
    simp only [hpos, if_true, (foldl_precise_sums _ _).1, (foldl_precise_sums _ _).2.1,
      (foldl_precise_sums _ _).2.2.1, foldl_add64_eq_sum, foldl_precise_totalCycles, true_and,
      and_self]
  · rename_i hpos
    simp only [gt_iff_lt] at hpos
    simp only [hpos, if_false, (foldl_precise_sums _ _).1, (foldl_precise_sums _ _).2.1,
      (foldl_precise_sums _ _).2.2.1, (foldl_precise_sums _ _).2.2.2, foldl_add64_eq_sum,
      and_self]

theorem preciseFinish_sums (pc : ProfilerCPU) (b : ProfiledBlock) (t : Nat) (e : PreciseData) :
    (preciseFinish pc b t e).maxCycles = e.maxCycles ∧
    (preciseFinish pc b t e).memAllocs = e.memAllocs ∧
    (preciseFinish pc b t e).memFrees = e.memFrees ∧
    (preciseFinish pc b t e).avgCycles = e.avgCycles := by
  unfold preciseFinish
  simp only
  split <;> exact ⟨rfl, rfl, rfl, rfl⟩

/-- The fields of the Precise entry of a block that come from its own
samples. -/
theorem preciseAggregated_sums (pc : ProfilerCPU) (b : ProfiledBlock) (ch : List Nat)
    (entries : List PreciseData) (e0 : PreciseData) :
    (preciseAggregated pc b ch entries e0).maxCycles
      = b.precise.samples.foldl (fun a s => max a s.cycles) 0 ∧
    (preciseAggregated pc b ch entries e0).memAllocs
      = (b.precise.samples.map (fun s => s.numAllocs)).sum % 2 ^ 64 ∧
    (preciseAggregated pc b ch entries e0).memFrees
      = (b.precise.samples.map (fun s => s.numFrees)).sum % 2 ^ 64 ∧
    (preciseAggregated pc b ch entries e0).avgCycles
      = (if 0 < b.precise.samples.length % 2 ^ 32
          then preciseTotalCycles b / (b.precise.samples.length % 2 ^ 32) else e0.avgCycles) := by
  obtain ⟨h1, h2, h3, h4⟩ := preciseOwnStats_sums b e0
  obtain ⟨g1, g2, g3, g4⟩ := preciseFinish_sums pc b (preciseChildTotal entries ch 0)
    ((preciseOwnStats b e0).setOverhead
      (preciseChildOverhead entries ch (preciseOwnStats b e0).estimatedOverhead))
  unfold preciseAggregated
  rw [g1, g2, g3, g4]
  exact ⟨h1, h2, h3, h4⟩

/-- The Precise entry of the node of a block in the aggregated hierarchy, by
the Precise samples of the block. -/
theorem aggregatePrecise_at (pc : ProfilerCPU) (rootBlock : ProfiledBlock)
    (flat : List TempEntry) (hok : FlatOK rootBlock flat) (i : Nat) (b : ProfiledBlock)
    (hb : blockAt flat i = some b) :
    ∃ dp, (aggregatePrecise pc flat)[i]? = some dp ∧
      dp.name = c_str b.name ∧
      dp.numCalls = b.precise.samples.length % 2 ^ 32 ∧
      dp.totalCycles = (b.precise.samples.map (fun s => s.cycles)).sum % 2 ^ 64 ∧
      dp.maxCycles = b.precise.samples.foldl (fun a s => max a s.cycles) 0 ∧
      dp.memAllocs = (b.precise.samples.map (fun s => s.numAllocs)).sum % 2 ^ 64 ∧
      dp.memFrees = (b.precise.samples.map (fun s => s.numFrees)).sum % 2 ^ 64 ∧
      dp.avgCycles = (if 0 < dp.numCalls then dp.totalCycles / dp.numCalls else 0) := by
  have hinv := aggregatePrecise_inv pc rootBlock flat hok
  have hb' := hb
  unfold blockAt at hb'
  cases he : flat[i]? with
  | none => rw [he] at hb'; cases hb'
  | some e =>
    rw [he] at hb'
    change e.parentBlock = some b at hb'
    obtain ⟨d, hd, hcore⟩ := hinv.core i e b (Nat.zero_le _) he hb'
    obtain ⟨h1, h2, h3, h4⟩ := preciseAggregated_sums pc b e.childIndexes
      (aggregatePrecise pc flat) default
    have hname := preciseAggregated_name pc b e.childIndexes (aggregatePrecise pc flat) default
    have hcalls := preciseAggregated_numCalls pc b e.childIndexes (aggregatePrecise pc flat)
      default
    have htotal := preciseAggregated_totalCycles pc b e.childIndexes (aggregatePrecise pc flat)
      default
    have e1 : d.name = (preciseAggregated pc b e.childIndexes (aggregatePrecise pc flat)
        default).name := by
      have h := congrArg PreciseData.name hcore
      exact h
    have e2 : d.numCalls = (preciseAggregated pc b e.childIndexes (aggregatePrecise pc flat)
        default).numCalls := by
      have h := congrArg PreciseData.numCalls hcore
      exact h
    have e3 : d.totalCycles = (preciseAggregated pc b e.childIndexes (aggregatePrecise pc flat)
        default).totalCycles := by
      have h := congrArg PreciseData.totalCycles hcore
      exact h
    have e4 : d.maxCycles = (preciseAggregated pc b e.childIndexes (aggregatePrecise pc flat)
        default).maxCycles := by
      have h := congrArg PreciseData.maxCycles hcore
      exact h
    have e5 : d.memAllocs = (preciseAggregated pc b e.childIndexes (aggregatePrecise pc flat)
        default).memAllocs := by
      have h := congrArg PreciseData.memAllocs hcore
      exact h
    have e6 : d.memFrees = (preciseAggregated pc b e.childIndexes (aggregatePrecise pc flat)
        default).memFrees := by
      have h := congrArg PreciseData.memFrees hcore
      exact h
    have e7 : d.avgCycles = (preciseAggregated pc b e.childIndexes (aggregatePrecise pc flat)
        default).avgCycles := by
      have h := congrArg PreciseData.avgCycles hcore
      exact h
    have htot : preciseTotalCycles b = (b.precise.samples.map (fun s => s.cycles)).sum % 2 ^ 64 :=
      foldl_add64_eq_sum (fun s : PreciseProfileSample => s.cycles) b.precise.samples
    have hdef : (default : PreciseData).avgCycles = 0 := rfl
    refine ⟨d, hd, ?_, ?_, ?_, ?_, ?_, ?_, ?_⟩
    · rw [e1, hname]
    · rw [e2, hcalls]
    · rw [e3, htotal, htot]
    · rw [e4, h1]
    · rw [e5, h2]
    · rw [e6, h3]
    · rw [e7, h4, e2, hcalls, e3, htotal, hdef]

/-- C22, as amended: the flattening returns, and for every block the Precise
entry of its node in the aggregated hierarchy has the name of the block up to
its first NUL character (the name itself when it holds none), `numCalls` = the
number of its Precise samples modulo `2 ^ 32` (the number itself below `2 ^ 32`
samples), `totalCycles`, `memAllocs` and `memFrees` = the sums of
the samples' cycles, `numAllocs` and `numFrees` modulo `2 ^ 64`, `maxCycles` = the
largest cycles of a sample (0 without samples), and `avgCycles` =
`totalCycles / numCalls` when `numCalls > 0` and 0 if not.  The values are given
by the name and the Precise samples of the block alone. -/
theorem precise_entry_of_precise_samples (pc : ProfilerCPU) (rootBlock : ProfiledBlock) :
    ∃ flat, flatten rootBlock = Except.ok flat ∧
      ∀ (i : Nat) (b : ProfiledBlock), blockAt flat i = some b →
        ∃ dp, (aggregatePrecise pc flat)[i]? = some dp ∧
          dp.name = c_str b.name ∧
          (Char.ofNat 0 ∉ b.name.data → dp.name = b.name) ∧
          dp.numCalls = b.precise.samples.length % 2 ^ 32 ∧
          (b.precise.samples.length < 2 ^ 32 → dp.numCalls = b.precise.samples.length) ∧
          dp.totalCycles = (b.precise.samples.map (fun s => s.cycles)).sum % 2 ^ 64 ∧
          (∀ s ∈ b.precise.samples, s.cycles ≤ dp.maxCycles) ∧
          (b.precise.samples = [] → dp.maxCycles = 0) ∧
          (b.precise.samples ≠ [] → ∃ s ∈ b.precise.samples, dp.maxCycles = s.cycles) ∧
          dp.memAllocs = (b.precise.samples.map (fun s => s.numAllocs)).sum % 2 ^ 64 ∧
          dp.memFrees = (b.precise.samples.map (fun s => s.numFrees)).sum % 2 ^ 64 ∧
          dp.avgCycles = (if 0 < dp.numCalls then dp.totalCycles / dp.numCalls else 0) := by
  obtain ⟨flat, hflat, hok⟩ := flatten_ok rootBlock
  refine ⟨flat, hflat, ?_⟩
  intro i b hb
  obtain ⟨dp, hdp, h1, h2, h3, h4, h5, h6, h7⟩ := aggregatePrecise_at pc rootBlock flat hok i b hb
  obtain ⟨m1, -, m3⟩ := foldl_max_spec b.precise.samples 0
  refine ⟨dp, hdp, h1, ?_, h2, ?_, h3, ?_, ?_, ?_, h5, h6, h7⟩
  · intro hnul
    rw [h1, c_str_of_not_mem _ hnul]
  · intro hlt
    rw [h2, Nat.mod_eq_of_lt hlt]
  · intro s hs
    rw [h4]
    exact m1 s hs
  · intro hnil
    rw [h4, hnil]
    rfl
  · intro hne
    rw [h4]
    rcases m3 with m3 | m3
    · cases hs : b.precise.samples with
      | nil => exact absurd hs hne
      | cons x xs =>
        have hx := m1 x (by rw [hs]; simp)
        rw [m3] at hx
        refine ⟨x, by simp, ?_⟩
        rw [← hs, m3]
        omega
    · exact m3

theorem precisePairs_first :
    ProfilerCPU.run true none
      [Call.beginThread "Main" ⟨0, 0, 0, 0⟩, Call.beginSamplePrecise "A" ⟨0, 0, 0, 0⟩ ⟨0, 0, 0, 0⟩,
        Call.endSamplePrecise "A" ⟨0, 0, 0, 0⟩]
      = Except.ok (some (preciseLoopState [⟨0, 0, 0⟩])) := by
  simp [ProfilerCPU.run, ProfilerCPU.call, ProfilerCPU.beginThread, ThreadInfo.begin,
    ThreadInfo.new, ProfilerCPU.beginSamplePrecise,
    ProfilerCPU.endSamplePrecise, ProfilerCPU.openBlock, ThreadInfo.readBlock,
    ThreadInfo.modifyBlock, ProfiledBlock.getAt, ProfiledBlock.modifyAt, ProfiledBlock.findChild,
    ProfiledBlock.findChildFrom, ProfiledBlock.new, ProfiledBlock.setName, ProfiledBlock.setBasic,
    ProfiledBlock.setPrecise, ProfiledBlock.setChildren, ProfiledBlock.children,
    ProfiledBlock.name, ProfiledBlock.basic, ProfiledBlock.precise,
    ProfilerCPU.popActive, ActiveBlock.null, ProfileData.beginSample,
    ProfileData.new, PreciseProfileData.beginSample, PreciseProfileData.endSample,
    PreciseProfileData.new, TimerPrecise.new, TimerPrecise.reset, TimerPrecise.start,
    TimerPrecise.stop, add64, sub64, preciseLoopState, preciseLoopTree]

theorem precisePairs_step (l : List PreciseProfileSample) :
    ProfilerCPU.run true (some (preciseLoopState l))
      [Call.beginSamplePrecise "A" ⟨0, 0, 0, 0⟩ ⟨0, 0, 0, 0⟩,
        Call.endSamplePrecise "A" ⟨0, 0, 0, 0⟩]
      = Except.ok (some (preciseLoopState (l ++ [⟨0, 0, 0⟩]))) := by
  simp [ProfilerCPU.run, ProfilerCPU.call, ProfilerCPU.beginThread, ThreadInfo.begin,
    ThreadInfo.new, ProfilerCPU.beginSamplePrecise,
    ProfilerCPU.endSamplePrecise, ProfilerCPU.openBlock, ThreadInfo.readBlock,
    ThreadInfo.modifyBlock, ProfiledBlock.getAt, ProfiledBlock.modifyAt, ProfiledBlock.findChild,
    ProfiledBlock.findChildFrom, ProfiledBlock.new, ProfiledBlock.setName, ProfiledBlock.setBasic,
    ProfiledBlock.setPrecise, ProfiledBlock.setChildren, ProfiledBlock.children,
    ProfiledBlock.name, ProfiledBlock.basic, ProfiledBlock.precise,
    ProfilerCPU.popActive, ActiveBlock.null, ProfileData.beginSample,
    ProfileData.new, PreciseProfileData.beginSample, PreciseProfileData.endSample,
    PreciseProfileData.new, TimerPrecise.new, TimerPrecise.reset, TimerPrecise.start,
    TimerPrecise.stop, add64, sub64, preciseLoopState, preciseLoopTree]

theorem run_precisePairs (n : Nat) : ∀ (l : List PreciseProfileSample),
    ProfilerCPU.run true (some (preciseLoopState l)) (precisePairs "A" n)
      = Except.ok (some (preciseLoopState (l ++ List.replicate n ⟨0, 0, 0⟩))) := by
  induction n with
  | zero => intro l; simp [precisePairs, ProfilerCPU.run]
  | succ n ih =>
    intro l
    have e : precisePairs "A" (n + 1)
        = [Call.beginSamplePrecise "A" ⟨0, 0, 0, 0⟩ ⟨0, 0, 0, 0⟩,
            Call.endSamplePrecise "A" ⟨0, 0, 0, 0⟩] ++ precisePairs "A" n := rfl
    rw [e, ProfilerCPU.run_append, precisePairs_step]
    simp only
    rw [ih, List.append_assoc, List.replicate_succ]
    rfl

theorem precisePairs_end (l : List PreciseProfileSample) :
    ProfilerCPU.run true (some (preciseLoopState l)) [Call.endThread (fun _ => ⟨0, 0, 0, 0⟩)]
      = Except.ok (some ⟨false,
          some (preciseLoopTree ((ProfileData.new.beginSample ⟨0, 0, 0, 0⟩).endSample ⟨0, 0, 0, 0⟩) l),
          ActiveBlock.null, []⟩) := by
  simp [ProfilerCPU.run, ProfilerCPU.call, ProfilerCPU.endThread, ThreadInfo.endSampling,
    ThreadInfo.closeBlock, ThreadInfo.closeRemaining, ThreadInfo.modifyBlock,
    ProfiledBlock.modifyAt, preciseLoopState, preciseLoopTree, ProfiledBlock.endOn,
    ProfiledBlock.setBasic, ActiveBlock.null, ProfiledBlock.basic, ProfiledBlock.name,
    ProfiledBlock.precise, ProfiledBlock.children]

/-- The calls `beginThread("Main")`, `n + 1` pairs of Precise calls "A" and
`endThread` leave the root "Main" with one Basic sample and the one child "A" with `n + 1`
Precise samples. -/
theorem run_precise_thread (n : Nat) :
    ProfilerCPU.run true none
      (Call.beginThread "Main" ⟨0, 0, 0, 0⟩
        :: (precisePairs "A" (n + 1) ++ [Call.endThread (fun _ => ⟨0, 0, 0, 0⟩)]))
      = Except.ok (some ⟨false,
          some (preciseLoopTree ((ProfileData.new.beginSample ⟨0, 0, 0, 0⟩).endSample ⟨0, 0, 0, 0⟩)
            (List.replicate (n + 1) ⟨0, 0, 0⟩)),
          ActiveBlock.null, []⟩) := by
  have e : Call.beginThread "Main" ⟨0, 0, 0, 0⟩
        :: (precisePairs "A" (n + 1) ++ [Call.endThread (fun _ => ⟨0, 0, 0, 0⟩)])
      = [Call.beginThread "Main" ⟨0, 0, 0, 0⟩,
          Call.beginSamplePrecise "A" ⟨0, 0, 0, 0⟩ ⟨0, 0, 0, 0⟩,
          Call.endSamplePrecise "A" ⟨0, 0, 0, 0⟩]
        ++ (precisePairs "A" n ++ [Call.endThread (fun _ => ⟨0, 0, 0, 0⟩)]) := rfl
  rw [e, ProfilerCPU.run_append, precisePairs_first]
  simp only
  rw [ProfilerCPU.run_append, run_precisePairs]
  simp only
  rw [precisePairs_end]
  rfl


theorem flatten_preciseLoopTree (basic : ProfileData) (l : List PreciseProfileSample) :
    flatten (preciseLoopTree basic l)
      = Except.ok [⟨some (preciseLoopTree basic l), 0, [1]⟩,
          ⟨some (ProfiledBlock.mk "A" ProfileData.new ⟨l, ⟨0, 0⟩, 0, 0⟩ []), 1, []⟩] := rfl

/-- The calls `beginThread("Main")`, then `n > 0` times `beginSamplePrecise("A");
endSamplePrecise("A")`, then `endThread`, with `n` a multiple of `2 ^ 32`: the
block "A" below the root holds `n` Precise samples, and the `numCalls` of its
Precise entry in the aggregated hierarchy is 0. -/
theorem preciseNumCalls_wraps (n : Nat) (hpos : 0 < n) (hmod : n % 2 ^ 32 = 0) :
    ∃ (t : ThreadInfo) (root a : ProfiledBlock) (flat : List TempEntry) (dp : PreciseData),
      ProfilerCPU.run true none
          (Call.beginThread "Main" ⟨0, 0, 0, 0⟩
            :: (precisePairs "A" n ++ [Call.endThread (fun _ => ⟨0, 0, 0, 0⟩)]))
        = Except.ok (some t) ∧
      t.rootBlock = some root ∧ root.children = [a] ∧ a.precise.samples.length = n ∧
      flatten root = Except.ok flat ∧ blockAt flat 1 = some a ∧
      (aggregatePrecise ⟨0, 0, 0, 0, 0, 0⟩ flat)[1]? = some dp ∧ dp.numCalls = 0 := by
  obtain ⟨m, rfl⟩ : ∃ m, n = m + 1 := ⟨n - 1, by omega⟩
  obtain ⟨flat, hflat, hok⟩ := flatten_ok (preciseLoopTree
    ((ProfileData.new.beginSample ⟨0, 0, 0, 0⟩).endSample ⟨0, 0, 0, 0⟩)
    (List.replicate (m + 1) ⟨0, 0, 0⟩))
  have hb : blockAt flat 1 = some (ProfiledBlock.mk "A" ProfileData.new
      ⟨List.replicate (m + 1) ⟨0, 0, 0⟩, ⟨0, 0⟩, 0, 0⟩ []) := by
    rw [flatten_preciseLoopTree] at hflat
    cases hflat
    rfl
  obtain ⟨dp, hdp, -, h2, -⟩ := aggregatePrecise_at ⟨0, 0, 0, 0, 0, 0⟩ _ flat hok 1 _ hb
  have hlen : (ProfiledBlock.mk "A" ProfileData.new
      ⟨List.replicate (m + 1) ⟨0, 0, 0⟩, ⟨0, 0⟩, 0, 0⟩ []).precise.samples.length = m + 1 := by
    simp only [ProfiledBlock.precise, List.length_replicate]
  refine ⟨_, _, _, flat, dp, run_precise_thread m, rfl, rfl, hlen, hflat, hb, hdp, ?_⟩
  rw [h2, hlen, hmod]

/-- C22, counterexample: `beginThread("Main")`, then 2^32 times
`beginSamplePrecise("A"); endSamplePrecise("A")`, then `endThread`: the block
"A" holds 2^32 Precise samples, and the `UINT32` field `numCalls` of its Precise
entry is 0, not the number of samples. -/
theorem preciseNumCalls_wraps_counterexample :
    ∃ (t : ThreadInfo) (root a : ProfiledBlock) (flat : List TempEntry) (dp : PreciseData),
      ProfilerCPU.run true none
          (Call.beginThread "Main" ⟨0, 0, 0, 0⟩
            :: (precisePairs "A" (2 ^ 32) ++ [Call.endThread (fun _ => ⟨0, 0, 0, 0⟩)]))
        = Except.ok (some t) ∧
      t.rootBlock = some root ∧ root.children = [a] ∧ a.precise.samples.length = 2 ^ 32 ∧
      flatten root = Except.ok flat ∧ blockAt flat 1 = some a ∧
      (aggregatePrecise ⟨0, 0, 0, 0, 0, 0⟩ flat)[1]? = some dp ∧ dp.numCalls = 0 :=
  preciseNumCalls_wraps (2 ^ 32) (Nat.pos_pow_of_pos 32 (Nat.succ_pos 1)) (Nat.mod_self (2 ^ 32))

theorem flatIndexFrom_append (flat : List TempEntry) (p q : List Nat) :
    ∀ i, flatIndexFrom flat i (p ++ q)
      = (flatIndexFrom flat i p).bind (fun k => flatIndexFrom flat k q) := by
  induction p with
  | nil => intro i; rfl
  | cons j p ih =>
    intro i
    simp only [List.cons_append, flatIndexFrom]
    cases flat[i]? with
    | none => rfl
    | some e =>
      simp only
      cases e.childIndexes[j]? with
      | none => rfl
      | some c => exact ih c

theorem flatIndexFrom_snoc (flat : List TempEntry) (p : List Nat) (j i k : Nat)
    (h : flatIndexFrom flat i (p ++ [j]) = some k) :
    ∃ m e, flatIndexFrom flat i p = some m ∧ flat[m]? = some e ∧ e.childIndexes[j]? = some k := by
  rw [flatIndexFrom_append] at h
  cases hm : flatIndexFrom flat i p with
  | none => rw [hm] at h; cases h
  | some m =>
    rw [hm] at h
    simp only [Option.some_bind, flatIndexFrom] at h
    cases he : flat[m]? with
    | none => rw [he] at h; cases h
    | some e =>
      rw [he] at h
      simp only at h
      cases hc : e.childIndexes[j]? with
      | none => rw [hc] at h; cases h
      | some c =>
        rw [hc] at h
        simp only [Option.some.injEq] at h
        subst h
        exact ⟨m, e, rfl, he, hc⟩

/-- The block at the position that `flatIndexFrom` gives is the block that the
pointer designates. -/
theorem flatIndexFrom_of_getAt {rootBlock : ProfiledBlock} {flat : List TempEntry}
    (hok : FlatOK rootBlock flat) (p : List Nat) :
    ∀ (i : Nat) (b b' : ProfiledBlock), blockAt flat i = some b → b.getAt p = some b' →
      ∃ k, flatIndexFrom flat i p = some k ∧ blockAt flat k = some b' := by
  induction p with
  | nil =>
    intro i b b' hb hget
    simp only [ProfiledBlock.getAt, Option.some.injEq] at hget
    subst hget
    exact ⟨i, rfl, hb⟩
  | cons j p ih =>
    intro i b b' hb hget
    have hb1 := hb
    unfold blockAt at hb1
    cases he : flat[i]? with
    | none => rw [he] at hb1; cases hb1
    | some e =>
      rw [he] at hb1
      change e.parentBlock = some b at hb1
      simp only [ProfiledBlock.getAt] at hget
      cases hc : b.children[j]? with
      | none => rw [hc] at hget; cases hget
      | some c =>
        rw [hc] at hget
        simp only at hget
        have hexp := hok.expanded i e b he hb1
        have hj := congrArg (fun l => l[j]?) hexp
        simp only [List.getElem?_map, hc, Option.map_some'] at hj
        cases hci : e.childIndexes[j]? with
        | none => rw [hci] at hj; cases hj
        | some ci =>
          rw [hci] at hj
          simp only [Option.map_some', Option.some.injEq] at hj
          obtain ⟨k, hk, hbk⟩ := ih ci c b' hj hget
          refine ⟨k, ?_, hbk⟩
          simp only [flatIndexFrom, he, hci, hk]

/-- A position that `flatIndexFrom` gives is the position of a block of the
tree. -/
theorem getAt_of_flatIndexFrom {rootBlock : ProfiledBlock} {flat : List TempEntry}
    (hok : FlatOK rootBlock flat) (p : List Nat) :
    ∀ (i k : Nat) (b : ProfiledBlock), blockAt flat i = some b →
      flatIndexFrom flat i p = some k →
      ∃ b', b.getAt p = some b' ∧ blockAt flat k = some b' := by
  induction p with
  | nil =>
    intro i k b hb hk
    simp only [flatIndexFrom, Option.some.injEq] at hk
    subst hk
    exact ⟨b, rfl, hb⟩
  | cons j p ih =>
    intro i k b hb hk
    have hb1 := hb
    unfold blockAt at hb1
    cases he : flat[i]? with
    | none => rw [he] at hb1; cases hb1
    | some e =>
      rw [he] at hb1
      change e.parentBlock = some b at hb1
      simp only [flatIndexFrom, he] at hk
      cases hci : e.childIndexes[j]? with
      | none => rw [hci] at hk; cases hk
      | some ci =>
        rw [hci] at hk
        simp only at hk
        have hexp := hok.expanded i e b he hb1
        have hj := congrArg (fun l => l[j]?) hexp
        simp only [List.getElem?_map, hci, Option.map_some'] at hj
        cases hc : b.children[j]? with
        | none => rw [hc] at hj; cases hj
        | some c =>
          rw [hc] at hj
          simp only [Option.map_some', Option.some.injEq] at hj
          obtain ⟨b', hget, hbk⟩ := ih ci k c hj hk
          refine ⟨b', ?_, hbk⟩
          simp only [ProfiledBlock.getAt, hc, hget]

/-- The positions grow along a pointer. -/
theorem flatIndexFrom_lt {rootBlock : ProfiledBlock} {flat : List TempEntry}
    (hok : FlatOK rootBlock flat) (p : List Nat) :
    ∀ (i k : Nat), flatIndexFrom flat i p = some k →
      i ≤ k ∧ (p ≠ [] → i < k ∧ k < flat.length) := by
  induction p with
  | nil =>
    intro i k hk
    simp only [flatIndexFrom, Option.some.injEq] at hk
    subst hk
    exact ⟨Nat.le_refl _, fun h => absurd rfl h⟩
  | cons j p ih =>
    intro i k hk
    simp only [flatIndexFrom] at hk
    cases he : flat[i]? with
    | none => rw [he] at hk; cases hk
    | some e =>
      rw [he] at hk
      simp only at hk
      cases hci : e.childIndexes[j]? with
      | none => rw [hci] at hk; cases hk
      | some ci =>
        rw [hci] at hk
        simp only at hk
        obtain ⟨h1, h2⟩ := hok.child_range i e ci he (List.getElem?_mem hci)
        obtain ⟨g1, g2⟩ := ih ci k hk
        refine ⟨by omega, fun _ => ⟨by omega, ?_⟩⟩
        by_cases hp : p = []
        · subst hp
          simp only [flatIndexFrom, Option.some.injEq] at hk
          omega
        · exact (g2 hp).2

/-- Two pointers with the same position are the same pointer. -/
theorem flatIndexFrom_inj {rootBlock : ProfiledBlock} {flat : List TempEntry}
    (hok : FlatOK rootBlock flat) (p : List Nat) :
    ∀ (q : List Nat) (k : Nat), flatIndexFrom flat 0 p = some k →
      flatIndexFrom flat 0 q = some k → p = q := by
  induction p using List.reverseRecOn with
  | nil =>
    intro q k hp hq
    simp only [flatIndexFrom, Option.some.injEq] at hp
    subst hp
    by_cases hq0 : q = []
    · exact hq0.symm
    · have := ((flatIndexFrom_lt hok q 0 0 hq).2 hq0).1
      omega
  | append_singleton p j ih =>
    intro q k hp hq
    obtain ⟨m, e, hm, he, hj⟩ := flatIndexFrom_snoc flat p j 0 k hp
    have hmk := (hok.child_range m e k he (List.getElem?_mem hj)).1
    rcases List.eq_nil_or_concat q with hq0 | ⟨q', j', hq'⟩
    · subst hq0
      simp only [flatIndexFrom, Option.some.injEq] at hq
      omega
    · subst hq'
      rw [List.concat_eq_append] at hq ⊢
      obtain ⟨m', e', hm', he', hj'⟩ := flatIndexFrom_snoc flat q' j' 0 k hq
      have hmm := hok.unique m m' e e' k he he' (List.getElem?_mem hj) (List.getElem?_mem hj')
      subst hmm
      rw [he] at he'
      cases he'
      have hpq := ih q' m hm hm'
      subst hpq
      have hnd := hok.nodup m e he
      have hjj : j = j' := by
        have hlj : j < e.childIndexes.length := by
          by_contra hn
          rw [List.getElem?_eq_none (by omega)] at hj
          cases hj
        have hlj' : j' < e.childIndexes.length := by
          by_contra hn
          rw [List.getElem?_eq_none (by omega)] at hj'
          cases hj'
        rw [List.getElem?_eq_getElem hlj] at hj
        rw [List.getElem?_eq_getElem hlj'] at hj'
        exact (List.Nodup.getElem_inj_iff hnd).1 ((Option.some.inj hj).trans
          (Option.some.inj hj').symm)
      rw [hjj]

/-- Every position is the position of a pointer. -/
theorem flatIndexFrom_surj {rootBlock : ProfiledBlock} {flat : List TempEntry}
    (hok : FlatOK rootBlock flat) :
    ∀ (n k : Nat), k ≤ n → k < flat.length → ∃ p, flatIndexFrom flat 0 p = some k := by
  intro n
  induction n with
  | zero =>
    intro k hk _
    have : k = 0 := by omega
    subst this
    exact ⟨[], rfl⟩
  | succ n ih =>
    intro k hk hlt
    by_cases hk0 : k = 0
    · subst hk0
      exact ⟨[], rfl⟩
    · obtain ⟨m, e, he, hmem⟩ := hok.has_parent k (by omega) hlt
      obtain ⟨hmk, -⟩ := hok.child_range m e k he hmem
      have hm : m < flat.length := by
        by_contra hn
        rw [List.getElem?_eq_none (by omega)] at he
        cases he
      obtain ⟨p, hp⟩ := ih m (by omega) hm
      obtain ⟨j, hj⟩ := List.getElem?_of_mem hmem
      refine ⟨p ++ [j], ?_⟩
      rw [flatIndexFrom_append, hp]
      simp only [Option.some_bind, flatIndexFrom, he, hj]

/-- C23: the flattening returns an array in which the entry at position `i`
has `entryIdx = i` and position 0 is the root block; the block that a pointer
designates in the tree is at the position found by following the child indexes
along the pointer, every position of the array is the position of exactly one
pointer into the tree, the child indexes of an entry are the positions of the
children of its block in child order, without repetition, and every child index
is greater than the position of the entry and within the array. -/
theorem flatHierarchy_lists_every_block_once (rootBlock : ProfiledBlock) :
    ∃ flat, flatten rootBlock = Except.ok flat ∧
      (∀ (i : Nat) (e : TempEntry), flat[i]? = some e → e.entryIdx = i) ∧
      blockAt flat 0 = some rootBlock ∧
      (∀ (p : List Nat) (b : ProfiledBlock), rootBlock.getAt p = some b →
        ∃ k, flatIndexFrom flat 0 p = some k ∧ blockAt flat k = some b) ∧
      (∀ k, k < flat.length →
        ∃ (p : List Nat) (b : ProfiledBlock), rootBlock.getAt p = some b ∧
          blockAt flat k = some b ∧ flatIndexFrom flat 0 p = some k ∧
          ∀ q, flatIndexFrom flat 0 q = some k → q = p) ∧
      (∀ (k : Nat) (e : TempEntry) (b : ProfiledBlock), flat[k]? = some e →
        e.parentBlock = some b →
        e.childIndexes.map (blockAt flat) = b.children.map some ∧ e.childIndexes.Nodup) ∧
      (∀ (p : List Nat) (k j : Nat) (e : TempEntry), flatIndexFrom flat 0 p = some k →
        flat[k]? = some e → e.childIndexes[j]? = flatIndexFrom flat 0 (p ++ [j])) ∧
      (∀ (k : Nat) (e : TempEntry) (c : Nat), flat[k]? = some e → c ∈ e.childIndexes →
        k < c ∧ c < flat.length) := by
  obtain ⟨flat, hflat, hok⟩ := flatten_ok rootBlock
  refine ⟨flat, hflat, hok.entryIdx_eq, hok.root, ?_, ?_, ?_, ?_, hok.child_range⟩
  · intro p b hb
    exact flatIndexFrom_of_getAt hok p 0 rootBlock b hok.root hb
  · intro k hk
    obtain ⟨p, hp⟩ := flatIndexFrom_surj hok k k (Nat.le_refl _) hk
    obtain ⟨b, hget, hbk⟩ := getAt_of_flatIndexFrom hok p 0 k rootBlock hok.root hp
    exact ⟨p, b, hget, hbk, hp, fun q hq => flatIndexFrom_inj hok q p k hq hp⟩
  · intro k e b he hb
    exact ⟨hok.expanded k e b he hb, hok.nodup k e he⟩
  · intro p k j e hp he
    rw [flatIndexFrom_append, hp]
    simp only [Option.some_bind, flatIndexFrom, he]
    cases e.childIndexes[j]? <;> rfl

/-- C24, as amended: the flattening numbers every block before all blocks
below it: the position of a block in the array is smaller than the position of
each of its descendants. -/
theorem flatIndex_ancestor_first (rootBlock : ProfiledBlock) :
    ∃ flat, flatten rootBlock = Except.ok flat ∧
      ∀ (p q : List Nat) (a b : ProfiledBlock), rootBlock.getAt p = some a →
        rootBlock.getAt (p ++ q) = some b → q ≠ [] →
        ∃ i j, flatIndexFrom flat 0 p = some i ∧ blockAt flat i = some a ∧
          flatIndexFrom flat 0 (p ++ q) = some j ∧ blockAt flat j = some b ∧ i < j := by
  obtain ⟨flat, hflat, hok⟩ := flatten_ok rootBlock
  refine ⟨flat, hflat, ?_⟩
  intro p q a b ha hb hq
  obtain ⟨i, hi, hai⟩ := flatIndexFrom_of_getAt hok p 0 rootBlock a hok.root ha
  obtain ⟨j, hj, hbj⟩ := flatIndexFrom_of_getAt hok (p ++ q) 0 rootBlock b hok.root hb
  refine ⟨i, j, hi, hai, hj, hbj, ?_⟩
  rw [flatIndexFrom_append, hi] at hj
  exact ((flatIndexFrom_lt hok q i j hj).2 hq).1

/-- C24, counterexample: in `depthFirstExample` the block "A1" at depth 2 is at
position 5 of the array and the block "B11" at depth 3 at position 4: the
stack `todo` makes the loop go on with the child pushed last. -/
theorem flatIndex_not_breadth_first_counterexample :
    ∃ flat, flatten depthFirstExample = Except.ok flat ∧
      (depthFirstExample.getAt [0, 0]).map ProfiledBlock.name = some "A1" ∧
      (depthFirstExample.getAt [1, 0, 0]).map ProfiledBlock.name = some "B11" ∧
      flatIndexFrom flat 0 [0, 0] = some 5 ∧
      flatIndexFrom flat 0 [1, 0, 0] = some 4 :=
  ⟨_, rfl, rfl, rfl, rfl, rfl⟩

theorem foldl_const_step {α β : Type} (f : α → β → α) (a a' : α) (l : List β) (hne : l ≠ [])
    (h1 : ∀ x, f a x = a') (h2 : ∀ x, f a' x = a') : l.foldl f a = a' := by
  cases l with
  | nil => exact absurd rfl hne
  | cons x l =>
    rw [List.foldl_cons, h1]
    clear hne
    induction l with
    | nil => rfl
    | cons y l ih => rw [List.foldl_cons, h2, ih]

/-- The time that a timer accumulates over start/stop pairs that each read
the values `a` and `b`. -/
theorem foldl_timer_const (a b : ℚ) (l : List Nat) :
    ∀ t : Timer, (l.foldl (fun (t : Timer) (_ : Nat) => (t.start a).stop b) t).time
      = t.time + l.length * (b - a) := by
  induction l with
  | nil => intro t; simp
  | cons x l ih =>
    intro t
    rw [List.foldl_cons, ih]
    simp only [Timer.start, Timer.stop, List.length_cons]
    push_cast
    ring

/-- The cycles that a precise timer accumulates over start/stop pairs that
each read the values `a` and `b`. -/
theorem foldl_timerPrecise_const (a b : Nat) (l : List Nat) :
    ∀ t : TimerPrecise,
      (l.foldl (fun (t : TimerPrecise) (_ : Nat) => (t.start a).stop b) t).cycles % 2 ^ 64
        = (t.cycles + l.length * sub64 b a) % 2 ^ 64 := by
  induction l with
  | nil => intro t; simp
  | cons x l ih =>
    intro t
    rw [List.foldl_cons, ih]
    simp only [TimerPrecise.start, TimerPrecise.stop, List.length_cons, add64, sub64]
    rw [Nat.add_mul]
    omega

theorem foldl_timerPrecise_lt (a b : Nat) (l : List Nat) :
    ∀ t : TimerPrecise, t.cycles < 2 ^ 64 →
      (l.foldl (fun (t : TimerPrecise) (_ : Nat) => (t.start a).stop b) t).cycles < 2 ^ 64 := by
  induction l with
  | nil => intro t h; exact h
  | cons x l ih =>
    intro t _
    rw [List.foldl_cons]
    exact ih _ (Nat.mod_lt _ (by norm_num))

theorem timerOverheadTry_example (pc : ProfilerCPU) (i : Nat) :
    timerOverheadTry calibrationExample pc i
      = (if (40 : Nat) < (if (1 / 1000 : ℚ) < pc.mBasicTimerOverhead
              then { pc with mBasicTimerOverhead := 1 / 1000 } else pc).mPreciseTimerOverhead
          then { (if (1 / 1000 : ℚ) < pc.mBasicTimerOverhead
              then { pc with mBasicTimerOverhead := 1 / 1000 } else pc) with
              mPreciseTimerOverhead := 40 }
          else (if (1 / 1000 : ℚ) < pc.mBasicTimerOverhead
              then { pc with mBasicTimerOverhead := 1 / 1000 } else pc)) := by
  have h1 : ((List.range 1000).foldl
      (fun (t : Timer) (_ : Nat) => (t.start (0 : ℚ)).stop (1 / 1000)) Timer.new).time / 1000
      = 1 / 1000 := by
    rw [foldl_timer_const]
    simp only [Timer.new, List.length_range]
    norm_num
  have h2 : ((List.range 1000).foldl
      (fun (t : TimerPrecise) (_ : Nat) => (t.start 0).stop 40) TimerPrecise.new).cycles / 1000
      = 40 := by
    have hlt := foldl_timerPrecise_lt 0 40 (List.range 1000) TimerPrecise.new
      (by simp [TimerPrecise.new])
    have hmod := foldl_timerPrecise_const 0 40 (List.range 1000) TimerPrecise.new
    rw [Nat.mod_eq_of_lt hlt] at hmod
    rw [hmod]
    simp only [TimerPrecise.new, List.length_range, sub64]
    norm_num
  simp only [timerOverheadTry, calibrationExample, h1, h2]

/-- The members after one try of the second loop: each sampling overhead is
lowered to the average of the try when that is smaller. -/
theorem samplingOverheadTry_eq (rd : CalibrationReadings) (a : ℚ) (p : Nat) (b c : ℚ)
    (d e : Nat) (i : Nat) :
    samplingOverheadTry rd ⟨a, p, b, c, d, e⟩ i
      = ⟨a, p,
          if (0 + ((rd.timerA i).2 - (rd.timerA i).1)) / (1500 : Nat) - a < b
            then (0 + ((rd.timerA i).2 - (rd.timerA i).1)) / (1500 : Nat) - a else b,
          if (0 + ((rd.timerB i).2 - (rd.timerB i).1)) / (1500 : Nat) < c
            then (0 + ((rd.timerB i).2 - (rd.timerB i).1)) / (1500 : Nat) else c,
          if sub64 (add64 0 (sub64 (rd.timerPreciseA i).2 ((rd.timerPreciseA i).1 % 2 ^ 64))
              / 1500) p < d
            then sub64 (add64 0 (sub64 (rd.timerPreciseA i).2
              ((rd.timerPreciseA i).1 % 2 ^ 64)) / 1500) p else d,
          if add64 0 (sub64 (rd.timerPreciseB i).2 ((rd.timerPreciseB i).1 % 2 ^ 64)) / 1500 < e
            then add64 0 (sub64 (rd.timerPreciseB i).2 ((rd.timerPreciseB i).1 % 2 ^ 64)) / 1500
            else e⟩ := by
  unfold samplingOverheadTry
  simp only [Timer.new, Timer.start, Timer.stop, TimerPrecise.new, TimerPrecise.start,
    TimerPrecise.stop]
  split_ifs <;> rfl

theorem samplingOverheadTry_example (b c : ℚ) (d e : Nat) (i : Nat) :
    samplingOverheadTry calibrationExample ⟨1 / 1000, 40, b, c, d, e⟩ i
      = ⟨1 / 1000, 40, if (1 / 1000 : ℚ) < b then 1 / 1000 else b,
          if (1 / 500 : ℚ) < c then 1 / 500 else c,
          if 960 < d then 960 else d, if 1000 < e then 1000 else e⟩ := by
  have h1 : (0 + ((3 : ℚ) - 0)) / (1500 : Nat) - 1 / 1000 = 1 / 1000 := by norm_num
  have h3 : (0 + ((3 : ℚ) - 0)) / (1500 : Nat) = 1 / 500 := by norm_num
  have h4 : add64 0 (sub64 1500000 (0 % 2 ^ 64)) / 1500 = 1000 := by
    simp only [add64, sub64]
    norm_num
  have h2 : sub64 1000 40 = 960 := by
    simp only [sub64]
    norm_num
  have h5 : (1 / 500 : ℚ) - 1 / 1000 = 1 / 1000 := by norm_num
  rw [samplingOverheadTry_eq]
  simp only [calibrationExample, h1, h3, h4, h2, h5]

/-- C25: for the readings `calibrationExample` (bare timer pair 1/1000 ms and
40 cycles, every round of 1500 sample pairs 3 ms and 1500000 cycles),
`estimateTimerOverhead` sets the timer overheads to 1/1000 ms and 40 cycles and
the Basic sampling overheads to 3/1500 - 1/1000 = 1/1000 ms and
1500000/1500 - 40 = 960 cycles, with the timer overhead subtracted, but the
Precise sampling overheads to 3/1500 = 1/500 ms and 1500000/1500 = 1000 cycles,
without it. -/
theorem estimateTimerOverhead_precise_not_subtracted (pc : ProfilerCPU) :
    estimateTimerOverhead calibrationExample pc = ⟨1 / 1000, 40, 1 / 1000, 1 / 500, 960, 1000⟩ := by
  have hfirst : (List.range 20).foldl (timerOverheadTry calibrationExample)
      { pc with mBasicTimerOverhead := 1000000, mPreciseTimerOverhead := 1000000 }
      = { pc with mBasicTimerOverhead := 1 / 1000, mPreciseTimerOverhead := 40 } := by
    apply foldl_const_step _ _ _ _ (by simp)
    · intro x
      rw [timerOverheadTry_example]
      norm_num
    · intro x
      rw [timerOverheadTry_example]
      norm_num
  have hsecond : (List.range 20).foldl (samplingOverheadTry calibrationExample)
      ⟨1 / 1000, 40, 1000000, 1000000, 1000000, 1000000⟩
      = ⟨1 / 1000, 40, 1 / 1000, 1 / 500, 960, 1000⟩ := by
    apply foldl_const_step _ _ _ _ (by simp)
    · intro x
      rw [samplingOverheadTry_example]
      norm_num
    · intro x
      rw [samplingOverheadTry_example]
      norm_num
  unfold estimateTimerOverhead
  simp only [hfirst]
  exact hsecond

/-- A write through a good pointer succeeds. -/
theorem ProfiledBlock.modifyAt_succeeds (f : ProfiledBlock → ProfiledBlock) (q : List Nat)
    (root b : ProfiledBlock) (hb : root.getAt q = some b) :
    ∃ root', root.modifyAt f q = some root' ∧ root'.getAt q = some (f b) := by
  obtain ⟨root', hmod, hget, -⟩ := ProfiledBlock.replace_spec (f b) q root b hb
  rw [← ProfiledBlock.modifyAt_eq_replace f q root b hb] at hmod
  exact ⟨root', hmod, hget⟩

/-- A write through a pointer succeeds only when the pointer is good. -/
theorem ProfiledBlock.getAt_of_modifyAt (f : ProfiledBlock → ProfiledBlock) (q : List Nat) :
    ∀ (root root' : ProfiledBlock), root.modifyAt f q = some root' →
      ∃ b, root.getAt q = some b := by
  induction q with
  | nil => intro root root' _; exact ⟨root, rfl⟩
  | cons i q ih =>
    intro root root' h
    simp only [ProfiledBlock.modifyAt] at h
    split at h
    · rename_i c hc
      split at h
      · rename_i c' hc'
        obtain ⟨b, hb⟩ := ih c c' hc'
        exact ⟨b, by simp only [ProfiledBlock.getAt, hc, hb]⟩
      · cases h
    · cases h

/-- A write that changes no name changes no name on the way to the block
written. -/
theorem ProfiledBlock.name_modifyAt (f : ProfiledBlock → ProfiledBlock)
    (hname : ∀ b, (f b).name = b.name) (q : List Nat) :
    ∀ (root root' : ProfiledBlock), root.modifyAt f q = some root' → root'.name = root.name := by
  cases q with
  | nil =>
    intro root root' h
    simp only [ProfiledBlock.modifyAt, Option.some.injEq] at h
    rw [← h, hname]
  | cons i q =>
    intro root root' h
    simp only [ProfiledBlock.modifyAt] at h
    split at h
    · split at h
      · simp only [Option.some.injEq] at h
        rw [← h, ProfiledBlock.name_setChildren]
      · cases h
    · cases h

/-- A write that keeps the children that a block has keeps every good
pointer good. -/
theorem ProfiledBlock.getAt_modifyAt_valid (f : ProfiledBlock → ProfiledBlock)
    (hpre : ∀ (b : ProfiledBlock) (j : Nat) (c : ProfiledBlock), b.children[j]? = some c →
      (f b).children[j]? = some c) (p : List Nat) :
    ∀ (q : List Nat) (root root' b : ProfiledBlock), root.modifyAt f q = some root' →
      root.getAt p = some b → ∃ b', root'.getAt p = some b' := by
  induction p with
  | nil => intro q root root' b _ _; exact ⟨root', rfl⟩
  | cons j p ih =>
    intro q root root' b hmod hget
    simp only [ProfiledBlock.getAt] at hget
    cases hc : root.children[j]? with
    | none => rw [hc] at hget; cases hget
    | some c =>
      rw [hc] at hget
      simp only at hget
      cases q with
      | nil =>
        simp only [ProfiledBlock.modifyAt, Option.some.injEq] at hmod
        subst hmod
        exact ⟨b, by simp only [ProfiledBlock.getAt, hpre root j c hc, hget]⟩
      | cons i q =>
        simp only [ProfiledBlock.modifyAt] at hmod
        split at hmod
        · rename_i ci hci
          split at hmod
          · rename_i ci' hci'
            simp only [Option.some.injEq] at hmod
            subst hmod
            have hlt : i < root.children.length := by
              by_contra hn
              rw [List.getElem?_eq_none (by omega)] at hci
              cases hci
            by_cases hij : i = j
            · subst hij
              rw [hc] at hci
              cases hci
              obtain ⟨b', hb'⟩ := ih q c ci' b hci' hget
              exact ⟨b', by
                simp only [ProfiledBlock.getAt, ProfiledBlock.children_setChildren,
                  List.getElem?_set_self hlt, hb']⟩
            · exact ⟨b, by
                simp only [ProfiledBlock.getAt, ProfiledBlock.children_setChildren,
                  List.getElem?_set_ne hij, hc, hget]⟩
          · cases hmod
        · cases hmod

/-- Replacing a child by a block of the same name keeps the names of the
children. -/
theorem map_name_set (cs : List ProfiledBlock) (i : Nat) (c c' : ProfiledBlock)
    (hc : cs[i]? = some c) (hname : c'.name = c.name) :
    (cs.set i c').map ProfiledBlock.name = cs.map ProfiledBlock.name := by
  apply List.ext_getElem?
  intro j
  by_cases hij : i = j
  · subst hij
    have hlt : i < cs.length := by
      by_contra hn
      rw [List.getElem?_eq_none (by omega)] at hc
      cases hc
    simp only [List.getElem?_map, List.getElem?_set_self hlt, hc, Option.map_some', hname]
  · simp only [List.getElem?_map, List.getElem?_set_ne hij]

/-- A write below a block with `UniqueNames` that keeps the name and the
`UniqueNames` of the block written keeps the `UniqueNames` of the block. -/
theorem ProfiledBlock.uniqueNames_modifyAt (f : ProfiledBlock → ProfiledBlock) (q : List Nat) :
    ∀ (root root' : ProfiledBlock), root.modifyAt f q = some root' →
      (∀ P, root.getAt q = some P →
        (f P).name = P.name ∧ (ProfiledBlock.UniqueNames P → ProfiledBlock.UniqueNames (f P))) →
      root'.name = root.name ∧
        (ProfiledBlock.UniqueNames root → ProfiledBlock.UniqueNames root') := by
  induction q with
  | nil =>
    intro root root' h hf
    simp only [ProfiledBlock.modifyAt, Option.some.injEq] at h
    subst h
    exact hf root rfl
  | cons i q ih =>
    intro root root' h hf
    simp only [ProfiledBlock.modifyAt] at h
    split at h
    · rename_i c hc
      split at h
      · rename_i c' hc'
        simp only [Option.some.injEq] at h
        subst h
        obtain ⟨hn, hu⟩ := ih c c' hc' (fun P hP => hf P (by
          simp only [ProfiledBlock.getAt, hc, hP]))
        refine ⟨ProfiledBlock.name_setChildren _ _, ?_⟩
        intro hroot
        rw [ProfiledBlock.uniqueNames_iff] at hroot ⊢
        rw [ProfiledBlock.children_setChildren, map_name_set _ i c c' hc hn]
        refine ⟨hroot.1, ?_⟩
        intro x hx
        rcases List.mem_or_eq_of_mem_set hx with hx | hx
        · exact hroot.2 x hx
        · rw [hx]
          exact hu (hroot.2 c (List.getElem?_mem hc))
      · cases h
    · cases h

/-- A write below the root keeps `ChildrenUnique` when it keeps it at the
root and keeps the name and the `UniqueNames` of a block below the root. -/
theorem ProfiledBlock.childrenUnique_modifyAt (f : ProfiledBlock → ProfiledBlock)
    (q : List Nat) (root root' : ProfiledBlock) (h : root.modifyAt f q = some root')
    (hroot : q = [] → root.ChildrenUnique → (f root).ChildrenUnique)
    (hf : ∀ P, q ≠ [] → root.getAt q = some P →
      (f P).name = P.name ∧ (ProfiledBlock.UniqueNames P → ProfiledBlock.UniqueNames (f P)))
    (hu : root.ChildrenUnique) : root'.ChildrenUnique := by
  cases q with
  | nil =>
    simp only [ProfiledBlock.modifyAt, Option.some.injEq] at h
    subst h
    exact hroot rfl hu
  | cons i q =>
    simp only [ProfiledBlock.modifyAt] at h
    split at h
    · rename_i c hc
      split at h
      · rename_i c' hc'
        simp only [Option.some.injEq] at h
        subst h
        obtain ⟨-, hcu⟩ := ProfiledBlock.uniqueNames_modifyAt f q c c' hc' (fun P hP =>
          hf P (List.cons_ne_nil _ _) (by simp only [ProfiledBlock.getAt, hc, hP]))
        intro x hx
        rw [ProfiledBlock.children_setChildren] at hx
        rcases List.mem_or_eq_of_mem_set hx with hx | hx
        · exact hu x hx
        · rw [hx]
          exact hcu (hu c (List.getElem?_mem hc))
      · cases h
    · cases h

/-- Below a block with `UniqueNames` every block has `UniqueNames`. -/
theorem ProfiledBlock.uniqueNames_getAt (p : List Nat) :
    ∀ (b b' : ProfiledBlock), ProfiledBlock.UniqueNames b → b.getAt p = some b' →
      ProfiledBlock.UniqueNames b' := by
  induction p with
  | nil =>
    intro b b' hu h
    simp only [ProfiledBlock.getAt, Option.some.injEq] at h
    rw [← h]
    exact hu
  | cons j p ih =>
    intro b b' hu h
    simp only [ProfiledBlock.getAt] at h
    cases hc : b.children[j]? with
    | none => rw [hc] at h; cases h
    | some c =>
      rw [hc] at h
      exact ih c b' (((ProfiledBlock.uniqueNames_iff b).1 hu).2 c (List.getElem?_mem hc)) h

/-- With `ChildrenUnique`, the children of every block other than the root
have different names. -/
theorem ProfiledBlock.ChildrenUnique.names_nodup {root : ProfiledBlock} (hu : root.ChildrenUnique)
    (p : List Nat) (b : ProfiledBlock) (hp : p ≠ []) (hb : root.getAt p = some b) :
    (b.children.map ProfiledBlock.name).Nodup := by
  cases p with
  | nil => exact absurd rfl hp
  | cons j p =>
    simp only [ProfiledBlock.getAt] at hb
    cases hc : root.children[j]? with
    | none => rw [hc] at hb; cases hb
    | some c =>
      rw [hc] at hb
      exact ((ProfiledBlock.uniqueNames_iff b).1
        (ProfiledBlock.uniqueNames_getAt p c b (hu c (List.getElem?_mem hc)) hb)).1

/-- A pointer to a block with the same children as another designates the
same blocks below it. -/
theorem ProfiledBlock.getAt_congr_children (c c' : ProfiledBlock)
    (h : c'.children = c.children) (p : List Nat) (hp : p ≠ []) : c'.getAt p = c.getAt p := by
  cases p with
  | nil => exact absurd rfl hp
  | cons k p => simp only [ProfiledBlock.getAt, h]

/-- Replacing a block by one that has, at every position where the old block
has a child, a child with the same children, keeps every good pointer good. -/
theorem ProfiledBlock.getAt_replace_valid (X P : ProfiledBlock)
    (hX : ∀ (j : Nat) (c : ProfiledBlock), P.children[j]? = some c →
      ∃ c', X.children[j]? = some c' ∧ c'.children = c.children) (p : List Nat) :
    ∀ (q : List Nat) (root root' b : ProfiledBlock), root.getAt q = some P →
      root.modifyAt (fun _ => X) q = some root' → root.getAt p = some b →
      ∃ b', root'.getAt p = some b' := by
  induction p with
  | nil => intro q root root' b _ _ _; exact ⟨root', rfl⟩
  | cons j p ih =>
    intro q root root' b hP hmod hget
    simp only [ProfiledBlock.getAt] at hget
    cases hc : root.children[j]? with
    | none => rw [hc] at hget; cases hget
    | some c =>
      rw [hc] at hget
      simp only at hget
      cases q with
      | nil =>
        simp only [ProfiledBlock.modifyAt, Option.some.injEq] at hmod
        simp only [ProfiledBlock.getAt, Option.some.injEq] at hP
        subst hmod hP
        obtain ⟨c', hc', hch⟩ := hX j c hc
        by_cases hp : p = []
        · subst hp
          exact ⟨c', by simp only [ProfiledBlock.getAt, hc']⟩
        · exact ⟨b, by
            simp only [ProfiledBlock.getAt, hc']
            rw [ProfiledBlock.getAt_congr_children c c' hch p hp, hget]⟩
      | cons i q =>
        simp only [ProfiledBlock.modifyAt] at hmod
        simp only [ProfiledBlock.getAt] at hP
        split at hmod
        · rename_i ci hci
          rw [hci] at hP
          simp only at hP
          split at hmod
          · rename_i ci' hci'
            simp only [Option.some.injEq] at hmod
            subst hmod
            have hlt : i < root.children.length := by
              by_contra hn
              rw [List.getElem?_eq_none (by omega)] at hci
              cases hci
            by_cases hij : i = j
            · subst hij
              rw [hc] at hci
              cases hci
              obtain ⟨b', hb'⟩ := ih q c ci' b hP hci' hget
              exact ⟨b', by
                simp only [ProfiledBlock.getAt, ProfiledBlock.children_setChildren,
                  List.getElem?_set_self hlt, hb']⟩
            · exact ⟨b, by
                simp only [ProfiledBlock.getAt, ProfiledBlock.children_setChildren,
                  List.getElem?_set_ne hij, hc, hget]⟩
          · cases hmod
        · cases hmod

/-- A write through a pointer of the thread that returns has been made on the
tree of the thread. -/
theorem ThreadInfo.modifyBlock_ok (t t' : ThreadInfo) (ptr : Option (List Nat))
    (f : ProfiledBlock → ProfiledBlock) (h : t.modifyBlock ptr f = Except.ok t') :
    ∃ (q : List Nat) (root root' : ProfiledBlock), ptr = some q ∧ t.rootBlock = some root ∧
      root.modifyAt f q = some root' ∧ t' = { t with rootBlock := some root' } := by
  unfold ThreadInfo.modifyBlock at h
  cases ptr with
  | none => cases h
  | some path =>
    cases hroot : t.rootBlock with
    | none => rw [hroot] at h; cases h
    | some root =>
      rw [hroot] at h
      simp only at h
      cases hmod : root.modifyAt f path with
      | none => rw [hmod] at h; cases h
      | some root' =>
        rw [hmod] at h
        simp only [Except.ok.injEq] at h
        exact ⟨path, root, root', rfl, rfl, hmod, h.symm⟩

theorem StackValid.of_cons {root : ProfiledBlock} {a : ActiveBlock} {rest : List ActiveBlock}
    (h : StackValid root (a :: rest)) : StackValid root rest :=
  fun a' ha' => h a' (List.mem_cons_of_mem _ ha')

theorem StackChain.of_cons_chain {a : ActiveBlock} {rest : List ActiveBlock}
    (h : StackChain (a :: rest)) : StackChain rest := by
  cases rest with
  | nil => trivial
  | cons a' rest => exact h.2

theorem ProfiledBlock.children_setName (b : ProfiledBlock) (n : ProfilerString) :
    (b.setName n).children = b.children := by
  cases b; rfl

theorem ProfiledBlock.children_setPrecise (b : ProfiledBlock) (d : PreciseProfileData) :
    (b.setPrecise d).children = b.children := by
  cases b; rfl

theorem ProfiledBlock.name_setPrecise (b : ProfiledBlock) (d : PreciseProfileData) :
    (b.setPrecise d).name = b.name := by
  cases b; rfl

theorem ThreadInfo.wellFormed_new : ThreadInfo.new.WellFormed where
  inactive := fun _ => rfl
  top := rfl
  root := fun h => by cases h
  tree := fun root h => by cases h
  chain := trivial

/-- `ThreadInfo::begin` keeps the thread well formed and leaves it active. -/
theorem ThreadInfo.wellFormed_begin (t : ThreadInfo) (name : ProfilerString) (r : Reading)
    (h : t.WellFormed) : (t.begin name r).WellFormed ∧ (t.begin name r).isActive = true := by
  unfold ThreadInfo.begin
  by_cases ha : t.isActive = true
  · rw [if_pos ha]
    exact ⟨h, ha⟩
  · rw [if_neg ha]
    simp only [Bool.not_eq_true] at ha
    have hstack := h.inactive ha
    refine ⟨?_, rfl⟩
    refine ⟨(fun h' => by cases h'), ?_, fun _ => ⟨_, rfl⟩, ?_, ?_⟩
    · simp only [hstack, List.head?_cons, Option.getD_some]
    · intro root hroot
      simp only [Option.some.injEq] at hroot
      subst hroot
      refine ⟨?_, ?_⟩
      · intro c hc
        rw [ProfiledBlock.children_setBasic, ProfiledBlock.children_setName] at hc
        cases hr : t.rootBlock with
        | none =>
          rw [hr] at hc
          simp only [ProfiledBlock.new, ProfiledBlock.children, List.not_mem_nil] at hc
        | some root0 =>
          rw [hr] at hc
          exact (h.tree root0 hr).1 c hc
      · intro a hmem
        simp only [hstack, List.mem_singleton] at hmem
        subst hmem
        exact ⟨[], _, rfl, rfl⟩
    · simp only [hstack]
      exact ⟨[], rfl, Nat.zero_le _⟩

/-- A write to the accumulators of a block keeps the thread well formed. -/
theorem ThreadInfo.wellFormed_modifyBlock (t t' : ThreadInfo) (ptr : Option (List Nat))
    (f : ProfiledBlock → ProfiledBlock) (hname : ∀ b, (f b).name = b.name)
    (hch : ∀ b, (f b).children = b.children) (h : t.WellFormed)
    (hmod : t.modifyBlock ptr f = Except.ok t') :
    t'.WellFormed ∧ t'.isActive = t.isActive ∧ t'.activeBlock = t.activeBlock ∧
      t'.activeBlocks = t.activeBlocks := by
  obtain ⟨q, root, root', -, hroot, hm, ht'⟩ := ThreadInfo.modifyBlock_ok t t' ptr f hmod
  subst ht'
  refine ⟨⟨h.inactive, h.top, fun _ => ⟨root', rfl⟩, ?_, h.chain⟩, rfl, rfl, rfl⟩
  intro r hr
  simp only [Option.some.injEq] at hr
  subst hr
  obtain ⟨hu, hv⟩ := h.tree root hroot
  refine ⟨?_, ?_⟩
  · apply ProfiledBlock.childrenUnique_modifyAt f q root _ hm _ _ hu
    · intro _ hu' c hc
      rw [hch] at hc
      exact hu' c hc
    · intro P _ _
      exact ⟨hname P, fun hP => (ProfiledBlock.uniqueNames_congr (hch P)).2 hP⟩
  · intro a ha
    obtain ⟨p, b, hp, hb⟩ := hv a ha
    obtain ⟨b', hb'⟩ := ProfiledBlock.getAt_modifyAt_valid f
      (fun b j c hc => by rw [hch]; exact hc) p q root _ b hm hb
    exact ⟨p, b', hp, hb'⟩

/-- The closing of a block by `ThreadInfo::end` keeps the thread well
formed. -/
theorem ThreadInfo.wellFormed_closeBlock (t t' : ThreadInfo) (a : ActiveBlock) (r : Reading)
    (h : t.WellFormed) (hc : t.closeBlock a r = Except.ok t') :
    t'.WellFormed ∧ t'.isActive = t.isActive ∧ t'.activeBlock = t.activeBlock ∧
      t'.activeBlocks = t.activeBlocks := by
  unfold ThreadInfo.closeBlock at hc
  split at hc
  · exact ThreadInfo.wellFormed_modifyBlock t t' _ _
      (fun b => ProfiledBlock.name_setBasic _ _) (fun b => ProfiledBlock.children_setBasic _ _)
      h hc
  · exact ThreadInfo.wellFormed_modifyBlock t t' _ _
      (fun b => ProfiledBlock.name_setPrecise _ _)
      (fun b => ProfiledBlock.children_setPrecise _ _) h hc

theorem ThreadInfo.wellFormed_closeRemaining (rs : Nat → Reading) (stack : List ActiveBlock) :
    ∀ (k : Nat) (t t' : ThreadInfo), t.WellFormed →
      ThreadInfo.closeRemaining rs stack k t = Except.ok t' → t'.WellFormed := by
  induction stack with
  | nil =>
    intro k t t' h hc
    simp only [ThreadInfo.closeRemaining, Except.ok.injEq] at hc
    rw [← hc]
    exact h
  | cons a rest ih =>
    intro k t t' h hc
    simp only [ThreadInfo.closeRemaining] at hc
    split at hc
    · rename_i t1 h1
      exact ih (k + 1) t1 t' (ThreadInfo.wellFormed_closeBlock t t1 a (rs k) h h1).1 hc
    · cases hc

/-- `ThreadInfo::end` leaves the thread well formed, inactive, with an empty
stack and a null active block. -/
theorem ThreadInfo.wellFormed_endSampling (t t' : ThreadInfo) (rs : Nat → Reading)
    (h : t.WellFormed) (he : t.endSampling rs = Except.ok t') :
    t'.WellFormed ∧ t'.isActive = false ∧ t'.activeBlocks = [] ∧
      t'.activeBlock = ActiveBlock.null := by
  unfold ThreadInfo.endSampling at he
  split at he
  · cases he
  · rename_i t1 h1
    have hw1 := (ThreadInfo.wellFormed_closeBlock t t1 _ _ h h1).1
    split at he
    · cases he
    · split at he
      · cases he
      · rename_i t2 h2
        have hw2 := ThreadInfo.wellFormed_closeRemaining rs _ 1 t1 t2 hw1 h2
        simp only [Except.ok.injEq] at he
        subst he
        refine ⟨⟨fun _ => rfl, rfl, (fun h' => by cases h'), ?_, trivial⟩, rfl, rfl, rfl⟩
        intro root hroot
        exact ⟨(hw2.tree root hroot).1, fun a ha => by cases ha⟩

/-- The pop of `endSample` and `endSamplePrecise` keeps the thread well
formed. -/
theorem ProfilerCPU.wellFormed_popActive (t t' : ThreadInfo) (h : t.WellFormed)
    (hp : ProfilerCPU.popActive t = Except.ok t') : t'.WellFormed := by
  unfold ProfilerCPU.popActive at hp
  split at hp
  · cases hp
  · rename_i a rest hstack
    have hact : t.isActive = true := by
      by_contra hn
      simp only [Bool.not_eq_true] at hn
      rw [h.inactive hn] at hstack
      cases hstack
    have htree : ∀ root, t.rootBlock = some root →
        root.ChildrenUnique ∧ StackValid root rest := by
      intro root hroot
      obtain ⟨hu, hv⟩ := h.tree root hroot
      rw [hstack] at hv
      exact ⟨hu, hv.of_cons⟩
    have hchain : StackChain rest := by
      have := h.chain
      rw [hstack] at this
      exact this.of_cons_chain
    split at hp
    · rename_i top rest' 
      simp only [Except.ok.injEq] at hp
      subst hp
      exact ⟨(fun h' => by rw [hact] at h'; cases h'), rfl, h.root, htree, hchain⟩
    · simp only [Except.ok.injEq] at hp
      subst hp
      exact ⟨fun _ => rfl, rfl, h.root, htree, hchain⟩

theorem ProfiledBlock.uniqueNames_new (name : ProfilerString) :
    ProfiledBlock.UniqueNames (ProfiledBlock.new.setName name) := by
  have hch : (ProfiledBlock.new.setName name).children = [] := rfl
  rw [ProfiledBlock.uniqueNames_iff, hch]
  simp only [List.map_nil, List.nodup_nil, List.not_mem_nil, false_implies, implies_true,
    and_self]

/-- The block `P` after `beginSample(name)` opened the child called `name`
below it: no two children of one block have the same name, if that held
before. -/
theorem ProfiledBlock.uniqueNames_putChild_open (P : ProfiledBlock) (name : ProfilerString)
    (X : ProfiledBlock → ProfiledBlock) (hXname : ∀ c, (X c).name = c.name)
    (hXch : ∀ c, (X c).children = c.children) :
    (ProfiledBlock.UniqueNames P →
      ProfiledBlock.UniqueNames (P.putChild (P.slot name) (X (P.childOrNew name)))) ∧
    (P.ChildrenUnique → (P.putChild (P.slot name) (X (P.childOrNew name))).ChildrenUnique) := by
  have hmem : P.ChildrenUnique →
      (P.putChild (P.slot name) (X (P.childOrNew name))).ChildrenUnique := by
    intro hu x hx
    rcases putChild_slot_cases P name X with ⟨c, hc, -, -, hch⟩ | ⟨-, -, hch⟩
    · rw [hch] at hx
      rcases List.mem_or_eq_of_mem_set hx with hx | hx
      · exact hu x hx
      · rw [hx]
        exact (ProfiledBlock.uniqueNames_congr (hXch c)).2 (hu c (List.getElem?_mem hc))
    · rw [hch] at hx
      rcases List.mem_append.1 hx with hx | hx
      · exact hu x hx
      · simp only [List.mem_singleton] at hx
        rw [hx]
        exact (ProfiledBlock.uniqueNames_congr (hXch _)).2 (ProfiledBlock.uniqueNames_new name)
  refine ⟨?_, hmem⟩
  intro hP
  rw [ProfiledBlock.uniqueNames_iff] at hP ⊢
  refine ⟨?_, hmem hP.2⟩
  rcases putChild_slot_cases P name X with ⟨c, hc, -, -, hch⟩ | ⟨hno, -, hch⟩
  · rw [hch, map_name_set _ _ c _ hc (hXname c)]
    exact hP.1
  · rw [hch, List.map_append, List.map_singleton, hXname]
    have hn : (ProfiledBlock.new.setName name).name = name := by
      simp only [ProfiledBlock.setName, ProfiledBlock.name]
    rw [hn]
    apply List.Nodup.append hP.1 (List.nodup_singleton _)
    intro a ha ha'
    simp only [List.mem_singleton] at ha'
    subst ha'
    obtain ⟨c, hc, hca⟩ := List.mem_map.1 ha
    exact hno c hc hca

/-- The shared part of `beginSample` and `beginSamplePrecise` on a thread with
a null active block: a new block is appended to the children of the root, no
child of the root is looked up. -/
theorem openBlock_no_parent (t : ThreadInfo) (type : ActiveSamplingType)
    (name : ProfilerString) (r : Reading) (root : ProfiledBlock)
    (hroot : t.rootBlock = some root) (hact : t.activeBlock.block = none) :
    ProfilerCPU.openBlock t type name r
      = Except.ok { t with
          rootBlock := some (root.setChildren (root.children
            ++ [ProfiledBlock.beginOn type r (ProfiledBlock.new.setName name)]))
          activeBlock := ⟨type, some [root.children.length]⟩
          activeBlocks := ⟨type, some [root.children.length]⟩ :: t.activeBlocks } := by
  have hset : ∀ x : ProfiledBlock,
      (root.children ++ [ProfiledBlock.new.setName name]).set root.children.length x
        = root.children ++ [x] := by
    intro x
    rw [List.set_append_right _ _ (Nat.le_refl _)]
    simp
  have hget : (root.children ++ [ProfiledBlock.new.setName name])[root.children.length]?
      = some (ProfiledBlock.new.setName name) := by
    simp
  cases type
  · simp only [ProfilerCPU.openBlock, hact, ThreadInfo.readBlock, hroot, ProfiledBlock.getAt,
      ThreadInfo.modifyBlock, ProfiledBlock.modifyAt, List.nil_append,
      ProfiledBlock.children_setChildren, hget, hset, ProfiledBlock.setChildren_setChildren,
      ProfiledBlock.beginOn]
  · simp only [ProfilerCPU.openBlock, hact, ThreadInfo.readBlock, hroot, ProfiledBlock.getAt,
      ThreadInfo.modifyBlock, ProfiledBlock.modifyAt, List.nil_append,
      ProfiledBlock.children_setChildren, hget, hset, ProfiledBlock.setChildren_setChildren,
      ProfiledBlock.beginOn]

/-- The shared part of `beginSample` and `beginSamplePrecise` keeps an active
thread well formed and active. -/
theorem ProfilerCPU.wellFormed_openBlock (t t' : ThreadInfo) (type : ActiveSamplingType)
    (name : ProfilerString) (r : Reading) (h : t.WellFormed) (hactive : t.isActive = true)
    (ho : ProfilerCPU.openBlock t type name r = Except.ok t') :
    t'.WellFormed ∧ t'.isActive = true := by
  obtain ⟨root, hroot⟩ := h.root hactive
  obtain ⟨hu, hv⟩ := h.tree root hroot
  cases hstack : t.activeBlocks with
  | nil =>
    have hnull : t.activeBlock.block = none := by
      rw [h.top, hstack]
      rfl
    rw [openBlock_no_parent t type name r root hroot hnull] at ho
    simp only [Except.ok.injEq] at ho
    subst ho
    refine ⟨⟨(fun h' => by rw [hactive] at h'; cases h'), rfl, fun _ => ⟨_, rfl⟩, ?_, ?_⟩, hactive⟩
    · intro r' hr'
      simp only [Option.some.injEq] at hr'
      subst hr'
      refine ⟨?_, ?_⟩
      · intro x hx
        rw [ProfiledBlock.children_setChildren] at hx
        rcases List.mem_append.1 hx with hx | hx
        · exact hu x hx
        · simp only [List.mem_singleton] at hx
          rw [hx]
          exact (ProfiledBlock.uniqueNames_congr (ProfiledBlock.children_beginOn _ _ _)).2
            (ProfiledBlock.uniqueNames_new name)
      · intro a ha
        simp only [hstack, List.mem_singleton] at ha
        subst ha
        exact ⟨[root.children.length],
          ProfiledBlock.beginOn type r (ProfiledBlock.new.setName name), rfl, by
          simp only [ProfiledBlock.getAt, ProfiledBlock.children_setChildren,
            List.getElem?_concat_length]⟩
    · simp only [hstack]
      exact ⟨_, rfl, Nat.le_refl _⟩
  | cons top rest =>
    have htop : t.activeBlock = top := by
      rw [h.top, hstack]
      rfl
    rw [hstack] at hv
    obtain ⟨q, P, hq, hP⟩ := hv top (by simp)
    have hblock : t.activeBlock.block = some q := by rw [htop, hq]
    obtain ⟨root', hmod, hopen⟩ := openBlock_spec t type name r root P q hroot hblock hP
    rw [hopen] at ho
    simp only [Except.ok.injEq] at ho
    subst ho
    obtain ⟨hA1, hA2⟩ := ProfiledBlock.uniqueNames_putChild_open P name
      (ProfiledBlock.beginOn type r) (ProfiledBlock.name_beginOn type r)
      (ProfiledBlock.children_beginOn type r)
    have hX : ∀ (j : Nat) (c : ProfiledBlock), P.children[j]? = some c →
        ∃ c', (P.putChild (P.slot name)
            (ProfiledBlock.beginOn type r (P.childOrNew name))).children[j]? = some c' ∧
          c'.children = c.children := by
      intro j c hc
      have hj : j < P.children.length := by
        by_contra hn
        rw [List.getElem?_eq_none (by omega)] at hc
        cases hc
      by_cases hsj : P.slot name = j
      · refine ⟨ProfiledBlock.beginOn type r (P.childOrNew name), ?_, ?_⟩
        · rw [← hsj]
          exact ProfiledBlock.getElem?_putChild P _ _ (P.slot_le name)
        · rw [ProfiledBlock.children_beginOn]
          obtain ⟨-, hcase | hcase⟩ := P.childOrNew_spec name
          · obtain ⟨i, -, hslot, hchild⟩ := hcase
            rw [← hslot, hsj, hc] at hchild
            cases hchild
            rfl
          · omega
      · refine ⟨c, ?_, rfl⟩
        rw [ProfiledBlock.getElem?_putChild_ne P _ j _ (P.slot_le name) hj hsj, hc]
    obtain ⟨root'', hmod', hgetq, -⟩ := ProfiledBlock.replace_spec
      (P.putChild (P.slot name) (ProfiledBlock.beginOn type r (P.childOrNew name))) q root P hP
    rw [hmod] at hmod'
    cases hmod'
    refine ⟨⟨(fun h' => by rw [hactive] at h'; cases h'), rfl, fun _ => ⟨_, rfl⟩, ?_, ?_⟩, hactive⟩
    · intro r' hr'
      simp only [Option.some.injEq] at hr'
      subst hr'
      refine ⟨?_, ?_⟩
      · apply ProfiledBlock.childrenUnique_modifyAt _ q root _ hmod _ _ hu
        · intro hq0 hu0
          subst hq0
          simp only [ProfiledBlock.getAt, Option.some.injEq] at hP
          subst hP
          exact hA2 hu0
        · intro P' _ hP'
          rw [hP] at hP'
          cases hP'
          exact ⟨ProfiledBlock.name_putChild _ _ _, hA1⟩
      · intro a ha
        simp only [hstack, List.mem_cons] at ha
        rcases ha with ha | ha
        · subst ha
          refine ⟨q ++ [P.slot name], ProfiledBlock.beginOn type r (P.childOrNew name), rfl, ?_⟩
          rw [ProfiledBlock.getAt_append_path, hgetq]
          simp only [Option.some_bind, ProfiledBlock.getAt,
            ProfiledBlock.getElem?_putChild P _ _ (P.slot_le name)]
        · have ha' : a ∈ top :: rest := by
            simpa only [List.mem_cons] using ha
          obtain ⟨p, b, hp, hb⟩ := hv a ha'
          obtain ⟨b', hb'⟩ := ProfiledBlock.getAt_replace_valid _ P hX p q root _ b hP hmod hb
          exact ⟨p, b', hp, hb'⟩
    · simp only [hstack]
      exact ⟨⟨q, P.slot name, hq, rfl⟩, by rw [← hstack]; exact h.chain⟩

/-- `ThreadInfo::reset` leaves the thread well formed. -/
theorem ThreadInfo.wellFormed_reset (t t' : ThreadInfo) (rs : Nat → Reading)
    (h : t.WellFormed) (hr : t.reset rs = Except.ok t') : t'.WellFormed := by
  unfold ThreadInfo.reset at hr
  split at hr
  · cases hr
  · rename_i t1 hif
    simp only [Except.ok.injEq] at hr
    subst hr
    have h1 : t1.isActive = false ∧ t1.activeBlocks = [] ∧ t1.activeBlock = ActiveBlock.null := by
      by_cases ha : t.isActive = true
      · rw [if_pos ha] at hif
        exact (ThreadInfo.wellFormed_endSampling t t1 rs h hif).2
      · rw [if_neg ha] at hif
        simp only [Except.ok.injEq] at hif
        subst hif
        simp only [Bool.not_eq_true] at ha
        have hs := h.inactive ha
        refine ⟨ha, hs, ?_⟩
        rw [h.top, hs]
        rfl
    obtain ⟨g1, g2, g3⟩ := h1
    refine ⟨fun _ => g2, ?_, ?_, ?_, ?_⟩
    · simp only [g2, g3, List.head?_nil, Option.getD_none]
    · intro h'
      simp only [g1] at h'
      cases h'
    · intro root hroot
      cases hroot
    · simp only [g2]
      trivial

/-- Every call of the sampling interface that returns keeps the thread well
formed. -/
theorem ProfilerCPU.call_wellFormed (debug : Bool) (thread thread' : Option ThreadInfo)
    (c : Call) (hinv : ∀ t, thread = some t → t.WellFormed)
    (hcall : ProfilerCPU.call debug thread c = Except.ok thread') :
    ∀ t, thread' = some t → t.WellFormed := by
  have hclose : ∀ (t0 t1 t2 : ThreadInfo) (f : ProfiledBlock → ProfiledBlock),
      (∀ b, (f b).name = b.name) → (∀ b, (f b).children = b.children) →
      t0.WellFormed → t0.modifyBlock t0.activeBlock.block f = Except.ok t1 →
      ProfilerCPU.popActive t1 = Except.ok t2 → t2.WellFormed := by
    intro t0 t1 t2 f hn hc h0 h1 h2
    exact ProfilerCPU.wellFormed_popActive t1 t2
      (ThreadInfo.wellFormed_modifyBlock t0 t1 _ f hn hc h0 h1).1 h2
  intro t ht
  subst ht
  cases c with
  | beginThread name r =>
    simp only [ProfilerCPU.call, Except.ok.injEq] at hcall
    cases thread with
    | none =>
      simp only [ProfilerCPU.beginThread, Option.some.injEq] at hcall
      rw [← hcall]
      exact (ThreadInfo.wellFormed_begin _ _ _ ThreadInfo.wellFormed_new).1
    | some t0 =>
      simp only [ProfilerCPU.beginThread, Option.some.injEq] at hcall
      rw [← hcall]
      exact (ThreadInfo.wellFormed_begin _ _ _ (hinv t0 rfl)).1
  | endThread rs =>
    simp only [ProfilerCPU.call, ProfilerCPU.endThread] at hcall
    split at hcall
    · cases hcall
    · rename_i t0
      split at hcall
      · rename_i t1 hend
        simp only [Except.ok.injEq, Option.some.injEq] at hcall
        rw [← hcall]
        exact (ThreadInfo.wellFormed_endSampling t0 t1 rs (hinv t0 rfl) hend).1
      · cases hcall
  | beginSample name r0 r =>
    simp only [ProfilerCPU.call, ProfilerCPU.beginSample] at hcall
    split at hcall
    · cases hcall
    · rename_i t0 heq
      split at hcall
      · rename_i t1 hop
        simp only [Except.ok.injEq, Option.some.injEq] at hcall
        rw [← hcall]
        have h0 : t0.WellFormed ∧ t0.isActive = true := by
          cases thread with
          | none =>
            simp only [ProfilerCPU.beginThread, Option.some.injEq] at heq
            rw [← heq]
            exact ThreadInfo.wellFormed_begin _ _ _ ThreadInfo.wellFormed_new
          | some t2 =>
            simp only at heq
            by_cases ha : t2.isActive = true
            · simp only [ha, Bool.not_true, Bool.false_eq_true, if_false,
                Option.some.injEq] at heq
              rw [← heq]
              exact ⟨hinv t2 rfl, ha⟩
            · simp only [Bool.not_eq_true] at ha
              simp only [ha, Bool.not_false, if_true, ProfilerCPU.beginThread,
                Option.some.injEq] at heq
              rw [← heq]
              exact ThreadInfo.wellFormed_begin _ _ _ (hinv t2 rfl)
        exact (ProfilerCPU.wellFormed_openBlock t0 t1 _ name r h0.1 h0.2 hop).1
      · cases hcall
  | beginSamplePrecise name r0 r =>
    simp only [ProfilerCPU.call, ProfilerCPU.beginSamplePrecise] at hcall
    split at hcall
    · cases hcall
    · rename_i t0
      split at hcall
      · rename_i t1 hop
        simp only [Except.ok.injEq, Option.some.injEq] at hcall
        rw [← hcall]
        have h0 : (if (!t0.isActive) = true then t0.begin "Unknown" r0 else t0).WellFormed ∧
            (if (!t0.isActive) = true then t0.begin "Unknown" r0 else t0).isActive = true := by
          by_cases ha : t0.isActive = true
          · simp only [ha, Bool.not_true, Bool.false_eq_true, if_false]
            exact ⟨hinv t0 rfl, trivial⟩
          · simp only [Bool.not_eq_true] at ha
            simp only [ha, Bool.not_false, if_true]
            exact ThreadInfo.wellFormed_begin _ _ _ (hinv t0 rfl)
        exact (ProfilerCPU.wellFormed_openBlock _ t1 _ name r h0.1 h0.2 hop).1
      · cases hcall
  | endSample name r =>
    simp only [ProfilerCPU.call, ProfilerCPU.endSample] at hcall
    split at hcall
    · cases hcall
    · rename_i t0
      split at hcall
      · cases hcall; exact hinv _ rfl
      · split at hcall
        · cases hcall; exact hinv _ rfl
        · split at hcall
          · cases hcall
          · split at hcall
            · cases hcall; exact hinv _ rfl
            · split at hcall
              · cases hcall
              · rename_i t1 hm
                split at hcall
                · rename_i t2 hp
                  simp only [Except.ok.injEq, Option.some.injEq] at hcall
                  rw [← hcall]
                  exact hclose t0 t1 t2 _ (fun b => ProfiledBlock.name_setBasic _ _)
                    (fun b => ProfiledBlock.children_setBasic _ _) (hinv t0 rfl) hm hp
                · cases hcall
  | endSamplePrecise name r =>
    simp only [ProfilerCPU.call, ProfilerCPU.endSamplePrecise] at hcall
    split at hcall
    · cases hcall
    · rename_i t0
      split at hcall
      · cases hcall; exact hinv _ rfl
      · split at hcall
        · cases hcall; exact hinv _ rfl
        · split at hcall
          · cases hcall
          · split at hcall
            · cases hcall; exact hinv _ rfl
            · split at hcall
              · cases hcall
              · rename_i t1 hm
                split at hcall
                · rename_i t2 hp
                  simp only [Except.ok.injEq, Option.some.injEq] at hcall
                  rw [← hcall]
                  exact hclose t0 t1 t2 _ (fun b => ProfiledBlock.name_setPrecise _ _)
                    (fun b => ProfiledBlock.children_setPrecise _ _) (hinv t0 rfl) hm hp
                · cases hcall
  | reset rs =>
    simp only [ProfilerCPU.call, ProfilerCPU.reset] at hcall
    split at hcall
    · cases hcall
    · rename_i t0
      split at hcall
      · rename_i t1 hr
        simp only [Except.ok.injEq, Option.some.injEq] at hcall
        rw [← hcall]
        exact ThreadInfo.wellFormed_reset t0 t1 rs (hinv t0 rfl) hr
      · cases hcall

/-- Every thread state that a sequence of calls reaches from a well-formed
one is well formed. -/
theorem ProfilerCPU.run_wellFormed (debug : Bool) (calls : List Call) :
    ∀ (thread thread' : Option ThreadInfo), (∀ t, thread = some t → t.WellFormed) →
      ProfilerCPU.run debug thread calls = Except.ok thread' →
      ∀ t, thread' = some t → t.WellFormed := by
  induction calls with
  | nil =>
    intro thread thread' hinv hrun
    simp only [ProfilerCPU.run, Except.ok.injEq] at hrun
    rw [← hrun]
    exact hinv
  | cons c rest ih =>
    intro thread thread' hinv hrun
    simp only [ProfilerCPU.run] at hrun
    split at hrun
    · rename_i thread1 hc
      exact ih thread1 thread' (ProfilerCPU.call_wellFormed debug thread thread1 c hinv hc) hrun
    · cases hrun

/-- The start of a thread: no `ThreadInfo` yet, or the one that the
constructor makes. -/
theorem ProfilerCPU.wellFormed_initial (thread : Option ThreadInfo)
    (h : thread = none ∨ thread = some ThreadInfo.new) :
    ∀ t, thread = some t → t.WellFormed := by
  intro t ht
  rcases h with h | h
  · rw [h] at ht
    cases ht
  · rw [h] at ht
    cases ht
    exact ThreadInfo.wellFormed_new

theorem reachedExample_run :
    ProfilerCPU.run true none
        [Call.beginThread "R" ⟨0, 0, 0, 0⟩, Call.beginSample "A" ⟨1, 1, 0, 0⟩ ⟨1, 1, 0, 0⟩]
      = Except.ok (some reachedExample) := by
  rfl

/-- In a chain every entry below the top points to a block at a smaller
depth than the top. -/
theorem StackChain.depth_lt : ∀ (stack : List ActiveBlock) (a : ActiveBlock),
    StackChain (a :: stack) →
    ∃ q, a.block = some q ∧ ∀ a' ∈ stack, ∃ q', a'.block = some q' ∧ q'.length < q.length := by
  intro stack
  induction stack with
  | nil =>
    intro a h
    obtain ⟨q, hq, -⟩ := h
    exact ⟨q, hq, fun a' ha' => by cases ha'⟩
  | cons a1 rest ih =>
    intro a h
    obtain ⟨⟨q, i, hq1, hq⟩, hrest⟩ := h
    obtain ⟨q1, hq1', hall⟩ := ih a1 hrest
    rw [hq1] at hq1'
    cases hq1'
    refine ⟨q ++ [i], hq, ?_⟩
    intro a' ha'
    rcases List.mem_cons.1 ha' with rfl | ha'
    · exact ⟨q, hq1, by simp⟩
    · obtain ⟨q', hq', hlt⟩ := hall a' ha'
      exact ⟨q', hq', by simp only [List.length_append, List.length_singleton]; omega⟩

/-- No block is on a chain twice. -/
theorem StackChain.blocks_nodup : ∀ (stack : List ActiveBlock), StackChain stack →
    (stack.map ActiveBlock.block).Nodup := by
  intro stack
  induction stack with
  | nil => intro _; exact List.nodup_nil
  | cons a rest ih =>
    intro h
    rw [List.map_cons, List.nodup_cons]
    refine ⟨?_, ih h.of_cons_chain⟩
    obtain ⟨q, hq, hall⟩ := StackChain.depth_lt rest a h
    intro hmem
    obtain ⟨a', ha', heq⟩ := List.mem_map.1 hmem
    obtain ⟨q', hq', hlt⟩ := hall a' ha'
    rw [hq, hq'] at heq
    cases heq
    omega

/-- In a chain the block of every entry is a child of the block of the entry
below it. -/
theorem StackChain.adjacent : ∀ (stack : List ActiveBlock), StackChain stack →
    ∀ (j : Nat) (a a' : ActiveBlock), stack[j]? = some a → stack[j + 1]? = some a' →
      ∃ (q : List Nat) (i : Nat), a'.block = some q ∧ a.block = some (q ++ [i]) := by
  intro stack
  induction stack with
  | nil => intro _ j a a' h; simp at h
  | cons a0 rest ih =>
    intro h j a a' hj hj'
    cases j with
    | zero =>
      cases rest with
      | nil => simp at hj'
      | cons a1 rest =>
        simp only [List.getElem?_cons_zero, Option.some.injEq] at hj
        simp only [zero_add, List.getElem?_cons_succ, List.getElem?_cons_zero,
          Option.some.injEq] at hj'
        subst hj hj'
        exact h.1
    | succ j =>
      rw [List.getElem?_cons_succ] at hj hj'
      exact ih h.of_cons_chain j a a' hj hj'

/-- C26: in every thread state that a sequence of calls of `beginThread`,
`endThread`, `reset`, `beginSample`, `endSample`, `beginSamplePrecise` and
`endSamplePrecise` reaches, in a debug build or not, from a thread without
`ThreadInfo` or with a new one, the active block is the top entry of the stack
when the stack is not empty and the null marker when it is, and an inactive
thread has an empty stack. -/
theorem active_block_is_stack_top (debug : Bool) (start : Option ThreadInfo)
    (calls : List Call) (t : ThreadInfo)
    (hstart : start = none ∨ start = some ThreadInfo.new)
    (hrun : ProfilerCPU.run debug start calls = Except.ok (some t)) :
    (∀ (top : ActiveBlock) (rest : List ActiveBlock), t.activeBlocks = top :: rest →
      t.activeBlock = top) ∧
    (t.activeBlocks = [] → t.activeBlock = ActiveBlock.null) ∧
    (t.isActive = false → t.activeBlocks = []) := by
  have h := ProfilerCPU.run_wellFormed debug calls start (some t)
    (ProfilerCPU.wellFormed_initial start hstart) hrun t rfl
  refine ⟨?_, ?_, h.inactive⟩
  · intro top rest hs
    rw [h.top, hs]
    rfl
  · intro hs
    rw [h.top, hs]
    rfl

theorem active_block_is_stack_top_witness :
    (∀ (top : ActiveBlock) (rest : List ActiveBlock), reachedExample.activeBlocks = top :: rest →
      reachedExample.activeBlock = top) ∧
    (reachedExample.activeBlocks = [] → reachedExample.activeBlock = ActiveBlock.null) ∧
    (reachedExample.isActive = false → reachedExample.activeBlocks = []) :=
  active_block_is_stack_top true none _ reachedExample (Or.inl rfl) reachedExample_run

/-- C27: in every thread state that a sequence of calls of the sampling
interface reaches from a thread without `ThreadInfo` or with a new one, the
children of every block other than the root have different names, every stack
entry points to a block of the tree, the block of every entry is a child of the
block of the entry below it, and no block is on the stack twice; without a root
block the stack is empty. -/
theorem names_distinct_and_stack_chain (debug : Bool) (start : Option ThreadInfo)
    (calls : List Call) (t : ThreadInfo)
    (hstart : start = none ∨ start = some ThreadInfo.new)
    (hrun : ProfilerCPU.run debug start calls = Except.ok (some t)) :
    (t.rootBlock = none → t.activeBlocks = []) ∧
    (t.activeBlocks.map ActiveBlock.block).Nodup ∧
    (∀ (j : Nat) (a a' : ActiveBlock), t.activeBlocks[j]? = some a →
      t.activeBlocks[j + 1]? = some a' →
      ∃ (q : List Nat) (i : Nat), a'.block = some q ∧ a.block = some (q ++ [i])) ∧
    ∀ root, t.rootBlock = some root →
      (∀ (p : List Nat) (b : ProfiledBlock), p ≠ [] → root.getAt p = some b →
        (b.children.map ProfiledBlock.name).Nodup) ∧
      ∀ a ∈ t.activeBlocks, ∃ (q : List Nat) (b : ProfiledBlock),
        a.block = some q ∧ root.getAt q = some b := by
  have h := ProfilerCPU.run_wellFormed debug calls start (some t)
    (ProfilerCPU.wellFormed_initial start hstart) hrun t rfl
  refine ⟨?_, StackChain.blocks_nodup _ h.chain, StackChain.adjacent _ h.chain, ?_⟩
  · intro hnone
    apply h.inactive
    cases ha : t.isActive with
    | false => rfl
    | true =>
      obtain ⟨root, hroot⟩ := h.root ha
      rw [hnone] at hroot
      cases hroot
  · intro root hroot
    obtain ⟨hu, hv⟩ := h.tree root hroot
    exact ⟨fun p b hp hb => hu.names_nodup p b hp hb, hv⟩

theorem names_distinct_and_stack_chain_witness :
    (reachedExample.activeBlocks.map ActiveBlock.block).Nodup ∧
    ∀ a ∈ reachedExample.activeBlocks, ∃ (q : List Nat) (b : ProfiledBlock),
      a.block = some q ∧
        (ProfiledBlock.mk "R" ⟨[], ⟨0, 0⟩, 0, 0⟩ PreciseProfileData.new
          [ProfiledBlock.mk "A" ⟨[], ⟨0, 1⟩, 0, 0⟩ PreciseProfileData.new []]).getAt q
          = some b :=
  have h := names_distinct_and_stack_chain true none _ reachedExample (Or.inl rfl)
    reachedExample_run
  ⟨h.2.1, (h.2.2.2 _ rfl).2⟩

/-- The Basic tree of a report for a tree in which no block below the root
has a `numCalls` of zero is the tree that the rebuilding makes of the unpruned
hierarchy. -/
theorem reportOf_basic_unpruned (pc : ProfilerCPU) (rootBlock : ProfiledBlock)
    (report : CPUProfilerReport)
    (hbasic : ProfiledBlock.AllBelow (fun b => 0 < b.basic.samples.length % 2 ^ 32) rootBlock)
    (hrep : pc.reportOf rootBlock = Except.ok report) :
    ∃ (flat : List TempEntry) (final : List (Option (List Nat))),
      flatten rootBlock = Except.ok flat ∧ FlatOK rootBlock flat ∧
      RebuildInv flat (aggregateBasic pc flat) [] flat.length final
        report.mBasicSamplingRootEntry := by
  obtain ⟨flat, hflat, hok⟩ := flatten_ok rootBlock
  have htrav := flatten_trav rootBlock flat hflat
  have hposB : ∀ c, 1 ≤ c → c < flat.length →
      ((aggregateBasic pc flat).getD c default).numCalls > 0 := by
    intro c hc1 hc2
    obtain ⟨b, hb⟩ := hok.block c flat[c] (List.getElem?_eq_getElem hc2)
    have hb' : blockAt flat c = some b := by
      unfold blockAt
      rw [List.getElem?_eq_getElem hc2]
      exact hb
    obtain ⟨db, dp, hdb, -, -, hnum, -, -⟩ := aggregate_at pc rootBlock flat hok c b hb'
    rw [List.getD_eq_getElem?_getD, hdb, Option.getD_some, hnum]
    exact (hok.allBelow _ hbasic c b hb').1 hc1
  have hpruneB := prune_all _ rootBlock flat hok htrav hposB
  obtain ⟨final, basicRoot, hrebuildB, hinv⟩ := rebuild_all rootBlock flat
    (aggregateBasic pc flat) hok htrav (aggregateBasic_inv pc rootBlock flat hok).length
  refine ⟨flat, final, hflat, hok, ?_⟩
  unfold ProfilerCPU.reportOf at hrep
  simp only [hflat, hpruneB, hrebuildB] at hrep
  split at hrep
  · cases hrep
  · split at hrep
    · cases hrep
    · simp only [Except.ok.injEq] at hrep
      rw [← hrep]
      exact hinv

/-- In a Basic tree rebuilt without pruning, the entry at the position of a
block is the entry of the block. -/
theorem unpruned_entry_at (pc : ProfilerCPU) (rootBlock : ProfiledBlock)
    (flat : List TempEntry) (final : List (Option (List Nat))) (root : ReportEntry BasicData)
    (hok : FlatOK rootBlock flat)
    (hinv : RebuildInv flat (aggregateBasic pc flat) [] flat.length final root)
    (p : List Nat) :
    ∀ b, rootBlock.getAt p = some b →
      ∃ (k : Nat) (x : ReportEntry BasicData), blockAt flat k = some b ∧
        final[k]? = some (some p) ∧ root.getAt p = some x ∧
        (aggregateBasic pc flat)[k]? = some x.data := by
  induction p using List.reverseRecOn with
  | nil =>
    intro b hb
    simp only [ProfiledBlock.getAt, Option.some.injEq] at hb
    subst hb
    have hlen : 0 < flat.length := by
      have h0 := hok.root
      unfold blockAt at h0
      by_contra hn
      rw [List.getElem?_eq_none (by omega)] at h0
      cases h0
    obtain ⟨p0, x, hp0, hx, harr⟩ := hinv.node 0 hlen
    rw [hinv.first] at hp0
    cases hp0
    exact ⟨0, x, hok.root, hinv.first, hx, harr⟩
  | append_singleton p j ih =>
    intro b hb
    rw [ProfiledBlock.getAt_append_path] at hb
    cases hb0 : rootBlock.getAt p with
    | none => rw [hb0] at hb; cases hb
    | some b0 =>
      rw [hb0] at hb
      simp only [Option.some_bind, ProfiledBlock.getAt] at hb
      cases hc : b0.children[j]? with
      | none => rw [hc] at hb; cases hb
      | some c =>
        rw [hc] at hb
        simp only [Option.some.injEq] at hb
        subst hb
        obtain ⟨k, x, hk, hfk, hx, -⟩ := ih b0 hb0
        obtain ⟨-, -, -, hch⟩ := rebuilt_child pc rootBlock flat final root hok hinv k b0 p x hk
          hfk hx
        obtain ⟨ci, xj, hci, hfci, hxj, -⟩ := hch j c hc
        have hcilt : ci < flat.length := by
          unfold blockAt at hci
          by_contra hn
          rw [List.getElem?_eq_none (by omega)] at hci
          cases hci
        obtain ⟨p', x', hp', hx', harr⟩ := hinv.node ci hcilt
        rw [hfci] at hp'
        cases hp'
        rw [hxj] at hx'
        cases hx'
        exact ⟨ci, xj, hci, hfci, hxj, harr⟩

/-- The total time of the Basic entry of a block. -/
theorem aggregateBasic_totalTimeMs (pc : ProfilerCPU) (rootBlock : ProfiledBlock)
    (flat : List TempEntry) (hok : FlatOK rootBlock flat) (k : Nat) (b : ProfiledBlock)
    (d : BasicData) (hb : blockAt flat k = some b) (hd : (aggregateBasic pc flat)[k]? = some d) :
    d.totalTimeMs = (b.basic.samples.map (fun s => s.time)).sum := by
  have hinv := aggregateBasic_inv pc rootBlock flat hok
  have hb' := hb
  unfold blockAt at hb'
  cases he : flat[k]? with
  | none => rw [he] at hb'; cases hb'
  | some e =>
    rw [he] at hb'
    change e.parentBlock = some b at hb'
    obtain ⟨d', hd', hcore⟩ := hinv.core k e b (Nat.zero_le _) he hb'
    rw [hd] at hd'
    cases hd'
    have h1 : d.totalTimeMs = (basicAggregated pc b e.childIndexes (aggregateBasic pc flat)
        default).totalTimeMs := by
      have h := congrArg BasicData.totalTimeMs hcore
      exact h
    rw [h1, basicAggregated_totalTimeMs]
    unfold basicTotalTime
    rw [foldl_add_eq_sum (fun s : ProfileSample => s.time)]
    simp

/-- In a Basic tree rebuilt without pruning, the pointer kept for the entry
`k` of the hierarchy is the pointer of the block at position `k`. -/
theorem unpruned_entry_index (pc : ProfilerCPU) (rootBlock : ProfiledBlock)
    (flat : List TempEntry) (final : List (Option (List Nat))) (root : ReportEntry BasicData)
    (hok : FlatOK rootBlock flat)
    (hinv : RebuildInv flat (aggregateBasic pc flat) [] flat.length final root)
    (p : List Nat) :
    ∀ (b : ProfiledBlock) (k : Nat), rootBlock.getAt p = some b → final[k]? = some (some p) →
      flatIndexFrom flat 0 p = some k := by
  induction p using List.reverseRecOn with
  | nil =>
    intro b k _ hk
    rw [hinv.inj k 0 [] hk hinv.first]
    rfl
  | append_singleton p j ih =>
    intro c k hc hk
    rw [ProfiledBlock.getAt_append_path] at hc
    cases hb0 : rootBlock.getAt p with
    | none => rw [hb0] at hc; cases hc
    | some b0 =>
      rw [hb0] at hc
      simp only [Option.some_bind, ProfiledBlock.getAt] at hc
      cases hcj : b0.children[j]? with
      | none => rw [hcj] at hc; cases hc
      | some c0 =>
        obtain ⟨k0, x, hk0, hfk0, hx, -⟩ := unpruned_entry_at pc rootBlock flat final root hok
          hinv p b0 hb0
        have hidx := ih b0 k0 hb0 hfk0
        have hk0' := hk0
        unfold blockAt at hk0'
        cases he : flat[k0]? with
        | none => rw [he] at hk0'; cases hk0'
        | some e =>
          rw [he] at hk0'
          change e.parentBlock = some b0 at hk0'
          have hexp := hok.expanded k0 e b0 he hk0'
          have hj := congrArg (fun l => l[j]?) hexp
          simp only [List.getElem?_map, hcj, Option.map_some'] at hj
          cases hci : e.childIndexes[j]? with
          | none => rw [hci] at hj; cases hj
          | some ci =>
            obtain ⟨-, hfin⟩ := hinv.expanded k0 e p x (List.not_mem_nil _) he hfk0 hx
            have hkci := hinv.inj k ci (p ++ [j]) hk (hfin j ci hci)
            subst hkci
            rw [flatIndexFrom_append, hidx]
            simp only [Option.some_bind, flatIndexFrom, he, hci]

/-- C28, as amended: for every raw tree in which the number of Basic samples
of every block below the root is not a multiple of `2 ^ 32` (so that its
`numCalls` is not zero and nothing is pruned), the Basic tree of a report that
`generateReport` builds for the tree has the shape of the raw tree: at the
position of every block there is an entry, with the data that the aggregation
computed for the block at that position, among them the name of the block up to
its first NUL character (the name itself when it holds none), its sample count
modulo `2 ^ 32` and the sum of its sample times, and with one child entry per
child of the block; and there is no entry at any other position. -/
theorem basic_report_has_raw_shape (pc : ProfilerCPU) (rootBlock : ProfiledBlock)
    (report : CPUProfilerReport)
    (hbasic : ProfiledBlock.AllBelow (fun b => 0 < b.basic.samples.length % 2 ^ 32) rootBlock)
    (hrep : pc.reportOf rootBlock = Except.ok report) :
    ∃ flat, flatten rootBlock = Except.ok flat ∧
      (∀ (p : List Nat) (b : ProfiledBlock), rootBlock.getAt p = some b →
        ∃ (k : Nat) (x : ReportEntry BasicData),
          flatIndexFrom flat 0 p = some k ∧ blockAt flat k = some b ∧
          report.mBasicSamplingRootEntry.getAt p = some x ∧
          (aggregateBasic pc flat)[k]? = some x.data ∧
          x.data.name = c_str b.name ∧
          (Char.ofNat 0 ∉ b.name.data → x.data.name = b.name) ∧
          x.data.numCalls = b.basic.samples.length % 2 ^ 32 ∧
          x.data.totalTimeMs = (b.basic.samples.map (fun s => s.time)).sum ∧
          x.childEntries.length = b.children.length) ∧
      ∀ p : List Nat, rootBlock.getAt p = none →
        report.mBasicSamplingRootEntry.getAt p = none := by
  obtain ⟨flat, final, hflat, hok, hinv⟩ := reportOf_basic_unpruned pc rootBlock report hbasic
    hrep
  have hall : ∀ (p : List Nat) (b : ProfiledBlock), rootBlock.getAt p = some b →
      ∃ (k : Nat) (x : ReportEntry BasicData),
        flatIndexFrom flat 0 p = some k ∧ blockAt flat k = some b ∧
        report.mBasicSamplingRootEntry.getAt p = some x ∧
        (aggregateBasic pc flat)[k]? = some x.data ∧
        x.data.name = c_str b.name ∧
        (Char.ofNat 0 ∉ b.name.data → x.data.name = b.name) ∧
        x.data.numCalls = b.basic.samples.length % 2 ^ 32 ∧
        x.data.totalTimeMs = (b.basic.samples.map (fun s => s.time)).sum ∧
        x.childEntries.length = b.children.length := by
    intro p b hb
    obtain ⟨k, x, hk, hfk, hx, harr⟩ := unpruned_entry_at pc rootBlock flat final _ hok hinv p b hb
    obtain ⟨h1, h2, h3, -⟩ := rebuilt_child pc rootBlock flat final _ hok hinv k b p x hk hfk hx
    exact ⟨k, x, unpruned_entry_index pc rootBlock flat final _ hok hinv p b k hb hfk, hk, hx,
      harr, h1, fun hnul => by rw [h1, c_str_of_not_mem _ hnul], h2,
      aggregateBasic_totalTimeMs pc rootBlock flat hok k b x.data hk harr, h3⟩
  refine ⟨flat, hflat, hall, ?_⟩
  intro p
  induction p using List.reverseRecOn with
  | nil => intro h; simp [ProfiledBlock.getAt] at h
  | append_singleton p j ih =>
    intro hnone
    rw [ReportEntry.getAt_append]
    rw [ProfiledBlock.getAt_append_path] at hnone
    cases hb0 : rootBlock.getAt p with
    | none => rw [ih hb0]; rfl
    | some b0 =>
      rw [hb0] at hnone
      simp only [Option.some_bind, ProfiledBlock.getAt] at hnone
      obtain ⟨k, x, -, -, hx, -, -, -, -, -, hlen⟩ := hall p b0 hb0
      rw [hx]
      simp only [Option.some_bind, ReportEntry.getAt]
      have hj : b0.children[j]? = none := by
        cases hc : b0.children[j]? with
        | none => rfl
        | some c => rw [hc] at hnone; cases hnone
      have hjlen : b0.children.length ≤ j := by
        by_contra hn
        rw [List.getElem?_eq_getElem (by omega)] at hj
        cases hj
      rw [List.getElem?_eq_none (by omega)]

theorem sampledExample_basic :
    ProfiledBlock.AllBelow (fun b => 0 < b.basic.samples.length % 2 ^ 32) sampledExample := by
  rw [ProfiledBlock.allBelow_iff_children]
  intro c hc
  simp only [sampledExample, ProfiledBlock.children, List.mem_singleton] at hc
  subst hc
  refine ⟨by simp [ProfiledBlock.basic], ?_⟩
  rw [ProfiledBlock.allBelow_iff_children]
  intro c hc
  simp [ProfiledBlock.children] at hc

theorem sampledExample_precise :
    ProfiledBlock.AllBelow (fun b => b.precise.samples.length % 2 ^ 32 = 0) sampledExample := by
  rw [ProfiledBlock.allBelow_iff_children]
  intro c hc
  simp only [sampledExample, ProfiledBlock.children, List.mem_singleton] at hc
  subst hc
  refine ⟨by simp [ProfiledBlock.precise, PreciseProfileData.new], ?_⟩
  rw [ProfiledBlock.allBelow_iff_children]
  intro c hc
  simp [ProfiledBlock.children] at hc

theorem basic_report_has_raw_shape_witness :
    ∃ report, ProfilerCPU.reportOf ⟨0, 0, 0, 0, 0, 0⟩ sampledExample = Except.ok report ∧
      ∀ p : List Nat, sampledExample.getAt p = none →
        report.mBasicSamplingRootEntry.getAt p = none :=
  let ⟨report, _, _, hrep, _, _⟩ := reportOf_basic_only ⟨0, 0, 0, 0, 0, 0⟩ sampledExample
    sampledExample_basic sampledExample_precise rfl
  ⟨report, hrep,
    let ⟨_, _, _, h⟩ := basic_report_has_raw_shape ⟨0, 0, 0, 0, 0, 0⟩ sampledExample report
      sampledExample_basic hrep
    h⟩

/-- The calls `beginThread("R")`, `n > 0` pairs `beginSample("B");
endSample("B")` and `endThread`, with `n` a multiple of `2 ^ 32`: every block below the root has a
Basic sample, the root has the one child "B" with `n` Basic samples, and the
Basic root entry of the report has no child entry. -/
theorem basicShape_wraps (n : Nat) (hpos : 0 < n) (hmod : n % 2 ^ 32 = 0) :
    ∃ (t : ThreadInfo) (root c : ProfiledBlock) (report : CPUProfilerReport)
        (t' : Option ThreadInfo),
      ProfilerCPU.run true none
          (Call.beginThread "R" ⟨0, 0, 0, 0⟩
            :: (NestedSample.callsList
                (List.replicate n
                  (NestedSample.node "B" ⟨0, 0, 0, 0⟩ ⟨0, 0, 0, 0⟩ ⟨0, 0, 0, 0⟩ []))
              ++ [Call.endThread (fun _ => ⟨0, 0, 0, 0⟩)]))
        = Except.ok (some t) ∧
      t.rootBlock = some root ∧
      ProfiledBlock.AllBelow (fun b => 0 < b.basic.samples.length) root ∧
      root.children = [c] ∧ c.basic.samples.length = n ∧
      ProfilerCPU.generateReport ⟨0, 0, 0, 0, 0, 0⟩ (some t) (fun _ => ⟨0, 0, 0, 0⟩)
        = Except.ok (report, t') ∧
      report.mBasicSamplingRootEntry.childEntries = [] := by
  generalize hforest :
    List.replicate n (NestedSample.node "B" ⟨0, 0, 0, 0⟩ ⟨0, 0, 0, 0⟩ ⟨0, 0, 0, 0⟩ []) = forest
  obtain ⟨c, hc, -, hleaf, hp, hlen⟩ := NestedSample.recordList_replicate "B" ⟨0, 0, 0, 0⟩
    ⟨0, 0, 0, 0⟩ ⟨0, 0, 0, 0⟩ n (freshRoot "R" ⟨0, 0, 0, 0⟩) (Or.inl rfl) hpos
  rw [hforest] at hc
  have hchildren := recordedTree_children "R" ⟨0, 0, 0, 0⟩ forest (fun _ => ⟨0, 0, 0, 0⟩)
  have hcalls : c.basic.samples.length = n := by
    rw [hlen]
    have : (freshRoot "R" ⟨0, 0, 0, 0⟩).childCalls = 0 := rfl
    rw [this, Nat.zero_add]
  obtain ⟨report, hreport, hnone⟩ := reportOf_single_pruned ⟨0, 0, 0, 0, 0, 0⟩
    (recordedTree "R" ⟨0, 0, 0, 0⟩ forest (fun _ => ⟨0, 0, 0, 0⟩)) c
    (hchildren.trans hc) hleaf (by rw [hcalls, hmod]) (by rw [hp]; rfl)
  refine ⟨⟨false, some (recordedTree "R" ⟨0, 0, 0, 0⟩ forest (fun _ => ⟨0, 0, 0, 0⟩)),
      ActiveBlock.null, []⟩, _, c, report,
    some ⟨false, some (recordedTree "R" ⟨0, 0, 0, 0⟩ forest (fun _ => ⟨0, 0, 0, 0⟩)),
      ActiveBlock.null, []⟩,
    run_thread true "R" ⟨0, 0, 0, 0⟩ forest (fun _ => ⟨0, 0, 0, 0⟩), rfl,
    recordedTree_sampled "R" ⟨0, 0, 0, 0⟩ forest (fun _ => ⟨0, 0, 0, 0⟩),
    hchildren.trans hc, hcalls, ?_, hnone⟩
  simp only [ProfilerCPU.generateReport, Bool.false_eq_true, if_false, hreport]

/-- C28, counterexample: `beginThread("R")`, 2^32 pairs `beginSample("B");
endSample("B")` and `endThread`: every block below the root has a Basic sample
and the root has the child "B", but the `UINT32` field `numCalls` of "B" is 0,
"B" is pruned, and the Basic root entry of the report has no child entry. -/
theorem basicShape_wraps_counterexample :
    ∃ (t : ThreadInfo) (root c : ProfiledBlock) (report : CPUProfilerReport)
        (t' : Option ThreadInfo),
      ProfilerCPU.run true none
          (Call.beginThread "R" ⟨0, 0, 0, 0⟩
            :: (NestedSample.callsList
                (List.replicate (2 ^ 32)
                  (NestedSample.node "B" ⟨0, 0, 0, 0⟩ ⟨0, 0, 0, 0⟩ ⟨0, 0, 0, 0⟩ []))
              ++ [Call.endThread (fun _ => ⟨0, 0, 0, 0⟩)]))
        = Except.ok (some t) ∧
      t.rootBlock = some root ∧
      ProfiledBlock.AllBelow (fun b => 0 < b.basic.samples.length) root ∧
      root.children = [c] ∧ c.basic.samples.length = 2 ^ 32 ∧
      ProfilerCPU.generateReport ⟨0, 0, 0, 0, 0, 0⟩ (some t) (fun _ => ⟨0, 0, 0, 0⟩)
        = Except.ok (report, t') ∧
      report.mBasicSamplingRootEntry.childEntries = [] :=
  basicShape_wraps (2 ^ 32) (Nat.pos_pow_of_pos 32 (Nat.succ_pos 1)) (Nat.mod_self (2 ^ 32))

/-- `generateReport` on an inactive thread leaves the thread as it is. -/
theorem generateReport_inactive (pc : ProfilerCPU) (t : ThreadInfo) (rs : Nat → Reading)
    (report : CPUProfilerReport) (thread' : Option ThreadInfo) (ht : t.isActive = false)
    (h : pc.generateReport (some t) rs = Except.ok (report, thread')) :
    thread' = some t ∧
      ∀ rs', pc.generateReport (some t) rs' = Except.ok (report, some t) := by
  unfold ProfilerCPU.generateReport at h
  simp only [ht, Bool.false_eq_true, if_false] at h
  cases hroot : t.rootBlock with
  | none =>
    rw [hroot] at h
    simp only [Except.ok.injEq, Prod.mk.injEq] at h
    refine ⟨h.2.symm, ?_⟩
    intro rs'
    unfold ProfilerCPU.generateReport
    simp only [ht, Bool.false_eq_true, if_false, hroot, h.1]
  | some rootBlock =>
    rw [hroot] at h
    simp only at h
    cases hrep : pc.reportOf rootBlock with
    | error e => rw [hrep] at h; cases h
    | ok rep =>
      rw [hrep] at h
      simp only [Except.ok.injEq, Prod.mk.injEq] at h
      refine ⟨h.2.symm, ?_⟩
      intro rs'
      unfold ProfilerCPU.generateReport
      simp only [ht, Bool.false_eq_true, if_false, hroot, hrep, h.1]

/-- `generateReport` on an active thread ends the sampling and reports on the
thread that `ThreadInfo::end` leaves. -/
theorem generateReport_active (pc : ProfilerCPU) (t : ThreadInfo) (rs : Nat → Reading)
    (report : CPUProfilerReport) (thread' : Option ThreadInfo) (ht : t.isActive = true)
    (h : pc.generateReport (some t) rs = Except.ok (report, thread')) :
    ∃ t1, t.endSampling rs = Except.ok t1 ∧ thread' = some t1 ∧
      ∀ rs', pc.generateReport (some t1) rs' = Except.ok (report, some t1) := by
  cases hend : t.endSampling rs with
  | error e =>
    unfold ProfilerCPU.generateReport at h
    simp only [ht, if_true, hend] at h
    cases h
  | ok t1 =>
    have hin := (ThreadInfo.inactiveClean_endSampling t t1 rs hend).1
    have h1 : pc.generateReport (some t1) rs = Except.ok (report, thread') := by
      unfold ProfilerCPU.generateReport at h ⊢
      simp only [ht, if_true, hend] at h
      simp only [hin, Bool.false_eq_true, if_false]
      exact h
    obtain ⟨g1, g2⟩ := generateReport_inactive pc t1 rs report thread' hin h1
    exact ⟨t1, rfl, g1, g2⟩

/-- C29: on a thread in a state that a sequence of calls of the sampling
interface reaches, a `generateReport()` that returns leaves the thread inactive
with an empty stack and a null active block; a thread that was active is left
as `ThreadInfo::end` leaves it, an inactive one as it was; and a second
`generateReport()` right after returns the same report and leaves the thread
state as it is. -/
theorem generateReport_twice (pc : ProfilerCPU) (debug : Bool) (start : Option ThreadInfo)
    (calls : List Call) (thread : Option ThreadInfo) (rs rs' : Nat → Reading)
    (report : CPUProfilerReport) (thread' : Option ThreadInfo)
    (hstart : start = none ∨ start = some ThreadInfo.new)
    (hrun : ProfilerCPU.run debug start calls = Except.ok thread)
    (h : pc.generateReport thread rs = Except.ok (report, thread')) :
    (∀ t', thread' = some t' →
      t'.isActive = false ∧ t'.activeBlocks = [] ∧ t'.activeBlock = ActiveBlock.null) ∧
    (∀ t, thread = some t → t.isActive = true → ∃ t1, t.endSampling rs = Except.ok t1 ∧
      thread' = some t1) ∧
    (∀ t, thread = some t → t.isActive = false → thread' = thread) ∧
    (thread = none → thread' = none) ∧
    pc.generateReport thread' rs' = Except.ok (report, thread') := by
  cases thread with
  | none =>
    unfold ProfilerCPU.generateReport at h
    simp only [Except.ok.injEq, Prod.mk.injEq] at h
    obtain ⟨h1, h2⟩ := h
    subst h1 h2
    exact ⟨fun t' ht' => (by cases ht'), fun t ht => (by cases ht), fun t ht => (by cases ht),
      fun _ => rfl, rfl⟩
  | some t =>
    have hwf := ProfilerCPU.run_wellFormed debug calls start (some t)
      (ProfilerCPU.wellFormed_initial start hstart) hrun t rfl
    cases ht : t.isActive with
    | true =>
      obtain ⟨t1, hend, hth, hsecond⟩ := generateReport_active pc t rs report thread' ht h
      subst hth
      refine ⟨?_, ?_, ?_, fun h' => (by cases h'), hsecond rs'⟩
      · intro t' ht'
        cases ht'
        exact ThreadInfo.inactiveClean_endSampling t t1 rs hend
      · intro t0 ht0 _
        cases ht0
        exact ⟨t1, hend, rfl⟩
      · intro t0 ht0 hin
        cases ht0
        rw [ht] at hin
        cases hin
    | false =>
      obtain ⟨hth, hsecond⟩ := generateReport_inactive pc t rs report thread' ht h
      subst hth
      refine ⟨?_, ?_, fun _ _ _ => rfl, fun h' => (by cases h'), hsecond rs'⟩
      · intro t' ht'
        cases ht'
        have hs := hwf.inactive ht
        refine ⟨ht, hs, ?_⟩
        rw [hwf.top, hs]
        rfl
      · intro t0 ht0 hact
        cases ht0
        rw [ht] at hact
        cases hact

theorem reachedExample_report :
    ∃ (report : CPUProfilerReport) (thread' : Option ThreadInfo),
      ProfilerCPU.generateReport ⟨0, 0, 0, 0, 0, 0⟩ (some reachedExample)
        (fun _ => ⟨2, 2, 0, 0⟩) = Except.ok (report, thread') :=
  ⟨_, _, rfl⟩

theorem generateReport_twice_witness :
    ∃ (report : CPUProfilerReport) (thread' : Option ThreadInfo),
      ProfilerCPU.generateReport ⟨0, 0, 0, 0, 0, 0⟩ (some reachedExample)
        (fun _ => ⟨2, 2, 0, 0⟩) = Except.ok (report, thread') ∧
      ProfilerCPU.generateReport ⟨0, 0, 0, 0, 0, 0⟩ thread' (fun _ => ⟨3, 3, 0, 0⟩)
        = Except.ok (report, thread') :=
  let ⟨report, thread', h⟩ := reachedExample_report
  ⟨report, thread', h,
    (generateReport_twice ⟨0, 0, 0, 0, 0, 0⟩ true none _ (some reachedExample)
      (fun _ => ⟨2, 2, 0, 0⟩) (fun _ => ⟨3, 3, 0, 0⟩) report thread' (Or.inl rfl)
      reachedExample_run h).2.2.2.2⟩

theorem ProfiledBlock.afterCycle_spec (root : ProfiledBlock) (n : ProfilerString)
    (r r' : Reading) :
    (root.afterCycle n r r').name = n ∧
    (root.afterCycle n r r').children = root.children ∧
    (root.afterCycle n r r').precise = root.precise ∧
    (root.afterCycle n r r').basic.samples
      = root.basic.samples ++ [⟨r'.timeMs - r.timeMs, sub64 r'.numAllocs (r.numAllocs % 2 ^ 64),
          sub64 r'.numFrees (r.numFrees % 2 ^ 64)⟩] := by
  cases root with
  | mk name basic precise children =>
    refine ⟨rfl, rfl, rfl, ?_⟩
    simp only [ProfiledBlock.afterCycle, ProfiledBlock.setName, ProfiledBlock.setBasic,
      ProfiledBlock.basic, ProfileData.beginSample, ProfileData.endSample, Timer.reset,
      Timer.start, Timer.stop, zero_add]

/-- `ThreadInfo::begin` on an inactive thread with an empty stack, and the
`ThreadInfo::end` that follows it. -/
theorem ThreadInfo.begin_end_cycle (t : ThreadInfo) (n : ProfilerString) (r : Reading)
    (rs : Nat → Reading) (hin : t.isActive = false) (hstack : t.activeBlocks = []) :
    t.begin n r
      = ⟨true, some (((t.rootBlock.getD ProfiledBlock.new).setName n).setBasic
          (((t.rootBlock.getD ProfiledBlock.new).setName n).basic.beginSample r)),
          ⟨ActiveSamplingType.Basic, some []⟩, [⟨ActiveSamplingType.Basic, some []⟩]⟩ ∧
    (t.begin n r).endSampling rs
      = Except.ok ⟨false, some ((t.rootBlock.getD ProfiledBlock.new).afterCycle n r (rs 0)),
          ActiveBlock.null, []⟩ := by
  have hbegin : t.begin n r
      = ⟨true, some (((t.rootBlock.getD ProfiledBlock.new).setName n).setBasic
          (((t.rootBlock.getD ProfiledBlock.new).setName n).basic.beginSample r)),
          ⟨ActiveSamplingType.Basic, some []⟩, [⟨ActiveSamplingType.Basic, some []⟩]⟩ := by
    unfold ThreadInfo.begin
    rw [if_neg (by simp [hin]), hstack]
    cases t.rootBlock <;> rfl
  refine ⟨hbegin, ?_⟩
  rw [hbegin]
  rfl

/-- The thread after a sequence of `beginThread`/`endThread` cycles: the root
block has one Basic sample more per cycle. -/
theorem run_beginEndCycles (debug : Bool)
    (cycles : List (ProfilerString × Reading × (Nat → Reading))) :
    ∀ t : ThreadInfo, t.isActive = false → t.activeBlocks = [] →
      t.activeBlock = ActiveBlock.null →
      ∃ rootBlock, ProfilerCPU.run debug (some t) (beginEndCycles cycles)
          = Except.ok (some ⟨false, rootBlock, ActiveBlock.null, []⟩) ∧
        (cycles = [] → rootBlock = t.rootBlock) ∧
        (cycles ≠ [] → ∃ root, rootBlock = some root ∧
          root.basic.samples.length
            = (t.rootBlock.getD ProfiledBlock.new).basic.samples.length + cycles.length ∧
          root.children = (t.rootBlock.getD ProfiledBlock.new).children ∧
          root.precise = (t.rootBlock.getD ProfiledBlock.new).precise) := by
  induction cycles with
  | nil =>
    intro t h1 h2 h3
    refine ⟨t.rootBlock, ?_, fun _ => rfl, fun h => absurd rfl h⟩
    cases t
    simp only at h1 h2 h3
    subst h1 h2 h3
    rfl
  | cons c rest ih =>
    intro t h1 h2 h3
    obtain ⟨n, r, rs⟩ := c
    obtain ⟨hb, he⟩ := ThreadInfo.begin_end_cycle t n r rs h1 h2
    obtain ⟨rootBlock, hrun, hnil, hcons⟩ := ih
      ⟨false, some ((t.rootBlock.getD ProfiledBlock.new).afterCycle n r (rs 0)),
        ActiveBlock.null, []⟩ rfl rfl rfl
    obtain ⟨g1, g2, g3, g4⟩ := ProfiledBlock.afterCycle_spec
      (t.rootBlock.getD ProfiledBlock.new) n r (rs 0)
    refine ⟨rootBlock, ?_, fun h => (by cases h), fun _ => ?_⟩
    · simp only [beginEndCycles, ProfilerCPU.run, ProfilerCPU.call, ProfilerCPU.beginThread,
        ProfilerCPU.endThread, he, hrun]
    · by_cases hrest : rest = []
      · subst hrest
        refine ⟨_, hnil rfl, ?_, g2, g3⟩
        rw [g4]
        simp
      · obtain ⟨root, hroot, hlen, hch, hpr⟩ := hcons hrest
        dsimp only at hlen hch hpr
        rw [Option.getD_some] at hlen hch hpr
        refine ⟨root, hroot, ?_, hch.trans g2, hpr.trans g3⟩
        have hl := congrArg List.length g4
        simp only [List.length_append, List.length_singleton] at hl
        rw [hlen, hl, List.length_cons]
        omega

/-- C30: `ThreadInfo::begin(n2)` on an inactive `ThreadInfo` with an empty
stack and the root block `root` makes the thread active with the root as the
one open block; the root is renamed to `n2`, keeps its Basic samples, its
Precise accumulator and its children, and has a Basic sample begun; the
`end()` that follows appends that one Basic sample, the time between the two
calls, and changes nothing else of the root; and after `k >= 1` cycles of
`beginThread`/`endThread` on a thread without `ThreadInfo` the root holds `k`
Basic samples. -/
theorem begin_reuses_root (debug : Bool) (t : ThreadInfo) (root : ProfiledBlock)
    (n2 : ProfilerString) (r : Reading) (rs : Nat → Reading)
    (cycles : List (ProfilerString × Reading × (Nat → Reading)))
    (hin : t.isActive = false) (hstack : t.activeBlocks = [])
    (hroot : t.rootBlock = some root) :
    (∃ root', t.begin n2 r
        = ⟨true, some root', ⟨ActiveSamplingType.Basic, some []⟩,
            [⟨ActiveSamplingType.Basic, some []⟩]⟩ ∧
      root'.name = n2 ∧ root'.basic = root.basic.beginSample r ∧
      root'.basic.samples = root.basic.samples ∧ root'.precise = root.precise ∧
      root'.children = root.children) ∧
    (∃ root'', (t.begin n2 r).endSampling rs
        = Except.ok ⟨false, some root'', ActiveBlock.null, []⟩ ∧
      root''.name = n2 ∧ root''.children = root.children ∧ root''.precise = root.precise ∧
      root''.basic.samples = root.basic.samples
        ++ [⟨(rs 0).timeMs - r.timeMs, sub64 (rs 0).numAllocs (r.numAllocs % 2 ^ 64),
            sub64 (rs 0).numFrees (r.numFrees % 2 ^ 64)⟩]) ∧
    (cycles ≠ [] → ∃ rootN, ProfilerCPU.run debug none (beginEndCycles cycles)
        = Except.ok (some ⟨false, some rootN, ActiveBlock.null, []⟩) ∧
      rootN.basic.samples.length = cycles.length) := by
  obtain ⟨hb, he⟩ := ThreadInfo.begin_end_cycle t n2 r rs hin hstack
  rw [hroot, Option.getD_some] at hb he
  obtain ⟨g1, g2, g3, g4⟩ := ProfiledBlock.afterCycle_spec root n2 r (rs 0)
  refine ⟨⟨_, hb, ?_, ?_, ?_, ?_, ?_⟩, ⟨_, he, g1, g2, g3, g4⟩, ?_⟩
  · cases root; rfl
  · cases root; rfl
  · cases root; rfl
  · cases root; rfl
  · cases root; rfl
  · intro hne
    obtain ⟨rootBlock, hrun, -, hcons⟩ := run_beginEndCycles debug cycles ThreadInfo.new rfl rfl
      rfl
    obtain ⟨rootN, hN, hlen, -, -⟩ := hcons hne
    subst hN
    refine ⟨rootN, ?_, ?_⟩
    · cases cycles with
      | nil => exact absurd rfl hne
      | cons c rest =>
        obtain ⟨n, r1, rs1⟩ := c
        rw [← hrun]
        simp only [beginEndCycles, ProfilerCPU.run, ProfilerCPU.call, ProfilerCPU.beginThread]
    · rw [hlen]
      simp [ThreadInfo.new, ProfiledBlock.new, ProfiledBlock.basic, ProfileData.new]

theorem begin_reuses_root_witness :
    ∃ rootN, ProfilerCPU.run true none
        (beginEndCycles [("R", ⟨0, 0, 0, 0⟩, fun _ => ⟨1, 1, 0, 0⟩),
          ("S", ⟨2, 2, 0, 0⟩, fun _ => ⟨3, 3, 0, 0⟩)])
        = Except.ok (some ⟨false, some rootN, ActiveBlock.null, []⟩) ∧
      rootN.basic.samples.length = 2 :=
  (begin_reuses_root true ⟨false, some openTreeExample, ActiveBlock.null, []⟩ openTreeExample
    "S" ⟨2, 2, 0, 0⟩ (fun _ => ⟨3, 3, 0, 0⟩)
    [("R", ⟨0, 0, 0, 0⟩, fun _ => ⟨1, 1, 0, 0⟩), ("S", ⟨2, 2, 0, 0⟩, fun _ => ⟨3, 3, 0, 0⟩)]
    rfl rfl rfl).2.2 (List.cons_ne_nil _ _)

end BansheeEngine
